import Mathlib

/-!
# Trip-vehicle grouping: the RV / RTV / ILP matcher of Cargo

A shallow embedding of `src/example/trip_vehicle_grouping/trip_vehicle_grouping.cpp`.

* `std::vector` is `List`; `dict` (an `std::unordered_map`) is an association
  list `Dict` whose list order stands for the iteration order of the table.
  `operator[]`-assignment is `Dict.set` (overwrite in place, or a new entry),
  `.at(k)` / `.count(k)` are `Dict.find` / `Dict.has`.
* `int` values are `Int`. Where the code computes with `int` on values that
  the input decides (the sums of `DistInt` in `travel` and
  `shortest_path_dist`, the sizes `ncol`, `nrow` and `ncol * nrow + 1` of the
  integer program) the result is reduced to 32 bits by `wrap32`; the trip ids
  and the edge counter of one batch stay far below `2^31`.
* The members of `TripVehicleGrouping` that `reset_workspace` clears form the
  record `TVG`; every member function is a function on that record.
* The collaborators that are not part of the matcher (`sop_insert`, `chktw`,
  `Route::cost`, `haversine`, the deadline clock) are the fields of `Env`.
* The OpenMP regions are executed by one worker after the other, each
  critical section as one step.
-/

namespace Cargo

/-! ## Logical integer types (`types.h`) -/

abbrev NodeId := Int
abbrev CustId := Int
abbrev VehlId := Int
abbrev SharedTripId := Int
abbrev DistInt := Int
abbrev SimlTime := Int
abbrev Load := Int

/-- The value of an `int` expression as the compiled code computes it (`int`
has 32 bits, two's complement; `DistInt` is `int`, types.h line 76): the
mathematical result reduced into the range `-2^31 .. 2^31 - 1`. -/
def wrap32 (x : Int) : Int := (x + 2147483648) % 4294967296 - 2147483648

/-- A waypoint `std::pair<DistInt, NodeId>`: cumulative distance and node. -/
abbrev Wayp := DistInt × NodeId

/-- The four kinds of stop, `enum class StopType`. -/
inductive StopType where
  | CustOrig
  | CustDest
  | VehlOrig
  | VehlDest
  deriving DecidableEq, Repr

/-- Modelled from the spec: class `Stop` (classes.h is not among the sources),
a scheduled visit to a node, tagged with its kind and the owning entity. -/
structure Stop where
  owner : Int
  loc : NodeId
  kind : StopType
  deriving DecidableEq, Repr

/-- Modelled from the spec: class `Customer` (classes.h is not among the
sources): id, origin, destination, earliest pickup, latest drop-off. A
customer is immutable within a batch, so `operator==` is equality of records. -/
structure Customer where
  id : CustId
  orig : NodeId
  dest : NodeId
  early : SimlTime
  late : SimlTime
  deriving DecidableEq, Repr

/-- Modelled from the spec: class `Vehicle` / `MutableVehicle` (classes.h is
not among the sources): id, capacity, number of queued customers, current
route, current schedule and the cursor of the last visited node. The spatial
index and the vehicle feed hold the same records within a batch, so
`operator==` is equality of records. -/
structure Vehicle where
  id : VehlId
  capacity : Load
  queued : Load
  route : List Wayp
  schedule : List Stop
  idx_lvn : Nat
  deriving DecidableEq, Repr

/-- The node of the waypoint under the cursor, `Vehicle::last_visited_node`. -/
def Vehicle.last_visited_node (v : Vehicle) : NodeId :=
  match v.route.get? v.idx_lvn with
  | some w => w.2
  | none => 0

/-- Setter `MutableVehicle::set_sch`. -/
def Vehicle.set_sch (v : Vehicle) (s : List Stop) : Vehicle := { v with schedule := s }

/-- Setter `MutableVehicle::set_rte`. -/
def Vehicle.set_rte (v : Vehicle) (r : List Wayp) : Vehicle := { v with route := r }

/-- Cursor reset `MutableVehicle::reset_lvn`. -/
def Vehicle.reset_lvn (v : Vehicle) : Vehicle := { v with idx_lvn := 0 }

/-- A shared trip, `typedef std::vector<Customer> SharedTrip`: the code appends
to it with `insert(end, ..)` / `push_back` and compares it with `operator==`
of `std::vector`, which is element-wise and ordered. -/
abbrev SharedTrip := List Customer

/-! ## Dictionaries -/

/-- An `std::unordered_map`, as the list of its entries in iteration order. -/
abbrev Dict (K V : Type) := List (K × V)

/-- The keys, in iteration order. -/
def Dict.keys {K V : Type} (d : Dict K V) : List K := d.map Prod.fst

/-- Lookup `d.at(k)` / `d.find(k)`: `none` when the key is absent. -/
def Dict.find {K V : Type} [DecidableEq K] : Dict K V → K → Option V
  | [], _ => none
  | (k1, v1) :: r, k => if k1 = k then some v1 else Dict.find r k

/-- Membership test `d.count(k) > 0`. -/
def Dict.has {K V : Type} [DecidableEq K] (d : Dict K V) (k : K) : Bool :=
  (Dict.find d k).isSome

/-- Assignment `d[k] = v`: overwrite the entry of `k`, or add a new one. -/
def Dict.set {K V : Type} [DecidableEq K] : Dict K V → K → V → Dict K V
  | [], k, v => [(k, v)]
  | (k1, v1) :: r, k, v => if k1 = k then (k, v) :: r else (k1, v1) :: Dict.set r k v

/-- Read through `operator[]`: the stored value, or a default-constructed one. -/
def Dict.getD {K V : Type} [DecidableEq K] (d : Dict K V) (k : K) (dflt : V) : V :=
  (Dict.find d k).getD dflt

/-! ## The workspace of `TripVehicleGrouping` -/

/-- The members of `TripVehicleGrouping` that `reset_workspace` clears. -/
structure TVG where
  is_matched : Dict CustId Bool
  rvgrph_rr_ : Dict Customer (List Customer)
  rvgrph_rv_ : Dict Vehicle (List Customer)
  rv_sch : Dict Vehicle (Dict Customer (List Stop))
  rv_rte : Dict Vehicle (Dict Customer (List Wayp))
  rv_cst : Dict Vehicle (Dict Customer DistInt)
  matchable_custs : List CustId
  timeout_ : Int
  stid_ : SharedTripId
  trip_ : Dict SharedTripId SharedTrip
  vted_ : Dict VehlId (Dict SharedTripId DistInt)
  cted_ : Dict CustId (List SharedTripId)
  vt_sch : Dict VehlId (Dict SharedTripId (List Stop))
  vt_rte : Dict VehlId (Dict SharedTripId (List Wayp))
  vehmap : Dict VehlId Vehicle
  deriving DecidableEq, Repr

def BATCH : Int := 30
def RANGE : Int := 2000
def TOP_CUST : Nat := 30
def TRIP_MAX : Int := 15000

/-- The function `TripVehicleGrouping::reset_workspace` (lines 617-633). -/
def reset_workspace : TVG :=
  { is_matched := [], rvgrph_rr_ := [], rvgrph_rv_ := [], rv_sch := [], rv_rte := [],
    rv_cst := [], matchable_custs := [], timeout_ := BATCH / 2 * 1000, stid_ := 0,
    trip_ := [], vted_ := [], cted_ := [], vt_sch := [], vt_rte := [], vehmap := [] }

/-- The scan `for (kv : trip_) if (kv.second == trip) return kv.first` of
`add_trip`: the key of the first entry whose trip equals `trip`. -/
def find_trip : Dict SharedTripId SharedTrip → SharedTrip → Option SharedTripId
  | [], _ => none
  | (k, t) :: r, trip => if t = trip then some k else find_trip r trip

/-- The statement `cted_[cid].push_back(stid)`. -/
def cted_push (cted : Dict CustId (List SharedTripId)) (cid : CustId) (stid : SharedTripId) :
    Dict CustId (List SharedTripId) :=
  Dict.set cted cid (Dict.getD cted cid [] ++ [stid])

/-- The function `TripVehicleGrouping::add_trip` (lines 606-615): the returned id and
the workspace after the call. -/
def add_trip (w : TVG) (trip : SharedTrip) : SharedTripId × TVG :=
  match find_trip w.trip_ trip with
  | some k => (k, w)
  | none =>
    let stid := w.stid_ + 1
    (stid, { w with
      stid_ := stid
      trip_ := Dict.set w.trip_ stid trip
      cted_ := trip.foldl (fun c cust => cted_push c cust.id stid) w.cted_ })

/-- A sequence of `add_trip` calls, one per trip of the list, in order. -/
def add_trips (w : TVG) (ts : List SharedTrip) : TVG :=
  ts.foldl (fun s t => (add_trip s t).2) w

/-! ## The insertion oracle `travel` -/

/-- The collaborators of the matcher that live outside these sources.
`sop_insert m c` is the cost, the candidate schedule and the candidate route
that `sop_insert(m, c, schctr, rtectr, gtre)` returns and writes into its two
output arguments; `chktw` is the time-window validator; `route_cost` is
`Route::cost`; `haversine` is the great-circle distance between two nodes, of
which the matcher only observes the comparison with `RANGE`; `timeout n` is
the answer of the `n`-th call of `this->timeout(timeout_rtv_0)`, a reading of
the wall clock, and `timeout_rv n` the one of `this->timeout(timeout_rv_0)`;
`within r p` are the vehicles that `grid_.within(r, p)` returns;
`make_vehicle` is the constructor `Vehicle(id, orig, dest, early, late, load,
gtree)`; `basecost` is `Cargo::basecost`; `assign col cadd rte sch vehl` is the
answer of the call `assign(cadd, {}, rte, sch, vehl)` made for the column
`col`; `done n` is the answer of the `n`-th call of `this->done()`. -/
structure Env where
  sop_insert : Vehicle → Customer → DistInt × List Stop × List Wayp
  chktw : List Stop → List Wayp → Bool
  route_cost : List Wayp → DistInt
  haversine : NodeId → NodeId → Int
  timeout : Nat → Bool
  timeout_rv : Nat → Bool
  within : Int → NodeId → List Vehicle
  make_vehicle : VehlId → NodeId → NodeId → SimlTime → SimlTime → Load → Vehicle
  basecost : CustId → Int
  assign : Nat → List CustId → List Wayp → List Stop → Vehicle → Bool
  done : Nat → Bool

/-- The three updates of the accepted branch of `travel` (lines 594-596):
`set_sch(schctr); set_rte(rtectr); reset_lvn()`. -/
def commit (m : Vehicle) (r : DistInt × List Stop × List Wayp) : Vehicle :=
  ((m.set_sch r.2.1).set_rte r.2.2).reset_lvn

/-- The locals of `travel` while its loop runs. `calls` is a ghost log of the
customers handed to `sop_insert`, in call order. -/
structure TravelState where
  mtvehl : Vehicle
  schctr : List Stop
  rtectr : List Wayp
  cstsum : DistInt
  calls : List Customer
  deriving DecidableEq, Repr

/-- The loop `for (cust : custs)` of `travel` (lines 590-599). The flag is
`false` when the loop left through `return false`. The statement
`cstsum += cst` of line 593 is an addition of `DistInt`. -/
def travel_loop (E : Env) : TravelState → List Customer → Bool × TravelState
  | st, [] => (true, st)
  | st, cust :: rest =>
    let r := E.sop_insert st.mtvehl cust
    if E.chktw r.2.1 r.2.2 then
      travel_loop E
        { mtvehl := commit st.mtvehl r, schctr := r.2.1, rtectr := r.2.2,
          cstsum := wrap32 (st.cstsum + r.1), calls := st.calls ++ [cust] } rest
    else
      (false, { st with schctr := r.2.1, rtectr := r.2.2, calls := st.calls ++ [cust] })

/-- What a call of `travel` leaves behind: the returned flag, the three
reference arguments after the call, and the ghost log of `sop_insert` calls. -/
structure TravelOut where
  ok : Bool
  cstout : DistInt
  schout : List Stop
  rteout : List Wayp
  calls : List Customer
  deriving DecidableEq, Repr

/-- The function `TripVehicleGrouping::travel` (lines 572-604). The arguments
`cstout`, `schout`, `rteout` are the values the caller passed by reference. The
difference `cstsum - mtvehl.route().cost()` of line 600 is one of `DistInt`. -/
def travel (E : Env) (vehl : Vehicle) (custs : List Customer)
    (_cstout : DistInt) (schout : List Stop) (rteout : List Wayp) : TravelOut :=
  let res := travel_loop E
    { mtvehl := vehl, schctr := [], rtectr := [], cstsum := 0, calls := [] } custs
  if res.1 then
    { ok := true, cstout := wrap32 (res.2.cstsum - E.route_cost res.2.mtvehl.route),
      schout := res.2.schctr, rteout := res.2.rtectr, calls := res.2.calls }
  else
    { ok := false, cstout := -1, schout := schout, rteout := rteout, calls := res.2.calls }

/-- The mutable copy after the customers of `pre` were inserted and committed
one after the other. -/
def after_inserting (E : Env) (m : Vehicle) (pre : List Customer) : Vehicle :=
  pre.foldl (fun v c => commit v (E.sop_insert v c)) m

/-- The results of `sop_insert` for the customers in order, each computed on
the copy that holds the customers before it. -/
def insertions (E : Env) : Vehicle → List Customer → List (DistInt × List Stop × List Wayp)
  | _, [] => []
  | m, c :: rest => E.sop_insert m c :: insertions E (commit m (E.sop_insert m c)) rest

/-- The route of the last candidate, or the route of `m` when there is none. -/
def last_route (E : Env) (m : Vehicle) (custs : List Customer) : List Wayp :=
  match (insertions E m custs).getLast? with
  | some r => r.2.2
  | none => m.route

/-- The mutable copy in the words of the specification ("commit the candidate
and reset the last-visited-node cursor on the mutable copy"): for each customer
in turn the schedule and the route of the copy are replaced by the candidate
that `sop_insert` returns for it, the cursor is set to 0, and the id, the
capacity and the number of queued customers stay those of the vehicle. -/
def updated_copy (E : Env) : Vehicle → List Customer → Vehicle
  | v, [] => v
  | v, c :: rest =>
    updated_copy E
      { id := v.id, capacity := v.capacity, queued := v.queued,
        route := (E.sop_insert v c).2.2, schedule := (E.sop_insert v c).2.1, idx_lvn := 0 }
      rest

/-! ## Pruning of the rv-graph (lines 150-168) -/

/-- The statement `g[k].push_back(c)` on a dictionary of vectors. -/
def push_back_at {K V : Type} [DecidableEq K] (g : Dict K (List V)) (k : K) (c : V) :
    Dict K (List V) :=
  Dict.set g k (Dict.getD g k [] ++ [c])

/-- The contract of `std::nth_element(first, first + n, last, comp)` with the
comparison `a.second < b.second` of line 160, for `n` inside the range: the
result is a rearrangement of the input, and no element from position `n` on is
smaller than an element before position `n`. -/
def NthElementSpec (nth : Nat → List (Customer × DistInt) → List (Customer × DistInt)) : Prop :=
  ∀ (n : Nat) (l : List (Customer × DistInt)), n < l.length →
    (nth n l).Perm l ∧ ∀ a ∈ (nth n l).take n, ∀ b ∈ (nth n l).drop n, ¬ b.2 < a.2

/-- The body of the loop `for (kv : rv_cst)` of the top-k heuristic: `cc` is
the copy of the cost table that `nth_element` rearranges, and the customers
`cc.at(i)` for `i < topk && i < kv.second.size()` (or all customers of a small
table) are pushed to `rvgrph_rv_[vehl]`. -/
def prune_vehicle (nth : Nat → List (Customer × DistInt) → List (Customer × DistInt))
    (topk : Nat) (g : Dict Vehicle (List Customer)) (kv : Vehicle × Dict Customer DistInt) :
    Dict Vehicle (List Customer) :=
  if kv.2.length > topk then
    let cc := nth topk kv.2
    ((List.range (min topk kv.2.length)).filterMap (fun i => cc.get? i)).foldl
      (fun g1 e => push_back_at g1 kv.1 e.1) g
  else
    kv.2.foldl (fun g1 kv2 => push_back_at g1 kv.1 kv2.1) g

/-- The top-k heuristic of `match` (lines 150-168) with `topk = TOP_CUST`. -/
def rv_prune (nth : Nat → List (Customer × DistInt) → List (Customer × DistInt)) (w : TVG) :
    TVG :=
  { w with rvgrph_rv_ := w.rv_cst.foldl (prune_vehicle nth TOP_CUST) w.rvgrph_rv_ }

/-- The customers that the top-k heuristic keeps from one cost table. -/
def kept_customers (nth : Nat → List (Customer × DistInt) → List (Customer × DistInt))
    (topk : Nat) (tbl : Dict Customer DistInt) : List Customer :=
  if tbl.length > topk then ((nth topk tbl).take topk).map Prod.fst else tbl.map Prod.fst

/-- An implementation of `nth_element`: sorting the whole range by cost. -/
def nth_by_sort (_n : Nat) (l : List (Customer × DistInt)) : List (Customer × DistInt) :=
  l.insertionSort (fun a b => a.2 ≤ b.2)

/-! ## Generation of the rtv-graph (lines 181-375) -/

/-- A loop whose body may throw: `none` is the exception leaving the loop. -/
def foldOpt {σ α : Type} (f : σ → α → Option σ) : σ → List α → Option σ
  | s, [] => some s
  | s, x :: xs =>
    match f s x with
    | none => none
    | some s1 => foldOpt f s1 xs

/-- The assignment `m[a][b] = v` on a dictionary of dictionaries. -/
def set2 {A B V : Type} [DecidableEq A] [DecidableEq B] (m : Dict A (Dict B V)) (a : A) (b : B)
    (v : V) : Dict A (Dict B V) :=
  Dict.set m a (Dict.set (Dict.getD m a []) b v)

/-- The value read by the expression `m[a][b]`. -/
def get2 {A B V : Type} [DecidableEq A] [DecidableEq B] (m : Dict A (Dict B V)) (a : A) (b : B)
    (dflt : V) : V :=
  Dict.getD (Dict.getD m a []) b dflt

/-- The table after the expression `m[a][b]` was read: `operator[]` adds a
default-constructed entry where there was none. -/
def touch2 {A B V : Type} [DecidableEq A] [DecidableEq B] (m : Dict A (Dict B V)) (a : A) (b : B)
    (dflt : V) : Dict A (Dict B V) :=
  set2 m a b (get2 m a b dflt)

/-- The state that one worker of the rtv region sees: the shared workspace,
its thread-local `lcl_vted` and `lcl_trip`, the `tripk` of the vehicle it is
working on, the number of `timeout` calls made so far, and whether the worker
has cancelled its loop (`#pragma omp cancel for`). -/
structure RtvState where
  w : TVG
  lcl_vted : Dict VehlId (Dict SharedTripId DistInt)
  lcl_trip : Dict SharedTripId SharedTrip
  tripk : Dict Nat (List SharedTripId)
  clock : Nat
  cancelled : Bool
  deriving DecidableEq, Repr

/-- The block that follows every accepted candidate (lines 209-216, 245-252,
273-280, 330-337): register the trip, store its schedule and route, and record
the edge in `lcl_vted`, `lcl_trip` and `tripk[k]`. -/
def record_trip (vid : VehlId) (k : Nat) (shtrip : SharedTrip) (cst : DistInt)
    (sch : List Stop) (rte : List Wayp) (s : RtvState) : RtvState :=
  let r := add_trip s.w shtrip
  { s with
    w := { r.2 with
      vt_sch := set2 r.2.vt_sch vid r.1 sch
      vt_rte := set2 r.2.vt_rte vid r.1 rte }
    lcl_vted := set2 s.lcl_vted vid r.1 cst
    lcl_trip := Dict.set s.lcl_trip r.1 shtrip
    tripk := push_back_at s.tripk k r.1 }

/-- One call `this->timeout(..)` followed by `#pragma omp cancel for` when it
answers true. -/
def check_timeout (E : Env) (s : RtvState) : RtvState :=
  { s with clock := s.clock + 1, cancelled := E.timeout s.clock }

/-- Body of the loop over `rvgrph_rv_.at(vehl)` (lines 208-217): trips of size 1. -/
def size1_step (vehl : Vehicle) (s : RtvState) (cust : Customer) : RtvState :=
  record_trip vehl.id 1 [cust]
    (get2 s.w.rv_cst vehl cust 0) (get2 s.w.rv_sch vehl cust []) (get2 s.w.rv_rte vehl cust [])
    { s with w := { s.w with
        rv_sch := touch2 s.w.rv_sch vehl cust []
        rv_rte := touch2 s.w.rv_rte vehl cust []
        rv_cst := touch2 s.w.rv_cst vehl cust 0 } }

/-- Body of the inner loop of the size-2 join (lines 235-254). The first
component is the local `shtrip` of the outer iteration, which line 237 extends
in every inner iteration. -/
def join_inner (E : Env) (vehl : Vehicle) (id_a : SharedTripId)
    (acc : SharedTrip × RtvState) (id_b : SharedTripId) : Option (SharedTrip × RtvState) :=
  if id_a = id_b then some acc
  else
    match Dict.find acc.2.lcl_trip id_b with
    | none => none
    | some trip_b =>
      let shtrip := acc.1 ++ trip_b
      match shtrip.head? with
      | none => none
      | some c0 =>
        if E.haversine vehl.last_visited_node c0.orig > RANGE then some (shtrip, acc.2)
        else
          let t := travel E vehl shtrip 0 [] []
          if t.ok then
            some (shtrip, record_trip vehl.id 2 shtrip t.cstout t.schout t.rteout acc.2)
          else some (shtrip, acc.2)

/-- Body of the outer loop of the size-2 join (lines 233-255). -/
def join_outer (E : Env) (vehl : Vehicle) (s : RtvState) (id_a : SharedTripId) :
    Option RtvState :=
  match Dict.find s.lcl_trip id_a with
  | none => none
  | some trip_a =>
    match Dict.find s.tripk 1 with
    | none => none
    | some ids =>
      match foldOpt (join_inner E vehl id_a) (trip_a, s) ids with
      | none => none
      | some r => some r.2

/-- Body of the loop over `kv.second` of the rr-pairs phase (lines 267-282). -/
def rr_inner (E : Env) (vehl : Vehicle) (cust_a : Customer) (s : RtvState)
    (cust_b : Customer) : RtvState :=
  let t := travel E vehl [cust_a, cust_b] 0 [] []
  if t.ok then record_trip vehl.id 2 [cust_a, cust_b] t.cstout t.schout t.rteout s else s

/-- Body of the loop over `rvgrph_rr_` (lines 263-283). -/
def rr_outer (E : Env) (vehl : Vehicle) (s : RtvState) (kv : Customer × List Customer) :
    RtvState :=
  if E.haversine vehl.last_visited_node kv.1.orig > RANGE then s
  else kv.2.foldl (rr_inner E vehl kv.1) s

/-- The join of lines 303-306: `trip_a` followed by the customers of `trip_b`
that are not in it yet. -/
def join_no_dups (trip_a trip_b : SharedTrip) : SharedTrip :=
  trip_b.foldl (fun sh c => if c ∈ sh then sh else sh ++ [c]) trip_a

/-- The scan of lines 315-319: is `subtrip` the trip of one of `ids`? -/
def subtrip_known (lcl_trip : Dict SharedTripId SharedTrip) (subtrip : SharedTrip) :
    List SharedTripId → Option Bool
  | [] => some false
  | q :: qs =>
    match Dict.find lcl_trip q with
    | none => none
    | some t => if subtrip = t then some true else subtrip_known lcl_trip subtrip qs

/-- The loop over the positions `p` of lines 311-324, `ps` being the positions
still to check: every sub-trip with one customer erased must be known. -/
def all_subtrips_known (lcl_trip : Dict SharedTripId SharedTrip) (ids : List SharedTripId)
    (shtrip : SharedTrip) : List Nat → Option Bool
  | [] => some true
  | p :: ps =>
    match subtrip_known lcl_trip (shtrip.eraseIdx p) ids with
    | none => none
    | some false => some false
    | some true => all_subtrips_known lcl_trip ids shtrip ps

/-- Body of the inner loop of the size-k phase (lines 299-341). `trip_a` is a
reference into `lcl_trip`, so it is read from the current table. -/
def sizek_inner (E : Env) (vehl : Vehicle) (k : Nat) (id_a : SharedTripId) (s : RtvState)
    (id_b : SharedTripId) : Option RtvState :=
  if id_a = id_b then some s
  else
    match Dict.find s.lcl_trip id_a, Dict.find s.lcl_trip id_b with
    | some trip_a, some trip_b =>
      let shtrip := join_no_dups trip_a trip_b
      if shtrip.length = k then
        match Dict.find s.tripk (k - 1) with
        | none => none
        | some ids =>
          match all_subtrips_known s.lcl_trip ids shtrip (List.range shtrip.length) with
          | none => none
          | some false => some s
          | some true =>
            let t := travel E vehl shtrip 0 [] []
            if t.ok then some (record_trip vehl.id k shtrip t.cstout t.schout t.rteout s)
            else some s
      else some s
    | _, _ => none

/-- Body of the outer loop of the size-k phase (lines 296-343). -/
def sizek_outer (E : Env) (vehl : Vehicle) (k : Nat) (s : RtvState) (id_a : SharedTripId) :
    Option RtvState :=
  match Dict.find s.lcl_trip id_a with
  | none => none
  | some _ =>
    match Dict.find s.tripk (k - 1) with
    | none => none
    | some ids => foldOpt (sizek_inner E vehl k id_a) s ids

/-- The loop `while (capacity - queued >= k && tripk.count(k-1) > 0)` of lines
293-345, started at `k`. The first argument bounds the number of iterations;
the loop condition is tested before it is looked at. -/
def sizek_loop (E : Env) (vehl : Vehicle) : Nat → Nat → RtvState → Option RtvState
  | fuel, k, s =>
    if vehl.capacity - vehl.queued ≥ (k : Int) ∧ Dict.has s.tripk (k - 1) = true then
      match fuel with
      | 0 => none
      | fuel1 + 1 =>
        match Dict.find s.tripk (k - 1) with
        | none => none
        | some ids =>
          match foldOpt (sizek_outer E vehl k) s ids with
          | none => none
          | some s1 => sizek_loop E vehl fuel1 (k + 1) s1
    else some s

/-- Body of the loop over the vehicles (lines 193-352) for one vehicle. The
result is `none` when an `.at(..)` throws. -/
def rtv_vehicle (E : Env) (vehl : Vehicle) (s0 : RtvState) : Option RtvState :=
  if vehl.queued = vehl.capacity then some { s0 with tripk := [] }
  else
    let s1 : RtvState :=
      { s0 with w := { s0.w with vehmap := Dict.set s0.w.vehmap vehl.id vehl }, tripk := [] }
    match Dict.find s1.w.rvgrph_rv_ vehl with
    | none => some s1
    | some custs =>
      let s3 := check_timeout E (custs.foldl (size1_step vehl) s1)
      if s3.cancelled then some s3
      else if vehl.capacity - vehl.queued > 1 then
        match Dict.find s3.tripk 1 with
        | none => none
        | some ids =>
          match foldOpt (join_outer E vehl) s3 ids with
          | none => none
          | some s4 =>
            let s5 := check_timeout E s4
            if s5.cancelled then some s5
            else
              let s7 := check_timeout E (s5.w.rvgrph_rr_.foldl (rr_outer E vehl) s5)
              if s7.cancelled then some s7
              else
                match sizek_loop E vehl (vehl.capacity - vehl.queued).toNat 3 s7 with
                | none => none
                | some s8 => some (check_timeout E s8)
      else some (check_timeout E s3)

/-- One iteration of the `omp for` over the vehicles of a worker: nothing is
done once the worker has cancelled. -/
def rtv_worker_step (E : Env) (s : RtvState) (vehl : Vehicle) : Option RtvState :=
  if s.cancelled then some s else rtv_vehicle E vehl s

/-- The vehicles of one worker, in order, from fresh thread-local tables. -/
def rtv_worker (E : Env) (vehls : List Vehicle) (w : TVG) (clock : Nat) : Option RtvState :=
  foldOpt (rtv_worker_step E)
    { w := w, lcl_vted := [], lcl_trip := [], tripk := [], clock := clock, cancelled := false }
    vehls

/-- The inner loop of the merge (lines 364-368), for the vehicle `vid`, with
the cap as an argument. -/
def merge_inner (cap : Int) (vid : VehlId) :
    Dict VehlId (Dict SharedTripId DistInt) × Int → List (SharedTripId × DistInt) →
    Dict VehlId (Dict SharedTripId DistInt) × Int
  | acc, [] => acc
  | acc, kv2 :: rest =>
    let vted1 := set2 acc.1 vid kv2.1 kv2.2
    let n1 := acc.2 + 1
    if n1 > cap then (vted1, n1) else merge_inner cap vid (vted1, n1) rest

/-- The loop of the merge (lines 357-371) over the `lcl_vted` of one worker. The
accumulator is `vted_` and the counter `nvted`. -/
def merge_outer (cap : Int) :
    Dict VehlId (Dict SharedTripId DistInt) × Int →
    List (VehlId × Dict SharedTripId DistInt) →
    Dict VehlId (Dict SharedTripId DistInt) × Int
  | acc, [] => acc
  | acc, kv :: rest =>
    if Dict.has acc.1 kv.1 = false then
      let vted1 := Dict.set acc.1 kv.1 kv.2
      let n1 := acc.2 + (kv.2.length : Int)
      if n1 > cap then (vted1, n1) else merge_outer cap (vted1, n1) rest
    else
      let r := merge_inner cap kv.1 acc kv.2
      if r.2 > cap then r else merge_outer cap r rest

/-- The critical section "Combine lcl_vted" (lines 354-372) of one worker. -/
def merge_lcl_vted (acc : Dict VehlId (Dict SharedTripId DistInt) × Int)
    (lcl_vted : Dict VehlId (Dict SharedTripId DistInt)) :
    Dict VehlId (Dict SharedTripId DistInt) × Int :=
  merge_outer TRIP_MAX acc lcl_vted

/-- The workers enumerate one after the other: the shared workspace and the
call count of `timeout` are handed on, the `lcl_vted` of each worker is
collected for the merge. -/
def rtv_enumerate (E : Env) :
    List (List Vehicle) → TVG × Nat → Option (TVG × Nat × List (Dict VehlId (Dict SharedTripId DistInt)))
  | [], acc => some (acc.1, acc.2, [])
  | vehls :: rest, acc =>
    match rtv_worker E vehls acc.1 acc.2 with
    | none => none
    | some s =>
      match rtv_enumerate E rest (s.w, s.clock) with
      | none => none
      | some r => some (r.1, r.2.1, s.lcl_vted :: r.2.2)

/-- The rtv region of `match` (lines 181-375): `workers` is the share of
`lcl_vehl` that each thread iterates over. All threads finish the loop before
the first merge (the barrier that ends `omp for`). The result is the workspace
and the counter `nvted`. -/
def rtv_graph (E : Env) (workers : List (List Vehicle)) (w : TVG) : Option (TVG × Int) :=
  match rtv_enumerate E workers (w, 0) with
  | none => none
  | some r =>
    let m := r.2.2.foldl merge_lcl_vted (r.1.vted_, 0)
    some ({ r.1 with vted_ := m.1 }, m.2)

/-- The registry invariant: `stid_` counts the registered trips, the keys of
`trip_` are `1, .., stid_` and no trip is stored twice. -/
def RegInv (w : TVG) : Prop :=
  ∃ n : Nat, w.stid_ = (n : Int) ∧
    Dict.keys w.trip_ = (List.range n).map (fun (i : Nat) => (i : Int) + 1) ∧
    (w.trip_.map Prod.snd).Nodup

/-- The invariant that ties the tables of a worker to the trip registry: the
registry invariant holds, the trips of `base` are still registered, every entry
of `lcl_trip` is an entry of `trip_`, and every trip id in `lcl_vted` and in
`vted_` is a key of `trip_`. -/
def TripsInv (base : Dict SharedTripId SharedTrip) (s : RtvState) : Prop :=
  RegInv s.w ∧
  (∀ e ∈ base, e ∈ s.w.trip_) ∧
  (∀ e ∈ s.lcl_trip, e ∈ s.w.trip_) ∧
  (∀ e ∈ s.lcl_vted, ∀ stid ∈ Dict.keys e.2, stid ∈ Dict.keys s.w.trip_) ∧
  (∀ e ∈ s.w.vted_, ∀ stid ∈ Dict.keys e.2, stid ∈ Dict.keys s.w.trip_)

/-- What the size-k phase checks before a candidate of size `k ≥ 3` is handed
to the oracle: it has `k` customers and each sequence with one position erased
is the `lcl_trip` of an id in `tripk[k-1]`. -/
def SubtripsKnown (s : RtvState) (k : Nat) (t : SharedTrip) : Prop :=
  t.length = k ∧
  ∀ p, p < k → ∃ ids1 q, Dict.find s.tripk (k - 1) = some ids1 ∧ q ∈ ids1 ∧
    Dict.find s.lcl_trip q = some (t.eraseIdx p)

/-- The invariant of `tripk` while the worker handles the vehicle `vid`: every
id in `tripk` has its trip in `lcl_trip` and an edge in `lcl_vted[vid]`, and
every id in `tripk[k]`, `k ≥ 3`, passed the sub-trip check. -/
def VehlInv (vid : VehlId) (s : RtvState) : Prop :=
  (∀ k ids q, Dict.find s.tripk k = some ids → q ∈ ids →
    (∃ t, Dict.find s.lcl_trip q = some t) ∧ q ∈ Dict.keys (Dict.getD s.lcl_vted vid [])) ∧
  (∀ k ids stid t, 3 ≤ k → Dict.find s.tripk k = some ids → stid ∈ ids →
    Dict.find s.lcl_trip stid = some t → SubtripsKnown s k t)

/-- No trip of `lcl_trip` is empty and no vehicle of `rvgrph_rv_` has an empty
customer list. -/
def NoEmpty (s : RtvState) : Prop :=
  (∀ e ∈ s.lcl_trip, e.2 ≠ []) ∧ (∀ e ∈ s.w.rvgrph_rv_, e.2 ≠ [])

/-- What keeps the `.at(..)` calls of a loop over `ids` from throwing: `NoEmpty`,
every id of `ids` has its trip in `lcl_trip`, and `tripk[j]` exists. -/
def Live (ids : List SharedTripId) (j : Nat) (s : RtvState) : Prop :=
  NoEmpty s ∧ (∀ q ∈ ids, ∃ t, Dict.find s.lcl_trip q = some t) ∧
  ∃ l, Dict.find s.tripk j = some l

/-! ## The integer program (lines 380-482) -/

/-- The bounds given to a row by `glp_set_row_bnds`: `GLP_UP` with its upper
bound, or `GLP_FX` with its fixed value. -/
inductive RowBnd where
  | up (ub : Int)
  | fx (v : Int)
  deriving DecidableEq, Repr

/-- The locals of the block "Populate the coefficients in the objective" (lines
409-432): the counter `col_idx`, the map `colmap`, and what the calls of
`glp_set_obj_coef` and `glp_set_col_kind` have set so far (`true` stands for
`GLP_BV`). -/
structure ColState where
  col_idx : Nat
  colmap : Dict Nat (Int × SharedTripId)
  obj_coef : Dict Nat Int
  col_bv : Dict Nat Bool
  deriving DecidableEq, Repr

/-- Body of the loop over `kv.second` of lines 413-421: the column of the edge
`(vehl_id, kv2.first)`. -/
def add_x_col (vehl_id : VehlId) (s : ColState) (kv2 : SharedTripId × DistInt) : ColState :=
  { col_idx := s.col_idx + 1
    colmap := Dict.set s.colmap (s.col_idx + 1) (vehl_id, kv2.1)
    obj_coef := Dict.set s.obj_coef (s.col_idx + 1) kv2.2
    col_bv := Dict.set s.col_bv (s.col_idx + 1) true }

/-- Body of the loop over `vted_` of lines 411-422. -/
def add_x_cols (s : ColState) (kv : VehlId × Dict SharedTripId DistInt) : ColState :=
  kv.2.foldl (add_x_col kv.1) s

/-- The penalty of line 426. -/
def penalty (E : Env) (unassign_penalty : Int) (cust_id : CustId) : Int :=
  if unassign_penalty > 0 then unassign_penalty else E.basecost cust_id

/-- Body of the loop over `matchable_custs` of lines 423-431: the column `y`
of the customer. -/
def add_y_col (E : Env) (unassign_penalty : Int) (s : ColState) (cust_id : CustId) :
    ColState :=
  { col_idx := s.col_idx + 1
    colmap := Dict.set s.colmap (s.col_idx + 1) (cust_id, -1)
    obj_coef := Dict.set s.obj_coef (s.col_idx + 1) (penalty E unassign_penalty cust_id)
    col_bv := Dict.set s.col_bv (s.col_idx + 1) true }

/-- The block "Populate the coefficients in the objective" (lines 409-432). -/
def build_cols (E : Env) (unassign_penalty : Int) (w : TVG) : ColState :=
  w.matchable_custs.foldl (add_y_col E unassign_penalty)
    (w.vted_.foldl add_x_cols { col_idx := 0, colmap := [], obj_coef := [], col_bv := [] })

/-- The locals of the block that fills the constraint matrix (lines 443-479):
the counter `row_idx`, what `glp_set_row_bnds` has set, and the cells written
so far; the cell at position `k` (from 1) is `(ia[k], ja[k], ar[k])`, so the
counter `cel_idx` is the length of `cells`. -/
structure RowState where
  row_idx : Nat
  row_bnds : Dict Nat RowBnd
  cells : List (Nat × Nat × Int)
  deriving DecidableEq, Repr

/-- Body of the loop over `vted_` of lines 445-455: the row of a vehicle. -/
def vehl_row (colmap : Dict Nat (Int × SharedTripId)) (s : RowState)
    (kv : VehlId × Dict SharedTripId DistInt) : RowState :=
  { row_idx := s.row_idx + 1
    row_bnds := Dict.set s.row_bnds (s.row_idx + 1) (RowBnd.up 1)
    cells := colmap.foldl
      (fun cs kv2 => cs ++ [(s.row_idx + 1, kv2.1, if kv.1 = kv2.2.1 then 1 else 0)]) s.cells }

/-- The value `ar[cel_idx]` of lines 470-477 for the customer `cust_id` and the
column `kv2`; `none` when `trip_.at(..)` throws. -/
def cust_cell (trip_ : Dict SharedTripId SharedTrip) (cust_id : CustId)
    (kv2 : Nat × (Int × SharedTripId)) : Option Int :=
  if kv2.2.1 = cust_id then some 1
  else if kv2.2.2 = -1 then some 0
  else
    match Dict.find trip_ kv2.2.2 with
    | none => none
    | some t => some (if t.any (fun cust2 => decide (cust2.id = cust_id)) then 1 else 0)

/-- Body of the loop over `colmap` of lines 466-478, in the row `r`. -/
def cust_row_cell (trip_ : Dict SharedTripId SharedTrip) (cust_id : CustId) (r : Nat)
    (cs : List (Nat × Nat × Int)) (kv2 : Nat × (Int × SharedTripId)) :
    Option (List (Nat × Nat × Int)) :=
  match cust_cell trip_ cust_id kv2 with
  | none => none
  | some a => some (cs ++ [(r, kv2.1, a)])

/-- Body of the loop over `matchable_custs` of lines 462-479: the row of a
customer. -/
def cust_row (trip_ : Dict SharedTripId SharedTrip) (colmap : Dict Nat (Int × SharedTripId))
    (s : RowState) (cust_id : CustId) : Option RowState :=
  match foldOpt (cust_row_cell trip_ cust_id (s.row_idx + 1)) s.cells colmap with
  | none => none
  | some cs =>
    some { row_idx := s.row_idx + 1
           row_bnds := Dict.set s.row_bnds (s.row_idx + 1) (RowBnd.fx 1)
           cells := cs }

/-- The problem object handed to the solver: direction, the numbers of columns
and rows passed to `glp_add_cols` / `glp_add_rows`, the column map, objective
coefficients, column kinds, row bounds, and the cells loaded by
`glp_load_matrix`. -/
structure Mip where
  obj_dir_min : Bool
  ncol : Int
  nrow : Int
  colmap : Dict Nat (Int × SharedTripId)
  obj_coef : Dict Nat Int
  col_bv : Dict Nat Bool
  row_bnds : Dict Nat RowBnd
  cells : List (Nat × Nat × Int)
  deriving DecidableEq, Repr

/-- The construction of the integer program (lines 394-482) from the workspace
and the counter `nvted`; `none` when `trip_.at(..)` throws. `ncol` and `nrow`
are the `int` variables of lines 400 and 403: the sums of the sizes, narrowed
to 32 bits. -/
def build_mip (E : Env) (unassign_penalty : Int) (w : TVG) (nvted : Int) : Option Mip :=
  let cols := build_cols E unassign_penalty w
  let vrows := w.vted_.foldl (vehl_row cols.colmap) { row_idx := 0, row_bnds := [], cells := [] }
  match foldOpt (cust_row w.trip_ cols.colmap) vrows w.matchable_custs with
  | none => none
  | some rows =>
    some { obj_dir_min := true
           ncol := wrap32 (nvted + (w.matchable_custs.length : Int))
           nrow := wrap32 ((w.vted_.length : Int) + (w.matchable_custs.length : Int))
           colmap := cols.colmap
           obj_coef := cols.obj_coef
           col_bv := cols.col_bv
           row_bnds := rows.row_bnds
           cells := rows.cells }

/-- The length requested for each of the vectors `ia`, `ja`, `ar` (lines
435-437): the value of the `int` expression `ncol * nrow + 1`. The cells are
written at the positions `1 .. cel_idx`, so the writes stay inside the vectors
when the final `cel_idx` is below this value. -/
def alloc_len (ncol nrow : Int) : Int := wrap32 (wrap32 (ncol * nrow) + 1)

/-- The cells of the row `i`, in the order they were written. -/
def row_cells (m : Mip) (i : Nat) : List (Nat × Nat × Int) :=
  m.cells.filter (fun c => decide (c.1 = i))

/-- The coefficient of the matrix in row `i` and column `j`: the sum of the
cells with these indices (there is one such cell, or none). -/
def coef (m : Mip) (i j : Nat) : Int :=
  (((row_cells m i).filter (fun c => decide (c.2.1 = j))).map (fun c => c.2.2)).sum

/-- The value of the row `i` at the column vector `x`. -/
def row_activity (m : Mip) (x : Nat → Int) (i : Nat) : Int :=
  ((row_cells m i).map (fun c => c.2.2 * x c.2.1)).sum

/-- The column vector `x` satisfies the row `e`: a row with an upper bound
(`GLP_UP`) is at most the bound, a fixed row (`GLP_FX`) equals its value. -/
def row_ok (m : Mip) (x : Nat → Int) (e : Nat × RowBnd) : Bool :=
  match e.2 with
  | RowBnd.up ub => decide (row_activity m x e.1 ≤ ub)
  | RowBnd.fx v => decide (row_activity m x e.1 = v)

/-- The column vector `x` satisfies every row of the program. -/
def satisfies_rows (m : Mip) (x : Nat → Int) : Prop :=
  ∀ e ∈ m.row_bnds, row_ok m x e = true

/-- The columns `x` in the order of lines 411-422: the edges of `vted_`. -/
def x_cols (w : TVG) : List (Int × SharedTripId) :=
  w.vted_.flatMap (fun kv => kv.2.map (fun kv2 => (kv.1, kv2.1)))

/-- The columns `y` in the order of lines 423-431. -/
def y_cols (w : TVG) : List (Int × SharedTripId) :=
  w.matchable_custs.map (fun c => (c, -1))

/-- The objective coefficients of the columns `x`, in column order. -/
def x_costs (w : TVG) : List Int :=
  w.vted_.flatMap (fun kv => kv.2.map (fun kv2 => kv2.2))

/-- The objective coefficients of the columns `y`, in column order. -/
def y_costs (E : Env) (unassign_penalty : Int) (w : TVG) : List Int :=
  w.matchable_custs.map (penalty E unassign_penalty)

/-- The customer `c` is a member of the trip with id `t`, by customer id as in
line 474. -/
def trip_has (trip_ : Dict SharedTripId SharedTrip) (c : CustId) (t : SharedTripId) : Bool :=
  match Dict.find trip_ t with
  | none => false
  | some tr => tr.any (fun cust2 => decide (cust2.id = c))

/-- The cells that lines 449-454 write for the row `r` of the vehicle `v`. -/
def vehl_block (colmap : Dict Nat (Int × SharedTripId)) (r : Nat) (v : VehlId) :
    List (Nat × Nat × Int) :=
  colmap.map (fun kv2 => (r, kv2.1, if v = kv2.2.1 then 1 else 0))

/-- The cells that lines 466-478 write for the row `r` of the customer `c`,
when no `trip_.at(..)` throws. -/
def cust_block (trip_ : Dict SharedTripId SharedTrip) (colmap : Dict Nat (Int × SharedTripId))
    (r : Nat) (c : CustId) : List (Nat × Nat × Int) :=
  colmap.map (fun kv2 => (r, kv2.1, (cust_cell trip_ c kv2).getD 0))

/-- The column `kv2` is a column `x` of the vehicle `v`. -/
def is_x_of (v : VehlId) (kv2 : Nat × (Int × SharedTripId)) : Bool :=
  decide (kv2.2.1 = v) && decide (kv2.2.2 ≠ -1)

/-- The column `kv2` is the column `y` of the customer `c` or a column `x` of a
trip that holds `c`. -/
def covers (trip_ : Dict SharedTripId SharedTrip) (c : CustId)
    (kv2 : Nat × (Int × SharedTripId)) : Bool :=
  (decide (kv2.2.2 = -1) && decide (kv2.2.1 = c)) ||
  (decide (kv2.2.2 ≠ -1) && trip_has trip_ c kv2.2.2)

/-! ## Generation of the rv-graph (lines 60-148) -/

/-- The state that one worker of the rv region sees: the shared workspace, the
number of `timeout` calls made so far, and whether the worker has cancelled its
loop (`#pragma omp cancel for`). -/
structure RvState where
  w : TVG
  clock : Nat
  cancelled : Bool
  deriving DecidableEq, Repr

/-- Body of the loop over `cands` (lines 79-97): an rv edge is written when the
candidate has a free seat and `travel(*cand, {cust_a}, ..)` succeeds. -/
def rv_cand_step (E : Env) (cust_a : Customer) (w : TVG) (cand : Vehicle) : TVG :=
  if cand.queued < cand.capacity then
    let r := travel E cand [cust_a] 0 [] []
    if r.ok then
      { w with
        rv_cst := set2 w.rv_cst cand cust_a r.cstout
        rv_sch := set2 w.rv_sch cand cust_a r.schout
        rv_rte := set2 w.rv_rte cand cust_a r.rteout }
    else w
  else w

/-- Body of the loop over `customers()` (lines 114-137): an rr edge from
`cust_a` to `cust_b` is written when the two differ, both distance filters
pass and `travel(vtvehl, {cust_b}, ..)` succeeds. -/
def rr_step (E : Env) (cust_a : Customer) (vtvehl : Vehicle) (w : TVG) (cust_b : Customer) :
    TVG :=
  if cust_a = cust_b then w
  else if E.haversine cust_a.orig cust_b.orig > RANGE then w
  else if E.haversine cust_a.dest cust_b.dest > RANGE then w
  else if (travel E vtvehl [cust_b] 0 [] []).ok then
    { w with rvgrph_rr_ := push_back_at w.rvgrph_rr_ cust_a cust_b }
  else w

/-- The virtual vehicle of line 111, built from the customer `cust_a`. -/
def vtvehl_of (E : Env) (cust_a : Customer) : Vehicle :=
  E.make_vehicle cust_a.id cust_a.orig cust_a.dest cust_a.early cust_a.late 0

/-- One iteration of the `omp for` over `lcl_cust` (lines 68-146); `custs` is
`customers()`. Nothing is done once the worker has cancelled. After the rv
edges the iteration ends when the index returned no candidate (line 98). -/
def rv_customer (E : Env) (custs : List Customer) (s : RvState) (cust_a : Customer) :
    RvState :=
  if s.cancelled then s
  else
    let w1 := { s.w with matchable_custs := s.w.matchable_custs ++ [cust_a.id] }
    let cands := E.within RANGE cust_a.orig
    let w2 := cands.foldl (rv_cand_step E cust_a) w1
    if cands.length = 0 then { s with w := w2 }
    else if E.timeout_rv s.clock then { w := w2, clock := s.clock + 1, cancelled := true }
    else
      { w := custs.foldl (rr_step E cust_a (vtvehl_of E cust_a)) w2
        clock := s.clock + 1
        cancelled := false }

/-- The customers of one worker, in order; the workspace and the call count of
`timeout` are handed on to the next worker. -/
def rv_worker (E : Env) (custs : List Customer) (acc : TVG × Nat) (share : List Customer) :
    TVG × Nat :=
  let s := share.foldl (rv_customer E custs) { w := acc.1, clock := acc.2, cancelled := false }
  (s.w, s.clock)

/-- The rv region of `match` (lines 60-148): `custs` is `customers()` and
`workers` is the share of `lcl_cust` that each thread iterates over; the
critical sections make the writes of the threads atomic, and the threads are
run one after the other. -/
def rv_graph (E : Env) (custs : List Customer) (workers : List (List Customer)) (w : TVG) :
    TVG :=
  (workers.foldl (rv_worker E custs) (w, 0)).1

/-- The entry `m[a][b]` of a dictionary of dictionaries as `.at(a).at(b)` reads
it: `none` when one of the keys is missing. -/
def find2 {A B V : Type} [DecidableEq A] [DecidableEq B] (m : Dict A (Dict B V)) (a : A)
    (b : B) : Option V :=
  match Dict.find m a with
  | none => none
  | some d => Dict.find d b

/-- The rv edge that the rv region writes for the vehicle `v` and the customer
`c` when the pair was `seen`, that is, `c` was worked on and `v` was among its
candidates: the result of `travel(v, {c}, ..)`, when `v` has a free seat and
the call succeeds. -/
def rv_val (E : Env) (seen : Vehicle → Customer → Bool) (v : Vehicle) (c : Customer) :
    Option TravelOut :=
  if seen v c && decide (v.queued < v.capacity) && (travel E v [c] 0 [] []).ok then
    some (travel E v [c] 0 [] [])
  else none

/-- The three rv tables hold exactly the edges of the pairs that were `seen`. -/
def RvInv (E : Env) (seen : Vehicle → Customer → Bool) (w : TVG) : Prop :=
  (∀ v c, find2 w.rv_cst v c = (rv_val E seen v c).map (fun r => r.cstout)) ∧
  (∀ v c, find2 w.rv_sch v c = (rv_val E seen v c).map (fun r => r.schout)) ∧
  (∀ v c, find2 w.rv_rte v c = (rv_val E seen v c).map (fun r => r.rteout)) ∧
  Dict.keys w.rv_cst = Dict.keys w.rv_sch ∧ Dict.keys w.rv_cst = Dict.keys w.rv_rte

/-- The pairs of the rv region after the customers of `done` were worked on and
the candidates `pre` of the customer `cust_a` were tried. -/
def rv_seen (E : Env) (done : List Customer) (cust_a : Customer) (pre : List Vehicle)
    (v : Vehicle) (c : Customer) : Bool :=
  (decide (c ∈ done) && decide (v ∈ E.within RANGE c.orig)) ||
  (decide (c = cust_a) && decide (v ∈ pre))

/-- The test of lines 115-131 for an rr edge from `c` to `c2`. -/
def rr_ok (E : Env) (c c2 : Customer) : Bool :=
  decide (c ≠ c2) && decide (E.haversine c.orig c2.orig ≤ RANGE) &&
  decide (E.haversine c.dest c2.dest ≤ RANGE) &&
  (travel E (vtvehl_of E c) [c2] 0 [] []).ok

/-- The table `rvgrph_rr_` holds exactly the accepted pairs among those that
were `seen`. -/
def RrInv (E : Env) (seen : Customer → Customer → Bool) (w : TVG) : Prop :=
  ∀ c c2, c2 ∈ Dict.getD w.rvgrph_rr_ c [] ↔ (seen c c2 = true ∧ rr_ok E c c2 = true)

/-- The pairs of the rr loop after the customers of `done` were worked on and
the customers `pre` were compared with `cust_a`; a customer for which the index
returned no candidate is skipped. -/
def rr_seen (E : Env) (custs done : List Customer) (cust_a : Customer) (pre : List Customer)
    (c c2 : Customer) : Bool :=
  (decide (c ∈ done) && decide (E.within RANGE c.orig ≠ []) && decide (c2 ∈ custs)) ||
  (decide (c = cust_a) && decide (c2 ∈ pre))

/-- The pairs of the rv region after the customers of `done` were worked on. -/
def rv_done (E : Env) (done : List Customer) (v : Vehicle) (c : Customer) : Bool :=
  decide (c ∈ done) && decide (v ∈ E.within RANGE c.orig)

/-- The pairs of the rr loop after the customers of `done` were worked on. -/
def rr_done (E : Env) (custs done : List Customer) (c c2 : Customer) : Bool :=
  decide (c ∈ done) && decide (E.within RANGE c.orig ≠ []) && decide (c2 ∈ custs)

/-- What the rv region has established after the customers of `done`: no
worker has cancelled, the rv tables and `rvgrph_rr_` are exact for `done`, and
`matchable_custs` lists the ids of `done`. -/
def RvDone (E : Env) (custs done : List Customer) (w : TVG) : Prop :=
  RvInv E (rv_done E done) w ∧ RrInv E (rr_done E custs done) w ∧
  w.matchable_custs = done.map (fun c => c.id)

/-! ## Extraction of the assignments (lines 519-553) and `match` -/

/-- The calls that `match` makes on the simulator while it extracts the
assignments: `assign(cadd, {}, ..)` for a column with its answer, `end_delay`
and `beg_delay`. -/
inductive Event where
  | assign (col : Nat) (cadd : List CustId) (ok : Bool)
  | end_delay (c : CustId)
  | beg_delay (c : CustId)
  deriving DecidableEq, Repr

/-- What the extraction changes: `is_matched`, the counter `nrej_`, and the log
of the calls made so far. -/
structure ExtState where
  is_matched : Dict CustId Bool
  nrej : Nat
  log : List Event
  deriving DecidableEq, Repr

/-- Body of the loop of lines 535-538; `none` when `is_matched.at(..)` throws. -/
def mark_matched (s : ExtState) (cust : Customer) : Option ExtState :=
  match Dict.find s.is_matched cust.id with
  | none => none
  | some _ =>
    some { s with
      is_matched := Dict.set s.is_matched cust.id true
      log := s.log ++ [Event.end_delay cust.id] }

/-- Body of the loop of lines 540-543. -/
def reject_cust (s : ExtState) (c : CustId) : ExtState :=
  { s with nrej := s.nrej + 1, log := s.log ++ [Event.beg_delay c] }

/-- What the loop of lines 523-546 does with the column `i`, up to the call of
`assign`: `none` when an `.at(..)` throws, `some none` when the column is
passed over (its trip id is -1, or its value is not 1), and otherwise the
answer of `assign` and the trip of the column. `sel i` is the test
`glp_mip_col_val(mip, i) == 1`. -/
def col_commit (E : Env) (w : TVG) (colmap : Dict Nat (Int × SharedTripId)) (sel : Nat → Bool)
    (i : Nat) : Option (Option (Bool × SharedTrip)) :=
  let e := Dict.getD colmap i (0, 0)
  if e.2 = -1 then some none
  else if sel i then
    match Dict.find w.vehmap e.1 with
    | none => none
    | some sync_vehl =>
      match find2 w.vt_rte e.1 e.2 with
      | none => none
      | some new_rte =>
        match find2 w.vt_sch e.1 e.2 with
        | none => none
        | some new_sch =>
          match Dict.find w.trip_ e.2 with
          | none => none
          | some trip =>
            some (some (E.assign i (trip.map (fun c => c.id)) new_rte new_sch sync_vehl, trip))
  else some none

/-- Body of the loop of lines 523-546 for the column `i`. -/
def extract_col (E : Env) (w : TVG) (colmap : Dict Nat (Int × SharedTripId))
    (sel : Nat → Bool) (s : ExtState) (i : Nat) : Option ExtState :=
  match col_commit E w colmap sel i with
  | none => none
  | some none => some s
  | some (some (true, trip)) =>
    foldOpt mark_matched
      { s with log := s.log ++ [Event.assign i (trip.map (fun c => c.id)) true] } trip
  | some (some (false, trip)) =>
    some ((trip.map (fun c => c.id)).foldl reject_cust
      { s with log := s.log ++ [Event.assign i (trip.map (fun c => c.id)) false] })

/-- The calls of the sweep of lines 548-550: `beg_delay` for every entry of
`is_matched` that is false. -/
def sweep_events (is_matched : Dict CustId Bool) : List Event :=
  (is_matched.filter (fun kv => !kv.2)).map (fun kv => Event.beg_delay kv.1)

/-- The sweep of lines 548-550. -/
def sweep (s : ExtState) : ExtState :=
  { s with log := s.log ++ sweep_events s.is_matched }

/-- The loop `for (int i = 1; i <= ncol; ++i)` over the columns (lines
523-546). -/
def extract_loop (E : Env) (w : TVG) (m : Mip) (sel : Nat → Bool) (s0 : ExtState) :
    Option ExtState :=
  foldOpt (extract_col E w m.colmap sel) s0 (List.range' 1 m.ncol.toNat)

/-- Lines 523-550: the loop over the columns, then the sweep. -/
def extract (E : Env) (w : TVG) (m : Mip) (sel : Nat → Bool) (s0 : ExtState) :
    Option ExtState :=
  match extract_loop E w m sel s0 with
  | none => none
  | some s1 => some (sweep s1)

/-- Lines 56-57: every customer of the batch starts unmatched. -/
def init_is_matched (custs : List Customer) (w : TVG) : TVG :=
  { w with is_matched := custs.foldl (fun d c => Dict.set d c.id false) w.is_matched }

/-- What a call of `match` leaves behind: the workspace, the counter `nrej_`
and the calls made on the simulator. -/
structure MatchOut where
  w : TVG
  nrej : Nat
  log : List Event
  deriving DecidableEq, Repr

/-- The function `TripVehicleGrouping::match` (lines 52-556). `custs` is
`customers()`; `cust_workers` and `vehl_workers` are the shares of the threads
in the two parallel loops; `nth` is `std::nth_element`; `solve m i` is the test
`glp_mip_col_val(mip, i) == 1` after `glp_intopt` on the program `m`; `nrej0`
is `nrej_` at the call. The result is `none` when an `.at(..)` throws. -/
def tvg_match (E : Env) (nth : Nat → List (Customer × DistInt) → List (Customer × DistInt))
    (unassign_penalty : Int) (custs : List Customer) (cust_workers : List (List Customer))
    (vehl_workers : List (List Vehicle)) (solve : Mip → Nat → Bool) (nrej0 : Nat) :
    Option MatchOut :=
  let w0 := init_is_matched custs reset_workspace
  let w2 := rv_prune nth (rv_graph E custs cust_workers w0)
  if E.done 0 then some { w := w2, nrej := nrej0, log := [] }
  else
    match rtv_graph E vehl_workers w2 with
    | none => none
    | some r =>
      if E.done 1 then some { w := r.1, nrej := nrej0, log := [] }
      else if r.1.vted_.length > 0 then
        match build_mip E unassign_penalty r.1 r.2 with
        | none => none
        | some m =>
          if E.done 2 then some { w := r.1, nrej := nrej0, log := [] }
          else
            match extract E r.1 m (solve m)
              { is_matched := r.1.is_matched, nrej := nrej0, log := [] } with
            | none => none
            | some s => some { w := { r.1 with is_matched := s.is_matched }, nrej := s.nrej, log := s.log }
      else some { w := r.1, nrej := nrej0, log := [] }

/-! ## The writes of the rtv region, one at a time -/

/-- The three kinds of state change that the loop body of a vehicle is made
of: a size-1 trip for a customer of `rvgrph_rv_.at(vehl)`; the block that
records a trip of two or more customers, reached only when the vehicle has more
than one free seat and `travel` succeeded on the trip; and a reading of the
deadline. -/
inductive RtvStep (E : Env) (vehl : Vehicle) : RtvState → RtvState → Prop where
  | size1 (s : RtvState) (custs : List Customer) (cust : Customer) :
      Dict.find s.w.rvgrph_rv_ vehl = some custs → cust ∈ custs →
      RtvStep E vehl s (size1_step vehl s cust)
  | record (s : RtvState) (k : Nat) (shtrip : SharedTrip) :
      2 ≤ shtrip.length → vehl.capacity - vehl.queued > 1 →
      (travel E vehl shtrip 0 [] []).ok = true →
      RtvStep E vehl s
        (record_trip vehl.id k shtrip (travel E vehl shtrip 0 [] []).cstout
          (travel E vehl shtrip 0 [] []).schout (travel E vehl shtrip 0 [] []).rteout s)
  | tick (s : RtvState) : RtvStep E vehl s (check_timeout E s)

/-- A sequence of state changes of `RtvStep`. -/
inductive RtvReach (E : Env) (vehl : Vehicle) : RtvState → RtvState → Prop where
  | refl (s : RtvState) : RtvReach E vehl s s
  | step (s s1 s2 : RtvState) : RtvReach E vehl s s1 → RtvStep E vehl s1 s2 →
      RtvReach E vehl s s2

/-- The state of a worker when it turns to a vehicle with a free seat: the
vehicle is stored in `vehmap` and `tripk` is a fresh local. -/
def rtv_start (vehl : Vehicle) (s0 : RtvState) : RtvState :=
  { s0 with w := { s0.w with vehmap := Dict.set s0.w.vehmap vehl.id vehl }, tripk := [] }

/-- Every entry `tbl[vid][stid] = x` of a two-level table satisfies `Q`. -/
def Entries {V : Type} (Q : VehlId → SharedTripId → V → Prop)
    (tbl : Dict VehlId (Dict SharedTripId V)) : Prop :=
  ∀ e ∈ tbl, ∀ kv ∈ e.2, Q e.1 kv.1 kv.2

/-- How the rtv region comes to record the triple `r` (cost, schedule, route)
for the vehicle `vehl` and the trip `trip`, `w0` being the workspace at the
start of the region: either the trip is a single customer of
`rvgrph_rv_[vehl]` and the triple is read from the rv tables, or the trip has
two or more customers, the vehicle has more than one free seat, and the triple
is what a successful `travel(vehl, trip, ..)` returns. -/
def Written (E : Env) (w0 : TVG) (vehl : Vehicle) (trip : SharedTrip) (r : TravelOut) : Prop :=
  (∃ c, trip = [c] ∧ c ∈ Dict.getD w0.rvgrph_rv_ vehl [] ∧
    r.cstout = get2 w0.rv_cst vehl c 0 ∧ r.schout = get2 w0.rv_sch vehl c [] ∧
    r.rteout = get2 w0.rv_rte vehl c []) ∨
  (2 ≤ trip.length ∧ vehl.capacity - vehl.queued > 1 ∧
    (travel E vehl trip 0 [] []).ok = true ∧
    r.cstout = (travel E vehl trip 0 [] []).cstout ∧
    r.schout = (travel E vehl trip 0 [] []).schout ∧
    r.rteout = (travel E vehl trip 0 [] []).rteout)

/-- The triple `r` belongs to an edge `(vid, stid)`: `vid` is the id of a
vehicle `vehl` of the feed `F` that `vehmap` holds, `stid` is the id of a
registered trip, and `r` was recorded for the two. -/
def Ent (E : Env) (F : List Vehicle) (w0 w : TVG) (vid : VehlId) (stid : SharedTripId)
    (r : TravelOut) : Prop :=
  ∃ vehl trip, vehl ∈ F ∧ vehl.id = vid ∧ Dict.find w.vehmap vid = some vehl ∧
    (stid, trip) ∈ w.trip_ ∧ Written E w0 vehl trip r

/-- The workspace `w1` extends `w`: no trip was removed from the registry, no
vehicle of the feed was replaced in `vehmap`, and no key was removed from
`vt_sch` and `vt_rte`. -/
def Ext (F : List Vehicle) (w w1 : TVG) : Prop :=
  (∀ e ∈ w.trip_, e ∈ w1.trip_) ∧
  (∀ vehl ∈ F, Dict.find w.vehmap vehl.id = some vehl →
    Dict.find w1.vehmap vehl.id = some vehl) ∧
  (∀ vid stid, (find2 w.vt_sch vid stid).isSome = true →
    (find2 w1.vt_sch vid stid).isSome = true) ∧
  (∀ vid stid, (find2 w.vt_rte vid stid).isSome = true →
    (find2 w1.vt_rte vid stid).isSome = true)

/-- The invariant of the shared workspace in the rtv region: the registry
invariant; `rvgrph_rv_`, the values of the rv tables and `vted_` are those of
the start `w0`; every entry of `vt_sch` and `vt_rte` belongs to an edge. -/
def WInv (E : Env) (F : List Vehicle) (w0 w : TVG) : Prop :=
  RegInv w ∧ w.rvgrph_rv_ = w0.rvgrph_rv_ ∧
  (∀ v c, get2 w.rv_cst v c 0 = get2 w0.rv_cst v c 0) ∧
  (∀ v c, get2 w.rv_sch v c [] = get2 w0.rv_sch v c []) ∧
  (∀ v c, get2 w.rv_rte v c [] = get2 w0.rv_rte v c []) ∧
  Entries (fun vid stid x => ∃ r, Ent E F w0 w vid stid r ∧ r.schout = x) w.vt_sch ∧
  Entries (fun vid stid x => ∃ r, Ent E F w0 w vid stid r ∧ r.rteout = x) w.vt_rte ∧
  w.vted_ = w0.vted_

/-- The invariant of a worker of the rtv region: the invariant of the
workspace, which extends the workspace `wb`, and every entry of `lcl_vted`
belongs to an edge. -/
def SInv (E : Env) (F : List Vehicle) (w0 wb : TVG) (s : RtvState) : Prop :=
  WInv E F w0 s.w ∧ Ext F wb s.w ∧
  Entries (fun vid stid x => ∃ r, Ent E F w0 s.w vid stid r ∧ r.cstout = x) s.lcl_vted

/-- The invariant of a worker while it handles the vehicle `vehl`. -/
def CurInv (E : Env) (F : List Vehicle) (w0 wb : TVG) (vehl : Vehicle) (s : RtvState) : Prop :=
  SInv E F w0 wb s ∧ Dict.find s.w.vehmap vehl.id = some vehl

/-- The keys of a two-level table are distinct, at both levels. -/
def KeysNodup {A B V : Type} (m : Dict A (Dict B V)) : Prop :=
  (Dict.keys m).Nodup ∧ ∀ e ∈ m, (Dict.keys e.2).Nodup

/-- What the rv region leaves untouched from `w` to `w1`. -/
def RvFrame (w w1 : TVG) : Prop :=
  w1.stid_ = w.stid_ ∧ w1.trip_ = w.trip_ ∧ w1.vted_ = w.vted_ ∧ w1.vt_sch = w.vt_sch ∧
  w1.vt_rte = w.vt_rte ∧ w1.rvgrph_rv_ = w.rvgrph_rv_ ∧ w1.is_matched = w.is_matched

/-- What the rv region keeps true of the rv tables under every behaviour of
the deadline: each entry is the result of a successful `travel` call, and the
keys of `rv_cst` are distinct. -/
def RvSound (E : Env) (w : TVG) : Prop :=
  (∃ seen, RvInv E seen w) ∧ KeysNodup w.rv_cst

/-- The rv tables hold, for every customer of `rvgrph_rv_[v]`, the result of a
successful call `travel(v, {c}, ..)`. -/
def RvOk (E : Env) (w : TVG) : Prop :=
  ∀ v c, c ∈ Dict.getD w.rvgrph_rv_ v [] →
    (travel E v [c] 0 [] []).ok = true ∧
    get2 w.rv_cst v c 0 = (travel E v [c] 0 [] []).cstout ∧
    get2 w.rv_sch v c [] = (travel E v [c] 0 [] []).schout ∧
    get2 w.rv_rte v c [] = (travel E v [c] 0 [] []).rteout

/-- The worker holds an edge of the vehicle id `vid` to the size-1 trip of the
customer `c`: the trip is registered under an id for which `lcl_vted[vid]`,
`vt_sch[vid]` and `vt_rte[vid]` have an entry. -/
def HasEdge (s : RtvState) (vid : VehlId) (c : Customer) : Prop :=
  ∃ stid, (stid, [c]) ∈ s.w.trip_ ∧ (find2 s.lcl_vted vid stid).isSome = true ∧
    (find2 s.w.vt_sch vid stid).isSome = true ∧ (find2 s.w.vt_rte vid stid).isSome = true

/-- The worker has not cancelled its loop and the keys of its `lcl_vted` are
distinct. -/
def Run (s : RtvState) : Prop :=
  s.cancelled = false ∧ KeysNodup s.lcl_vted

/-! ## Concrete data used by the evaluated examples -/

/-- Customer 1 of the examples. -/
def custA : Customer := ⟨1, 10, 20, 0, 100⟩

/-- Customer 2 of the examples. -/
def custB : Customer := ⟨2, 11, 21, 0, 100⟩

/-- Customer 3 of the examples. -/
def custC : Customer := ⟨3, 12, 22, 0, 100⟩

/-- Cost of a route as the cumulative distance of its last waypoint. -/
def lastCost (rte : List Wayp) : DistInt :=
  match rte.getLast? with
  | some w => w.1
  | none => 0

/-- A vehicle of the examples: at node 10, empty, two seats. -/
def vehl1 : Vehicle :=
  { id := 7, capacity := 2, queued := 0, route := [(0, 10)],
    schedule := [⟨7, 10, StopType.VehlOrig⟩], idx_lvn := 0 }

/-- A small oracle for the evaluated examples: a customer is appended to the
end of the route, 5 to its origin and 5 more to its destination; the returned
cost is the cost of the new route; a candidate is within its time windows when
its route costs at most 25. The spatial index holds the vehicle `vehl1` and
returns it for every point; no deadline expires; every commit succeeds. -/
def exEnv : Env where
  sop_insert := fun m c =>
    (lastCost m.route + 10,
     m.schedule ++ [⟨c.id, c.orig, StopType.CustOrig⟩, ⟨c.id, c.dest, StopType.CustDest⟩],
     m.route ++ [(lastCost m.route + 5, c.orig), (lastCost m.route + 10, c.dest)])
  chktw := fun _ rte => decide (lastCost rte ≤ 25)
  route_cost := lastCost
  haversine := fun _ _ => 0
  timeout := fun _ => false
  timeout_rv := fun _ => false
  within := fun _ _ => [vehl1]
  make_vehicle := fun id orig dest _ _ load =>
    { id := id, capacity := -load, queued := 0, route := [(0, orig)],
      schedule := [⟨id, orig, StopType.VehlOrig⟩, ⟨id, dest, StopType.VehlDest⟩], idx_lvn := 0 }
  basecost := fun _ => 100
  assign := fun _ _ _ _ _ => true
  done := fun _ => false

/-- A cost table with 32 feasible customers, ids 0..31, customer `i` at cost
`100 - i`. -/
def bigTable : Dict Customer DistInt :=
  (List.range 32).map (fun (i : Nat) => ((⟨(i : Int), 10, 20, 0, 100⟩ : Customer), 100 - (i : Int)))

/-- A workspace after the rv phase: one vehicle with the 32 customers of
`bigTable`, a second vehicle with two customers. -/
def wsAfterRv : TVG :=
  { reset_workspace with
    rv_cst := [(vehl1, bigTable), ({ vehl1 with id := 8 }, [(custA, 5), (custB, 3)])] }

/-- The example oracle with a validator that accepts every candidate. -/
def okEnv : Env := { exEnv with chktw := fun _ _ => true }

/-- The vehicle of the examples with three seats. -/
def vehl3 : Vehicle := { vehl1 with id := 9, capacity := 3 }

/-- A workspace after the rv phase: customer 1 is feasible for the vehicle, and
there is a request-request edge from customer 1 to customer 2. -/
def wsRr : TVG :=
  { reset_workspace with
    rv_cst := [(vehl1, [(custA, 0)])]
    rvgrph_rv_ := [(vehl1, [custA])]
    rvgrph_rr_ := [(custA, [custB])] }

/-- A workspace after the rv phase: three customers are feasible for the
two-seat vehicle. -/
def wsThree : TVG :=
  { reset_workspace with
    rv_cst := [(vehl1, [(custA, 0), (custB, 0), (custC, 0)])]
    rvgrph_rv_ := [(vehl1, [custA, custB, custC])] }

/-- A workspace after the rv phase: two customers are feasible for the
three-seat vehicle, and both have a request-request edge to customer 3. -/
def wsCap3 : TVG :=
  { reset_workspace with
    rv_cst := [(vehl3, [(custA, 0), (custB, 0)])]
    rvgrph_rv_ := [(vehl3, [custA, custB])]
    rvgrph_rr_ := [(custA, [custC]), (custB, [custC])] }

/-- A workspace after the rv phase with both vehicles: customer 3 is feasible
for the two-seat vehicle, customers 1 and 2 for the three-seat vehicle. -/
def wsTwo : TVG :=
  { wsCap3 with
    rv_cst := [(vehl1, [(custC, 0)]), (vehl3, [(custA, 0), (custB, 0)])]
    rvgrph_rv_ := [(vehl1, [custC]), (vehl3, [custA, custB])] }

/-- The state of a worker that starts on the workspace `w`. -/
def worker_start (w : TVG) : RtvState :=
  { w := w, lcl_vted := [], lcl_trip := [], tripk := [], clock := 0, cancelled := false }

/-- The number of edges in a vehicle-trip table, summed across vehicles. -/
def vted_size (vted : Dict VehlId (Dict SharedTripId DistInt)) : Int :=
  (vted.map (fun e => (e.2.length : Int))).sum

/-- A trip table with the `n` trip ids `1 .. n`, all at cost 0. -/
def manyTrips (n : Nat) : Dict SharedTripId DistInt :=
  (List.range n).map (fun (i : Nat) => ((i : Int) + 1, (0 : Int)))

/-- An example workspace for the integer program: vehicle 7 with the trip 1
that holds customer 5; the matchable customers have the ids 7 and 5. -/
def wsIlp : TVG :=
  { reset_workspace with
    vted_ := [(7, [(1, 10)])]
    trip_ := [(1, [(⟨5, 10, 20, 0, 100⟩ : Customer)])]
    stid_ := 1
    matchable_custs := [7, 5] }

/-- An example workspace for the integer program with disjoint ids: vehicles 7
and 9, customers 1, 2 and 3. -/
def wsIlpOk : TVG :=
  { reset_workspace with
    vted_ := [(7, [(1, 10), (2, 30)]), (9, [(1, 12), (3, 15)])]
    trip_ := [(1, [custA]), (2, [custA, custB]), (3, [custC])]
    stid_ := 3
    matchable_custs := [1, 2, 3] }

/-- A column vector for the program of `wsIlpOk`: vehicle 7 takes trip 2 and
vehicle 9 takes trip 3. -/
def xOk : Nat → Int := fun j => if j = 2 ∨ j = 4 then 1 else 0

/-- The example oracle with an empty spatial index. -/
def noVehEnv : Env := { exEnv with within := fun _ _ => [] }

/-- The customer id `c` belongs to the trip of the column `i`, and the call of
`assign` for the column answered `ok`. -/
def commit_of (E : Env) (w : TVG) (colmap : Dict Nat (Int × SharedTripId)) (sel : Nat → Bool)
    (ok : Bool) (i : Nat) (c : CustId) : Prop :=
  ∃ trip, col_commit E w colmap sel i = some (some (ok, trip)) ∧
    c ∈ trip.map (fun x => x.id)

/-- The invariant of the loop over the columns, after the columns of `pre`:
`is_matched` has the keys it started with, it is true exactly for the customers
of a committed column, the customers of a committed column got `end_delay`,
those of a column whose commit failed got `beg_delay`, and no column with the
trip id -1 was handed to `assign`. -/
def ExtInv (E : Env) (w : TVG) (colmap : Dict Nat (Int × SharedTripId)) (sel : Nat → Bool)
    (d0 : Dict CustId Bool) (s : ExtState) (pre : List Nat) : Prop :=
  Dict.keys s.is_matched = Dict.keys d0 ∧
  (∀ c, Dict.find s.is_matched c = some true ↔
    ∃ i ∈ pre, commit_of E w colmap sel true i c) ∧
  (∀ i ∈ pre, ∀ c, commit_of E w colmap sel true i c → Event.end_delay c ∈ s.log) ∧
  (∀ i ∈ pre, ∀ c, commit_of E w colmap sel false i c → Event.beg_delay c ∈ s.log) ∧
  (∀ i cadd ok, Event.assign i cadd ok ∈ s.log → (Dict.getD colmap i (0, 0)).2 ≠ -1)

/-- The example oracle with a validator that rejects every candidate. -/
def rejEnv : Env := { exEnv with chktw := fun _ _ => false }

/-- The vehicle of the examples with one seat. -/
def vehlOne : Vehicle := { vehl1 with capacity := 1 }

/-- The example oracle with the one-seat vehicle in the spatial index. -/
def oneEnv : Env := { exEnv with within := fun _ _ => [vehlOne] }

/-! ## Shortest-path length (`distance.h`, lines 73-103) -/

/-- The collaborators of `shortest_path_dist` that live outside these sources:
`find_path u v` is the path that `gtree.find_path(u, v, seg)` writes into the
empty `seg`, `none` when the call throws; `edgew` is `Cargo::edgew`. -/
structure SpEnv where
  find_path : NodeId → NodeId → Option (List NodeId)
  edgew : NodeId → NodeId → DistInt

/-- Modelled from the spec: the shortest-path cache behind `Cargo::spexist`,
`Cargo::spget` and `Cargo::spput` (cargo.h is not among the sources), one
dictionary from the key `(u, v)` to a path, without eviction. `calls` is a
ghost log of the pairs handed to `find_path`, in call order. -/
structure SpState where
  spcache : Dict (NodeId × NodeId) (List NodeId)
  calls : List (NodeId × NodeId)
  deriving DecidableEq, Repr

/-- The loop `for (i = 1; i < seg.size(); ++i) cst += edgew(seg.at(i-1), seg.at(i))`
of lines 99-101; `none` when an `.at(..)` throws. The accumulator `cst` is a
`DistInt`, so every addition is one of `int`. -/
def sum_edges (edgew : NodeId → NodeId → DistInt) (seg : List NodeId) : Option DistInt :=
  foldOpt
    (fun (cst : DistInt) (i : Nat) =>
      match seg.get? (i - 1), seg.get? i with
      | some a, some b => some (wrap32 (cst + edgew a b))
      | _, _ => none)
    0 (List.range' 1 (seg.length - 1))

/-- The function `shortest_path_dist(u, v, gtree)` (lines 73-103): the returned
length and the cache after the call; `none` when `find_path` throws (the
exception is rethrown) or an `.at(..)` throws. One call is taken as one step:
the calls of the threads follow one another. -/
def shortest_path_dist (G : SpEnv) (st : SpState) (u v : NodeId) :
    Option (DistInt × SpState) :=
  if Dict.has st.spcache (u, v) then
    match sum_edges G.edgew (Dict.getD st.spcache (u, v) []) with
    | none => none
    | some cst => some (cst, st)
  else
    match G.find_path u v with
    | none => none
    | some seg =>
      match sum_edges G.edgew seg with
      | none => none
      | some cst =>
        some (cst, { spcache := Dict.set st.spcache (u, v) seg, calls := st.calls ++ [(u, v)] })

/-- The length of a path in the words of the specification: the sum of `edgew`
over the consecutive node pairs of the path. -/
def path_length (edgew : NodeId → NodeId → DistInt) (seg : List NodeId) : DistInt :=
  ((seg.zip seg.tail).map (fun p => edgew p.1 p.2)).sum

/-- A road network for the evaluated examples: the path from `u` to `v` visits
`u`, `u + 1`, `v`; every edge weighs the difference of its node ids plus 1. -/
def exSp : SpEnv where
  find_path := fun u v => some [u, u + 1, v]
  edgew := fun a b => b - a + 1

/-- A road network whose every edge weighs 2000000000; the path from `u` to
`v` visits `u`, `u + 1`, `v`. -/
def hugeSp : SpEnv where
  find_path := fun u v => some [u, u + 1, v]
  edgew := fun _ _ => 2000000000

/-- A cache that holds a path for the pair `(5, 9)`. -/
def spOne : SpState := { spcache := [((5, 9), [5, 7, 9])], calls := [] }

/-- The customer ids `1, .., n`. -/
def manyCusts (n : Nat) : List CustId := (List.range' 1 n).map (fun (i : Nat) => (i : Int))

/-- A workspace with one vehicle, one edge and 65535 matchable customers. -/
def wsBig : TVG :=
  { reset_workspace with
    trip_ := [(1, [custA])]
    vted_ := [(7, [(1, 5)])]
    matchable_custs := manyCusts 65535 }

/-- An oracle whose every insertion costs 2000000000 and passes the
time-window test, with routes of cost 20. -/
def hugeEnv : Env :=
  { exEnv with
    sop_insert := fun m _ => (2000000000, m.schedule, m.route)
    chktw := fun _ _ => true
    route_cost := fun _ => 20 }

/-- The state of a worker on `wsThree` after the size-1 phase of the two-seat
vehicle: the trips 1, 2, 3 of the customers 1, 2, 3 are in `tripk[1]`. -/
def afterSize1 : RtvState :=
  [custA, custB, custC].foldl (size1_step vehl1) (rtv_start vehl1 (worker_start wsThree))

/-! ## What the rtv region keeps and where its keys come from -/

/-- The lookups that the extraction makes for the edge `(vid, stid)` (lines
528-532) succeed on `w`: `vehmap.at(vid)`, `vt_rte.at(vid).at(stid)`,
`vt_sch.at(vid).at(stid)` and `trip_.at(stid)`. -/
def Lookups (w : TVG) (vid : VehlId) (stid : SharedTripId) : Prop :=
  (Dict.find w.vehmap vid).isSome = true ∧ (find2 w.vt_rte vid stid).isSome = true ∧
  (find2 w.vt_sch vid stid).isSome = true ∧ (Dict.find w.trip_ stid).isSome = true

/-- The id `vid` is the id of a vehicle of the feed `F` whose `queued` differs
from its `capacity`. -/
def FromFeed (F : List Vehicle) (vid : VehlId) : Prop :=
  ∃ v ∈ F, v.id = vid ∧ v.queued ≠ v.capacity

/-- What the rtv region keeps of the workspace `w0` at its start: the registry
invariant holds, `matchable_custs`, `is_matched` and the two graphs are
untouched, every vehicle key of `rv_cst` was there at the start or is a vehicle
of the feed `F`, and every entry added to `vehmap` is a vehicle of the feed
under its own id, with `queued` different from `capacity`. -/
def Keep (F : List Vehicle) (w0 w : TVG) : Prop :=
  RegInv w ∧ w.matchable_custs = w0.matchable_custs ∧ w.is_matched = w0.is_matched ∧
  w.rvgrph_rr_ = w0.rvgrph_rr_ ∧ w.rvgrph_rv_ = w0.rvgrph_rv_ ∧ w.vted_ = w0.vted_ ∧
  (∀ v ∈ Dict.keys w.rv_cst, v ∈ Dict.keys w0.rv_cst ∨ v ∈ F) ∧
  (∀ e ∈ w.vehmap, e ∈ w0.vehmap ∨ (e.2 ∈ F ∧ e.2.id = e.1 ∧ e.2.queued ≠ e.2.capacity))

/-- Every lookup that succeeds on `w` succeeds on `w1`. -/
def Grow (w w1 : TVG) : Prop :=
  ∀ vid stid, Lookups w vid stid → Lookups w1 vid stid

/-- The invariant of a worker whose share of the feed has the ids `ids`: the
workspace keeps what `Keep` lists, no lookup that succeeded on `wb` was lost,
every vehicle key of `lcl_vted` is an id of the share and of a vehicle with a
free seat, the lookups succeed for every edge of `lcl_vted`, and the keys of
`lcl_vted` are distinct. -/
def KInv (F : List Vehicle) (ids : List VehlId) (w0 wb : TVG) (s : RtvState) : Prop :=
  Keep F w0 s.w ∧ Grow wb s.w ∧
  (∀ e ∈ s.lcl_vted, e.1 ∈ ids ∧ FromFeed F e.1) ∧
  Entries (fun vid stid _ => Lookups s.w vid stid) s.lcl_vted ∧
  KeysNodup s.lcl_vted

/-- Where the rv region gets its keys from, `L` being the customers of the
shares, `custs` the customers of the batch and `w0` the workspace at the start:
`vehmap` is untouched, every vehicle key added to `rv_cst` was returned by the
index for a customer of `L`, and every pair added to `rvgrph_rr_` is a customer
of `L` with a different customer of the batch that passed the test of lines
115-131. -/
def RvProv (E : Env) (L custs : List Customer) (w0 w : TVG) : Prop :=
  w.vehmap = w0.vehmap ∧
  (∀ v ∈ Dict.keys w.rv_cst,
    v ∈ Dict.keys w0.rv_cst ∨ ∃ c ∈ L, v ∈ E.within RANGE c.orig) ∧
  (∀ c c2, c2 ∈ Dict.getD w.rvgrph_rr_ c [] →
    c2 ∈ Dict.getD w0.rvgrph_rr_ c [] ∨ (c ∈ L ∧ c2 ∈ custs ∧ rr_ok E c c2 = true))

/-- The oracle of the examples with an index that returns the vehicle only for
the node 10: customer 1 has a candidate vehicle, customer 2 has none. -/
def farEnv : Env := { exEnv with within := fun _ p => if p = 10 then [vehl1] else [] }

/-! ## Trips without a repeated customer -/

/-- Every registered trip has no repeated customer, and all its customers
satisfy `C`. -/
def Good (C : Customer → Prop) (w : TVG) : Prop :=
  ∀ e ∈ w.trip_, e.2.Nodup ∧ ∀ c ∈ e.2, C c

/-- What the rv region and the heuristic establish of the two graphs: the list
that `rvgrph_rv_` holds for a vehicle has no repeated customer, no customer of
`rvgrph_rr_` is paired with itself, and all their customers satisfy `C`. -/
def GoodGraph (C : Customer → Prop) (w : TVG) : Prop :=
  (∀ v, (Dict.getD w.rvgrph_rv_ v []).Nodup ∧ ∀ c ∈ Dict.getD w.rvgrph_rv_ v [], C c) ∧
  (∀ e ∈ w.rvgrph_rr_, C e.1 ∧ ∀ c ∈ e.2, e.1 ≠ c ∧ C c)

/-- The invariant of a worker on the trips: the invariants `TripsInv` and
`VehlInv`, and the registry and the graphs are `Good`. -/
def GInv (C : Customer → Prop) (base : Dict SharedTripId SharedTrip) (vid : VehlId)
    (s : RtvState) : Prop :=
  (TripsInv base s ∧ VehlInv vid s) ∧ Good C s.w ∧ GoodGraph C s.w

/-- The loop of `sizek_loop` with a ghost counter of its iterations. -/
def sizek_loop_count (E : Env) (vehl : Vehicle) : Nat → Nat → RtvState → Option (RtvState × Nat)
  | fuel, k, s =>
    if vehl.capacity - vehl.queued ≥ (k : Int) ∧ Dict.has s.tripk (k - 1) = true then
      match fuel with
      | 0 => none
      | fuel1 + 1 =>
        match Dict.find s.tripk (k - 1) with
        | none => none
        | some ids =>
          match foldOpt (sizek_outer E vehl k) s ids with
          | none => none
          | some s1 =>
            match sizek_loop_count E vehl fuel1 (k + 1) s1 with
            | none => none
            | some r => some (r.1, r.2 + 1)
    else some (s, 0)

/-- The ids of `tripk[1]` after the size-1 phase: no id is repeated, and each
is registered for a trip of one customer of `pre`. -/
def Singles (pre : List Customer) (s : RtvState) : Prop :=
  (Dict.getD s.tripk 1 []).Nodup ∧
  ∀ q ∈ Dict.getD s.tripk 1 [], ∃ c ∈ pre, (q, [c]) ∈ s.w.trip_

/-- The invariant of the size-2 join over the ids `ids` of `tripk[1]`: `GInv`,
`tripk[1]` is `ids`, and every id of `ids` is registered for a trip of one
customer. -/
def JoinInv (C : Customer → Prop) (base : Dict SharedTripId SharedTrip) (vid : VehlId)
    (ids : List SharedTripId) (s : RtvState) : Prop :=
  GInv C base vid s ∧ Dict.find s.tripk 1 = some ids ∧
  ∀ q ∈ ids, ∃ c, (q, [c]) ∈ s.w.trip_

/-- The invariant of the inner loop of the size-2 join for the outer trip
`id_a`, after the ids `pre`: `JoinInv`, and the local `shtrip` is not empty, has
no repeated customer, and each of its customers satisfies `C` and is the
customer of the trip `id_a` or of a trip of `pre`. -/
def JoinAcc (C : Customer → Prop) (base : Dict SharedTripId SharedTrip) (vid : VehlId)
    (ids : List SharedTripId) (id_a : SharedTripId) (acc : SharedTrip × RtvState)
    (pre : List SharedTripId) : Prop :=
  JoinInv C base vid ids acc.2 ∧ acc.1 ≠ [] ∧ acc.1.Nodup ∧
  ∀ c ∈ acc.1, C c ∧ ∃ q, (q = id_a ∨ q ∈ pre) ∧ (q, [c]) ∈ acc.2.w.trip_

/-- The state of a worker on `wsCap3` after the size-1 phase of the three-seat
vehicle and the reading of the deadline that follows it. -/
def afterSize1Cap3 : RtvState :=
  check_timeout okEnv
    ([custA, custB].foldl (size1_step vehl3) (rtv_start vehl3 (worker_start wsCap3)))

/-- What the rv region keeps true of the customers in its tables, `L` being
the customers of the shares and `custs` the customers of the batch: every
customer key of `rv_cst` is a customer of `L`, and every pair of `rvgrph_rr_`
is a customer of `L` with a different customer of the batch. -/
def RvGood (L custs : List Customer) (w : TVG) : Prop :=
  (∀ e ∈ w.rv_cst, ∀ c ∈ Dict.keys e.2, c ∈ L) ∧
  (∀ e ∈ w.rvgrph_rr_, e.1 ∈ L ∧ ∀ c ∈ e.2, e.1 ≠ c ∧ c ∈ custs)

/-- The trip `t` is a pair `[a, b]` taken from a request-request edge of `w`:
`b` is in the list `rvgrph_rr_[a]`. -/
def RrPair (w : TVG) (t : SharedTrip) : Prop :=
  ∃ a b l, t = [a, b] ∧ (a, l) ∈ w.rvgrph_rr_ ∧ b ∈ l

/-- The invariant of `tripk[1]` and `tripk[2]` while the worker handles the
vehicle `vid`: every id of `tripk[1]` is the trip of one customer, every id of
`tripk[2]` is a pair from a request-request edge or a trip each of whose
customers has its size-1 trip recorded for the vehicle, and `tripk` has no
key 0. -/
def PairInv (vid : VehlId) (s : RtvState) : Prop :=
  (∀ ids q, Dict.find s.tripk 1 = some ids → q ∈ ids →
    ∃ c, Dict.find s.lcl_trip q = some [c]) ∧
  (∀ ids stid, Dict.find s.tripk 2 = some ids → stid ∈ ids →
    ∃ t, Dict.find s.lcl_trip stid = some t ∧
      (RrPair s.w t ∨ ∀ c ∈ t, ∃ q, Dict.find s.lcl_trip q = some [c] ∧
        q ∈ Dict.keys (Dict.getD s.lcl_vted vid []))) ∧
  Dict.find s.tripk 0 = none

/-- Every trip id that `lcl_vted[vid]` holds is an id of `tripk`. -/
def Cov (vid : VehlId) (s : RtvState) : Prop :=
  ∀ q ∈ Dict.keys (Dict.getD s.lcl_vted vid []), ∃ k ids, Dict.find s.tripk k = some ids ∧ q ∈ ids

/-- Apriori soundness of the table `tbl` of one vehicle with respect to the
registry `trip_` and the ids `tripk` that the phases recorded for the vehicle,
`w0` being the workspace at the start of the rtv region. Every key of `tbl` is
an id that a phase recorded, under some `k ≥ 1`. Every id of the size-1 phase
is a key of `tbl` and its trip has one customer. Every id that the size-k phase
recorded under `k ≥ 3` is a key of `tbl`, its trip has `k` customers, and each
of the `k` sequences with one customer erased is the trip of a key of `tbl`.
Every id that the size-2 phases recorded is a key of `tbl`, and its trip is a
pair from a request-request edge, or every customer of the trip has its size-1
trip under a key of `tbl`. -/
def Apriori (w0 : TVG) (trip_ : Dict SharedTripId SharedTrip)
    (tripk : Dict Nat (List SharedTripId)) (tbl : Dict SharedTripId DistInt) : Prop :=
  (∀ q ∈ Dict.keys tbl, ∃ k ids, 1 ≤ k ∧ Dict.find tripk k = some ids ∧ q ∈ ids) ∧
  (∀ ids q, Dict.find tripk 1 = some ids → q ∈ ids →
    q ∈ Dict.keys tbl ∧ ∃ c, Dict.find trip_ q = some [c]) ∧
  (∀ k ids stid, 3 ≤ k → Dict.find tripk k = some ids → stid ∈ ids →
    stid ∈ Dict.keys tbl ∧ ∃ t, Dict.find trip_ stid = some t ∧ t.length = k ∧
      ∀ p, p < k → ∃ q, q ∈ Dict.keys tbl ∧ Dict.find trip_ q = some (t.eraseIdx p)) ∧
  (∀ ids stid, Dict.find tripk 2 = some ids → stid ∈ ids →
    stid ∈ Dict.keys tbl ∧ ∃ t, Dict.find trip_ stid = some t ∧
      (RrPair w0 t ∨ ∀ c ∈ t, ∃ q, q ∈ Dict.keys tbl ∧ Dict.find trip_ q = some [c]))

/-! ## Theorems -/

theorem find_trip_set_of_none (d : Dict SharedTripId SharedTrip) (k : SharedTripId)
    (t : SharedTrip) (h : find_trip d t = none) : find_trip (Dict.set d k t) t = some k := by
  induction d with
  | nil => simp [Dict.set, find_trip]
  | cons e r ih =>
    obtain ⟨k1, t1⟩ := e
    simp only [find_trip] at h
    split at h
    · exact absurd h (by simp)
    · rename_i hne
      simp only [Dict.set]
      split
      · simp [find_trip]
      · simp [find_trip, hne, ih h]

/-- A second `add_trip` with the same trip returns the same id and changes
nothing. -/
theorem add_trip_twice (w : TVG) (t : SharedTrip) :
    add_trip (add_trip w t).2 t = ((add_trip w t).1, (add_trip w t).2) := by
  cases h : find_trip w.trip_ t with
  | some k => simp [add_trip, h]
  | none =>
    have h2 := find_trip_set_of_none w.trip_ (w.stid_ + 1) t h
    simp [add_trip, h, h2]

/-- C1: `add_trip` is idempotent. For every workspace and every trip, a second
call with the same trip returns the id of the first call and leaves the whole
workspace (so `trip_`, its size, `stid_` and `cted_`) as the first call left it. -/
theorem add_trip_idempotent (w : TVG) (t : SharedTrip) :
    (add_trip (add_trip w t).2 t).1 = (add_trip w t).1 ∧
    (add_trip (add_trip w t).2 t).2 = (add_trip w t).2 ∧
    (add_trip (add_trip w t).2 t).2.trip_ = (add_trip w t).2.trip_ ∧
    (add_trip (add_trip w t).2 t).2.trip_.length = (add_trip w t).2.trip_.length ∧
    (add_trip (add_trip w t).2 t).2.stid_ = (add_trip w t).2.stid_ ∧
    (add_trip (add_trip w t).2 t).2.cted_ = (add_trip w t).2.cted_ := by
  rw [add_trip_twice]
  exact ⟨rfl, rfl, rfl, rfl, rfl, rfl⟩

theorem mem_keys_of_RegInv {w : TVG} (h : RegInv w) (k : SharedTripId) :
    k ∈ Dict.keys w.trip_ ↔ 1 ≤ k ∧ k ≤ w.stid_ := by
  obtain ⟨n, hn, hk, _⟩ := h
  rw [hk, hn]
  simp only [List.mem_map, List.mem_range]
  constructor
  · rintro ⟨i, hi, rfl⟩
    simp only [SharedTripId] at *
    omega
  · rintro ⟨h1, h2⟩
    simp only [SharedTripId] at *
    exact ⟨(k - 1).toNat, by omega, by omega⟩

theorem nodup_keys_of_RegInv {w : TVG} (h : RegInv w) : (Dict.keys w.trip_).Nodup := by
  obtain ⟨n, _, hk, _⟩ := h
  rw [hk]
  exact List.Nodup.map (fun a b hab => by simpa using hab) (List.nodup_range n)

theorem Dict.set_of_not_mem {K V : Type} [DecidableEq K] (d : Dict K V) (k : K) (v : V)
    (h : k ∉ Dict.keys d) : Dict.set d k v = d ++ [(k, v)] := by
  induction d with
  | nil => rfl
  | cons e r ih =>
    obtain ⟨k1, v1⟩ := e
    simp only [Dict.keys, List.map_cons, List.mem_cons, not_or] at h
    have hne : ¬ k1 = k := fun hh => h.1 hh.symm
    simp only [Dict.set, hne, if_false, List.cons_append]
    rw [ih h.2]

theorem find_trip_some_mem {d : Dict SharedTripId SharedTrip} {t : SharedTrip}
    {k : SharedTripId} (h : find_trip d t = some k) : (k, t) ∈ d := by
  induction d with
  | nil => simp [find_trip] at h
  | cons e r ih =>
    obtain ⟨k1, t1⟩ := e
    simp only [find_trip] at h
    split at h
    · rename_i heq
      simp only [Option.some.injEq] at h
      subst h; subst heq
      exact List.mem_cons_self _ _
    · exact List.mem_cons_of_mem _ (ih h)

theorem find_trip_none_not_mem {d : Dict SharedTripId SharedTrip} {t : SharedTrip}
    (h : find_trip d t = none) : t ∉ d.map Prod.snd := by
  induction d with
  | nil => simp
  | cons e r ih =>
    obtain ⟨k1, t1⟩ := e
    simp only [find_trip] at h
    split at h
    · exact absurd h (by simp)
    · rename_i hne
      simp only [List.map_cons, List.mem_cons, not_or]
      exact ⟨fun hh => hne hh.symm, ih h⟩

theorem find_trip_isSome_of_mem {d : Dict SharedTripId SharedTrip} {t : SharedTrip}
    (h : t ∈ d.map Prod.snd) : ∃ k, find_trip d t = some k := by
  cases hf : find_trip d t with
  | some k => exact ⟨k, rfl⟩
  | none => exact absurd h (find_trip_none_not_mem hf)

/-- What one `add_trip` does to a registry that satisfies the invariant: either
the trip is stored already and nothing changes, or it is appended under the
next id. -/
theorem add_trip_cases {w : TVG} (h : RegInv w) (t : SharedTrip) :
    ((add_trip w t).2 = w ∧ ((add_trip w t).1, t) ∈ w.trip_) ∨
    (t ∉ w.trip_.map Prod.snd ∧ (add_trip w t).1 = w.stid_ + 1 ∧
      (add_trip w t).2 = { w with
        stid_ := w.stid_ + 1
        trip_ := w.trip_ ++ [(w.stid_ + 1, t)]
        cted_ := t.foldl (fun c cust => cted_push c cust.id (w.stid_ + 1)) w.cted_ }) := by
  cases hf : find_trip w.trip_ t with
  | some k =>
    left
    simp only [add_trip, hf]
    exact ⟨trivial, find_trip_some_mem hf⟩
  | none =>
    right
    have hk : w.stid_ + 1 ∉ Dict.keys w.trip_ := by
      rw [mem_keys_of_RegInv h]
      simp only [SharedTripId] at *
      omega
    refine ⟨find_trip_none_not_mem hf, ?_, ?_⟩
    · simp [add_trip, hf]
    · simp [add_trip, hf, Dict.set_of_not_mem _ _ _ hk]

theorem add_trip_RegInv {w : TVG} (h : RegInv w) (t : SharedTrip) :
    RegInv (add_trip w t).2 := by
  rcases add_trip_cases h t with ⟨h1, _⟩ | ⟨hn, _, h2⟩
  · rw [h1]; exact h
  · rw [h2]
    obtain ⟨n, hs, hk, hv⟩ := h
    refine ⟨n + 1, ?_, ?_, ?_⟩
    · simp [hs]
    · simp only [Dict.keys] at hk
      simp [Dict.keys, List.range_succ, hk, hs]
    · simp only [List.map_append, List.map_cons, List.map_nil]
      rw [List.nodup_append]
      refine ⟨hv, List.nodup_singleton _, ?_⟩
      intro a ha hb
      simp only [List.mem_singleton] at hb
      subst hb
      exact hn ha

theorem reset_RegInv : RegInv reset_workspace :=
  ⟨0, rfl, rfl, List.nodup_nil⟩

theorem add_trips_RegInv {w : TVG} (h : RegInv w) (ts : List SharedTrip) :
    RegInv (add_trips w ts) := by
  induction ts generalizing w with
  | nil => exact h
  | cons t r ih => exact ih (add_trip_RegInv h t)

theorem add_trip_id_mem {w : TVG} (h : RegInv w) (t : SharedTrip) :
    ((add_trip w t).1, t) ∈ (add_trip w t).2.trip_ := by
  rcases add_trip_cases h t with ⟨h1, hm⟩ | ⟨_, h1, h2⟩
  · rw [h1]; exact hm
  · rw [h2, h1]; simp

theorem add_trip_trip_mono {w : TVG} (h : RegInv w) (t : SharedTrip) (e : SharedTripId × SharedTrip)
    (he : e ∈ w.trip_) : e ∈ (add_trip w t).2.trip_ := by
  rcases add_trip_cases h t with ⟨h1, _⟩ | ⟨_, _, h2⟩
  · rw [h1]; exact he
  · rw [h2]; simp [he]

theorem RegInv_functional {w : TVG} (h : RegInv w) {k : SharedTripId} {s t : SharedTrip}
    (hs : (k, s) ∈ w.trip_) (ht : (k, t) ∈ w.trip_) : s = t := by
  have hn := nodup_keys_of_RegInv h
  have := List.inj_on_of_nodup_map hn hs ht rfl
  exact (Prod.mk.inj this).2

theorem RegInv_injective {w : TVG} (h : RegInv w) {i j : SharedTripId} {s : SharedTrip}
    (hi : (i, s) ∈ w.trip_) (hj : (j, s) ∈ w.trip_) : i = j := by
  obtain ⟨_, _, _, hv⟩ := h
  have := List.inj_on_of_nodup_map hv hi hj rfl
  exact (Prod.mk.inj this).1

/-- C2 (as stated, refuted): from the empty registry the sequences `[a, b]` and
`[b, a]`, which hold the same two customers, get the ids 1 and 2, and both are
stored. -/
theorem add_trip_reordered_gets_new_id :
    (∀ c, c ∈ [custA, custB] ↔ c ∈ [custB, custA]) ∧
    (add_trip reset_workspace [custA, custB]).1 = 1 ∧
    (add_trip (add_trip reset_workspace [custA, custB]).2 [custB, custA]).1 = 2 ∧
    (add_trip (add_trip reset_workspace [custA, custB]).2 [custB, custA]).2.trip_ =
      [(1, [custA, custB]), (2, [custB, custA])] := by
  refine ⟨?_, ?_, ?_, ?_⟩
  · intro c; simp [or_comm]
  · decide
  · decide
  · decide

/-- C2 (amended): trip equality in the registry is equality of sequences. After
`reset_workspace` and any calls of `add_trip`, `add_trip(s1)` followed by
`add_trip(s2)` returns the same id exactly when `s1` and `s2` are the same
sequence; then the second call changes nothing, and otherwise both sequences
are stored under their two ids. -/
theorem add_trip_same_id_iff_same_sequence (ts : List SharedTrip) (s1 s2 : SharedTrip) :
    ((add_trip (add_trip (add_trips reset_workspace ts) s1).2 s2).1 =
        (add_trip (add_trips reset_workspace ts) s1).1 ↔ s1 = s2) ∧
    (s1 = s2 → (add_trip (add_trip (add_trips reset_workspace ts) s1).2 s2).2 =
        (add_trip (add_trips reset_workspace ts) s1).2) ∧
    (s1 ≠ s2 →
      ((add_trip (add_trips reset_workspace ts) s1).1, s1) ∈
        (add_trip (add_trip (add_trips reset_workspace ts) s1).2 s2).2.trip_ ∧
      ((add_trip (add_trip (add_trips reset_workspace ts) s1).2 s2).1, s2) ∈
        (add_trip (add_trip (add_trips reset_workspace ts) s1).2 s2).2.trip_) := by
  have h0 : RegInv (add_trips reset_workspace ts) := add_trips_RegInv reset_RegInv ts
  have h1 : RegInv (add_trip (add_trips reset_workspace ts) s1).2 := add_trip_RegInv h0 s1
  have h2 := add_trip_RegInv h1 s2
  have m1 := add_trip_trip_mono h1 s2 _ (add_trip_id_mem h0 s1)
  have m2 := add_trip_id_mem h1 s2
  refine ⟨⟨fun heq => ?_, fun heq => ?_⟩, fun heq => ?_, fun _ => ⟨m1, m2⟩⟩
  · rw [← heq] at m1
    exact (RegInv_functional h2 m2 m1).symm
  · subst heq
    rw [add_trip_twice]
  · subst heq
    rw [add_trip_twice]

/-- C3: after `reset_workspace` and any sequence of `add_trip` calls the keys of
`trip_` are exactly the integers `1 .. stid_`, each key occurs once, no trip is
stored under two ids, and the id returned by a further call is at least 1, so
it is never the `-1` that marks a `y` column. -/
theorem registry_invariant (ts : List SharedTrip) (t : SharedTrip) :
    (∀ k, k ∈ Dict.keys (add_trips reset_workspace ts).trip_ ↔
      1 ≤ k ∧ k ≤ (add_trips reset_workspace ts).stid_) ∧
    (Dict.keys (add_trips reset_workspace ts).trip_).Nodup ∧
    ((add_trips reset_workspace ts).trip_.map Prod.snd).Nodup ∧
    (∀ i j s, (i, s) ∈ (add_trips reset_workspace ts).trip_ →
      (j, s) ∈ (add_trips reset_workspace ts).trip_ → i = j) ∧
    1 ≤ (add_trip (add_trips reset_workspace ts) t).1 ∧
    (add_trip (add_trips reset_workspace ts) t).1 ≠ -1 := by
  have h0 : RegInv (add_trips reset_workspace ts) := add_trips_RegInv reset_RegInv ts
  have h1 := add_trip_RegInv h0 t
  have hid : 1 ≤ (add_trip (add_trips reset_workspace ts) t).1 := by
    have hm := add_trip_id_mem h0 t
    have hk : (add_trip (add_trips reset_workspace ts) t).1 ∈
        Dict.keys (add_trip (add_trips reset_workspace ts) t).2.trip_ :=
      List.mem_map.mpr ⟨_, hm, rfl⟩
    exact ((mem_keys_of_RegInv h1 _).mp hk).1
  refine ⟨mem_keys_of_RegInv h0, nodup_keys_of_RegInv h0, h0.choose_spec.2.2, ?_, hid, ?_⟩
  · intro i j s hi hj
    exact RegInv_injective h0 hi hj
  · simp only [SharedTripId] at *
    omega

/-! ### The insertion oracle -/

theorem insertions_append (E : Env) (m : Vehicle) (pre post : List Customer) :
    insertions E m (pre ++ post) =
      insertions E m pre ++ insertions E (after_inserting E m pre) post := by
  induction pre generalizing m with
  | nil => rfl
  | cons c r ih => simp [insertions, after_inserting, ih] 

/-- A value inside the range of `int` is not changed by `wrap32`. -/
theorem wrap32_of_range (x : Int) (h1 : -2147483648 ≤ x) (h2 : x ≤ 2147483647) :
    wrap32 x = x := by
  unfold wrap32
  omega

/-- The result of `wrap32` is inside the range of `int`. -/
theorem wrap32_range (x : Int) : -2147483648 ≤ wrap32 x ∧ wrap32 x ≤ 2147483647 := by
  unfold wrap32
  omega

/-- Reducing an operand first does not change the reduced sum. -/
theorem wrap32_add_left (a b : Int) : wrap32 (wrap32 a + b) = wrap32 (a + b) := by
  unfold wrap32
  omega

/-- Reducing a value that is not negative never makes it larger. -/
theorem wrap32_le_self (x : Int) (h : 0 ≤ x) : wrap32 x ≤ x := by
  unfold wrap32
  omega

/-- The accumulation `cstsum += cst` over a list of costs, followed by one more
addition, is the plain sum reduced once. -/
theorem wrap32_foldl (l : List Int) :
    ∀ (a b : Int), wrap32 (l.foldl (fun acc x => wrap32 (acc + x)) a + b) =
      wrap32 (a + l.sum + b) := by
  induction l with
  | nil => intro a b; simp
  | cons x r ih =>
    intro a b
    rw [List.foldl_cons, ih, List.sum_cons]
    have h := wrap32_add_left (a + x) (r.sum + b)
    have e1 : wrap32 (a + x) + r.sum + b = wrap32 (a + x) + (r.sum + b) := by ring
    have e2 : a + (x + r.sum) + b = a + x + (r.sum + b) := by ring
    rw [e1, e2, h]

/-- The loop of `travel` when every candidate passes `chktw`. -/
theorem travel_loop_all_pass (E : Env) (custs : List Customer) (st : TravelState)
    (h : ∀ r ∈ insertions E st.mtvehl custs, E.chktw r.2.1 r.2.2 = true) :
    travel_loop E st custs =
      (true,
        { mtvehl := after_inserting E st.mtvehl custs
          schctr := match (insertions E st.mtvehl custs).getLast? with
            | some r => r.2.1
            | none => st.schctr
          rtectr := match (insertions E st.mtvehl custs).getLast? with
            | some r => r.2.2
            | none => st.rtectr
          cstsum := ((insertions E st.mtvehl custs).map Prod.fst).foldl
            (fun acc x => wrap32 (acc + x)) st.cstsum
          calls := st.calls ++ custs }) := by
  induction custs generalizing st with
  | nil => simp [travel_loop, insertions, after_inserting]
  | cons c rest ih =>
    have hc : E.chktw (E.sop_insert st.mtvehl c).2.1 (E.sop_insert st.mtvehl c).2.2 = true :=
      h _ (by simp [insertions])
    have hrest : ∀ r ∈ insertions E (commit st.mtvehl (E.sop_insert st.mtvehl c)) rest,
        E.chktw r.2.1 r.2.2 = true := fun r hr => h r (by simp [insertions, hr])
    simp only [travel_loop, hc, if_true]
    rw [ih _ hrest]
    simp only [insertions, after_inserting, List.foldl_cons, List.map_cons,
      List.append_assoc, List.singleton_append, Prod.mk.injEq, true_and]
    cases hl : (insertions E (commit st.mtvehl (E.sop_insert st.mtvehl c)) rest).getLast? with
    | none =>
      have hnil := List.getLast?_eq_none_iff.mp hl
      simp [hnil]
    | some r =>
      have : (E.sop_insert st.mtvehl c ::
          insertions E (commit st.mtvehl (E.sop_insert st.mtvehl c)) rest).getLast? = some r := by
        rw [List.getLast?_cons]
        simp [hl]
      simp [this]

/-- The loop of `travel` when the first rejected candidate is the one of `c`. -/
theorem travel_loop_first_reject (E : Env) (pre : List Customer) (c : Customer)
    (post : List Customer) (st : TravelState)
    (hpre : ∀ r ∈ insertions E st.mtvehl pre, E.chktw r.2.1 r.2.2 = true)
    (hc : E.chktw (E.sop_insert (after_inserting E st.mtvehl pre) c).2.1
      (E.sop_insert (after_inserting E st.mtvehl pre) c).2.2 = false) :
    (travel_loop E st (pre ++ c :: post)).1 = false ∧
    (travel_loop E st (pre ++ c :: post)).2.calls = st.calls ++ pre ++ [c] := by
  induction pre generalizing st with
  | nil =>
    simp only [after_inserting, List.foldl_nil] at hc
    simp [travel_loop, hc]
  | cons d rest ih =>
    have hd : E.chktw (E.sop_insert st.mtvehl d).2.1 (E.sop_insert st.mtvehl d).2.2 = true :=
      hpre _ (by simp [insertions])
    have hrest : ∀ r ∈ insertions E (commit st.mtvehl (E.sop_insert st.mtvehl d)) rest,
        E.chktw r.2.1 r.2.2 = true := fun r hr => hpre r (by simp [insertions, hr])
    simp only [List.cons_append, travel_loop, hd, if_true]
    have := ih { mtvehl := commit st.mtvehl (E.sop_insert st.mtvehl d),
                 schctr := (E.sop_insert st.mtvehl d).2.1,
                 rtectr := (E.sop_insert st.mtvehl d).2.2,
                 cstsum := wrap32 (st.cstsum + (E.sop_insert st.mtvehl d).1),
                 calls := st.calls ++ [d] } hrest hc
    simpa using this

/-- Either every candidate passes, or the customer list splits at the first
rejected candidate. -/
theorem insertions_pass_or_split (E : Env) (m : Vehicle) (custs : List Customer) :
    (∀ r ∈ insertions E m custs, E.chktw r.2.1 r.2.2 = true) ∨
    ∃ pre c post, custs = pre ++ c :: post ∧
      (∀ r ∈ insertions E m pre, E.chktw r.2.1 r.2.2 = true) ∧
      E.chktw (E.sop_insert (after_inserting E m pre) c).2.1
        (E.sop_insert (after_inserting E m pre) c).2.2 = false := by
  induction custs generalizing m with
  | nil => left; simp [insertions]
  | cons c rest ih =>
    cases hc : E.chktw (E.sop_insert m c).2.1 (E.sop_insert m c).2.2 with
    | false =>
      right
      exact ⟨[], c, rest, rfl, by simp [insertions], by simpa [after_inserting] using hc⟩
    | true =>
      rcases ih (commit m (E.sop_insert m c)) with hall | ⟨pre, d, post, heq, hp, hd⟩
      · left
        intro r hr
        simp only [insertions, List.mem_cons] at hr
        rcases hr with rfl | hr
        · exact hc
        · exact hall r hr
      · right
        refine ⟨c :: pre, d, post, by simp [heq], ?_, by simpa [after_inserting] using hd⟩
        intro r hr
        simp only [insertions, List.mem_cons] at hr
        rcases hr with rfl | hr
        · exact hc
        · exact hp r hr

/-- C4 (as stated, refuted): for the example oracle and a vehicle whose
route costs 0, inserting one customer passes `chktw` and `sop_insert` returns
10, yet the reported cost is 0 and not 10 minus the cost 0 of the original
route: the subtracted cost is the one of the route after the insertion. -/
theorem travel_cost_not_minus_original_route :
    (∀ r ∈ insertions exEnv vehl1 [custA], exEnv.chktw r.2.1 r.2.2 = true) ∧
    (travel exEnv vehl1 [custA] 0 [] []).ok = true ∧
    (travel exEnv vehl1 [custA] 0 [] []).cstout = 0 ∧
    ((insertions exEnv vehl1 [custA]).map Prod.fst).sum - exEnv.route_cost vehl1.route = 10 := by
  refine ⟨?_, ?_, ?_, ?_⟩
  · decide
  · decide
  · decide
  · decide

/-- C4 (amended): for every vehicle and every customer list on which every
insertion passes `chktw`, `travel` returns true and the reported cost is the
sum of the values returned by `sop_insert` minus the cost of the route that the
mutable copy holds after the last insertion, which is the candidate route of
the last customer (the route of the vehicle itself only for an empty list). The
cost is computed in `DistInt`, a 32-bit `int`: the reported value is that
difference reduced to 32 bits, and it is the difference itself whenever the
difference lies within the range of `int`. -/
theorem travel_cost_minus_last_route (E : Env) (vehl : Vehicle) (custs : List Customer)
    (cst0 : DistInt) (sch0 : List Stop) (rte0 : List Wayp)
    (h : ∀ r ∈ insertions E vehl custs, E.chktw r.2.1 r.2.2 = true) :
    (travel E vehl custs cst0 sch0 rte0).ok = true ∧
    (travel E vehl custs cst0 sch0 rte0).cstout =
      wrap32 (((insertions E vehl custs).map Prod.fst).sum -
        E.route_cost (last_route E vehl custs)) ∧
    (after_inserting E vehl custs).route = last_route E vehl custs ∧
    (-2147483648 ≤ ((insertions E vehl custs).map Prod.fst).sum -
        E.route_cost (last_route E vehl custs) →
      ((insertions E vehl custs).map Prod.fst).sum -
        E.route_cost (last_route E vehl custs) ≤ 2147483647 →
      (travel E vehl custs cst0 sch0 rte0).cstout =
        ((insertions E vehl custs).map Prod.fst).sum -
          E.route_cost (last_route E vehl custs)) := by
  have hroute : ∀ (cs : List Customer) (m : Vehicle),
      (after_inserting E m cs).route = last_route E m cs := by
    intro cs
    induction cs with
    | nil => intro m; rfl
    | cons c rest ih =>
      intro m
      have h1 : after_inserting E m (c :: rest) =
          after_inserting E (commit m (E.sop_insert m c)) rest := rfl
      rw [h1, ih]
      simp only [last_route, insertions]
      cases hl : (insertions E (commit m (E.sop_insert m c)) rest).getLast? with
      | none =>
        have hnil := List.getLast?_eq_none_iff.mp hl
        rw [hnil]
        simp [commit, Vehicle.reset_lvn, Vehicle.set_rte]
      | some r =>
        have : (E.sop_insert m c ::
            insertions E (commit m (E.sop_insert m c)) rest).getLast? = some r := by
          rw [List.getLast?_cons]
          simp [hl]
        simp [this]
  have hl := travel_loop_all_pass E custs
    { mtvehl := vehl, schctr := [], rtectr := [], cstsum := 0, calls := [] } h
  have hcst : (travel E vehl custs cst0 sch0 rte0).cstout =
      wrap32 (((insertions E vehl custs).map Prod.fst).sum -
        E.route_cost (last_route E vehl custs)) := by
    simp only [travel, hl, if_true, hroute]
    have hw := wrap32_foldl ((insertions E vehl custs).map Prod.fst) 0
      (-E.route_cost (last_route E vehl custs))
    simp only [zero_add, ← sub_eq_add_neg] at hw
    exact hw
  refine ⟨?_, hcst, hroute custs vehl, ?_⟩
  · simp only [travel, hl, if_true]
  · intro h1 h2
    rw [hcst]
    exact wrap32_of_range _ h1 h2

/-- C4 (amended), at a concrete input: two customers, both accepted; the sum
of the returned values is 30 and the route after the last insertion costs 20,
so the difference 10 is inside the range of `int` and is the reported cost. -/
theorem travel_cost_minus_last_route_witness :
    (∀ r ∈ insertions exEnv vehl1 [custA, custB], exEnv.chktw r.2.1 r.2.2 = true) ∧
    ((insertions exEnv vehl1 [custA, custB]).map Prod.fst).sum -
        exEnv.route_cost (last_route exEnv vehl1 [custA, custB]) = 10 ∧
    (travel exEnv vehl1 [custA, custB] 0 [] []).ok = true ∧
    (travel exEnv vehl1 [custA, custB] 0 [] []).cstout =
      wrap32 (((insertions exEnv vehl1 [custA, custB]).map Prod.fst).sum -
        exEnv.route_cost (last_route exEnv vehl1 [custA, custB])) ∧
    (travel exEnv vehl1 [custA, custB] 0 [] []).cstout =
      ((insertions exEnv vehl1 [custA, custB]).map Prod.fst).sum -
        exEnv.route_cost (last_route exEnv vehl1 [custA, custB]) :=
  ⟨by decide, by decide,
   (travel_cost_minus_last_route exEnv vehl1 [custA, custB] 0 [] [] (by decide)).1,
   (travel_cost_minus_last_route exEnv vehl1 [custA, custB] 0 [] [] (by decide)).2.1,
   (travel_cost_minus_last_route exEnv vehl1 [custA, custB] 0 [] [] (by decide)).2.2.2
     (by decide) (by decide)⟩

/-- The accumulation of `travel` at two accepted insertions of 2000000000
each, with a last route of cost 20: the `int` sum wraps and the reported cost
is -294967316, not 3999999980. -/
theorem travel_cost_wraps :
    (travel hugeEnv vehl1 [custA, custB] 0 [] []).ok = true ∧
    (travel hugeEnv vehl1 [custA, custB] 0 [] []).cstout = -294967316 ∧
    ((insertions hugeEnv vehl1 [custA, custB]).map Prod.fst).sum -
      hugeEnv.route_cost (last_route hugeEnv vehl1 [custA, custB]) = 3999999980 := by
  refine ⟨?_, ?_, ?_⟩
  · decide
  · decide
  · decide

/-- C5: `travel` returns false exactly when the customer list splits as
`pre ++ c :: post` where every candidate of `pre` passes `chktw` and the
candidate of `c`, computed on the copy that holds `pre`, fails it. In that case
`sop_insert` was called for `pre` and `c` and for no later customer, `cstout`
is -1, and `schout` / `rteout` are the values the caller passed. When `travel`
returns true, `schout` / `rteout` are the candidate schedule and route of the
last insertion. The copy that holds `pre` is the copy of the specification,
`updated_copy`: schedule and route are the candidate of the customer before,
the cursor of the last visited node is 0, the other fields are those of the
vehicle; and the candidate of each customer is what `sop_insert` returns on
that copy. -/
theorem travel_false_iff_first_reject (E : Env) (vehl : Vehicle) (custs : List Customer)
    (cst0 : DistInt) (sch0 : List Stop) (rte0 : List Wayp) :
    ((travel E vehl custs cst0 sch0 rte0).ok = false ↔
      ∃ pre c post, custs = pre ++ c :: post ∧
        (∀ r ∈ insertions E vehl pre, E.chktw r.2.1 r.2.2 = true) ∧
        E.chktw (E.sop_insert (after_inserting E vehl pre) c).2.1
          (E.sop_insert (after_inserting E vehl pre) c).2.2 = false) ∧
    (∀ pre c post, custs = pre ++ c :: post →
      (∀ r ∈ insertions E vehl pre, E.chktw r.2.1 r.2.2 = true) →
      E.chktw (E.sop_insert (after_inserting E vehl pre) c).2.1
          (E.sop_insert (after_inserting E vehl pre) c).2.2 = false →
      (travel E vehl custs cst0 sch0 rte0).ok = false ∧
      (travel E vehl custs cst0 sch0 rte0).calls = pre ++ [c] ∧
      (travel E vehl custs cst0 sch0 rte0).cstout = -1 ∧
      (travel E vehl custs cst0 sch0 rte0).schout = sch0 ∧
      (travel E vehl custs cst0 sch0 rte0).rteout = rte0) ∧
    ((travel E vehl custs cst0 sch0 rte0).ok = true →
      (travel E vehl custs cst0 sch0 rte0).calls = custs ∧
      ∀ r, (insertions E vehl custs).getLast? = some r →
        (travel E vehl custs cst0 sch0 rte0).schout = r.2.1 ∧
        (travel E vehl custs cst0 sch0 rte0).rteout = r.2.2) ∧
    (∀ pre, after_inserting E vehl pre = updated_copy E vehl pre) ∧
    (∀ pre c, insertions E vehl (pre ++ [c]) =
      insertions E vehl pre ++ [E.sop_insert (updated_copy E vehl pre) c]) := by
  have hcopy : ∀ (pre : List Customer) (m : Vehicle),
      after_inserting E m pre = updated_copy E m pre := by
    intro pre
    induction pre with
    | nil => intro m; rfl
    | cons c rest ih =>
      intro m
      have h1 : after_inserting E m (c :: rest) =
          after_inserting E (commit m (E.sop_insert m c)) rest := rfl
      rw [h1, ih]
      rfl
  have hsplit : ∀ pre c post, custs = pre ++ c :: post →
      (∀ r ∈ insertions E vehl pre, E.chktw r.2.1 r.2.2 = true) →
      E.chktw (E.sop_insert (after_inserting E vehl pre) c).2.1
          (E.sop_insert (after_inserting E vehl pre) c).2.2 = false →
      (travel E vehl custs cst0 sch0 rte0).ok = false ∧
      (travel E vehl custs cst0 sch0 rte0).calls = pre ++ [c] ∧
      (travel E vehl custs cst0 sch0 rte0).cstout = -1 ∧
      (travel E vehl custs cst0 sch0 rte0).schout = sch0 ∧
      (travel E vehl custs cst0 sch0 rte0).rteout = rte0 := by
    intro pre c post heq hp hc
    subst heq
    have hl := travel_loop_first_reject E pre c post
      { mtvehl := vehl, schctr := [], rtectr := [], cstsum := 0, calls := [] } hp hc
    simp only [travel, hl.1, hl.2]
    simp
  have hpass : (∀ r ∈ insertions E vehl custs, E.chktw r.2.1 r.2.2 = true) →
      (travel E vehl custs cst0 sch0 rte0).ok = true ∧
      (travel E vehl custs cst0 sch0 rte0).calls = custs ∧
      ∀ r, (insertions E vehl custs).getLast? = some r →
        (travel E vehl custs cst0 sch0 rte0).schout = r.2.1 ∧
        (travel E vehl custs cst0 sch0 rte0).rteout = r.2.2 := by
    intro h
    have hl := travel_loop_all_pass E custs
      { mtvehl := vehl, schctr := [], rtectr := [], cstsum := 0, calls := [] } h
    simp only [travel, hl, if_true, List.nil_append, true_and]
    intro r hr
    simp [hr]
  refine ⟨⟨fun hf => ?_, fun ⟨pre, c, post, heq, hp, hc⟩ => (hsplit pre c post heq hp hc).1⟩,
    hsplit, fun hok => ?_, fun pre => hcopy pre vehl, fun pre c => ?_⟩
  · rcases insertions_pass_or_split E vehl custs with hall | hex
    · rw [(hpass hall).1] at hf
      exact absurd hf (by simp)
    · exact hex
  · rcases insertions_pass_or_split E vehl custs with hall | ⟨pre, c, post, heq, hp, hc⟩
    · exact (hpass hall).2
    · rw [(hsplit pre c post heq hp hc).1] at hok
      exact absurd hok (by simp)
  · rw [insertions_append, hcopy]
    rfl

/-- C5 at a concrete input: the third customer is the first to fail `chktw`;
`sop_insert` was called three times and not for the fourth customer, `cstout`
is -1 and the caller's schedule and route arguments are untouched. -/
theorem travel_false_iff_first_reject_witness :
    (travel exEnv vehl1 [custA, custB, custC, custA] 5 [⟨0, 1, StopType.VehlDest⟩] [(3, 4)]) =
      { ok := false, cstout := -1, schout := [⟨0, 1, StopType.VehlDest⟩], rteout := [(3, 4)],
        calls := [custA, custB, custC] } :=
  have h := (travel_false_iff_first_reject exEnv vehl1 [custA, custB, custC, custA] 5
    [⟨0, 1, StopType.VehlDest⟩] [(3, 4)]).2.1 [custA, custB] custC [custA] rfl
    (by decide) (by decide)
  by
    cases ht : travel exEnv vehl1 [custA, custB, custC, custA] 5
      [⟨0, 1, StopType.VehlDest⟩] [(3, 4)]
    rw [ht] at h
    simp only at h
    obtain ⟨h1, h2, h3, h4, h5⟩ := h
    subst h1 h2 h3 h4 h5
    rfl

/-! ### Dictionaries -/

theorem Dict.find_set_self {K V : Type} [DecidableEq K] (d : Dict K V) (k : K) (v : V) :
    Dict.find (Dict.set d k v) k = some v := by
  induction d with
  | nil => simp [Dict.set, Dict.find]
  | cons e r ih =>
    obtain ⟨k1, v1⟩ := e
    by_cases h : k1 = k
    · simp [Dict.set, Dict.find, h]
    · simp [Dict.set, Dict.find, h, ih]

theorem Dict.find_set_ne {K V : Type} [DecidableEq K] (d : Dict K V) (k k2 : K) (v : V)
    (hne : k ≠ k2) : Dict.find (Dict.set d k v) k2 = Dict.find d k2 := by
  induction d with
  | nil => simp [Dict.set, Dict.find, hne]
  | cons e r ih =>
    obtain ⟨k1, v1⟩ := e
    by_cases h : k1 = k
    · subst h
      simp [Dict.set, Dict.find, hne]
    · by_cases h2 : k1 = k2
      · subst h2
        simp [Dict.set, Dict.find, h]
      · simp [Dict.set, Dict.find, h, h2, ih]

theorem Dict.find_some_of_mem {K V : Type} [DecidableEq K] {d : Dict K V} {k : K} {v : V}
    (hn : (Dict.keys d).Nodup) (h : (k, v) ∈ d) : Dict.find d k = some v := by
  induction d with
  | nil => simp at h
  | cons e r ih =>
    obtain ⟨k1, v1⟩ := e
    simp only [Dict.keys, List.map_cons, List.nodup_cons] at hn
    simp only [List.mem_cons, Prod.mk.injEq] at h
    rcases h with ⟨rfl, rfl⟩ | h
    · simp [Dict.find]
    · have hne : k1 ≠ k := by
        rintro rfl
        exact hn.1 (List.mem_map.mpr ⟨_, h, rfl⟩)
      simp [Dict.find, hne, ih hn.2 h]

theorem Dict.mem_of_find_some {K V : Type} [DecidableEq K] {d : Dict K V} {k : K} {v : V}
    (h : Dict.find d k = some v) : (k, v) ∈ d := by
  induction d with
  | nil => simp [Dict.find] at h
  | cons e r ih =>
    obtain ⟨k1, v1⟩ := e
    simp only [Dict.find] at h
    split at h
    · rename_i heq
      simp only [Option.some.injEq] at h
      subst heq; subst h
      exact List.mem_cons_self _ _
    · exact List.mem_cons_of_mem _ (ih h)

theorem Dict.find_none_of_not_mem {K V : Type} [DecidableEq K] {d : Dict K V} {k : K}
    (h : k ∉ Dict.keys d) : Dict.find d k = none := by
  cases hf : Dict.find d k with
  | none => rfl
  | some v => exact absurd (List.mem_map.mpr ⟨_, Dict.mem_of_find_some hf, rfl⟩) h

theorem Dict.keys_set {K V : Type} [DecidableEq K] (d : Dict K V) (k : K) (v : V) :
    Dict.keys (Dict.set d k v) = if k ∈ Dict.keys d then Dict.keys d else Dict.keys d ++ [k] := by
  induction d with
  | nil => simp [Dict.set, Dict.keys]
  | cons e r ih =>
    obtain ⟨k1, v1⟩ := e
    simp only [Dict.keys] at ih
    by_cases h : k1 = k
    · subst h
      simp [Dict.set, Dict.keys]
    · have h2 : ¬ k = k1 := fun hh => h hh.symm
      simp only [Dict.set, h, if_false, Dict.keys, List.map_cons, ih, List.mem_cons, h2,
        false_or]
      split <;> simp

theorem Dict.mem_keys_set {K V : Type} [DecidableEq K] (d : Dict K V) (k k2 : K) (v : V) :
    k2 ∈ Dict.keys (Dict.set d k v) ↔ k2 = k ∨ k2 ∈ Dict.keys d := by
  rw [Dict.keys_set]
  split
  · rename_i h
    constructor
    · exact Or.inr
    · rintro (rfl | h2)
      · exact h
      · exact h2
  · simp [or_comm]

theorem Dict.nodup_keys_set {K V : Type} [DecidableEq K] (d : Dict K V) (k : K) (v : V)
    (hn : (Dict.keys d).Nodup) : (Dict.keys (Dict.set d k v)).Nodup := by
  rw [Dict.keys_set]
  split
  · exact hn
  · rename_i h
    rw [List.nodup_append]
    exact ⟨hn, List.nodup_singleton _, by
      intro a ha hb
      simp only [List.mem_singleton] at hb
      subst hb
      exact h ha⟩

/-! ### Pruning of the rv-graph -/

theorem getD_push_all {K V : Type} [DecidableEq K] (cs : List V) (g : Dict K (List V))
    (k k2 : K) :
    Dict.getD (cs.foldl (fun g1 c => push_back_at g1 k c) g) k2 [] =
      if k = k2 then Dict.getD g k2 [] ++ cs else Dict.getD g k2 [] := by
  induction cs generalizing g with
  | nil => simp
  | cons c r ih =>
    simp only [List.foldl_cons, ih]
    by_cases h : k = k2
    · subst h
      simp [push_back_at, Dict.getD, Dict.find_set_self]
    · simp [push_back_at, Dict.getD, Dict.find_set_ne _ _ _ _ h, h]

theorem range_filterMap_get? {α : Type} (l : List α) (n : Nat) (h : n ≤ l.length) :
    (List.range n).filterMap (fun i => l.get? i) = l.take n := by
  induction n with
  | zero => simp
  | succ m ih =>
    have hm : m < l.length := h
    rw [List.range_succ, List.filterMap_append, ih (Nat.le_of_lt hm), List.take_succ]
    simp [List.get?_eq_getElem?, List.getElem?_eq_getElem hm]

theorem nth_by_sort_spec : NthElementSpec nth_by_sort := by
  intro n l _
  refine ⟨List.perm_insertionSort _ l, ?_⟩
  intro a ha b hb
  haveI : IsTotal (Customer × DistInt) (fun a b => a.2 ≤ b.2) := ⟨fun a b => le_total a.2 b.2⟩
  haveI : IsTrans (Customer × DistInt) (fun a b => a.2 ≤ b.2) :=
    ⟨fun _ _ _ h1 h2 => le_trans h1 h2⟩
  have hs : List.Sorted (fun (a b : Customer × DistInt) => a.2 ≤ b.2) (nth_by_sort n l) :=
    List.sorted_insertionSort _ l
  have hsplit : nth_by_sort n l = (nth_by_sort n l).take n ++ (nth_by_sort n l).drop n :=
    (List.take_append_drop n _).symm
  rw [hsplit] at hs
  have := (List.pairwise_append.mp hs).2.2 a ha b hb
  exact not_lt.mpr this

theorem getD_prune_vehicle (nth : Nat → List (Customer × DistInt) → List (Customer × DistInt))
    (hnth : NthElementSpec nth) (topk : Nat) (g : Dict Vehicle (List Customer))
    (kv : Vehicle × Dict Customer DistInt) (v : Vehicle) :
    Dict.getD (prune_vehicle nth topk g kv) v [] =
      if kv.1 = v then Dict.getD g v [] ++ kept_customers nth topk kv.2
      else Dict.getD g v [] := by
  unfold prune_vehicle kept_customers
  by_cases hlen : kv.2.length > topk
  · have hperm := (hnth topk kv.2 hlen).1
    have hl : (nth topk kv.2).length = kv.2.length := hperm.length_eq
    have hmin : min topk kv.2.length = topk := Nat.min_eq_left (Nat.le_of_lt hlen)
    simp only [hlen, if_true, hmin]
    rw [range_filterMap_get? _ _ (by omega)]
    rw [← List.foldl_map (g := fun g1 c => push_back_at g1 kv.1 c), getD_push_all]
  · simp only [hlen, if_false]
    rw [← List.foldl_map (g := fun g1 c => push_back_at g1 kv.1 c), getD_push_all]

theorem getD_prune_fold (nth : Nat → List (Customer × DistInt) → List (Customer × DistInt))
    (hnth : NthElementSpec nth) (topk : Nat) (entries : Dict Vehicle (Dict Customer DistInt))
    (hk : (Dict.keys entries).Nodup) (g : Dict Vehicle (List Customer)) (v : Vehicle) :
    Dict.getD (entries.foldl (prune_vehicle nth topk) g) v [] =
      Dict.getD g v [] ++
        (match Dict.find entries v with
          | some tbl => kept_customers nth topk tbl
          | none => []) := by
  induction entries generalizing g with
  | nil => simp [Dict.find]
  | cons e r ih =>
    obtain ⟨k1, t1⟩ := e
    simp only [Dict.keys, List.map_cons, List.nodup_cons] at hk
    rw [List.foldl_cons, ih hk.2, getD_prune_vehicle nth hnth]
    by_cases h : k1 = v
    · subst h
      have hnone : Dict.find r k1 = none := Dict.find_none_of_not_mem hk.1
      simp [Dict.find, hnone]
    · simp [Dict.find, h]

/-- C6: the top-k heuristic keeps a cheapest-K subset, K = `TOP_CUST` = 30. For
every implementation of `nth_element` that meets its contract and every
vehicle `v` with cost table `tbl = rv_cst[v]` of size `n`, `rvgrph_rv_[v]` has
exactly `min 30 n` customers, no customer twice, all of them keys of `tbl`;
when `n > 30` every retained customer costs at most as much as every customer
that is not retained, and when `n ≤ 30` every feasible customer is retained. -/
theorem rv_prune_keeps_cheapest
    (nth : Nat → List (Customer × DistInt) → List (Customer × DistInt))
    (hnth : NthElementSpec nth) (w : TVG) (hempty : w.rvgrph_rv_ = [])
    (hk : (Dict.keys w.rv_cst).Nodup) (v : Vehicle) (tbl : Dict Customer DistInt)
    (hv : (v, tbl) ∈ w.rv_cst) (hc : (Dict.keys tbl).Nodup) :
    TOP_CUST = 30 ∧
    (Dict.getD (rv_prune nth w).rvgrph_rv_ v []).length = min TOP_CUST tbl.length ∧
    (Dict.getD (rv_prune nth w).rvgrph_rv_ v []).Nodup ∧
    (∀ c ∈ Dict.getD (rv_prune nth w).rvgrph_rv_ v [], c ∈ Dict.keys tbl) ∧
    (tbl.length > TOP_CUST →
      ∀ c ∈ Dict.getD (rv_prune nth w).rvgrph_rv_ v [],
      ∀ c2 ∈ Dict.keys tbl, c2 ∉ Dict.getD (rv_prune nth w).rvgrph_rv_ v [] →
      ∀ x y, Dict.find tbl c = some x → Dict.find tbl c2 = some y → x ≤ y) ∧
    (tbl.length ≤ TOP_CUST →
      ∀ c ∈ Dict.keys tbl, c ∈ Dict.getD (rv_prune nth w).rvgrph_rv_ v []) := by
  have hkept : Dict.getD (rv_prune nth w).rvgrph_rv_ v [] = kept_customers nth TOP_CUST tbl := by
    simp only [rv_prune]
    rw [getD_prune_fold nth hnth TOP_CUST w.rv_cst hk, hempty, Dict.find_some_of_mem hk hv]
    simp [Dict.getD, Dict.find]
  rw [hkept]
  refine ⟨rfl, ?_⟩
  unfold kept_customers
  by_cases hlen : tbl.length > TOP_CUST
  · obtain ⟨hperm, hcmp⟩ := hnth TOP_CUST tbl hlen
    have hl : (nth TOP_CUST tbl).length = tbl.length := hperm.length_eq
    have hnd : ((nth TOP_CUST tbl).map Prod.fst).Nodup :=
      (hperm.map Prod.fst).nodup_iff.mpr hc
    simp only [hlen, if_true]
    refine ⟨?_, ?_, ?_, ?_, ?_⟩
    · rw [List.length_map, List.length_take, hl]
    · rw [List.map_take]
      exact hnd.sublist (List.take_sublist _ _)
    · intro c hcm
      obtain ⟨a, ha, rfl⟩ := List.mem_map.mp hcm
      exact List.mem_map.mpr ⟨a, hperm.subset (List.mem_of_mem_take ha), rfl⟩
    · intro _ c hcm c2 hc2 hnot x y hx hy
      obtain ⟨a, ha, rfl⟩ := List.mem_map.mp hcm
      obtain ⟨b, hb, rfl⟩ := List.mem_map.mp hc2
      have ha2 : Dict.find tbl a.1 = some a.2 :=
        Dict.find_some_of_mem hc (hperm.subset (List.mem_of_mem_take ha))
      have hb2 : Dict.find tbl b.1 = some b.2 := Dict.find_some_of_mem hc hb
      rw [ha2] at hx
      rw [hb2] at hy
      simp only [Option.some.injEq] at hx hy
      subst hx hy
      have hbcc : b ∈ nth TOP_CUST tbl := hperm.symm.subset hb
      rw [← List.take_append_drop TOP_CUST (nth TOP_CUST tbl), List.mem_append] at hbcc
      rcases hbcc with hbt | hbd
      · exact absurd (List.mem_map.mpr ⟨b, hbt, rfl⟩) hnot
      · exact not_lt.mp (hcmp a ha b hbd)
    · intro hle
      omega
  · simp only [hlen, if_false]
    refine ⟨?_, hc, fun c hcm => hcm, fun h => False.elim h, fun _ c hcm => hcm⟩
    rw [List.length_map]
    omega

/-- C6 at a concrete input: `nth_element` by sorting, a vehicle with 32
feasible customers; 30 are kept. -/
theorem rv_prune_keeps_cheapest_witness :
    (Dict.getD (rv_prune nth_by_sort wsAfterRv).rvgrph_rv_ vehl1 []).length = 30 ∧
    (Dict.getD (rv_prune nth_by_sort wsAfterRv).rvgrph_rv_ vehl1 []).Nodup :=
  have hk : (Dict.keys wsAfterRv.rv_cst).Nodup := by decide
  have hv : (vehl1, bigTable) ∈ wsAfterRv.rv_cst := by decide
  have hc : (Dict.keys bigTable).Nodup := by
    unfold bigTable Dict.keys
    rw [List.map_map]
    refine List.Nodup.map ?_ (List.nodup_range 32)
    intro a b hab
    simpa using congrArg Customer.id hab
  have h := rv_prune_keeps_cheapest nth_by_sort nth_by_sort_spec wsAfterRv rfl hk vehl1
    bigTable hv hc
  ⟨by rw [h.2.1]; simp [TOP_CUST, bigTable], h.2.2.1⟩

/-! ### Generation of the rtv-graph: invariants -/

theorem Dict.mem_set {K V : Type} [DecidableEq K] {d : Dict K V} {k : K} {v : V} {e : K × V}
    (h : e ∈ Dict.set d k v) : e = (k, v) ∨ e ∈ d := by
  induction d with
  | nil =>
    simp only [Dict.set, List.mem_singleton] at h
    exact Or.inl h
  | cons e1 r ih =>
    obtain ⟨k1, v1⟩ := e1
    simp only [Dict.set] at h
    split at h
    · simp only [List.mem_cons] at h
      rcases h with h | h
      · exact Or.inl h
      · exact Or.inr (List.mem_cons_of_mem _ h)
    · simp only [List.mem_cons] at h
      rcases h with h | h
      · exact Or.inr (by simp [h])
      · rcases ih h with h2 | h2
        · exact Or.inl h2
        · exact Or.inr (List.mem_cons_of_mem _ h2)

theorem Dict.find_set {K V : Type} [DecidableEq K] (d : Dict K V) (k k2 : K) (v : V) :
    Dict.find (Dict.set d k v) k2 = if k = k2 then some v else Dict.find d k2 := by
  by_cases h : k = k2
  · subst h
    simp [Dict.find_set_self]
  · simp [h, Dict.find_set_ne _ _ _ _ h]

theorem Dict.getD_nil_mem {K V W : Type} [DecidableEq K] {d : Dict K (Dict V W)} {k : K}
    {x : V × W} (h : x ∈ Dict.getD d k []) : (k, Dict.getD d k []) ∈ d := by
  unfold Dict.getD at h ⊢
  cases hf : Dict.find d k with
  | none => simp [hf] at h
  | some m => simpa using Dict.mem_of_find_some hf

theorem RegInv_of_eq {w w1 : TVG} (h1 : w1.stid_ = w.stid_) (h2 : w1.trip_ = w.trip_)
    (h : RegInv w) : RegInv w1 := by
  unfold RegInv at h ⊢
  rw [h1, h2]
  exact h

theorem TripsInv_of_eq {base : Dict SharedTripId SharedTrip} {s s1 : RtvState}
    (h1 : s1.w.stid_ = s.w.stid_) (h2 : s1.w.trip_ = s.w.trip_) (h3 : s1.lcl_trip = s.lcl_trip)
    (h4 : s1.lcl_vted = s.lcl_vted) (h5 : s1.w.vted_ = s.w.vted_) (h : TripsInv base s) :
    TripsInv base s1 := by
  unfold TripsInv at h ⊢
  rw [h2, h3, h4, h5]
  exact ⟨RegInv_of_eq h1 h2 h.1, h.2⟩

theorem add_trip_vted (w : TVG) (t : SharedTrip) : (add_trip w t).2.vted_ = w.vted_ := by
  unfold add_trip
  split <;> rfl

theorem VehlInv_of_eq {vid : VehlId} {s s1 : RtvState} (h3 : s1.lcl_trip = s.lcl_trip)
    (h4 : s1.lcl_vted = s.lcl_vted) (h5 : s1.tripk = s.tripk) (h : VehlInv vid s) :
    VehlInv vid s1 := by
  unfold VehlInv SubtripsKnown at h ⊢
  rw [h3, h4, h5]
  exact h

theorem find_push_back_at {K V : Type} [DecidableEq K] (g : Dict K (List V)) (k k2 : K)
    (c : V) :
    Dict.find (push_back_at g k c) k2 =
      if k = k2 then some (Dict.getD g k [] ++ [c]) else Dict.find g k2 := by
  unfold push_back_at
  exact Dict.find_set _ _ _ _

theorem mem_push_back_at {K V : Type} [DecidableEq K] {g : Dict K (List V)} {k k2 : K}
    {c x : V} {ids : List V} (h : Dict.find (push_back_at g k c) k2 = some ids) (hx : x ∈ ids) :
    (k2 = k ∧ x = c) ∨ ∃ ids0, Dict.find g k2 = some ids0 ∧ x ∈ ids0 := by
  rw [find_push_back_at] at h
  split at h
  · rename_i hk
    simp only [Option.some.injEq] at h
    subst h
    rcases List.mem_append.mp hx with h1 | h1
    · right
      subst hk
      unfold Dict.getD at h1
      cases hf : Dict.find g k with
      | none => simp [hf] at h1
      | some ids0 => exact ⟨ids0, rfl, by simpa [hf] using h1⟩
    · left
      exact ⟨hk.symm, by simpa using h1⟩
  · exact Or.inr ⟨ids, h, hx⟩

theorem push_back_at_mono {K V : Type} [DecidableEq K] (g : Dict K (List V)) (k j : K) (c : V)
    {ids1 : List V} (h : Dict.find g j = some ids1) :
    ∃ ids2, Dict.find (push_back_at g k c) j = some ids2 ∧ ∀ x ∈ ids1, x ∈ ids2 := by
  rw [find_push_back_at]
  by_cases hk : k = j
  · subst hk
    refine ⟨Dict.getD g k [] ++ [c], by simp, ?_⟩
    intro x hx
    simp [Dict.getD, h, hx]
  · exact ⟨ids1, by simp [hk, h], fun x hx => hx⟩

theorem mem_keys_of_mem {K V : Type} {d : Dict K V} {e : K × V} (h : e ∈ d) :
    e.1 ∈ Dict.keys d :=
  List.mem_map.mpr ⟨e, h, rfl⟩

/-- The block `record_trip` keeps the invariants, provided a trip recorded
under `k ≥ 3` passed the sub-trip check. -/
theorem record_trip_inv {base : Dict SharedTripId SharedTrip} {vid : VehlId} {s : RtvState}
    (k : Nat) (shtrip : SharedTrip) (cst : DistInt) (sch : List Stop) (rte : List Wayp)
    (hT : TripsInv base s) (hV : VehlInv vid s) (hpre : 3 ≤ k → SubtripsKnown s k shtrip) :
    TripsInv base (record_trip vid k shtrip cst sch rte s) ∧
    VehlInv vid (record_trip vid k shtrip cst sch rte s) := by
  obtain ⟨hR, hB, hL, hE, hG⟩ := hT
  obtain ⟨hV1, hV2⟩ := hV
  have f1 := add_trip_RegInv hR shtrip
  have f2 := add_trip_id_mem hR shtrip
  have f3 := add_trip_trip_mono hR shtrip
  have f3k : ∀ i, i ∈ Dict.keys s.w.trip_ → i ∈ Dict.keys (add_trip s.w shtrip).2.trip_ := by
    intro i hi
    obtain ⟨e, he, rfl⟩ := List.mem_map.mp hi
    exact mem_keys_of_mem (f3 e he)
  -- trips of `lcl_trip` keep their value
  have hmono : ∀ q t, Dict.find s.lcl_trip q = some t →
      Dict.find (Dict.set s.lcl_trip (add_trip s.w shtrip).1 shtrip) q = some t := by
    intro q t hq
    rw [Dict.find_set]
    split
    · rename_i heq
      subst heq
      have h1 := f3 _ (hL _ (Dict.mem_of_find_some hq))
      rw [RegInv_functional f1 f2 h1]
    · exact hq
  have hvted : Dict.getD (set2 s.lcl_vted vid (add_trip s.w shtrip).1 cst) vid [] =
      Dict.set (Dict.getD s.lcl_vted vid []) (add_trip s.w shtrip).1 cst := by
    simp [set2, Dict.getD, Dict.find_set_self]
  have hsub : ∀ k1 t, SubtripsKnown s k1 t →
      SubtripsKnown (record_trip vid k shtrip cst sch rte s) k1 t := by
    intro k1 t ⟨hlen, hp⟩
    refine ⟨hlen, fun p hlt => ?_⟩
    obtain ⟨ids1, q, h1, h2, h3⟩ := hp p hlt
    obtain ⟨ids2, h4, h5⟩ := push_back_at_mono s.tripk k (k1 - 1) (add_trip s.w shtrip).1 h1
    exact ⟨ids2, q, h4, h5 q h2, hmono _ _ h3⟩
  refine ⟨⟨RegInv_of_eq rfl rfl f1, fun e he => f3 e (hB e he), ?_, ?_, ?_⟩, ?_, ?_⟩
  · intro e he
    rcases Dict.mem_set he with rfl | h
    · exact f2
    · exact f3 e (hL e h)
  · intro e he stid hs
    rcases Dict.mem_set he with rfl | h
    · rcases (Dict.mem_keys_set _ _ _ _).mp hs with rfl | h2
      · exact mem_keys_of_mem f2
      · obtain ⟨x, hx, rfl⟩ := List.mem_map.mp h2
        exact f3k _ (hE _ (Dict.getD_nil_mem hx) _ (mem_keys_of_mem hx))
    · exact f3k _ (hE e h stid hs)
  · intro e he stid hs
    have he2 : e ∈ s.w.vted_ := by
      have : (record_trip vid k shtrip cst sch rte s).w.vted_ = s.w.vted_ :=
        add_trip_vted s.w shtrip
      rw [this] at he
      exact he
    exact f3k _ (hG e he2 stid hs)
  · intro k1 ids q hf hq
    show (∃ t, Dict.find (Dict.set s.lcl_trip (add_trip s.w shtrip).1 shtrip) q = some t) ∧
      q ∈ Dict.keys (Dict.getD (set2 s.lcl_vted vid (add_trip s.w shtrip).1 cst) vid [])
    rw [hvted, Dict.mem_keys_set]
    rcases mem_push_back_at hf hq with ⟨_, rfl⟩ | ⟨ids0, h1, h2⟩
    · exact ⟨⟨shtrip, Dict.find_set_self _ _ _⟩, Or.inl rfl⟩
    · obtain ⟨⟨t, ht⟩, hk⟩ := hV1 k1 ids0 q h1 h2
      exact ⟨⟨t, hmono q t ht⟩, Or.inr hk⟩
  · intro k1 ids stid t hk1 hf hq ht
    have ht2 : Dict.find (Dict.set s.lcl_trip (add_trip s.w shtrip).1 shtrip) stid = some t := ht
    rcases mem_push_back_at hf hq with ⟨rfl, rfl⟩ | ⟨ids0, h1, h2⟩
    · rw [Dict.find_set_self] at ht2
      simp only [Option.some.injEq] at ht2
      subst ht2
      exact hsub _ _ (hpre hk1)
    · obtain ⟨⟨t0, ht0⟩, _⟩ := hV1 k1 ids0 stid h1 h2
      have := hmono stid t0 ht0
      rw [this] at ht2
      simp only [Option.some.injEq] at ht2
      subst ht2
      exact hsub _ _ (hV2 k1 ids0 stid t0 hk1 h1 h2 ht0)

theorem foldOpt_inv {σ α : Type} (P : σ → Prop) (f : σ → α → Option σ) (xs : List α)
    (h : ∀ s x s1, P s → f s x = some s1 → P s1) :
    ∀ s s1, P s → foldOpt f s xs = some s1 → P s1 := by
  induction xs with
  | nil =>
    intro s s1 hs hf
    simp only [foldOpt, Option.some.injEq] at hf
    exact hf ▸ hs
  | cons x r ih =>
    intro s s1 hs hf
    simp only [foldOpt] at hf
    cases hx : f s x with
    | none => simp [hx] at hf
    | some s2 =>
      rw [hx] at hf
      exact ih s2 s1 (h s x s2 hs hx) hf

theorem foldl_inv {σ α : Type} (P : σ → Prop) (f : σ → α → σ) (xs : List α)
    (h : ∀ s x, P s → P (f s x)) : ∀ s, P s → P (xs.foldl f s) := by
  induction xs with
  | nil => intro s hs; exact hs
  | cons x r ih => intro s hs; exact ih _ (h s x hs)

theorem subtrip_known_true {L : Dict SharedTripId SharedTrip} {sub : SharedTrip}
    {ids : List SharedTripId} (h : subtrip_known L sub ids = some true) :
    ∃ q ∈ ids, Dict.find L q = some sub := by
  induction ids with
  | nil => simp [subtrip_known] at h
  | cons q r ih =>
    simp only [subtrip_known] at h
    cases hq : Dict.find L q with
    | none => simp [hq] at h
    | some t =>
      rw [hq] at h
      simp only at h
      split at h
      · rename_i heq
        exact ⟨q, List.mem_cons_self _ _, by rw [hq, heq]⟩
      · obtain ⟨q1, h1, h2⟩ := ih h
        exact ⟨q1, List.mem_cons_of_mem _ h1, h2⟩

theorem all_subtrips_known_true {L : Dict SharedTripId SharedTrip} {ids : List SharedTripId}
    {sh : SharedTrip} {ps : List Nat} (h : all_subtrips_known L ids sh ps = some true) :
    ∀ p ∈ ps, ∃ q ∈ ids, Dict.find L q = some (sh.eraseIdx p) := by
  induction ps with
  | nil => intro p hp; simp at hp
  | cons p0 r ih =>
    simp only [all_subtrips_known] at h
    cases h0 : subtrip_known L (sh.eraseIdx p0) ids with
    | none => simp [h0] at h
    | some b =>
      rw [h0] at h
      cases b with
      | false => simp at h
      | true =>
        simp only at h
        intro p hp
        rcases List.mem_cons.mp hp with rfl | hp
        · exact subtrip_known_true h0
        · exact ih h p hp

theorem size1_step_inv {base : Dict SharedTripId SharedTrip} (vehl : Vehicle) (s : RtvState)
    (cust : Customer) (h : TripsInv base s ∧ VehlInv vehl.id s) :
    TripsInv base (size1_step vehl s cust) ∧ VehlInv vehl.id (size1_step vehl s cust) := by
  unfold size1_step
  apply record_trip_inv
  · exact TripsInv_of_eq rfl rfl rfl rfl rfl h.1
  · exact VehlInv_of_eq rfl rfl rfl h.2
  · intro h3
    omega

theorem join_inner_inv {base : Dict SharedTripId SharedTrip} (E : Env) (vehl : Vehicle)
    (id_a : SharedTripId) (acc acc1 : SharedTrip × RtvState) (id_b : SharedTripId)
    (h : TripsInv base acc.2 ∧ VehlInv vehl.id acc.2)
    (hf : join_inner E vehl id_a acc id_b = some acc1) :
    TripsInv base acc1.2 ∧ VehlInv vehl.id acc1.2 := by
  unfold join_inner at hf
  split at hf
  · simp only [Option.some.injEq] at hf
    exact hf ▸ h
  · split at hf
    · simp at hf
    · simp only at hf
      split at hf
      · simp at hf
      · split at hf
        · simp only [Option.some.injEq] at hf
          exact hf ▸ h
        · split at hf
          · simp only [Option.some.injEq] at hf
            rw [← hf]
            exact record_trip_inv 2 _ _ _ _ h.1 h.2 (fun h3 => by omega)
          · simp only [Option.some.injEq] at hf
            exact hf ▸ h

theorem join_outer_inv {base : Dict SharedTripId SharedTrip} (E : Env) (vehl : Vehicle)
    (s s1 : RtvState) (id_a : SharedTripId) (h : TripsInv base s ∧ VehlInv vehl.id s)
    (hf : join_outer E vehl s id_a = some s1) :
    TripsInv base s1 ∧ VehlInv vehl.id s1 := by
  unfold join_outer at hf
  split at hf
  · simp at hf
  · split at hf
    · simp at hf
    · rename_i trip_a _ _ ids _
      cases hfo : foldOpt (join_inner E vehl id_a) (trip_a, s) ids with
      | none => simp [hfo] at hf
      | some r =>
        rw [hfo] at hf
        simp only [Option.some.injEq] at hf
        rw [← hf]
        exact foldOpt_inv (fun acc => TripsInv base acc.2 ∧ VehlInv vehl.id acc.2) _ ids
          (fun a x a1 ha hx => join_inner_inv E vehl id_a a a1 x ha hx) (trip_a, s) r h hfo

theorem rr_inner_inv {base : Dict SharedTripId SharedTrip} (E : Env) (vehl : Vehicle)
    (cust_a : Customer) (s : RtvState) (cust_b : Customer)
    (h : TripsInv base s ∧ VehlInv vehl.id s) :
    TripsInv base (rr_inner E vehl cust_a s cust_b) ∧
    VehlInv vehl.id (rr_inner E vehl cust_a s cust_b) := by
  unfold rr_inner
  simp only
  split
  · exact record_trip_inv 2 _ _ _ _ h.1 h.2 (fun h3 => by omega)
  · exact h

theorem rr_outer_inv {base : Dict SharedTripId SharedTrip} (E : Env) (vehl : Vehicle)
    (s : RtvState) (kv : Customer × List Customer) (h : TripsInv base s ∧ VehlInv vehl.id s) :
    TripsInv base (rr_outer E vehl s kv) ∧ VehlInv vehl.id (rr_outer E vehl s kv) := by
  unfold rr_outer
  split
  · exact h
  · exact foldl_inv (fun s => TripsInv base s ∧ VehlInv vehl.id s) _ kv.2
      (fun s1 x hs => rr_inner_inv E vehl kv.1 s1 x hs) s h

theorem sizek_inner_inv {base : Dict SharedTripId SharedTrip} (E : Env) (vehl : Vehicle)
    (k : Nat) (id_a : SharedTripId) (s s1 : RtvState) (id_b : SharedTripId)
    (h : TripsInv base s ∧ VehlInv vehl.id s)
    (hf : sizek_inner E vehl k id_a s id_b = some s1) :
    TripsInv base s1 ∧ VehlInv vehl.id s1 := by
  unfold sizek_inner at hf
  split at hf
  · simp only [Option.some.injEq] at hf
    exact hf ▸ h
  · split at hf
    · rename_i trip_a trip_b _ _
      simp only at hf
      split at hf
      · rename_i hlen
        split at hf
        · simp at hf
        · rename_i ids hids
          split at hf
          · simp at hf
          · simp only [Option.some.injEq] at hf
            exact hf ▸ h
          · rename_i hall
            have hsub : SubtripsKnown s k (join_no_dups trip_a trip_b) := by
              refine ⟨hlen, fun p hp => ?_⟩
              obtain ⟨q, hq1, hq2⟩ := all_subtrips_known_true hall p
                (List.mem_range.mpr (by omega))
              exact ⟨ids, q, hids, hq1, hq2⟩
            split at hf
            · simp only [Option.some.injEq] at hf
              rw [← hf]
              exact record_trip_inv k _ _ _ _ h.1 h.2 (fun _ => hsub)
            · simp only [Option.some.injEq] at hf
              exact hf ▸ h
      · simp only [Option.some.injEq] at hf
        exact hf ▸ h
    · simp at hf

theorem sizek_outer_inv {base : Dict SharedTripId SharedTrip} (E : Env) (vehl : Vehicle)
    (k : Nat) (s s1 : RtvState) (id_a : SharedTripId)
    (h : TripsInv base s ∧ VehlInv vehl.id s)
    (hf : sizek_outer E vehl k s id_a = some s1) :
    TripsInv base s1 ∧ VehlInv vehl.id s1 := by
  unfold sizek_outer at hf
  split at hf
  · simp at hf
  · split at hf
    · simp at hf
    · rename_i ids _
      exact foldOpt_inv (fun s => TripsInv base s ∧ VehlInv vehl.id s) _ ids
        (fun a x a1 ha hx => sizek_inner_inv E vehl k id_a a a1 x ha hx) s s1 h hf

theorem sizek_loop_inv {base : Dict SharedTripId SharedTrip} (E : Env) (vehl : Vehicle)
    (fuel : Nat) : ∀ (k : Nat) (s s1 : RtvState), TripsInv base s ∧ VehlInv vehl.id s →
    sizek_loop E vehl fuel k s = some s1 → TripsInv base s1 ∧ VehlInv vehl.id s1 := by
  induction fuel with
  | zero =>
    intro k s s1 h hf
    unfold sizek_loop at hf
    split at hf
    · simp at hf
    · simp only [Option.some.injEq] at hf
      exact hf ▸ h
  | succ n ih =>
    intro k s s1 h hf
    unfold sizek_loop at hf
    split at hf
    · simp only at hf
      split at hf
      · simp at hf
      · rename_i ids _
        cases hfo : foldOpt (sizek_outer E vehl k) s ids with
        | none => simp [hfo] at hf
        | some s2 =>
          rw [hfo] at hf
          simp only at hf
          exact ih (k + 1) s2 s1
            (foldOpt_inv (fun s => TripsInv base s ∧ VehlInv vehl.id s) _ ids
              (fun a x a1 ha hx => sizek_outer_inv E vehl k a a1 x ha hx) s s2 h hfo) hf
    · simp only [Option.some.injEq] at hf
      exact hf ▸ h

theorem VehlInv_nil (vid : VehlId) (s : RtvState) (h : s.tripk = []) : VehlInv vid s := by
  unfold VehlInv
  rw [h]
  constructor
  · intro k ids q hf
    simp [Dict.find] at hf
  · intro k ids stid t _ hf
    simp [Dict.find] at hf

theorem check_timeout_inv {base : Dict SharedTripId SharedTrip} (E : Env) (vid : VehlId)
    (s : RtvState) (h : TripsInv base s ∧ VehlInv vid s) :
    TripsInv base (check_timeout E s) ∧ VehlInv vid (check_timeout E s) :=
  ⟨TripsInv_of_eq rfl rfl rfl rfl rfl h.1, VehlInv_of_eq rfl rfl rfl h.2⟩

/-- One vehicle of the rtv loop keeps the invariant of the registry and
establishes the invariant of its `tripk`. -/
theorem rtv_vehicle_inv {base : Dict SharedTripId SharedTrip} (E : Env) (vehl : Vehicle)
    (s0 s1 : RtvState) (h : TripsInv base s0) (hf : rtv_vehicle E vehl s0 = some s1) :
    TripsInv base s1 ∧ VehlInv vehl.id s1 := by
  unfold rtv_vehicle at hf
  split at hf
  · simp only [Option.some.injEq] at hf
    rw [← hf]
    exact ⟨TripsInv_of_eq rfl rfl rfl rfl rfl h, VehlInv_nil _ _ rfl⟩
  · simp only at hf
    have h1 : TripsInv base
          { s0 with w := { s0.w with vehmap := Dict.set s0.w.vehmap vehl.id vehl }, tripk := [] } ∧
        VehlInv vehl.id
          { s0 with w := { s0.w with vehmap := Dict.set s0.w.vehmap vehl.id vehl }, tripk := [] } :=
      ⟨TripsInv_of_eq rfl rfl rfl rfl rfl h, VehlInv_nil _ _ rfl⟩
    split at hf
    · simp only [Option.some.injEq] at hf
      exact hf ▸ h1
    · rename_i custs _
      have h3 := check_timeout_inv E vehl.id _
        (foldl_inv (fun s => TripsInv base s ∧ VehlInv vehl.id s) (size1_step vehl) custs
          (fun s x hs => size1_step_inv vehl s x hs) _ h1)
      split at hf
      · simp only [Option.some.injEq] at hf
        exact hf ▸ h3
      · split at hf
        · split at hf
          · simp at hf
          · rename_i ids _
            split at hf
            · simp at hf
            · rename_i s4 hs4
              have h4 := foldOpt_inv (fun s => TripsInv base s ∧ VehlInv vehl.id s) _ ids
                (fun a x a1 ha hx => join_outer_inv E vehl a a1 x ha hx) _ s4 h3 hs4
              have h5 := check_timeout_inv E vehl.id _ h4
              split at hf
              · simp only [Option.some.injEq] at hf
                exact hf ▸ h5
              · have h7 := check_timeout_inv E vehl.id _
                  (foldl_inv (fun s => TripsInv base s ∧ VehlInv vehl.id s) (rr_outer E vehl)
                    (check_timeout E s4).w.rvgrph_rr_
                    (fun s x hs => rr_outer_inv E vehl s x hs) _ h5)
                split at hf
                · simp only [Option.some.injEq] at hf
                  exact hf ▸ h7
                · split at hf
                  · simp at hf
                  · rename_i s8 hs8
                    simp only [Option.some.injEq] at hf
                    rw [← hf]
                    exact check_timeout_inv E vehl.id _
                      (sizek_loop_inv E vehl _ 3 _ s8 h7 hs8)
        · simp only [Option.some.injEq] at hf
          exact hf ▸ check_timeout_inv E vehl.id _ h3

theorem rtv_worker_step_inv {base : Dict SharedTripId SharedTrip} (E : Env) (s s1 : RtvState)
    (vehl : Vehicle) (h : TripsInv base s) (hf : rtv_worker_step E s vehl = some s1) :
    TripsInv base s1 := by
  unfold rtv_worker_step at hf
  split at hf
  · simp only [Option.some.injEq] at hf
    exact hf ▸ h
  · exact (rtv_vehicle_inv E vehl s s1 h hf).1

theorem rtv_worker_inv {base : Dict SharedTripId SharedTrip} (E : Env) (vehls : List Vehicle)
    (w : TVG) (clock : Nat) (s1 : RtvState) (hR : RegInv w) (hB : ∀ e ∈ base, e ∈ w.trip_)
    (hG : ∀ e ∈ w.vted_, ∀ stid ∈ Dict.keys e.2, stid ∈ Dict.keys w.trip_)
    (hf : rtv_worker E vehls w clock = some s1) : TripsInv base s1 := by
  unfold rtv_worker at hf
  refine foldOpt_inv (TripsInv base) _ vehls
    (fun a x a1 ha hx => rtv_worker_step_inv E a a1 x ha hx) _ s1 ?_ hf
  exact ⟨hR, hB, by simp, by simp, hG⟩

/-! ### The merge and the whole rtv region -/

theorem set2_keys {A B V : Type} [DecidableEq A] [DecidableEq B] (Q : B → Prop)
    (m : Dict A (Dict B V)) (a : A) (b : B) (v : V)
    (hm : ∀ e ∈ m, ∀ i ∈ Dict.keys e.2, Q i) (hb : Q b) :
    ∀ e ∈ set2 m a b v, ∀ i ∈ Dict.keys e.2, Q i := by
  intro e he i hi
  rcases Dict.mem_set he with rfl | h
  · rcases (Dict.mem_keys_set _ _ _ _).mp hi with rfl | h2
    · exact hb
    · obtain ⟨x, hx, rfl⟩ := List.mem_map.mp h2
      exact hm _ (Dict.getD_nil_mem hx) _ (mem_keys_of_mem hx)
  · exact hm e h i hi

theorem merge_inner_keys (Q : SharedTripId → Prop) (cap : Int) (vid : VehlId)
    (l : List (SharedTripId × DistInt)) :
    ∀ (acc : Dict VehlId (Dict SharedTripId DistInt) × Int),
    (∀ e ∈ acc.1, ∀ i ∈ Dict.keys e.2, Q i) → (∀ kv2 ∈ l, Q kv2.1) →
    ∀ e ∈ (merge_inner cap vid acc l).1, ∀ i ∈ Dict.keys e.2, Q i := by
  induction l with
  | nil => intro acc hacc _; exact hacc
  | cons kv2 rest ih =>
    intro acc hacc hl
    have h1 := set2_keys Q acc.1 vid kv2.1 kv2.2 hacc (hl kv2 (List.mem_cons_self _ _))
    simp only [merge_inner]
    split
    · exact h1
    · exact ih _ h1 (fun x hx => hl x (List.mem_cons_of_mem _ hx))

theorem merge_outer_keys (Q : SharedTripId → Prop) (cap : Int)
    (l : List (VehlId × Dict SharedTripId DistInt)) :
    ∀ (acc : Dict VehlId (Dict SharedTripId DistInt) × Int),
    (∀ e ∈ acc.1, ∀ i ∈ Dict.keys e.2, Q i) → (∀ e ∈ l, ∀ i ∈ Dict.keys e.2, Q i) →
    ∀ e ∈ (merge_outer cap acc l).1, ∀ i ∈ Dict.keys e.2, Q i := by
  induction l with
  | nil => intro acc hacc _; exact hacc
  | cons kv rest ih =>
    intro acc hacc hl
    have hrest : ∀ e ∈ rest, ∀ i ∈ Dict.keys e.2, Q i :=
      fun e he => hl e (List.mem_cons_of_mem _ he)
    simp only [merge_outer]
    split
    · have h1 : ∀ e ∈ Dict.set acc.1 kv.1 kv.2, ∀ i ∈ Dict.keys e.2, Q i := by
        intro e he i hi
        rcases Dict.mem_set he with rfl | h
        · exact hl kv (List.mem_cons_self _ _) i hi
        · exact hacc e h i hi
      split
      · exact h1
      · exact ih _ h1 hrest
    · have h1 := merge_inner_keys Q cap kv.1 kv.2 acc hacc (by
        intro kv2 hkv2
        exact hl kv (List.mem_cons_self _ _) _ (mem_keys_of_mem hkv2))
      split
      · exact h1
      · exact ih _ h1 hrest

theorem merge_all_keys (Q : SharedTripId → Prop)
    (ls : List (Dict VehlId (Dict SharedTripId DistInt))) :
    ∀ (acc : Dict VehlId (Dict SharedTripId DistInt) × Int),
    (∀ e ∈ acc.1, ∀ i ∈ Dict.keys e.2, Q i) →
    (∀ l ∈ ls, ∀ e ∈ l, ∀ i ∈ Dict.keys e.2, Q i) →
    ∀ e ∈ (ls.foldl merge_lcl_vted acc).1, ∀ i ∈ Dict.keys e.2, Q i := by
  induction ls with
  | nil => intro acc hacc _; exact hacc
  | cons l rest ih =>
    intro acc hacc hl
    simp only [List.foldl_cons]
    exact ih _ (merge_outer_keys Q TRIP_MAX l acc hacc (hl l (List.mem_cons_self _ _)))
      (fun x hx => hl x (List.mem_cons_of_mem _ hx))

theorem rtv_enumerate_inv (E : Env) (workers : List (List Vehicle)) :
    ∀ (acc : TVG × Nat)
      (r : TVG × Nat × List (Dict VehlId (Dict SharedTripId DistInt))),
    RegInv acc.1 →
    (∀ e ∈ acc.1.vted_, ∀ i ∈ Dict.keys e.2, i ∈ Dict.keys acc.1.trip_) →
    rtv_enumerate E workers acc = some r →
    RegInv r.1 ∧ (∀ e ∈ acc.1.trip_, e ∈ r.1.trip_) ∧
    (∀ e ∈ r.1.vted_, ∀ i ∈ Dict.keys e.2, i ∈ Dict.keys r.1.trip_) ∧
    (∀ l ∈ r.2.2, ∀ e ∈ l, ∀ i ∈ Dict.keys e.2, i ∈ Dict.keys r.1.trip_) := by
  induction workers with
  | nil =>
    intro acc r hR hG hf
    simp only [rtv_enumerate, Option.some.injEq] at hf
    subst hf
    exact ⟨hR, fun e he => he, hG, by simp⟩
  | cons vehls rest ih =>
    intro acc r hR hG hf
    simp only [rtv_enumerate] at hf
    cases hw : rtv_worker E vehls acc.1 acc.2 with
    | none => simp [hw] at hf
    | some s =>
      rw [hw] at hf
      simp only at hf
      cases hr : rtv_enumerate E rest (s.w, s.clock) with
      | none => simp [hr] at hf
      | some r1 =>
        rw [hr] at hf
        simp only [Option.some.injEq] at hf
        subst hf
        obtain ⟨sR, sB, _, sE, sG⟩ :=
          rtv_worker_inv E vehls acc.1 acc.2 s hR (fun e he => he) hG hw
        obtain ⟨rR, rB, rG, rL⟩ := ih (s.w, s.clock) r1 sR sG hr
        refine ⟨rR, fun e he => rB e (sB e he), rG, ?_⟩
        intro l hl e he i hi
        rcases List.mem_cons.mp hl with rfl | hl
        · obtain ⟨x, hx, rfl⟩ := List.mem_map.mp (sE e he i hi)
          exact mem_keys_of_mem (rB x hx)
        · exact rL l hl e he i hi

theorem find_isSome_of_mem_keys {K V : Type} [DecidableEq K] {d : Dict K V} {k : K}
    (h : k ∈ Dict.keys d) : ∃ v, Dict.find d k = some v := by
  cases hf : Dict.find d k with
  | some v => exact ⟨v, rfl⟩
  | none =>
    exfalso
    induction d with
    | nil => simp [Dict.keys] at h
    | cons e r ih =>
      obtain ⟨k1, v1⟩ := e
      simp only [Dict.find] at hf
      split at hf
      · simp at hf
      · rename_i hne
        simp only [Dict.keys, List.map_cons, List.mem_cons] at h
        rcases h with h | h
        · exact hne h.symm
        · exact ih h hf

/-- Every trip id in `vted_` after a run of the rtv region is a key of `trip_`. -/
theorem vted_ids_registered_of_run (E : Env) (workers : List (List Vehicle)) (w : TVG)
    (res : TVG × Int) (hR : RegInv w)
    (hG : ∀ e ∈ w.vted_, ∀ i ∈ Dict.keys e.2, i ∈ Dict.keys w.trip_)
    (hrun : rtv_graph E workers w = some res) :
    ∀ e ∈ res.1.vted_, ∀ stid ∈ Dict.keys e.2,
      stid ∈ Dict.keys res.1.trip_ ∧ ∃ t, Dict.find res.1.trip_ stid = some t := by
  unfold rtv_graph at hrun
  cases hr : rtv_enumerate E workers (w, 0) with
  | none => simp [hr] at hrun
  | some r =>
    rw [hr] at hrun
    simp only [Option.some.injEq] at hrun
    subst hrun
    obtain ⟨_, _, rG, rL⟩ := rtv_enumerate_inv E workers (w, 0) r hR hG hr
    intro e he stid hs
    have := merge_all_keys (fun i => i ∈ Dict.keys r.1.trip_) r.2.2 (r.1.vted_, 0) rG rL e he
      stid hs
    exact ⟨this, find_isSome_of_mem_keys this⟩

/-! ### The claims on the rtv-graph -/

/-- C7 (as stated, refuted): the vehicle has the size-1 trip of customer 1
only, and the request-request edge (1, 2) lets the oracle accept `[1, 2]`. After
the enumeration and the merge the size-2 trip `[1, 2]` is recorded for the
vehicle, while its sub-trip `[2]` is not registered at all. -/
theorem rr_pair_recorded_without_singleton :
    (rtv_graph okEnv [[vehl1]] wsRr).map (fun r => (r.1.vted_, r.1.trip_)) =
      some ([(7, [(1, 0), (2, 10)])], [(1, [custA]), (2, [custA, custB])]) ∧
    [custA, custB].eraseIdx 0 = [custB] ∧
    [custB] ∉ [[custA], [custA, custB]] := by
  refine ⟨?_, ?_, ?_⟩
  · rfl
  · rfl
  · decide

/-- The sub-trip property of `tripk[k]`, `k ≥ 3`, after a run of one vehicle. -/
theorem sizek_subtrips_of_run (E : Env) (vehl : Vehicle) (s0 s1 : RtvState)
    (h0 : TripsInv [] s0) (hrun : rtv_vehicle E vehl s0 = some s1) :
    ∀ k ids stid, 3 ≤ k → Dict.find s1.tripk k = some ids → stid ∈ ids →
      ∃ t, Dict.find s1.lcl_trip stid = some t ∧ (stid, t) ∈ s1.w.trip_ ∧
        stid ∈ Dict.keys (Dict.getD s1.lcl_vted vehl.id []) ∧ t.length = k ∧
        ∀ p, p < k → ∃ q, (q, t.eraseIdx p) ∈ s1.w.trip_ ∧
          q ∈ Dict.keys (Dict.getD s1.lcl_vted vehl.id []) ∧
          ∃ ids1, Dict.find s1.tripk (k - 1) = some ids1 ∧ q ∈ ids1 := by
  obtain ⟨⟨_, _, hL, _, _⟩, hV1, hV2⟩ := rtv_vehicle_inv E vehl s0 s1 h0 hrun
  intro k ids stid hk hf hs
  obtain ⟨⟨t, ht⟩, hrec⟩ := hV1 k ids stid hf hs
  obtain ⟨hlen, hsub⟩ := hV2 k ids stid t hk hf hs ht
  refine ⟨t, ht, hL _ (Dict.mem_of_find_some ht), hrec, hlen, fun p hp => ?_⟩
  obtain ⟨ids1, q, h1, h2, h3⟩ := hsub p hp
  exact ⟨q, hL _ (Dict.mem_of_find_some h3), (hV1 (k - 1) ids1 q h1 h2).2, ids1, h1, h2⟩

theorem manyTrips_length (n : Nat) : (manyTrips n).length = n := by
  simp [manyTrips]

/-- C9 (the code at the failing input): worker 1 holds vehicle 7 with 15000
trips and vehicle 8 with one trip, worker 2 holds vehicle 9 with one trip. After
the merge of worker 1 the table `vted_` has 15001 edges, more than `TRIP_MAX`,
and the merge of worker 2 still adds the edge of vehicle 9: 15002 edges. -/
theorem merge_exceeds_trip_max :
    TRIP_MAX = 15000 ∧
    (merge_lcl_vted ([], 0) [(7, manyTrips 15000), (8, manyTrips 1)]) =
      ([(7, manyTrips 15000), (8, manyTrips 1)], 15001) ∧
    vted_size (merge_lcl_vted ([], 0) [(7, manyTrips 15000), (8, manyTrips 1)]).1 = 15001 ∧
    ([[(7, manyTrips 15000), (8, manyTrips 1)], [(9, manyTrips 1)]].foldl merge_lcl_vted
        ([], 0)) =
      ([(7, manyTrips 15000), (8, manyTrips 1), (9, manyTrips 1)], 15002) ∧
    vted_size ([[(7, manyTrips 15000), (8, manyTrips 1)], [(9, manyTrips 1)]].foldl
        merge_lcl_vted ([], 0)).1 = 15002 := by
  have h1 : merge_lcl_vted ([], 0) [(7, manyTrips 15000), (8, manyTrips 1)] =
      ([(7, manyTrips 15000), (8, manyTrips 1)], 15001) := by
    simp [merge_lcl_vted, merge_outer, Dict.has, Dict.find, Dict.set, TRIP_MAX,
      manyTrips_length]
  have h2 : merge_lcl_vted ([(7, manyTrips 15000), (8, manyTrips 1)], 15001)
      [(9, manyTrips 1)] =
      ([(7, manyTrips 15000), (8, manyTrips 1), (9, manyTrips 1)], 15002) := by
    simp [merge_lcl_vted, merge_outer, Dict.has, Dict.find, Dict.set, TRIP_MAX,
      manyTrips_length]
  have h3 : ([[(7, manyTrips 15000), (8, manyTrips 1)], [(9, manyTrips 1)]].foldl
      merge_lcl_vted ([], 0)) =
      ([(7, manyTrips 15000), (8, manyTrips 1), (9, manyTrips 1)], 15002) := by
    rw [List.foldl_cons, List.foldl_cons, List.foldl_nil, h1, h2]
  refine ⟨rfl, h1, ?_, h3, ?_⟩
  · rw [h1]
    simp [vted_size, manyTrips_length]
  · rw [h3]
    simp [vted_size, manyTrips_length]

/-- C10 (the code at the failing input): a vehicle with two free seats and
three feasible customers, an oracle that accepts every candidate. The size-2
join appends to `shtrip` without clearing it, so the trip 5 = `[1, 2, 3]` with
three customers is recorded for the vehicle. -/
theorem join_records_trip_above_capacity :
    vehl1.capacity - vehl1.queued = 2 ∧
    (rtv_graph okEnv [[vehl1]] wsThree).map
      (fun r => Dict.keys (Dict.getD r.1.vted_ vehl1.id [])) =
      some [1, 2, 3, 4, 5, 6, 7, 8, 9] ∧
    (rtv_graph okEnv [[vehl1]] wsThree).map (fun r => Dict.find r.1.trip_ 5) =
      some (some [custA, custB, custC]) ∧
    [custA, custB, custC].length = 3 := by
  refine ⟨?_, ?_, ?_, ?_⟩
  · decide
  · decide!
  · decide!
  · rfl

/-! ### No `.at(..)` of the enumeration throws -/

theorem foldOpt_total {σ α : Type} (P : σ → Prop) (f : σ → α → Option σ) (xs : List α)
    (h : ∀ s x, x ∈ xs → P s → ∃ s1, f s x = some s1 ∧ P s1) :
    ∀ s, P s → ∃ s1, foldOpt f s xs = some s1 ∧ P s1 := by
  induction xs with
  | nil => intro s hs; exact ⟨s, rfl, hs⟩
  | cons x r ih =>
    intro s hs
    obtain ⟨s1, h1, h2⟩ := h s x (List.mem_cons_self _ _) hs
    obtain ⟨s2, h3, h4⟩ := ih (fun s x hx => h s x (List.mem_cons_of_mem _ hx)) s1 h2
    exact ⟨s2, by simp [foldOpt, h1, h3], h4⟩

theorem add_trip_rvgrph_rv (w : TVG) (t : SharedTrip) :
    (add_trip w t).2.rvgrph_rv_ = w.rvgrph_rv_ := by
  unfold add_trip
  split <;> rfl

theorem add_trip_rvgrph_rr (w : TVG) (t : SharedTrip) :
    (add_trip w t).2.rvgrph_rr_ = w.rvgrph_rr_ := by
  unfold add_trip
  split <;> rfl

theorem Live_of_eq {ids : List SharedTripId} {j : Nat} {s s1 : RtvState}
    (h1 : s1.lcl_trip = s.lcl_trip) (h2 : s1.w.rvgrph_rv_ = s.w.rvgrph_rv_)
    (h3 : s1.tripk = s.tripk) (h : Live ids j s) : Live ids j s1 := by
  unfold Live NoEmpty at h ⊢
  rw [h1, h2, h3]
  exact h

theorem NoEmpty_of_eq {s s1 : RtvState}
    (h1 : s1.lcl_trip = s.lcl_trip) (h2 : s1.w.rvgrph_rv_ = s.w.rvgrph_rv_)
    (h : NoEmpty s) : NoEmpty s1 := by
  unfold NoEmpty at h ⊢
  rw [h1, h2]
  exact h

theorem record_trip_NoEmpty {vid : VehlId} {s : RtvState} (k : Nat) (shtrip : SharedTrip)
    (cst : DistInt) (sch : List Stop) (rte : List Wayp) (hne : shtrip ≠ [])
    (h : NoEmpty s) : NoEmpty (record_trip vid k shtrip cst sch rte s) := by
  obtain ⟨h1, h2⟩ := h
  constructor
  · intro e he
    rcases Dict.mem_set he with rfl | h3
    · exact hne
    · exact h1 e h3
  · intro e he
    have : (record_trip vid k shtrip cst sch rte s).w.rvgrph_rv_ = s.w.rvgrph_rv_ :=
      add_trip_rvgrph_rv s.w shtrip
    rw [this] at he
    exact h2 e he

theorem record_trip_Live {vid : VehlId} {s : RtvState} {ids : List SharedTripId} {j : Nat}
    (k : Nat) (shtrip : SharedTrip) (cst : DistInt) (sch : List Stop) (rte : List Wayp)
    (hne : shtrip ≠ []) (h : Live ids j s) :
    Live ids j (record_trip vid k shtrip cst sch rte s) := by
  obtain ⟨h1, h2, l, h3⟩ := h
  refine ⟨record_trip_NoEmpty k shtrip cst sch rte hne h1, ?_, ?_⟩
  · intro q hq
    obtain ⟨t, ht⟩ := h2 q hq
    show ∃ t, Dict.find (Dict.set s.lcl_trip (add_trip s.w shtrip).1 shtrip) q = some t
    rw [Dict.find_set]
    split
    · exact ⟨shtrip, rfl⟩
    · exact ⟨t, ht⟩
  · obtain ⟨l2, h4, _⟩ := push_back_at_mono s.tripk k j (add_trip s.w shtrip).1 h3
    exact ⟨l2, h4⟩

theorem Live_mono {ids ids1 : List SharedTripId} {j : Nat} {s : RtvState}
    (hsub : ∀ q ∈ ids1, q ∈ ids) (h : Live ids j s) : Live ids1 j s :=
  ⟨h.1, fun q hq => h.2.1 q (hsub q hq), h.2.2⟩

theorem join_inner_total (E : Env) (vehl : Vehicle) (id_a : SharedTripId)
    (ids : List SharedTripId) (acc : SharedTrip × RtvState) (id_b : SharedTripId)
    (hb : id_b ∈ ids) (h : Live ids 1 acc.2 ∧ acc.1 ≠ []) :
    ∃ acc1, join_inner E vehl id_a acc id_b = some acc1 ∧ Live ids 1 acc1.2 ∧ acc1.1 ≠ [] := by
  obtain ⟨hL, hne⟩ := h
  unfold join_inner
  by_cases hab : id_a = id_b
  · exact ⟨acc, by simp [hab], hL, hne⟩
  · obtain ⟨trip_b, htb⟩ := hL.2.1 id_b hb
    simp only [hab, if_false, htb]
    have hsh : acc.1 ++ trip_b ≠ [] := by simp [hne]
    cases hh : (acc.1 ++ trip_b).head? with
    | none => exact absurd (List.head?_eq_none_iff.mp hh) hsh
    | some c0 =>
      simp only
      split
      · exact ⟨_, rfl, hL, hsh⟩
      · split
        · exact ⟨_, rfl, record_trip_Live 2 _ _ _ _ hsh hL, hsh⟩
        · exact ⟨_, rfl, hL, hsh⟩

theorem join_outer_total {base : Dict SharedTripId SharedTrip} (E : Env) (vehl : Vehicle)
    (ids : List SharedTripId) (s : RtvState) (id_a : SharedTripId) (ha : id_a ∈ ids)
    (h : (TripsInv base s ∧ VehlInv vehl.id s) ∧ Live ids 1 s) :
    ∃ s1, join_outer E vehl s id_a = some s1 ∧
      (TripsInv base s1 ∧ VehlInv vehl.id s1) ∧ Live ids 1 s1 := by
  obtain ⟨hI, hL⟩ := h
  obtain ⟨trip_a, hta⟩ := hL.2.1 id_a ha
  obtain ⟨l, hl⟩ := hL.2.2
  have hne : trip_a ≠ [] := hL.1.1 _ (Dict.mem_of_find_some hta)
  have hL2 : Live (ids ++ l) 1 s := by
    refine ⟨hL.1, ?_, hL.2.2⟩
    intro q hq
    rcases List.mem_append.mp hq with h1 | h1
    · exact hL.2.1 q h1
    · exact (hI.2.1 1 l q hl h1).1
  obtain ⟨r, hr, hP⟩ := foldOpt_total
    (fun acc : SharedTrip × RtvState =>
      (TripsInv base acc.2 ∧ VehlInv vehl.id acc.2) ∧ Live (ids ++ l) 1 acc.2 ∧ acc.1 ≠ [])
    (join_inner E vehl id_a) l
    (fun acc x hx hacc => by
      obtain ⟨acc1, h1, h2⟩ := join_inner_total E vehl id_a (ids ++ l) acc x
        (List.mem_append_right _ hx) hacc.2
      exact ⟨acc1, h1, join_inner_inv E vehl id_a acc acc1 x hacc.1 h1, h2⟩)
    (trip_a, s) ⟨hI, hL2, hne⟩
  refine ⟨r.2, ?_, hP.1, Live_mono (fun q hq => List.mem_append_left _ hq) hP.2.1⟩
  simp [join_outer, hta, hl, hr]

theorem subtrip_known_total {L : Dict SharedTripId SharedTrip} (sub : SharedTrip)
    (ids : List SharedTripId) (h : ∀ q ∈ ids, ∃ t, Dict.find L q = some t) :
    ∃ b, subtrip_known L sub ids = some b := by
  induction ids with
  | nil => exact ⟨false, rfl⟩
  | cons q r ih =>
    obtain ⟨t, ht⟩ := h q (List.mem_cons_self _ _)
    simp only [subtrip_known, ht]
    split
    · exact ⟨true, rfl⟩
    · exact ih (fun x hx => h x (List.mem_cons_of_mem _ hx))

theorem all_subtrips_known_total {L : Dict SharedTripId SharedTrip} (ids : List SharedTripId)
    (sh : SharedTrip) (ps : List Nat) (h : ∀ q ∈ ids, ∃ t, Dict.find L q = some t) :
    ∃ b, all_subtrips_known L ids sh ps = some b := by
  induction ps with
  | nil => exact ⟨true, rfl⟩
  | cons p r ih =>
    obtain ⟨b, hb⟩ := subtrip_known_total (sh.eraseIdx p) ids h
    simp only [all_subtrips_known, hb]
    cases b with
    | false => exact ⟨false, rfl⟩
    | true => exact ih

theorem join_no_dups_ne_nil (trip_a trip_b : SharedTrip) (h : trip_a ≠ []) :
    join_no_dups trip_a trip_b ≠ [] := by
  unfold join_no_dups
  induction trip_b generalizing trip_a with
  | nil => simpa using h
  | cons c r ih =>
    simp only [List.foldl_cons]
    apply ih
    split
    · exact h
    · simp

theorem sizek_inner_total {base : Dict SharedTripId SharedTrip} (E : Env) (vehl : Vehicle)
    (k : Nat) (ids : List SharedTripId) (id_a : SharedTripId) (s : RtvState)
    (id_b : SharedTripId) (ha : id_a ∈ ids) (hb : id_b ∈ ids)
    (h : (TripsInv base s ∧ VehlInv vehl.id s) ∧ Live ids (k - 1) s) :
    ∃ s1, sizek_inner E vehl k id_a s id_b = some s1 ∧
      (TripsInv base s1 ∧ VehlInv vehl.id s1) ∧ Live ids (k - 1) s1 := by
  obtain ⟨hI, hL⟩ := h
  have key : ∃ s1, sizek_inner E vehl k id_a s id_b = some s1 ∧ Live ids (k - 1) s1 := by
    unfold sizek_inner
    by_cases hab : id_a = id_b
    · exact ⟨s, by simp [hab], hL⟩
    · obtain ⟨trip_a, hta⟩ := hL.2.1 id_a ha
      obtain ⟨trip_b, htb⟩ := hL.2.1 id_b hb
      obtain ⟨l, hl⟩ := hL.2.2
      have hne : join_no_dups trip_a trip_b ≠ [] :=
        join_no_dups_ne_nil _ _ (hL.1.1 _ (Dict.mem_of_find_some hta))
      simp only [hab, if_false, hta, htb, hl]
      split
      · obtain ⟨b, hb2⟩ := all_subtrips_known_total (L := s.lcl_trip) l
          (join_no_dups trip_a trip_b) (List.range (join_no_dups trip_a trip_b).length)
          (fun q hq => (hI.2.1 (k - 1) l q hl hq).1)
        rw [hb2]
        cases b with
        | false => exact ⟨s, rfl, hL⟩
        | true =>
          simp only
          split
          · exact ⟨_, rfl, record_trip_Live k _ _ _ _ hne hL⟩
          · exact ⟨s, rfl, hL⟩
      · exact ⟨s, rfl, hL⟩
  obtain ⟨s1, h1, h2⟩ := key
  exact ⟨s1, h1, sizek_inner_inv E vehl k id_a s s1 id_b hI h1, h2⟩

theorem sizek_outer_total {base : Dict SharedTripId SharedTrip} (E : Env) (vehl : Vehicle)
    (k : Nat) (ids : List SharedTripId) (s : RtvState) (id_a : SharedTripId) (ha : id_a ∈ ids)
    (h : (TripsInv base s ∧ VehlInv vehl.id s) ∧ Live ids (k - 1) s) :
    ∃ s1, sizek_outer E vehl k s id_a = some s1 ∧
      (TripsInv base s1 ∧ VehlInv vehl.id s1) ∧ Live ids (k - 1) s1 := by
  obtain ⟨hI, hL⟩ := h
  obtain ⟨trip_a, hta⟩ := hL.2.1 id_a ha
  obtain ⟨l, hl⟩ := hL.2.2
  have hL2 : Live (ids ++ l) (k - 1) s := by
    refine ⟨hL.1, ?_, hL.2.2⟩
    intro q hq
    rcases List.mem_append.mp hq with h1 | h1
    · exact hL.2.1 q h1
    · exact (hI.2.1 (k - 1) l q hl h1).1
  obtain ⟨r, hr, hP⟩ := foldOpt_total
    (fun s1 : RtvState =>
      (TripsInv base s1 ∧ VehlInv vehl.id s1) ∧ Live (ids ++ l) (k - 1) s1)
    (sizek_inner E vehl k id_a) l
    (fun s1 x hx hs1 => sizek_inner_total E vehl k (ids ++ l) id_a s1 x
      (List.mem_append_left _ ha) (List.mem_append_right _ hx) hs1)
    s ⟨hI, hL2⟩
  refine ⟨r, ?_, hP.1, Live_mono (fun q hq => List.mem_append_left _ hq) hP.2⟩
  simp [sizek_outer, hta, hl, hr]

/-- The size-k loop never throws, and its bound on the number of iterations
is never reached when it is at least `capacity - queued - k + 1`. -/
theorem sizek_loop_total {base : Dict SharedTripId SharedTrip} (E : Env) (vehl : Vehicle)
    (fuel : Nat) : ∀ (k : Nat) (s : RtvState),
    vehl.capacity - vehl.queued < (k : Int) + (fuel : Int) →
    (TripsInv base s ∧ VehlInv vehl.id s) ∧ NoEmpty s →
    ∃ s1, sizek_loop E vehl fuel k s = some s1 ∧
      (TripsInv base s1 ∧ VehlInv vehl.id s1) ∧ NoEmpty s1 := by
  induction fuel with
  | zero =>
    intro k s hfuel h
    unfold sizek_loop
    split
    · rename_i hc
      exfalso
      have := hc.1
      simp only [Load] at *
      omega
    · exact ⟨s, rfl, h⟩
  | succ n ih =>
    intro k s hfuel h
    unfold sizek_loop
    split
    · rename_i hc
      obtain ⟨l, hl⟩ : ∃ l, Dict.find s.tripk (k - 1) = some l := by
        have := hc.2
        unfold Dict.has at this
        exact Option.isSome_iff_exists.mp this
      have hL : Live l (k - 1) s :=
        ⟨h.2, fun q hq => (h.1.2.1 (k - 1) l q hl hq).1, ⟨l, hl⟩⟩
      obtain ⟨s2, hs2, hP⟩ := foldOpt_total
        (fun s1 : RtvState => (TripsInv base s1 ∧ VehlInv vehl.id s1) ∧ Live l (k - 1) s1)
        (sizek_outer E vehl k) l
        (fun s1 x hx hs1 => sizek_outer_total E vehl k l s1 x hx hs1) s ⟨h.1, hL⟩
      simp only [hl, hs2]
      exact ih (k + 1) s2 (by push_cast at hfuel ⊢; simp only [Load] at *; omega)
        ⟨hP.1, hP.2.1⟩
    · exact ⟨s, rfl, h⟩

theorem size1_step_NoEmpty (vehl : Vehicle) (s : RtvState) (cust : Customer)
    (h : NoEmpty s) : NoEmpty (size1_step vehl s cust) := by
  unfold size1_step
  exact record_trip_NoEmpty 1 [cust] _ _ _ (by simp) (NoEmpty_of_eq rfl rfl h)

theorem size1_step_tripk (vehl : Vehicle) (s : RtvState) (cust : Customer) :
    ∃ l, Dict.find (size1_step vehl s cust).tripk 1 = some l := by
  unfold size1_step record_trip
  simp only [find_push_back_at, if_true]
  exact ⟨_, rfl⟩

theorem size1_fold_tripk (vehl : Vehicle) (custs : List Customer) (s : RtvState)
    (hne : custs ≠ []) : ∃ l, Dict.find (custs.foldl (size1_step vehl) s).tripk 1 = some l := by
  cases custs with
  | nil => exact absurd rfl hne
  | cons c r =>
    simp only [List.foldl_cons]
    exact foldl_inv (fun s => ∃ l, Dict.find s.tripk 1 = some l) (size1_step vehl) r
      (fun s x _ => size1_step_tripk vehl s x) _ (size1_step_tripk vehl s c)

theorem rr_inner_NoEmpty (E : Env) (vehl : Vehicle) (cust_a : Customer) (s : RtvState)
    (cust_b : Customer) (h : NoEmpty s) : NoEmpty (rr_inner E vehl cust_a s cust_b) := by
  unfold rr_inner
  simp only
  split
  · exact record_trip_NoEmpty 2 _ _ _ _ (by simp) h
  · exact h

theorem rr_outer_NoEmpty (E : Env) (vehl : Vehicle) (s : RtvState)
    (kv : Customer × List Customer) (h : NoEmpty s) : NoEmpty (rr_outer E vehl s kv) := by
  unfold rr_outer
  split
  · exact h
  · exact foldl_inv NoEmpty _ kv.2 (fun s1 x hs => rr_inner_NoEmpty E vehl kv.1 s1 x hs) s h

/-- One vehicle of the rtv loop returns: no `.at(..)` throws when no trip of
`lcl_trip` and no customer list of `rvgrph_rv_` is empty. -/
theorem rtv_vehicle_total {base : Dict SharedTripId SharedTrip} (E : Env) (vehl : Vehicle)
    (s0 : RtvState) (h : TripsInv base s0) (hN : NoEmpty s0) :
    ∃ s1, rtv_vehicle E vehl s0 = some s1 ∧ NoEmpty s1 := by
  unfold rtv_vehicle
  split
  · exact ⟨_, rfl, NoEmpty_of_eq rfl rfl hN⟩
  · simp only
    have h1 : (TripsInv base
          { s0 with w := { s0.w with vehmap := Dict.set s0.w.vehmap vehl.id vehl }, tripk := [] } ∧
        VehlInv vehl.id
          { s0 with w := { s0.w with vehmap := Dict.set s0.w.vehmap vehl.id vehl }, tripk := [] }) ∧
        NoEmpty
          { s0 with w := { s0.w with vehmap := Dict.set s0.w.vehmap vehl.id vehl }, tripk := [] } :=
      ⟨⟨TripsInv_of_eq rfl rfl rfl rfl rfl h, VehlInv_nil _ _ rfl⟩, NoEmpty_of_eq rfl rfl hN⟩
    split
    · exact ⟨_, rfl, h1.2⟩
    · rename_i custs hcusts
      have hne : custs ≠ [] := hN.2 _ (Dict.mem_of_find_some hcusts)
      have h2 := foldl_inv
        (fun s => (TripsInv base s ∧ VehlInv vehl.id s) ∧ NoEmpty s) (size1_step vehl) custs
        (fun s x hs => ⟨size1_step_inv vehl s x hs.1, size1_step_NoEmpty vehl s x hs.2⟩) _ h1
      obtain ⟨ids, hids⟩ := size1_fold_tripk vehl custs
        { s0 with w := { s0.w with vehmap := Dict.set s0.w.vehmap vehl.id vehl }, tripk := [] }
        hne
      have h3 : (TripsInv base (check_timeout E (custs.foldl (size1_step vehl)
            { s0 with w := { s0.w with vehmap := Dict.set s0.w.vehmap vehl.id vehl },
                      tripk := [] })) ∧
          VehlInv vehl.id (check_timeout E (custs.foldl (size1_step vehl)
            { s0 with w := { s0.w with vehmap := Dict.set s0.w.vehmap vehl.id vehl },
                      tripk := [] }))) ∧
          NoEmpty (check_timeout E (custs.foldl (size1_step vehl)
            { s0 with w := { s0.w with vehmap := Dict.set s0.w.vehmap vehl.id vehl },
                      tripk := [] })) :=
        ⟨check_timeout_inv E vehl.id _ h2.1, NoEmpty_of_eq rfl rfl h2.2⟩
      split
      · exact ⟨_, rfl, h3.2⟩
      · split
        · rename_i hcap
          have hids3 : Dict.find (check_timeout E (custs.foldl (size1_step vehl)
              { s0 with w := { s0.w with vehmap := Dict.set s0.w.vehmap vehl.id vehl },
                        tripk := [] })).tripk 1 = some ids := hids
          simp only [hids3]
          have hL : Live ids 1 (check_timeout E (custs.foldl (size1_step vehl)
              { s0 with w := { s0.w with vehmap := Dict.set s0.w.vehmap vehl.id vehl },
                        tripk := [] })) :=
            ⟨h3.2, fun q hq => (h3.1.2.1 1 ids q hids3 hq).1, ⟨ids, hids3⟩⟩
          obtain ⟨s4, hs4, hP4⟩ := foldOpt_total
            (fun s1 : RtvState => (TripsInv base s1 ∧ VehlInv vehl.id s1) ∧ Live ids 1 s1)
            (join_outer E vehl) ids
            (fun s1 x hx hs1 => join_outer_total E vehl ids s1 x hx hs1) _ ⟨h3.1, hL⟩
          simp only [hs4]
          have h5 : (TripsInv base (check_timeout E s4) ∧ VehlInv vehl.id (check_timeout E s4)) ∧
              NoEmpty (check_timeout E s4) :=
            ⟨check_timeout_inv E vehl.id _ hP4.1, NoEmpty_of_eq rfl rfl hP4.2.1⟩
          split
          · exact ⟨_, rfl, h5.2⟩
          · have h6 := foldl_inv
              (fun s => (TripsInv base s ∧ VehlInv vehl.id s) ∧ NoEmpty s) (rr_outer E vehl)
              (check_timeout E s4).w.rvgrph_rr_
              (fun s x hs => ⟨rr_outer_inv E vehl s x hs.1, rr_outer_NoEmpty E vehl s x hs.2⟩)
              _ h5
            have h7 : (TripsInv base (check_timeout E
                  ((check_timeout E s4).w.rvgrph_rr_.foldl (rr_outer E vehl)
                    (check_timeout E s4))) ∧
                VehlInv vehl.id (check_timeout E
                  ((check_timeout E s4).w.rvgrph_rr_.foldl (rr_outer E vehl)
                    (check_timeout E s4)))) ∧
                NoEmpty (check_timeout E
                  ((check_timeout E s4).w.rvgrph_rr_.foldl (rr_outer E vehl)
                    (check_timeout E s4))) :=
              ⟨check_timeout_inv E vehl.id _ h6.1, NoEmpty_of_eq rfl rfl h6.2⟩
            split
            · exact ⟨_, rfl, h7.2⟩
            · obtain ⟨s8, hs8, hP8⟩ := sizek_loop_total E vehl
                (vehl.capacity - vehl.queued).toNat 3 _
                (by simp only [Load] at *; omega) h7
              simp only [hs8]
              exact ⟨_, rfl, NoEmpty_of_eq rfl rfl hP8.2⟩
        · exact ⟨_, rfl, NoEmpty_of_eq rfl rfl h3.2⟩

theorem rtv_worker_total {base : Dict SharedTripId SharedTrip} (E : Env)
    (vehls : List Vehicle) (w : TVG) (clock : Nat) (hR : RegInv w)
    (hB : ∀ e ∈ base, e ∈ w.trip_)
    (hG : ∀ e ∈ w.vted_, ∀ stid ∈ Dict.keys e.2, stid ∈ Dict.keys w.trip_)
    (hne : ∀ e ∈ w.rvgrph_rv_, e.2 ≠ []) :
    ∃ s1, rtv_worker E vehls w clock = some s1 ∧ TripsInv base s1 ∧ NoEmpty s1 := by
  unfold rtv_worker
  refine foldOpt_total (fun s => TripsInv base s ∧ NoEmpty s) (rtv_worker_step E) vehls ?_ _
      ⟨⟨hR, hB, by simp, by simp, hG⟩, by simp [NoEmpty], hne⟩
  intro s x _ hs
  unfold rtv_worker_step
  split
  · exact ⟨s, rfl, hs⟩
  · obtain ⟨s1, h1, h2⟩ := rtv_vehicle_total E x s hs.1 hs.2
    exact ⟨s1, h1, (rtv_vehicle_inv E x s s1 hs.1 h1).1, h2⟩

theorem rtv_enumerate_total (E : Env) (workers : List (List Vehicle)) :
    ∀ (acc : TVG × Nat), RegInv acc.1 →
    (∀ e ∈ acc.1.vted_, ∀ i ∈ Dict.keys e.2, i ∈ Dict.keys acc.1.trip_) →
    (∀ e ∈ acc.1.rvgrph_rv_, e.2 ≠ []) →
    ∃ r, rtv_enumerate E workers acc = some r := by
  induction workers with
  | nil => intro acc _ _ _; exact ⟨_, rfl⟩
  | cons vehls rest ih =>
    intro acc hR hG hne
    obtain ⟨s, hs, hT, hN⟩ := @rtv_worker_total [] E vehls acc.1 acc.2 hR
      (by simp) hG hne
    obtain ⟨r, hr⟩ := ih (s.w, s.clock) hT.1 hT.2.2.2.2 hN.2
    refine ⟨(r.1, r.2.1, s.lcl_vted :: r.2.2), ?_⟩
    simp only [rtv_enumerate, hs, hr]

/-- The rtv region returns: no `.at(..)` of the enumeration throws, for every
oracle, every deadline behaviour and every split of the vehicles among the
workers, when no vehicle of `rvgrph_rv_` has an empty customer list. -/
theorem rtv_graph_total (E : Env) (workers : List (List Vehicle)) (w : TVG) (hR : RegInv w)
    (hG : ∀ e ∈ w.vted_, ∀ i ∈ Dict.keys e.2, i ∈ Dict.keys w.trip_)
    (hne : ∀ e ∈ w.rvgrph_rv_, e.2 ≠ []) :
    ∃ res, rtv_graph E workers w = some res := by
  obtain ⟨r, hr⟩ := rtv_enumerate_total E workers (w, 0) hR hG hne
  refine ⟨({ r.1 with vted_ := (r.2.2.foldl merge_lcl_vted (r.1.vted_, 0)).1 },
    (r.2.2.foldl merge_lcl_vted (r.1.vted_, 0)).2), ?_⟩
  simp only [rtv_graph, hr]

/-- After the top-k heuristic no vehicle of `rvgrph_rv_` has an empty customer
list: an entry only comes into being through `push_back`. -/
theorem rv_prune_lists_nonempty
    (nth : Nat → List (Customer × DistInt) → List (Customer × DistInt)) (w : TVG)
    (h : ∀ e ∈ w.rvgrph_rv_, e.2 ≠ []) : ∀ e ∈ (rv_prune nth w).rvgrph_rv_, e.2 ≠ [] := by
  have hpush : ∀ (g : Dict Vehicle (List Customer)) (v : Vehicle) (cs : List Customer),
      (∀ e ∈ g, e.2 ≠ []) →
      ∀ e ∈ cs.foldl (fun g1 c => push_back_at g1 v c) g, e.2 ≠ [] := by
    intro g v cs
    induction cs generalizing g with
    | nil => intro hg; exact hg
    | cons c r ih =>
      intro hg
      simp only [List.foldl_cons]
      apply ih
      intro e he
      rcases Dict.mem_set he with rfl | h1
      · simp
      · exact hg e h1
  have hstep : ∀ (g : Dict Vehicle (List Customer)) (kv : Vehicle × Dict Customer DistInt),
      (∀ e ∈ g, e.2 ≠ []) → ∀ e ∈ prune_vehicle nth TOP_CUST g kv, e.2 ≠ [] := by
    intro g kv hg
    unfold prune_vehicle
    split
    · simp only
      rw [← List.foldl_map (g := fun g1 c => push_back_at g1 kv.1 c)]
      exact hpush g kv.1 _ hg
    · rw [← List.foldl_map (g := fun g1 c => push_back_at g1 kv.1 c)]
      exact hpush g kv.1 _ hg
  exact foldl_inv (fun g => ∀ e ∈ g, e.2 ≠ []) (prune_vehicle nth TOP_CUST) w.rv_cst
    (fun g kv hg => hstep g kv hg) w.rvgrph_rv_ h

/-! ### The claims on the enumeration, for runs that are shown to return -/

/-- C8: the enumeration of all workers and the merge return, and afterwards
every `SharedTripId` that is a key of `vted_[v]` for some vehicle `v` is a key
of `trip_`, so `trip_.at(stid)` is defined for it. This holds for every oracle,
every deadline behaviour and every split of the vehicles among the workers. The
workspace at the start has a registry that satisfies its invariant and a `vted_`
that refers to registered trips only, as after `reset_workspace`, and no
vehicle of `rvgrph_rv_` has an empty customer list, as after the pruning. -/
theorem vted_ids_are_registered (E : Env) (workers : List (List Vehicle)) (w : TVG)
    (hR : RegInv w)
    (hG : ∀ e ∈ w.vted_, ∀ i ∈ Dict.keys e.2, i ∈ Dict.keys w.trip_)
    (hne : ∀ e ∈ w.rvgrph_rv_, e.2 ≠ []) :
    ∃ res, rtv_graph E workers w = some res ∧
      ∀ e ∈ res.1.vted_, ∀ stid ∈ Dict.keys e.2,
        stid ∈ Dict.keys res.1.trip_ ∧ ∃ t, Dict.find res.1.trip_ stid = some t := by
  obtain ⟨res, hrun⟩ := rtv_graph_total E workers w hR hG hne
  exact ⟨res, hrun, vted_ids_registered_of_run E workers w res hR hG hrun⟩

/-- C8 at a concrete input: two workers with one vehicle each; the trips 2
and 3 are shared by both vehicles. -/
theorem vted_ids_are_registered_witness :
    RegInv wsTwo ∧
    (rtv_graph okEnv [[vehl1], [vehl3]] wsTwo).map (fun r => r.1.vted_) =
      some [(7, [(1, 0), (2, 10), (3, 10)]),
        (9, [(4, 0), (5, 0), (6, 10), (7, 10), (2, 10), (3, 10), (8, 30), (9, 30)])] ∧
    (rtv_graph okEnv [[vehl1], [vehl3]] wsTwo).map (fun r => Dict.keys r.1.trip_) =
      some [1, 2, 3, 4, 5, 6, 7, 8, 9] ∧
    ∃ res, rtv_graph okEnv [[vehl1], [vehl3]] wsTwo = some res ∧
      ∀ e ∈ res.1.vted_, ∀ stid ∈ Dict.keys e.2,
        stid ∈ Dict.keys res.1.trip_ ∧ ∃ t, Dict.find res.1.trip_ stid = some t :=
  have hR : RegInv wsTwo := RegInv_of_eq rfl rfl reset_RegInv
  ⟨hR, by decide!, by decide!,
    vted_ids_are_registered okEnv [[vehl1], [vehl3]] wsTwo hR
      (by simp [wsTwo, wsCap3, reset_workspace]) (by simp [wsTwo])⟩

/-! ### The integer program -/

theorem set_enumFrom_next {α : Type} (l : List α) (e : α) :
    Dict.set (List.enumFrom 1 l) (l.length + 1) e = List.enumFrom 1 (l ++ [e]) := by
  have hk : l.length + 1 ∉ Dict.keys (List.enumFrom 1 l) := by
    unfold Dict.keys
    rw [List.enumFrom_map_fst]
    simp [List.mem_range']
    omega
  rw [Dict.set_of_not_mem _ _ _ hk, List.enumFrom_append, List.enumFrom_singleton,
    Nat.add_comm 1 l.length]

/-- The state of the column loops, as lists in column order. -/
theorem add_x_col_spec (v : VehlId) (s : ColState) (kv2 : SharedTripId × DistInt)
    (cols : List (Int × SharedTripId)) (costs : List Int)
    (h : s = { col_idx := cols.length, colmap := List.enumFrom 1 cols,
               obj_coef := List.enumFrom 1 costs,
               col_bv := List.enumFrom 1 (cols.map (fun _ => true)) })
    (hl : costs.length = cols.length) :
    add_x_col v s kv2 =
      { col_idx := (cols ++ [(v, kv2.1)]).length
        colmap := List.enumFrom 1 (cols ++ [(v, kv2.1)])
        obj_coef := List.enumFrom 1 (costs ++ [kv2.2])
        col_bv := List.enumFrom 1 ((cols ++ [(v, kv2.1)]).map (fun _ => true)) } := by
  subst h
  unfold add_x_col
  simp only [List.length_append, List.length_singleton, List.map_append, List.map_cons,
    List.map_nil]
  have h1 := set_enumFrom_next cols (v, kv2.1)
  have h2 := set_enumFrom_next costs kv2.2
  have h3 := set_enumFrom_next (cols.map (fun _ => true)) true
  rw [hl] at h2
  rw [List.length_map] at h3
  rw [h1, h2, h3]

theorem add_y_col_spec (E : Env) (pen : Int) (s : ColState) (c : CustId)
    (cols : List (Int × SharedTripId)) (costs : List Int)
    (h : s = { col_idx := cols.length, colmap := List.enumFrom 1 cols,
               obj_coef := List.enumFrom 1 costs,
               col_bv := List.enumFrom 1 (cols.map (fun _ => true)) })
    (hl : costs.length = cols.length) :
    add_y_col E pen s c =
      { col_idx := (cols ++ [(c, -1)]).length
        colmap := List.enumFrom 1 (cols ++ [(c, -1)])
        obj_coef := List.enumFrom 1 (costs ++ [penalty E pen c])
        col_bv := List.enumFrom 1 ((cols ++ [(c, -1)]).map (fun _ => true)) } := by
  subst h
  unfold add_y_col
  simp only [List.length_append, List.length_singleton, List.map_append, List.map_cons,
    List.map_nil]
  have h1 := set_enumFrom_next cols (c, (-1 : Int))
  have h2 := set_enumFrom_next costs (penalty E pen c)
  have h3 := set_enumFrom_next (cols.map (fun _ => true)) true
  rw [hl] at h2
  rw [List.length_map] at h3
  rw [h1, h2, h3]

theorem add_x_cols_spec (kv : VehlId × Dict SharedTripId DistInt) :
    ∀ (cols : List (Int × SharedTripId)) (costs : List Int), costs.length = cols.length →
    add_x_cols { col_idx := cols.length, colmap := List.enumFrom 1 cols,
                 obj_coef := List.enumFrom 1 costs,
                 col_bv := List.enumFrom 1 (cols.map (fun _ => true)) } kv =
      { col_idx := (cols ++ kv.2.map (fun kv2 => (kv.1, kv2.1))).length
        colmap := List.enumFrom 1 (cols ++ kv.2.map (fun kv2 => (kv.1, kv2.1)))
        obj_coef := List.enumFrom 1 (costs ++ kv.2.map (fun kv2 => kv2.2))
        col_bv := List.enumFrom 1
          ((cols ++ kv.2.map (fun kv2 => (kv.1, kv2.1))).map (fun _ => true)) } := by
  obtain ⟨v, tbl⟩ := kv
  unfold add_x_cols
  simp only
  induction tbl with
  | nil => intro cols costs _; simp
  | cons kv2 rest ih =>
    intro cols costs hl
    rw [List.foldl_cons, add_x_col_spec v _ kv2 cols costs rfl hl,
      ih (cols ++ [(v, kv2.1)]) (costs ++ [kv2.2]) (by simp [hl])]
    simp

/-- The columns that lines 409-432 build: numbered from 1, the edges of `vted_`
first, then one column `y` for each entry of `matchable_custs`. -/
theorem build_cols_spec (E : Env) (pen : Int) (w : TVG) :
    build_cols E pen w =
      { col_idx := (x_cols w ++ y_cols w).length
        colmap := List.enumFrom 1 (x_cols w ++ y_cols w)
        obj_coef := List.enumFrom 1 (x_costs w ++ y_costs E pen w)
        col_bv := List.enumFrom 1 ((x_cols w ++ y_cols w).map (fun _ => true)) } := by
  have hx : ∀ (vted : Dict VehlId (Dict SharedTripId DistInt))
      (cols : List (Int × SharedTripId)) (costs : List Int), costs.length = cols.length →
      vted.foldl add_x_cols
        { col_idx := cols.length
          colmap := List.enumFrom 1 cols
          obj_coef := List.enumFrom 1 costs
          col_bv := List.enumFrom 1 (cols.map (fun _ => true)) } =
      { col_idx := (cols ++ vted.flatMap (fun kv => kv.2.map (fun kv2 => (kv.1, kv2.1)))).length
        colmap := List.enumFrom 1
          (cols ++ vted.flatMap (fun kv => kv.2.map (fun kv2 => (kv.1, kv2.1))))
        obj_coef := List.enumFrom 1
          (costs ++ vted.flatMap (fun kv => kv.2.map (fun kv2 => kv2.2)))
        col_bv := List.enumFrom 1
          ((cols ++ vted.flatMap (fun kv => kv.2.map (fun kv2 => (kv.1, kv2.1)))).map
            (fun _ => true)) } := by
    intro vted
    induction vted with
    | nil => intro cols costs _; simp
    | cons kv rest ih =>
      intro cols costs hl
      rw [List.foldl_cons, add_x_cols_spec kv cols costs hl, ih _ _ (by simp [hl])]
      simp
  have hy : ∀ (ms : List CustId) (cols : List (Int × SharedTripId)) (costs : List Int),
      costs.length = cols.length →
      ms.foldl (add_y_col E pen)
        { col_idx := cols.length
          colmap := List.enumFrom 1 cols
          obj_coef := List.enumFrom 1 costs
          col_bv := List.enumFrom 1 (cols.map (fun _ => true)) } =
      { col_idx := (cols ++ ms.map (fun c => (c, (-1 : Int)))).length
        colmap := List.enumFrom 1 (cols ++ ms.map (fun c => (c, (-1 : Int))))
        obj_coef := List.enumFrom 1 (costs ++ ms.map (penalty E pen))
        col_bv := List.enumFrom 1
          ((cols ++ ms.map (fun c => (c, (-1 : Int)))).map (fun _ => true)) } := by
    intro ms
    induction ms with
    | nil => intro cols costs _; simp
    | cons c rest ih =>
      intro cols costs hl
      rw [List.foldl_cons, add_y_col_spec E pen _ c cols costs rfl hl, ih _ _ (by simp [hl])]
      simp
  unfold build_cols
  have h0 := hx w.vted_ [] [] rfl
  simp only [List.length_nil, List.enumFrom_nil, List.map_nil, List.nil_append] at h0
  rw [h0]
  have hlen : (w.vted_.flatMap (fun kv => kv.2.map (fun kv2 => kv2.2))).length =
      (w.vted_.flatMap (fun kv => kv.2.map (fun kv2 => (kv.1, kv2.1)))).length := by
    induction w.vted_ with
    | nil => rfl
    | cons kv rest ih => simp [List.flatMap_cons, ih]
  rw [hy w.matchable_custs _ _ hlen]
  rfl

theorem foldl_append_map {α β : Type} (f : α → β) (l : List α) :
    ∀ (cs : List β), l.foldl (fun acc x => acc ++ [f x]) cs = cs ++ l.map f := by
  induction l with
  | nil => intro cs; simp
  | cons x r ih => intro cs; simp [ih]

theorem vehl_row_spec (colmap : Dict Nat (Int × SharedTripId)) (s : RowState)
    (kv : VehlId × Dict SharedTripId DistInt) :
    vehl_row colmap s kv =
      { row_idx := s.row_idx + 1
        row_bnds := Dict.set s.row_bnds (s.row_idx + 1) (RowBnd.up 1)
        cells := s.cells ++ vehl_block colmap (s.row_idx + 1) kv.1 } := by
  unfold vehl_row vehl_block
  rw [foldl_append_map (fun kv2 : Nat × (Int × SharedTripId) =>
    (s.row_idx + 1, kv2.1, if kv.1 = kv2.2.1 then (1 : Int) else 0))]

theorem vehl_rows_spec (colmap : Dict Nat (Int × SharedTripId))
    (vs : Dict VehlId (Dict SharedTripId DistInt)) :
    ∀ (bnds : List RowBnd) (cs : List (Nat × Nat × Int)),
    vs.foldl (vehl_row colmap)
        { row_idx := bnds.length, row_bnds := List.enumFrom 1 bnds, cells := cs } =
      { row_idx := (bnds ++ vs.map (fun _ => RowBnd.up 1)).length
        row_bnds := List.enumFrom 1 (bnds ++ vs.map (fun _ => RowBnd.up 1))
        cells := cs ++ (List.enumFrom (bnds.length + 1) vs).flatMap
          (fun e => vehl_block colmap e.1 e.2.1) } := by
  induction vs with
  | nil => intro bnds cs; simp
  | cons kv rest ih =>
    intro bnds cs
    rw [List.foldl_cons, vehl_row_spec]
    simp only
    rw [set_enumFrom_next bnds (RowBnd.up 1)]
    have := ih (bnds ++ [RowBnd.up 1]) (cs ++ vehl_block colmap (bnds.length + 1) kv.1)
    simp only [List.length_append, List.length_singleton] at this
    rw [this]
    simp [List.flatMap_cons]
    omega

theorem cust_cells_spec (trip_ : Dict SharedTripId SharedTrip) (c : CustId) (r : Nat)
    (colmap : Dict Nat (Int × SharedTripId)) :
    ∀ (cs cs1 : List (Nat × Nat × Int)),
    foldOpt (cust_row_cell trip_ c r) cs colmap = some cs1 →
    cs1 = cs ++ cust_block trip_ colmap r c ∧
    ∀ kv2 ∈ colmap, ∃ a, cust_cell trip_ c kv2 = some a := by
  induction colmap with
  | nil =>
    intro cs cs1 h
    simp only [foldOpt, Option.some.injEq] at h
    simp [cust_block, h]
  | cons kv2 rest ih =>
    intro cs cs1 h
    simp only [foldOpt, cust_row_cell] at h
    cases hc : cust_cell trip_ c kv2 with
    | none => simp [hc] at h
    | some a =>
      rw [hc] at h
      simp only at h
      obtain ⟨h1, h2⟩ := ih _ _ h
      constructor
      · rw [h1]
        simp [cust_block, hc]
      · intro x hx
        rcases List.mem_cons.mp hx with rfl | hx
        · exact ⟨a, hc⟩
        · exact h2 x hx

theorem cust_rows_spec (trip_ : Dict SharedTripId SharedTrip)
    (colmap : Dict Nat (Int × SharedTripId)) (ms : List CustId) :
    ∀ (bnds : List RowBnd) (cs : List (Nat × Nat × Int)) (rows : RowState),
    foldOpt (cust_row trip_ colmap)
        { row_idx := bnds.length, row_bnds := List.enumFrom 1 bnds, cells := cs } ms =
      some rows →
    rows =
      { row_idx := (bnds ++ ms.map (fun _ => RowBnd.fx 1)).length
        row_bnds := List.enumFrom 1 (bnds ++ ms.map (fun _ => RowBnd.fx 1))
        cells := cs ++ (List.enumFrom (bnds.length + 1) ms).flatMap
          (fun e => cust_block trip_ colmap e.1 e.2) } ∧
    ∀ c ∈ ms, ∀ kv2 ∈ colmap, ∃ a, cust_cell trip_ c kv2 = some a := by
  induction ms with
  | nil =>
    intro bnds cs rows h
    simp only [foldOpt, Option.some.injEq] at h
    subst h
    simp
  | cons c rest ih =>
    intro bnds cs rows h
    simp only [foldOpt, cust_row] at h
    cases hc : foldOpt (cust_row_cell trip_ c (bnds.length + 1)) cs colmap with
    | none => simp [hc] at h
    | some cs1 =>
      rw [hc] at h
      simp only at h
      obtain ⟨h1, h2⟩ := cust_cells_spec trip_ c (bnds.length + 1) colmap cs cs1 hc
      rw [set_enumFrom_next bnds (RowBnd.fx 1)] at h
      have h3 := ih (bnds ++ [RowBnd.fx 1]) cs1 rows
      simp only [List.length_append, List.length_singleton] at h3
      obtain ⟨h4, h5⟩ := h3 h
      constructor
      · rw [h4, h1]
        simp [List.flatMap_cons]
        omega
      · intro x hx
        rcases List.mem_cons.mp hx with rfl | hx
        · exact h2
        · exact h5 x hx

/-- The program that `build_mip` returns, written out: the columns of
`build_cols`, one `GLP_UP` row per vehicle of `vted_` followed by one `GLP_FX`
row per entry of `matchable_custs`, and for every row one cell per column. -/
theorem build_mip_spec (E : Env) (pen : Int) (w : TVG) (nvted : Int) (m : Mip)
    (h : build_mip E pen w nvted = some m) :
    m.obj_dir_min = true ∧
    m.ncol = wrap32 (nvted + (w.matchable_custs.length : Int)) ∧
    m.nrow = wrap32 ((w.vted_.length : Int) + (w.matchable_custs.length : Int)) ∧
    m.colmap = List.enumFrom 1 (x_cols w ++ y_cols w) ∧
    m.obj_coef = List.enumFrom 1 (x_costs w ++ y_costs E pen w) ∧
    m.col_bv = List.enumFrom 1 ((x_cols w ++ y_cols w).map (fun _ => true)) ∧
    m.row_bnds = List.enumFrom 1
      (w.vted_.map (fun _ => RowBnd.up 1) ++ w.matchable_custs.map (fun _ => RowBnd.fx 1)) ∧
    m.cells =
      (List.enumFrom 1 w.vted_).flatMap (fun e => vehl_block m.colmap e.1 e.2.1) ++
      (List.enumFrom (w.vted_.length + 1) w.matchable_custs).flatMap
        (fun e => cust_block w.trip_ m.colmap e.1 e.2) ∧
    ∀ c ∈ w.matchable_custs, ∀ kv2 ∈ m.colmap, ∃ a, cust_cell w.trip_ c kv2 = some a := by
  unfold build_mip at h
  simp only at h
  have hv := vehl_rows_spec (build_cols E pen w).colmap w.vted_ [] []
  simp only [List.length_nil, List.enumFrom_nil, List.nil_append, Nat.zero_add] at hv
  rw [hv] at h
  cases hc : foldOpt (cust_row w.trip_ (build_cols E pen w).colmap)
      { row_idx := (w.vted_.map (fun _ => RowBnd.up 1)).length
        row_bnds := List.enumFrom 1 (w.vted_.map (fun _ => RowBnd.up 1))
        cells := (List.enumFrom 1 w.vted_).flatMap
          (fun e => vehl_block (build_cols E pen w).colmap e.1 e.2.1) }
      w.matchable_custs with
  | none =>
    rw [hc] at h
    simp at h
  | some rows =>
    rw [hc] at h
    simp only [Option.some.injEq] at h
    obtain ⟨h1, h2⟩ := cust_rows_spec w.trip_ (build_cols E pen w).colmap w.matchable_custs
      _ _ rows hc
    subst h
    simp only [List.length_map] at h1
    have hcm : (build_cols E pen w).colmap = List.enumFrom 1 (x_cols w ++ y_cols w) := by
      rw [build_cols_spec]
    have hco : (build_cols E pen w).obj_coef =
        List.enumFrom 1 (x_costs w ++ y_costs E pen w) := by
      rw [build_cols_spec]
    have hcb : (build_cols E pen w).col_bv =
        List.enumFrom 1 ((x_cols w ++ y_cols w).map (fun _ => true)) := by
      rw [build_cols_spec]
    refine ⟨rfl, rfl, rfl, hcm, hco, hcb, ?_, ?_, h2⟩
    · rw [h1]
    · rw [h1]

theorem keys_enumFrom_nodup {α : Type} (n : Nat) (l : List α) :
    (Dict.keys (List.enumFrom n l)).Nodup := by
  unfold Dict.keys
  rw [List.enumFrom_map_fst]
  exact List.nodup_range' n l.length

theorem mem_enumFrom_map {α β : Type} (f : α → β) {n i : Nat} {x : α} {l : List α}
    (h : (i, x) ∈ List.enumFrom n l) : (i, f x) ∈ List.enumFrom n (l.map f) := by
  rw [List.enumFrom_map]
  exact List.mem_map.mpr ⟨(i, x), h, rfl⟩

theorem mem_enumFrom_append_left {α : Type} {n i : Nat} {x : α} {l : List α} (r : List α)
    (h : (i, x) ∈ List.enumFrom n l) : (i, x) ∈ List.enumFrom n (l ++ r) := by
  rw [List.enumFrom_append]
  exact List.mem_append_left _ h

theorem mem_enumFrom_append_right {α : Type} {n i : Nat} {x : α} (l : List α) {r : List α}
    (h : (i, x) ∈ List.enumFrom (n + l.length) r) : (i, x) ∈ List.enumFrom n (l ++ r) := by
  rw [List.enumFrom_append]
  exact List.mem_append_right _ h

theorem mem_enumFrom_append {α : Type} {n i : Nat} {x : α} {l r : List α}
    (h : (i, x) ∈ List.enumFrom n (l ++ r)) :
    (i, x) ∈ List.enumFrom n l ∨ (i, x) ∈ List.enumFrom (n + l.length) r := by
  rw [List.enumFrom_append] at h
  exact List.mem_append.mp h

/-- Cells of blocks that carry their row number: no cell of another row. -/
theorem filter_blocks_none {β : Type} (b : Nat → β → List (Nat × Nat × Int))
    (hb : ∀ r x, ∀ c ∈ b r x, c.1 = r) (i : Nat) (es : List (Nat × β))
    (h : ∀ e ∈ es, e.1 ≠ i) :
    (es.flatMap (fun e => b e.1 e.2)).filter (fun c => decide (c.1 = i)) = [] := by
  rw [List.filter_eq_nil_iff]
  intro c hc
  obtain ⟨e, he, hce⟩ := List.mem_flatMap.mp hc
  have := hb e.1 e.2 c hce
  simp only [decide_eq_true_eq]
  rw [this]
  exact h e he

/-- Cells of blocks that carry their row number: the cells of the row `i`. -/
theorem filter_blocks_row {β : Type} (b : Nat → β → List (Nat × Nat × Int))
    (hb : ∀ r x, ∀ c ∈ b r x, c.1 = r) (i : Nat) (x : β) (l : List β) :
    ∀ (n : Nat), (i, x) ∈ List.enumFrom n l →
    ((List.enumFrom n l).flatMap (fun e => b e.1 e.2)).filter (fun c => decide (c.1 = i)) =
      b i x := by
  induction l with
  | nil => intro n h; simp at h
  | cons x0 r ih =>
    intro n h
    rw [List.enumFrom_cons, List.flatMap_cons, List.filter_append]
    rw [List.enumFrom_cons] at h
    rcases List.mem_cons.mp h with heq | hmem
    · obtain ⟨rfl, rfl⟩ := Prod.mk.inj heq
      have h1 : (b i x).filter (fun c => decide (c.1 = i)) = b i x := by
        rw [List.filter_eq_self]
        intro c hc
        simp [hb i x c hc]
      have h2 := filter_blocks_none b hb i (List.enumFrom (i + 1) r) (by
        intro e he
        have := List.le_fst_of_mem_enumFrom he
        omega)
      rw [h1, h2, List.append_nil]
    · have hge := List.le_fst_of_mem_enumFrom hmem
      have h1 : (b n x0).filter (fun c => decide (c.1 = i)) = [] := by
        rw [List.filter_eq_nil_iff]
        intro c hc
        have := hb n x0 c hc
        simp only [decide_eq_true_eq]
        omega
      rw [h1, List.nil_append]
      exact ih (n + 1) hmem

theorem vehl_block_row (colmap : Dict Nat (Int × SharedTripId)) (r : Nat) (v : VehlId) :
    ∀ c ∈ vehl_block colmap r v, c.1 = r := by
  intro c hc
  obtain ⟨kv2, _, rfl⟩ := List.mem_map.mp hc
  rfl

theorem cust_block_row (trip_ : Dict SharedTripId SharedTrip)
    (colmap : Dict Nat (Int × SharedTripId)) (r : Nat) (c0 : CustId) :
    ∀ c ∈ cust_block trip_ colmap r c0, c.1 = r := by
  intro c hc
  obtain ⟨kv2, _, rfl⟩ := List.mem_map.mp hc
  rfl

/-- The cells of the row of a vehicle. -/
theorem row_cells_vehl (E : Env) (pen : Int) (w : TVG) (nvted : Int) (m : Mip)
    (h : build_mip E pen w nvted = some m) (i : Nat) (v : VehlId)
    (tbl : Dict SharedTripId DistInt) (hi : (i, (v, tbl)) ∈ List.enumFrom 1 w.vted_) :
    row_cells m i = vehl_block m.colmap i v := by
  obtain ⟨_, _, _, _, _, _, _, hcells, _⟩ := build_mip_spec E pen w nvted m h
  unfold row_cells
  rw [hcells, List.filter_append]
  have h1 := filter_blocks_row (fun r (x : VehlId × Dict SharedTripId DistInt) =>
    vehl_block m.colmap r x.1) (fun r x => vehl_block_row m.colmap r x.1) i (v, tbl)
    w.vted_ 1 hi
  have h2 := filter_blocks_none (fun r (x : CustId) => cust_block w.trip_ m.colmap r x)
    (fun r x => cust_block_row w.trip_ m.colmap r x) i
    (List.enumFrom (w.vted_.length + 1) w.matchable_custs) (by
      intro e he
      have h3 := List.le_fst_of_mem_enumFrom he
      have h4 := List.fst_lt_add_of_mem_enumFrom hi
      omega)
  rw [h1, h2, List.append_nil]

/-- The cells of the row of a customer. -/
theorem row_cells_cust (E : Env) (pen : Int) (w : TVG) (nvted : Int) (m : Mip)
    (h : build_mip E pen w nvted = some m) (i : Nat) (c : CustId)
    (hi : (i, c) ∈ List.enumFrom (w.vted_.length + 1) w.matchable_custs) :
    row_cells m i = cust_block w.trip_ m.colmap i c := by
  obtain ⟨_, _, _, _, _, _, _, hcells, _⟩ := build_mip_spec E pen w nvted m h
  unfold row_cells
  rw [hcells, List.filter_append]
  have h1 := filter_blocks_row (fun r (x : CustId) => cust_block w.trip_ m.colmap r x)
    (fun r x => cust_block_row w.trip_ m.colmap r x) i c w.matchable_custs
    (w.vted_.length + 1) hi
  have h2 := filter_blocks_none (fun r (x : VehlId × Dict SharedTripId DistInt) =>
    vehl_block m.colmap r x.1) (fun r x => vehl_block_row m.colmap r x.1) i
    (List.enumFrom 1 w.vted_) (by
      intro e he
      have h3 := List.fst_lt_add_of_mem_enumFrom he
      have h4 := List.le_fst_of_mem_enumFrom hi
      omega)
  rw [h1, h2, List.nil_append]

/-- The coefficient that a block of cells holds for a column. -/
theorem coef_of_block (f : Nat × (Int × SharedTripId) → Int) (r : Nat)
    (colmap : Dict Nat (Int × SharedTripId)) (hk : (Dict.keys colmap).Nodup) (j : Nat)
    (e : Int × SharedTripId) (hj : (j, e) ∈ colmap) :
    (((colmap.map (fun kv2 => (r, kv2.1, f kv2))).filter
      (fun c => decide (c.2.1 = j))).map (fun c => c.2.2)).sum = f (j, e) := by
  induction colmap with
  | nil => simp at hj
  | cons kv2 rest ih =>
    simp only [Dict.keys, List.map_cons, List.nodup_cons] at hk
    rcases List.mem_cons.mp hj with heq | hmem
    · subst heq
      have hrest : (rest.map (fun kv2 => (r, kv2.1, f kv2))).filter
          (fun c => decide (c.2.1 = j)) = [] := by
        rw [List.filter_eq_nil_iff]
        intro c hc
        obtain ⟨x, hx, rfl⟩ := List.mem_map.mp hc
        simp only [decide_eq_true_eq]
        intro hxj
        exact hk.1 (List.mem_map.mpr ⟨x, hx, hxj⟩)
      simp [List.filter_cons, hrest]
    · have hne : kv2.1 ≠ j := by
        intro hh
        exact hk.1 (List.mem_map.mpr ⟨(j, e), hmem, hh.symm⟩)
      simp only [List.map_cons, List.filter_cons, hne, decide_False]
      exact ih hk.2 hmem

theorem exists_enumFrom_of_mem {α : Type} {x : α} {l : List α} (h : x ∈ l) :
    ∀ n, ∃ i, (i, x) ∈ List.enumFrom n l := by
  induction l with
  | nil => simp at h
  | cons y r ih =>
    intro n
    rcases List.mem_cons.mp h with rfl | h
    · exact ⟨n, by simp [List.enumFrom_cons]⟩
    · obtain ⟨i, hi⟩ := ih h (n + 1)
      exact ⟨i, by rw [List.enumFrom_cons]; exact List.mem_cons_of_mem _ hi⟩

theorem snd_mem_of_enumFrom {α : Type} {i n : Nat} {x : α} {l : List α}
    (h : (i, x) ∈ List.enumFrom n l) : x ∈ l := by
  have h1 : x ∈ (List.enumFrom n l).map Prod.snd := List.mem_map.mpr ⟨(i, x), h, rfl⟩
  rw [List.enumFrom_map_snd] at h1
  exact h1

theorem enumFrom_key_unique {K V : Type} {l : Dict K V} (hk : (Dict.keys l).Nodup)
    {i i2 : Nat} {v : K} {a b : V} :
    ∀ n, (i, (v, a)) ∈ List.enumFrom n l → (i2, (v, b)) ∈ List.enumFrom n l →
      i = i2 ∧ a = b := by
  induction l with
  | nil => intro n h; simp at h
  | cons e r ih =>
    intro n h1 h2
    simp only [Dict.keys, List.map_cons, List.nodup_cons] at hk
    rw [List.enumFrom_cons] at h1 h2
    rcases List.mem_cons.mp h1 with e1 | m1
    · rcases List.mem_cons.mp h2 with e2 | m2
      · obtain ⟨rfl, he1⟩ := Prod.mk.inj e1
        obtain ⟨rfl, he2⟩ := Prod.mk.inj e2
        rw [← he1] at he2
        exact ⟨rfl, ((Prod.mk.inj he2).2).symm⟩
      · exfalso
        obtain ⟨_, he1⟩ := Prod.mk.inj e1
        have := snd_mem_of_enumFrom m2
        exact hk.1 (by rw [← he1]; exact List.mem_map.mpr ⟨(v, b), this, rfl⟩)
    · rcases List.mem_cons.mp h2 with e2 | m2
      · exfalso
        obtain ⟨_, he2⟩ := Prod.mk.inj e2
        have := snd_mem_of_enumFrom m1
        exact hk.1 (by rw [← he2]; exact List.mem_map.mpr ⟨(v, a), this, rfl⟩)
      · exact ih hk.2 (n + 1) m1 m2

theorem enumFrom_val_unique {α : Type} {l : List α} (hk : l.Nodup) {i i2 : Nat} {c : α} :
    ∀ n, (i, c) ∈ List.enumFrom n l → (i2, c) ∈ List.enumFrom n l → i = i2 := by
  induction l with
  | nil => intro n h; simp at h
  | cons e r ih =>
    intro n h1 h2
    simp only [List.nodup_cons] at hk
    rw [List.enumFrom_cons] at h1 h2
    rcases List.mem_cons.mp h1 with e1 | m1
    · rcases List.mem_cons.mp h2 with e2 | m2
      · rw [(Prod.mk.inj e1).1, (Prod.mk.inj e2).1]
      · exfalso
        have := snd_mem_of_enumFrom m2
        exact hk.1 (by rw [← (Prod.mk.inj e1).2]; exact this)
    · rcases List.mem_cons.mp h2 with e2 | m2
      · exfalso
        have := snd_mem_of_enumFrom m1
        exact hk.1 (by rw [← (Prod.mk.inj e2).2]; exact this)
      · exact ih hk.2 (n + 1) m1 m2

theorem mem_enumFrom_of_getElem? {α : Type} {l : List α} {p : Nat} {x : α} :
    ∀ n, l[p]? = some x → (n + p, x) ∈ List.enumFrom n l := by
  induction l generalizing p with
  | nil => intro n h; simp at h
  | cons e r ih =>
    intro n h
    rw [List.enumFrom_cons]
    cases p with
    | zero =>
      simp only [List.getElem?_cons_zero, Option.some.injEq] at h
      simp [h]
    | succ q =>
      simp only [List.getElem?_cons_succ] at h
      have := ih (n + 1) h
      have he : n + 1 + q = n + (q + 1) := by omega
      rw [he] at this
      exact List.mem_cons_of_mem _ this

theorem mem_x_cols (w : TVG) (a : Int) (t : SharedTripId) :
    (a, t) ∈ x_cols w ↔ ∃ tbl, (a, tbl) ∈ w.vted_ ∧ t ∈ Dict.keys tbl := by
  unfold x_cols Dict.keys
  simp only [List.mem_flatMap, List.mem_map, Prod.mk.injEq, Prod.exists]
  constructor
  · rintro ⟨v, tbl, hv, t1, c, hc, rfl, rfl⟩
    exact ⟨tbl, hv, t1, c, hc, rfl⟩
  · rintro ⟨tbl, hv, t1, c, hc, rfl⟩
    exact ⟨a, tbl, hv, t1, c, hc, rfl, rfl⟩

/-- A column of the program is a column `x` of an edge of `vted_` or the column
`y` of a matchable customer. -/
theorem colmap_cases (w : TVG) (j : Nat) (e : Int × SharedTripId)
    (h : (j, e) ∈ List.enumFrom 1 (x_cols w ++ y_cols w)) :
    e ∈ x_cols w ∨ ∃ c ∈ w.matchable_custs, e = (c, -1) := by
  have h1 := snd_mem_of_enumFrom h
  rcases List.mem_append.mp h1 with hx | hy
  · exact Or.inl hx
  · obtain ⟨c, hc, rfl⟩ := List.mem_map.mp hy
    exact Or.inr ⟨c, hc, rfl⟩

theorem cust_cell_total (trip_ : Dict SharedTripId SharedTrip) (c : CustId)
    (kv2 : Nat × (Int × SharedTripId))
    (h : kv2.2.2 = -1 ∨ kv2.2.2 ∈ Dict.keys trip_) : ∃ a, cust_cell trip_ c kv2 = some a := by
  unfold cust_cell
  by_cases h1 : kv2.2.1 = c
  · exact ⟨1, by simp [h1]⟩
  · by_cases h2 : kv2.2.2 = -1
    · exact ⟨0, by simp [h1, h2]⟩
    · rcases h with h | h
      · exact absurd h h2
      · obtain ⟨t, ht⟩ := find_isSome_of_mem_keys h
        simp only [h1, h2, if_false, ht]
        exact ⟨_, rfl⟩

/-- No `trip_.at(..)` of the construction throws when every trip id of `vted_`
is registered. -/
theorem build_mip_total (E : Env) (pen : Int) (w : TVG) (nvted : Int)
    (hG : ∀ e ∈ w.vted_, ∀ t ∈ Dict.keys e.2, t ∈ Dict.keys w.trip_) :
    ∃ m, build_mip E pen w nvted = some m := by
  unfold build_mip
  have hcell : ∀ c, ∀ kv2 ∈ (build_cols E pen w).colmap,
      ∃ a, cust_cell w.trip_ c kv2 = some a := by
    intro c kv2 hkv
    rw [build_cols_spec] at hkv
    apply cust_cell_total
    rcases colmap_cases w kv2.1 kv2.2 hkv with hx | ⟨c1, _, hy⟩
    · right
      obtain ⟨tbl, hv, ht⟩ := (mem_x_cols w kv2.2.1 kv2.2.2).mp hx
      exact hG _ hv _ ht
    · left
      rw [hy]
  have hrow : ∀ (s : RowState) (c : CustId), c ∈ w.matchable_custs → True →
      ∃ s1, cust_row w.trip_ (build_cols E pen w).colmap s c = some s1 ∧ True := by
    intro s c _ _
    unfold cust_row
    obtain ⟨cs, hcs, _⟩ := foldOpt_total (fun _ => True)
      (cust_row_cell w.trip_ c (s.row_idx + 1)) (build_cols E pen w).colmap (by
        intro cs kv2 hkv _
        obtain ⟨a, ha⟩ := hcell c kv2 hkv
        exact ⟨cs ++ [(s.row_idx + 1, kv2.1, a)], by simp [cust_row_cell, ha], trivial⟩)
      s.cells trivial
    rw [hcs]
    exact ⟨_, rfl, trivial⟩
  obtain ⟨rows, hrows, _⟩ := foldOpt_total (fun _ => True)
    (cust_row w.trip_ (build_cols E pen w).colmap) w.matchable_custs hrow
    (w.vted_.foldl (vehl_row (build_cols E pen w).colmap)
      { row_idx := 0, row_bnds := [], cells := [] }) trivial
  simp only [hrows]
  exact ⟨_, rfl⟩

/-- The coefficient of a column in the row of a vehicle (line 451). -/
theorem coef_vehl (E : Env) (pen : Int) (w : TVG) (nvted : Int) (m : Mip)
    (h : build_mip E pen w nvted = some m) (i : Nat) (v : VehlId)
    (tbl : Dict SharedTripId DistInt) (hi : (i, (v, tbl)) ∈ List.enumFrom 1 w.vted_)
    (j : Nat) (e : Int × SharedTripId) (hj : (j, e) ∈ m.colmap) :
    coef m i j = if v = e.1 then 1 else 0 := by
  unfold coef
  rw [row_cells_vehl E pen w nvted m h i v tbl hi]
  have hk : (Dict.keys m.colmap).Nodup := by
    rw [(build_mip_spec E pen w nvted m h).2.2.2.1]
    exact keys_enumFrom_nodup _ _
  exact coef_of_block (fun kv2 => if v = kv2.2.1 then 1 else 0) i m.colmap hk j e hj

/-- The coefficient of a column in the row of a customer (lines 467-477). -/
theorem coef_cust (E : Env) (pen : Int) (w : TVG) (nvted : Int) (m : Mip)
    (h : build_mip E pen w nvted = some m) (i : Nat) (c : CustId)
    (hi : (i, c) ∈ List.enumFrom (w.vted_.length + 1) w.matchable_custs)
    (j : Nat) (e : Int × SharedTripId) (hj : (j, e) ∈ m.colmap) :
    coef m i j = (cust_cell w.trip_ c (j, e)).getD 0 := by
  unfold coef
  rw [row_cells_cust E pen w nvted m h i c hi]
  have hk : (Dict.keys m.colmap).Nodup := by
    rw [(build_mip_spec E pen w nvted m h).2.2.2.1]
    exact keys_enumFrom_nodup _ _
  exact coef_of_block (fun kv2 => (cust_cell w.trip_ c kv2).getD 0) i m.colmap hk j e hj

/-- The column number of the `p`-th column `x`. -/
theorem x_col_mem (E : Env) (pen : Int) (w : TVG) (nvted : Int) (m : Mip)
    (h : build_mip E pen w nvted = some m) (p : Nat) (e : Int × SharedTripId)
    (hp : (x_cols w)[p]? = some e) : (p + 1, e) ∈ m.colmap := by
  rw [(build_mip_spec E pen w nvted m h).2.2.2.1, Nat.add_comm]
  exact mem_enumFrom_append_left _ (mem_enumFrom_of_getElem? 1 hp)

/-- The column number of the column `y` of the `p`-th matchable customer. -/
theorem y_col_mem (E : Env) (pen : Int) (w : TVG) (nvted : Int) (m : Mip)
    (h : build_mip E pen w nvted = some m) (p : Nat) (c : CustId)
    (hp : w.matchable_custs[p]? = some c) :
    ((x_cols w).length + p + 1, (c, -1)) ∈ m.colmap := by
  rw [(build_mip_spec E pen w nvted m h).2.2.2.1]
  apply mem_enumFrom_append_right
  have hy : (y_cols w)[p]? = some (c, -1) := by
    unfold y_cols
    rw [List.getElem?_map, hp]
    rfl
  have := mem_enumFrom_of_getElem? (1 + (x_cols w).length) hy
  have he : 1 + (x_cols w).length + p = (x_cols w).length + p + 1 := by omega
  rw [he] at this
  exact this

theorem vehl_row_bound (E : Env) (pen : Int) (w : TVG) (nvted : Int) (m : Mip)
    (h : build_mip E pen w nvted = some m) (i : Nat) (e : VehlId × Dict SharedTripId DistInt)
    (hi : (i, e) ∈ List.enumFrom 1 w.vted_) :
    Dict.find m.row_bnds i = some (RowBnd.up 1) := by
  have hb := (build_mip_spec E pen w nvted m h).2.2.2.2.2.2.1
  apply Dict.find_some_of_mem
  · rw [hb]
    exact keys_enumFrom_nodup _ _
  · rw [hb]
    exact mem_enumFrom_append_left _ (mem_enumFrom_map (fun _ => RowBnd.up 1) hi)

theorem cust_row_bound (E : Env) (pen : Int) (w : TVG) (nvted : Int) (m : Mip)
    (h : build_mip E pen w nvted = some m) (i : Nat) (c : CustId)
    (hi : (i, c) ∈ List.enumFrom (w.vted_.length + 1) w.matchable_custs) :
    Dict.find m.row_bnds i = some (RowBnd.fx 1) := by
  have hb := (build_mip_spec E pen w nvted m h).2.2.2.2.2.2.1
  apply Dict.find_some_of_mem
  · rw [hb]
    exact keys_enumFrom_nodup _ _
  · rw [hb]
    apply mem_enumFrom_append_right
    have := mem_enumFrom_map (fun _ => RowBnd.fx 1) hi
    rw [List.length_map, Nat.add_comm 1]
    exact this

/-- C11 (as stated, refuted): the matchable customers of `wsIlp` have the ids 7
and 5 and its one vehicle has the id 7. Row 1 is the row of vehicle 7 and
column 2 is the column `y` of customer 7, which is no column `x` of the vehicle,
and the coefficient there is 1, not 0. -/
theorem vehicle_row_counts_y_of_equal_id :
    (build_mip exEnv 1000 wsIlp 1).map (fun m => m.colmap) =
      some [(1, (7, 1)), (2, (7, -1)), (3, (5, -1))] ∧
    (build_mip exEnv 1000 wsIlp 1).map (fun m => Dict.find m.row_bnds 1) =
      some (some (RowBnd.up 1)) ∧
    (build_mip exEnv 1000 wsIlp 1).map (fun m => coef m 1 2) = some 1 := by
  refine ⟨by decide!, by decide!, by decide!⟩

/-- C11 (amended): when every trip id of `vted_` is registered and the keys of
`vted_` are distinct, the program is built and every vehicle `v` of `vted_` has
exactly one row; the row has the upper bound 1; in the column of an edge
`(a, t)` of `vted_` its coefficient is 1 when `a = v` and 0 otherwise; in the
column `y` of a matchable customer `c` its coefficient is 1 when the customer id
`c` equals the vehicle id `v` and 0 otherwise. So the row is
`sum over t of x_{v,t} <= 1` exactly when no matchable customer id equals `v`. -/
theorem ilp_vehicle_rows (E : Env) (pen : Int) (w : TVG) (nvted : Int)
    (hG : ∀ e ∈ w.vted_, ∀ t ∈ Dict.keys e.2, t ∈ Dict.keys w.trip_)
    (hk : (Dict.keys w.vted_).Nodup) :
    ∃ m, build_mip E pen w nvted = some m ∧
      ∀ v ∈ Dict.keys w.vted_, ∃ i,
        (∀ i2, (∃ tbl, (i2, (v, tbl)) ∈ List.enumFrom 1 w.vted_) ↔ i2 = i) ∧
        Dict.find m.row_bnds i = some (RowBnd.up 1) ∧
        (∀ p a t, (x_cols w)[p]? = some (a, t) →
          coef m i (p + 1) = if a = v then 1 else 0) ∧
        (∀ p c, w.matchable_custs[p]? = some c →
          coef m i ((x_cols w).length + p + 1) = if c = v then 1 else 0) := by
  obtain ⟨m, hm⟩ := build_mip_total E pen w nvted hG
  refine ⟨m, hm, ?_⟩
  intro v hv
  obtain ⟨e, he, hev⟩ := List.mem_map.mp hv
  obtain ⟨v0, tbl⟩ := e
  simp only at hev
  subst hev
  obtain ⟨i, hi⟩ := exists_enumFrom_of_mem he 1
  refine ⟨i, ?_, vehl_row_bound E pen w nvted m hm i _ hi, ?_, ?_⟩
  · intro i2
    constructor
    · rintro ⟨tbl2, h2⟩
      exact (enumFrom_key_unique hk 1 h2 hi).1
    · rintro rfl
      exact ⟨tbl, hi⟩
  · intro p a t hp
    rw [coef_vehl E pen w nvted m hm i v0 tbl hi (p + 1) (a, t)
      (x_col_mem E pen w nvted m hm p (a, t) hp)]
    by_cases h : a = v0
    · simp [h]
    · have h2 : ¬ v0 = a := fun hh => h hh.symm
      simp [h, h2]
  · intro p c hp
    rw [coef_vehl E pen w nvted m hm i v0 tbl hi _ (c, -1)
      (y_col_mem E pen w nvted m hm p c hp)]
    by_cases h : c = v0
    · simp [h]
    · have h2 : ¬ v0 = c := fun hh => h hh.symm
      simp [h, h2]

/-- C11 (amended) at a concrete input: the workspace `wsIlpOk` with the vehicles
7 and 9 and the customers 1, 2 and 3. -/
theorem ilp_vehicle_rows_witness :
    (Dict.keys wsIlpOk.vted_).Nodup ∧
    ∃ m, build_mip exEnv 1000 wsIlpOk 4 = some m ∧
      ∀ v ∈ Dict.keys wsIlpOk.vted_, ∃ i,
        (∀ i2, (∃ tbl, (i2, (v, tbl)) ∈ List.enumFrom 1 wsIlpOk.vted_) ↔ i2 = i) ∧
        Dict.find m.row_bnds i = some (RowBnd.up 1) ∧
        (∀ p a t, (x_cols wsIlpOk)[p]? = some (a, t) →
          coef m i (p + 1) = if a = v then 1 else 0) ∧
        (∀ p c, wsIlpOk.matchable_custs[p]? = some c →
          coef m i ((x_cols wsIlpOk).length + p + 1) = if c = v then 1 else 0) :=
  ⟨by decide, ilp_vehicle_rows exEnv 1000 wsIlpOk 4 (by decide) (by decide)⟩

theorem filter_enumFrom_length {α : Type} (p : Nat × α → Bool) (q : α → Bool) (l : List α) :
    ∀ n, (∀ e ∈ List.enumFrom n l, p e = q e.2) →
      ((List.enumFrom n l).filter p).length = (l.filter q).length := by
  induction l with
  | nil => intro n _; rfl
  | cons x r ih =>
    intro n h
    rw [List.enumFrom_cons] at h ⊢
    have hx := h (n, x) (List.mem_cons_self _ _)
    have hr := ih (n + 1) (fun e he => h e (List.mem_cons_of_mem _ he))
    simp only [List.filter_cons, hx]
    cases q x <;> simp [hr]

/-- The cell of the row of `c` in the column of an edge `(a, t)` whose trip is
registered under an id other than -1. -/
theorem cust_cell_x (trip_ : Dict SharedTripId SharedTrip) (c : CustId) (j : Nat) (a : Int)
    (t : SharedTripId) (ht : t ∈ Dict.keys trip_) (hne : t ≠ -1) :
    cust_cell trip_ c (j, (a, t)) =
      some (if a = c ∨ trip_has trip_ c t = true then 1 else 0) := by
  obtain ⟨tr, htr⟩ := find_isSome_of_mem_keys ht
  unfold cust_cell trip_has
  simp only [htr]
  by_cases h1 : a = c
  · simp [h1]
  · simp only [h1, if_false, hne, false_or]

/-- The cell of the row of `c` in the column `y` of the customer `c2`. -/
theorem cust_cell_y (trip_ : Dict SharedTripId SharedTrip) (c c2 : CustId) (j : Nat) :
    cust_cell trip_ c (j, (c2, -1)) = some (if c2 = c then 1 else 0) := by
  unfold cust_cell
  by_cases h1 : c2 = c <;> simp [h1]

/-- C12 (as stated, refuted): in `wsIlp` row 2 is the row of customer 7 and
column 1 is the column of the edge of vehicle 7 to trip 1; trip 1 holds customer
5 only, and the coefficient of the row in that column is 1, not 0. -/
theorem customer_row_counts_x_of_equal_id :
    (build_mip exEnv 1000 wsIlp 1).map (fun m => m.colmap) =
      some [(1, (7, 1)), (2, (7, -1)), (3, (5, -1))] ∧
    wsIlp.matchable_custs = [7, 5] ∧
    (Dict.find wsIlp.trip_ 1).map (fun t => t.map (fun c => c.id)) = some [5] ∧
    (build_mip exEnv 1000 wsIlp 1).map (fun m => Dict.find m.row_bnds 2) =
      some (some (RowBnd.fx 1)) ∧
    (build_mip exEnv 1000 wsIlp 1).map (fun m => coef m 2 1) = some 1 := by
  refine ⟨by decide!, by decide!, by decide!, by decide!, by decide!⟩

/-- C12 (amended): when the registry invariant holds, every trip id of `vted_`
is registered and the matchable customers are distinct, the program is built
and every matchable customer `c` has exactly one row; the row is an equality
row with the value 1; in the column `y` of a customer `c2` its coefficient is 1
when `c2 = c` and 0 otherwise; in the column of an edge `(a, t)` of `vted_` its
coefficient is 1 when `c` is a member of `trip_[t]` or the vehicle id `a`
equals the customer id `c`, and 0 otherwise. When no vehicle id of `vted_`
equals `c`, the number of columns `x` with coefficient 1 in the row is the
number of edges `(v, t)` of `vted_` with `c` in `trip_[t]`. -/
theorem ilp_customer_rows (E : Env) (pen : Int) (w : TVG) (nvted : Int) (hR : RegInv w)
    (hG : ∀ e ∈ w.vted_, ∀ t ∈ Dict.keys e.2, t ∈ Dict.keys w.trip_)
    (hnd : w.matchable_custs.Nodup) :
    ∃ m, build_mip E pen w nvted = some m ∧
      ∀ c ∈ w.matchable_custs, ∃ i,
        (∀ i2, (i2, c) ∈ List.enumFrom (w.vted_.length + 1) w.matchable_custs ↔ i2 = i) ∧
        Dict.find m.row_bnds i = some (RowBnd.fx 1) ∧
        (∀ p c2, w.matchable_custs[p]? = some c2 →
          coef m i ((x_cols w).length + p + 1) = if c2 = c then 1 else 0) ∧
        (∀ p a t, (x_cols w)[p]? = some (a, t) →
          coef m i (p + 1) = if a = c ∨ trip_has w.trip_ c t = true then 1 else 0) ∧
        ((∀ v ∈ Dict.keys w.vted_, v ≠ c) →
          ((List.enumFrom 1 (x_cols w)).filter (fun e => decide (coef m i e.1 = 1))).length =
            ((x_cols w).filter (fun e => trip_has w.trip_ c e.2)).length) := by
  obtain ⟨m, hm⟩ := build_mip_total E pen w nvted hG
  refine ⟨m, hm, ?_⟩
  intro c hc
  obtain ⟨i, hi⟩ := exists_enumFrom_of_mem hc (w.vted_.length + 1)
  have hx : ∀ a t, (a, t) ∈ x_cols w → t ∈ Dict.keys w.trip_ ∧ t ≠ -1 := by
    intro a t hat
    obtain ⟨tbl, hv, ht⟩ := (mem_x_cols w a t).mp hat
    have h1 := hG _ hv _ ht
    have h2 := (mem_keys_of_RegInv hR t).mp h1
    refine ⟨h1, ?_⟩
    simp only [SharedTripId] at *
    omega
  refine ⟨i, ?_, cust_row_bound E pen w nvted m hm i c hi, ?_, ?_, ?_⟩
  · intro i2
    constructor
    · intro h2
      exact enumFrom_val_unique hnd _ h2 hi
    · rintro rfl
      exact hi
  · intro p c2 hp
    rw [coef_cust E pen w nvted m hm i c hi _ (c2, -1) (y_col_mem E pen w nvted m hm p c2 hp),
      cust_cell_y]
    rfl
  · intro p a t hp
    obtain ⟨h1, h2⟩ := hx a t (List.getElem?_mem hp)
    rw [coef_cust E pen w nvted m hm i c hi _ (a, t) (x_col_mem E pen w nvted m hm p (a, t) hp),
      cust_cell_x w.trip_ c _ a t h1 h2]
    rfl
  · intro hv
    apply filter_enumFrom_length
    intro e he
    obtain ⟨j, a, t⟩ := e
    have hat := snd_mem_of_enumFrom he
    obtain ⟨h1, h2⟩ := hx a t hat
    have hcol : (j, (a, t)) ∈ m.colmap := by
      rw [(build_mip_spec E pen w nvted m hm).2.2.2.1]
      exact mem_enumFrom_append_left _ he
    have hac : a ≠ c := by
      obtain ⟨tbl, hvt, _⟩ := (mem_x_cols w a t).mp hat
      exact hv a (List.mem_map.mpr ⟨(a, tbl), hvt, rfl⟩)
    simp only
    rw [coef_cust E pen w nvted m hm i c hi j (a, t) hcol, cust_cell_x w.trip_ c j a t h1 h2]
    simp only [Option.getD_some, hac, false_or]
    cases trip_has w.trip_ c t <;> simp

/-- C12 (amended) at a concrete input: the workspace `wsIlpOk` with the vehicles
7 and 9 and the customers 1, 2 and 3. -/
theorem ilp_customer_rows_witness :
    RegInv wsIlpOk ∧ wsIlpOk.matchable_custs.Nodup ∧
    ∃ m, build_mip exEnv 1000 wsIlpOk 4 = some m ∧
      ∀ c ∈ wsIlpOk.matchable_custs, ∃ i,
        (∀ i2, (i2, c) ∈ List.enumFrom (wsIlpOk.vted_.length + 1) wsIlpOk.matchable_custs ↔
          i2 = i) ∧
        Dict.find m.row_bnds i = some (RowBnd.fx 1) ∧
        (∀ p c2, wsIlpOk.matchable_custs[p]? = some c2 →
          coef m i ((x_cols wsIlpOk).length + p + 1) = if c2 = c then 1 else 0) ∧
        (∀ p a t, (x_cols wsIlpOk)[p]? = some (a, t) →
          coef m i (p + 1) = if a = c ∨ trip_has wsIlpOk.trip_ c t = true then 1 else 0) ∧
        ((∀ v ∈ Dict.keys wsIlpOk.vted_, v ≠ c) →
          ((List.enumFrom 1 (x_cols wsIlpOk)).filter
            (fun e => decide (coef m i e.1 = 1))).length =
            ((x_cols wsIlpOk).filter (fun e => trip_has wsIlpOk.trip_ c e.2)).length) :=
  have hR : RegInv wsIlpOk := ⟨3, rfl, by decide, by decide⟩
  ⟨hR, by decide, ilp_customer_rows exEnv 1000 wsIlpOk 4 hR (by decide) (by decide)⟩

/-- The columns `x` and their objective coefficients, position by position. -/
theorem x_cols_costs (vted : Dict VehlId (Dict SharedTripId DistInt)) :
    ∀ (p : Nat) (v : Int) (t : SharedTripId),
    (vted.flatMap (fun kv => kv.2.map (fun kv2 => (kv.1, kv2.1))))[p]? = some (v, t) →
    ∃ tbl cost, (v, tbl) ∈ vted ∧ (t, cost) ∈ tbl ∧
      (vted.flatMap (fun kv => kv.2.map (fun kv2 => kv2.2)))[p]? = some cost := by
  induction vted with
  | nil => intro p v t h; simp at h
  | cons kv rest ih =>
    intro p v t h
    rw [List.flatMap_cons] at h ⊢
    by_cases hp : p < kv.2.length
    · rw [List.getElem?_append_left (by simpa using hp)] at h
      rw [List.getElem?_append_left (by simpa using hp)]
      rw [List.getElem?_map] at h ⊢
      cases hq : kv.2[p]? with
      | none => rw [hq] at h; simp at h
      | some kv2 =>
        rw [hq] at h
        simp only [Option.map_some', Option.some.injEq, Prod.mk.injEq] at h
        obtain ⟨rfl, rfl⟩ := h
        exact ⟨kv.2, kv2.2, List.mem_cons_self _ _, List.getElem?_mem hq, rfl⟩
    · rw [List.getElem?_append_right (by simpa using hp)] at h
      rw [List.getElem?_append_right (by simpa using hp)]
      simp only [List.length_map] at h ⊢
      obtain ⟨tbl, cost, h1, h2, h3⟩ := ih _ v t h
      exact ⟨tbl, cost, List.mem_cons_of_mem _ h1, h2, h3⟩

theorem x_costs_length (w : TVG) : (x_costs w).length = (x_cols w).length := by
  unfold x_costs x_cols
  induction w.vted_ with
  | nil => rfl
  | cons kv rest ih => simp [List.flatMap_cons, ih]

/-- C13: when every trip id of `vted_` is registered, the program is built, its
direction is minimisation, the objective coefficient of the column of an edge
`(v, t)` is the cost stored for `t` in the table of `v` in `vted_`, the
objective coefficient of the column `y` of a customer `c` is `unassign_penalty`
when that is positive and `basecost(c)` otherwise, and every column is binary. -/
theorem ilp_objective (E : Env) (pen : Int) (w : TVG) (nvted : Int)
    (hG : ∀ e ∈ w.vted_, ∀ t ∈ Dict.keys e.2, t ∈ Dict.keys w.trip_) :
    ∃ m, build_mip E pen w nvted = some m ∧ m.obj_dir_min = true ∧
      (∀ p v t, (x_cols w)[p]? = some (v, t) →
        ∃ tbl cost, (v, tbl) ∈ w.vted_ ∧ (t, cost) ∈ tbl ∧
          Dict.find m.colmap (p + 1) = some (v, t) ∧
          Dict.find m.obj_coef (p + 1) = some cost) ∧
      (∀ p c, w.matchable_custs[p]? = some c →
        Dict.find m.colmap ((x_cols w).length + p + 1) = some (c, -1) ∧
        Dict.find m.obj_coef ((x_cols w).length + p + 1) =
          some (if pen > 0 then pen else E.basecost c)) ∧
      (∀ j e, (j, e) ∈ m.colmap → Dict.find m.col_bv j = some true) := by
  obtain ⟨m, hm⟩ := build_mip_total E pen w nvted hG
  obtain ⟨hdir, _, _, hcm, hoc, hbv, _⟩ := build_mip_spec E pen w nvted m hm
  have hkc : (Dict.keys m.colmap).Nodup := by rw [hcm]; exact keys_enumFrom_nodup _ _
  have hko : (Dict.keys m.obj_coef).Nodup := by rw [hoc]; exact keys_enumFrom_nodup _ _
  have hkb : (Dict.keys m.col_bv).Nodup := by rw [hbv]; exact keys_enumFrom_nodup _ _
  refine ⟨m, hm, hdir, ?_, ?_, ?_⟩
  · intro p v t hp
    obtain ⟨tbl, cost, h1, h2, h3⟩ := x_cols_costs w.vted_ p v t hp
    refine ⟨tbl, cost, h1, h2,
      Dict.find_some_of_mem hkc (x_col_mem E pen w nvted m hm p (v, t) hp), ?_⟩
    apply Dict.find_some_of_mem hko
    rw [hoc, Nat.add_comm]
    exact mem_enumFrom_append_left _ (mem_enumFrom_of_getElem? 1 h3)
  · intro p c hp
    refine ⟨Dict.find_some_of_mem hkc (y_col_mem E pen w nvted m hm p c hp), ?_⟩
    apply Dict.find_some_of_mem hko
    rw [hoc]
    apply mem_enumFrom_append_right
    have hy : (y_costs E pen w)[p]? = some (penalty E pen c) := by
      unfold y_costs
      rw [List.getElem?_map, hp]
      rfl
    have := mem_enumFrom_of_getElem? (1 + (x_costs w).length) hy
    have he : 1 + (x_costs w).length + p = (x_cols w).length + p + 1 := by
      rw [x_costs_length]; omega
    rw [he] at this
    exact this
  · intro j e hj
    apply Dict.find_some_of_mem hkb
    rw [hbv]
    rw [hcm] at hj
    exact mem_enumFrom_map (fun _ => true) hj

/-- C13 at a concrete input: the workspace `wsIlpOk`. -/
theorem ilp_objective_witness :
    (build_mip exEnv 1000 wsIlpOk 4).map (fun m => m.obj_coef) =
      some [(1, 10), (2, 30), (3, 12), (4, 15), (5, 1000), (6, 1000), (7, 1000)] ∧
    ∃ m, build_mip exEnv 1000 wsIlpOk 4 = some m ∧ m.obj_dir_min = true ∧
      (∀ p v t, (x_cols wsIlpOk)[p]? = some (v, t) →
        ∃ tbl cost, (v, tbl) ∈ wsIlpOk.vted_ ∧ (t, cost) ∈ tbl ∧
          Dict.find m.colmap (p + 1) = some (v, t) ∧
          Dict.find m.obj_coef (p + 1) = some cost) ∧
      (∀ p c, wsIlpOk.matchable_custs[p]? = some c →
        Dict.find m.colmap ((x_cols wsIlpOk).length + p + 1) = some (c, -1) ∧
        Dict.find m.obj_coef ((x_cols wsIlpOk).length + p + 1) =
          some (if (1000 : Int) > 0 then 1000 else exEnv.basecost c)) ∧
      (∀ j e, (j, e) ∈ m.colmap → Dict.find m.col_bv j = some true) :=
  ⟨by decide!, ilp_objective exEnv 1000 wsIlpOk 4 (by decide)⟩

theorem sum_ite_01 {α : Type} (q : α → Bool) (g : α → Int) (l : List α)
    (hg : ∀ a, g a = 0 ∨ g a = 1) :
    (l.map (fun a => (if q a = true then (1 : Int) else 0) * g a)).sum =
      ((l.filter (fun a => q a && decide (g a = 1))).length : Int) := by
  induction l with
  | nil => rfl
  | cons a r ih =>
    simp only [List.map_cons, List.sum_cons, List.filter_cons, ih]
    cases hq : q a
    · simp
    · rcases hg a with h0 | h1
      · simp [h0]
      · simp [h1]
        omega

/-- The value of the row of a vehicle at a 0/1 column vector: the number of
selected columns whose first component is the vehicle id. -/
theorem vehl_activity (E : Env) (pen : Int) (w : TVG) (nvted : Int) (m : Mip)
    (h : build_mip E pen w nvted = some m) (i : Nat) (v : VehlId)
    (tbl : Dict SharedTripId DistInt) (hi : (i, (v, tbl)) ∈ List.enumFrom 1 w.vted_)
    (x : Nat → Int) (h01 : ∀ j, x j = 0 ∨ x j = 1) :
    row_activity m x i =
      ((m.colmap.filter (fun kv2 => decide (v = kv2.2.1) && decide (x kv2.1 = 1))).length :
        Int) := by
  unfold row_activity
  rw [row_cells_vehl E pen w nvted m h i v tbl hi]
  unfold vehl_block
  rw [List.map_map]
  have := sum_ite_01 (fun (kv2 : Nat × (Int × SharedTripId)) => decide (v = kv2.2.1))
    (fun kv2 => x kv2.1) m.colmap (fun a => h01 a.1)
  simp only [decide_eq_true_eq] at this
  rw [← this]
  rfl

/-- The value of the row of a customer at a 0/1 column vector: the number of
selected columns whose cell in the row is 1. -/
theorem cust_activity (E : Env) (pen : Int) (w : TVG) (nvted : Int) (m : Mip)
    (h : build_mip E pen w nvted = some m) (i : Nat) (c : CustId)
    (hi : (i, c) ∈ List.enumFrom (w.vted_.length + 1) w.matchable_custs)
    (q : Nat × (Int × SharedTripId) → Bool)
    (hq : ∀ kv2 ∈ m.colmap, cust_cell w.trip_ c kv2 = some (if q kv2 = true then 1 else 0))
    (x : Nat → Int) (h01 : ∀ j, x j = 0 ∨ x j = 1) :
    row_activity m x i =
      ((m.colmap.filter (fun kv2 => q kv2 && decide (x kv2.1 = 1))).length : Int) := by
  unfold row_activity
  rw [row_cells_cust E pen w nvted m h i c hi]
  unfold cust_block
  rw [List.map_map, ← sum_ite_01 q (fun kv2 => x kv2.1) m.colmap (fun a => h01 a.1)]
  congr 1
  apply List.map_congr_left
  intro kv2 hkv
  simp only [Function.comp, hq kv2 hkv, Option.getD_some]

/-- C14: assume the registry invariant, that every trip id of `vted_` is
registered, and that no matchable customer id equals a vehicle id of `vted_`.
Then for the program `m` built by `match` and every 0/1 column vector `x` that
satisfies all rows of `m`: for every vehicle `v` at most one column `x_{v,t}`
is selected, and for every matchable customer `c` exactly one column is
selected among `y_c` and the columns `x_{v,t}` with `c` in `trip_[t]`. -/
theorem ilp_feasible_is_valid (E : Env) (pen : Int) (w : TVG) (nvted : Int) (m : Mip)
    (hR : RegInv w)
    (hG : ∀ e ∈ w.vted_, ∀ t ∈ Dict.keys e.2, t ∈ Dict.keys w.trip_)
    (hdis : ∀ c ∈ w.matchable_custs, ∀ v ∈ Dict.keys w.vted_, c ≠ v)
    (hm : build_mip E pen w nvted = some m)
    (x : Nat → Int) (h01 : ∀ j, x j = 0 ∨ x j = 1) (hsat : satisfies_rows m x) :
    (∀ v ∈ Dict.keys w.vted_,
      (m.colmap.filter (fun kv2 => is_x_of v kv2 && decide (x kv2.1 = 1))).length ≤ 1) ∧
    (∀ c ∈ w.matchable_custs,
      (m.colmap.filter (fun kv2 => covers w.trip_ c kv2 && decide (x kv2.1 = 1))).length =
        1) := by
  have hcm := (build_mip_spec E pen w nvted m hm).2.2.2.1
  have hx : ∀ a t, (a, t) ∈ x_cols w →
      a ∈ Dict.keys w.vted_ ∧ t ∈ Dict.keys w.trip_ ∧ t ≠ -1 := by
    intro a t hat
    obtain ⟨tbl, hv, ht⟩ := (mem_x_cols w a t).mp hat
    have h1 := hG _ hv _ ht
    have h2 := (mem_keys_of_RegInv hR t).mp h1
    refine ⟨List.mem_map.mpr ⟨(a, tbl), hv, rfl⟩, h1, ?_⟩
    simp only [SharedTripId] at *
    omega
  constructor
  · intro v hv
    obtain ⟨e, he, hev⟩ := List.mem_map.mp hv
    obtain ⟨v0, tbl⟩ := e
    simp only at hev
    subst hev
    obtain ⟨i, hi⟩ := exists_enumFrom_of_mem he 1
    have hb := Dict.mem_of_find_some (vehl_row_bound E pen w nvted m hm i _ hi)
    have hrow := hsat _ hb
    simp only [row_ok, decide_eq_true_eq] at hrow
    rw [vehl_activity E pen w nvted m hm i v0 tbl hi x h01] at hrow
    have hf : m.colmap.filter (fun kv2 => is_x_of v0 kv2 && decide (x kv2.1 = 1)) =
        m.colmap.filter (fun kv2 => decide (v0 = kv2.2.1) && decide (x kv2.1 = 1)) := by
      apply List.filter_congr
      intro kv2 hkv
      obtain ⟨j, a, t⟩ := kv2
      rw [hcm] at hkv
      congr 1
      unfold is_x_of
      rcases colmap_cases w j (a, t) hkv with hxc | ⟨c, hc, hy⟩
      · have h3 := (hx a t hxc).2.2
        by_cases hav : a = v0
        · simp [hav, h3]
        · have : ¬ v0 = a := fun hh => hav hh.symm
          simp [hav, this]
      · obtain ⟨rfl, rfl⟩ := Prod.mk.inj hy
        have h3 := hdis a hc v0 hv
        have : ¬ v0 = a := fun hh => h3 hh.symm
        simp [h3, this]
    rw [hf]
    exact_mod_cast hrow
  · intro c hc
    obtain ⟨i, hi⟩ := exists_enumFrom_of_mem hc (w.vted_.length + 1)
    have hb := Dict.mem_of_find_some (cust_row_bound E pen w nvted m hm i c hi)
    have hrow := hsat _ hb
    simp only [row_ok, decide_eq_true_eq] at hrow
    rw [cust_activity E pen w nvted m hm i c hi (covers w.trip_ c) ?_ x h01] at hrow
    · exact_mod_cast hrow
    · intro kv2 hkv
      obtain ⟨j, a, t⟩ := kv2
      rw [hcm] at hkv
      unfold covers
      rcases colmap_cases w j (a, t) hkv with hxc | ⟨c2, hc2, hy⟩
      · obtain ⟨h1, h2, h3⟩ := hx a t hxc
        have hac : a ≠ c := fun hh => hdis c hc a h1 hh.symm
        rw [cust_cell_x w.trip_ c j a t h2 h3]
        simp only [hac, false_or, h3, decide_False, Bool.false_and, Bool.false_or,
          ne_eq, not_false_eq_true, decide_True, Bool.true_and]
      · obtain ⟨rfl, rfl⟩ := Prod.mk.inj hy
        rw [cust_cell_y]
        simp

theorem build_mip_wsIlpOk_isSome : (build_mip exEnv 1000 wsIlpOk 4).isSome = true := by
  decide!

/-- C14 at a concrete input: in the program of `wsIlpOk` the vector that
selects trip 2 for vehicle 7 and trip 3 for vehicle 9 satisfies all rows. -/
theorem ilp_feasible_is_valid_witness :
    ∃ m, build_mip exEnv 1000 wsIlpOk 4 = some m ∧ satisfies_rows m xOk ∧
      (∀ v ∈ Dict.keys wsIlpOk.vted_,
        (m.colmap.filter (fun kv2 => is_x_of v kv2 && decide (xOk kv2.1 = 1))).length ≤ 1) ∧
      (∀ c ∈ wsIlpOk.matchable_custs,
        (m.colmap.filter
          (fun kv2 => covers wsIlpOk.trip_ c kv2 && decide (xOk kv2.1 = 1))).length = 1) :=
  have hm : build_mip exEnv 1000 wsIlpOk 4 =
      some ((build_mip exEnv 1000 wsIlpOk 4).get build_mip_wsIlpOk_isSome) :=
    (Option.some_get build_mip_wsIlpOk_isSome).symm
  have hs : satisfies_rows ((build_mip exEnv 1000 wsIlpOk 4).get build_mip_wsIlpOk_isSome)
      xOk := by
    unfold satisfies_rows
    decide!
  ⟨_, hm, hs,
    ilp_feasible_is_valid exEnv 1000 wsIlpOk 4 _ ⟨3, rfl, by decide, by decide⟩ (by decide)
      (by decide) hm xOk (by intro j; unfold xOk; split <;> simp) hs⟩

/-! ### The rv region -/

theorem foldl_sofar_inv {σ α : Type} (P : σ → List α → Prop) (f : σ → α → σ)
    (h : ∀ s pre x, P s pre → P (f s x) (pre ++ [x])) :
    ∀ (xs pre : List α) (s : σ), P s pre → P (xs.foldl f s) (pre ++ xs) := by
  intro xs
  induction xs with
  | nil => intro pre s hs; simpa using hs
  | cons x r ih =>
    intro pre s hs
    have := ih (pre ++ [x]) (f s x) (h s pre x hs)
    simpa using this

theorem find2_set2 {A B V : Type} [DecidableEq A] [DecidableEq B] (m : Dict A (Dict B V))
    (a a2 : A) (b b2 : B) (v : V) :
    find2 (set2 m a b v) a2 b2 = if a2 = a ∧ b2 = b then some v else find2 m a2 b2 := by
  unfold find2 set2
  rw [Dict.find_set]
  by_cases ha : a = a2
  · subst ha
    simp only [if_true, true_and]
    rw [Dict.find_set]
    by_cases hb : b = b2
    · subst hb; simp
    · have hb2 : ¬ b2 = b := fun h => hb h.symm
      simp only [hb, hb2, if_false]
      unfold Dict.getD
      cases Dict.find m a <;> simp [Dict.find]
  · have ha2 : ¬ a2 = a := fun h => ha h.symm
    simp [ha, ha2]

theorem keys_set2 {A B V : Type} [DecidableEq A] [DecidableEq B] (m : Dict A (Dict B V))
    (a : A) (b : B) (v : V) :
    Dict.keys (set2 m a b v) = if a ∈ Dict.keys m then Dict.keys m else Dict.keys m ++ [a] := by
  unfold set2
  exact Dict.keys_set _ _ _

theorem getD_push_back_at {K V : Type} [DecidableEq K] (g : Dict K (List V)) (k k2 : K)
    (c : V) :
    Dict.getD (push_back_at g k c) k2 [] =
      if k = k2 then Dict.getD g k [] ++ [c] else Dict.getD g k2 [] := by
  unfold Dict.getD
  rw [find_push_back_at]
  by_cases h : k = k2
  · simp [h, Dict.getD]
  · simp [h]

theorem RvInv_congr (E : Env) {seen seen2 : Vehicle → Customer → Bool} {w : TVG}
    (h : ∀ v c, seen v c = seen2 v c) (hi : RvInv E seen w) : RvInv E seen2 w := by
  have : seen = seen2 := funext (fun v => funext (fun c => h v c))
  rw [← this]
  exact hi

theorem RrInv_congr (E : Env) {seen seen2 : Customer → Customer → Bool} {w : TVG}
    (h : ∀ v c, seen v c = seen2 v c) (hi : RrInv E seen w) : RrInv E seen2 w := by
  have : seen = seen2 := funext (fun v => funext (fun c => h v c))
  rw [← this]
  exact hi

/-- One candidate of the loop of lines 79-97 keeps the rv tables exact. -/
theorem rv_cand_step_inv (E : Env) (done : List Customer) (cust_a : Customer)
    (w : TVG) (pre : List Vehicle) (cand : Vehicle)
    (h : RvInv E (rv_seen E done cust_a pre) w) :
    RvInv E (rv_seen E done cust_a (pre ++ [cand])) (rv_cand_step E cust_a w cand) := by
  obtain ⟨h1, h2, h3, h4, h5⟩ := h
  have hseen : ∀ v c, rv_seen E done cust_a (pre ++ [cand]) v c =
      (rv_seen E done cust_a pre v c || (decide (v = cand) && decide (c = cust_a))) := by
    intro v c
    unfold rv_seen
    by_cases hc : c = cust_a <;> by_cases hv : v = cand <;> simp [hc, hv]
  have hval : ∀ v c, ¬ (v = cand ∧ c = cust_a) →
      rv_val E (rv_seen E done cust_a (pre ++ [cand])) v c =
        rv_val E (rv_seen E done cust_a pre) v c := by
    intro v c hne
    unfold rv_val
    rw [hseen]
    have : (decide (v = cand) && decide (c = cust_a)) = false := by
      simp only [Bool.and_eq_false_iff, decide_eq_false_iff_not]
      by_cases hv : v = cand
      · exact Or.inr (fun hc => hne ⟨hv, hc⟩)
      · exact Or.inl hv
    rw [this, Bool.or_false]
  unfold rv_cand_step
  by_cases hcap : cand.queued < cand.capacity
  · by_cases hok : (travel E cand [cust_a] 0 [] []).ok = true
    · simp only [hcap, hok, if_true]
      have hnew : rv_val E (rv_seen E done cust_a (pre ++ [cand])) cand cust_a =
          some (travel E cand [cust_a] 0 [] []) := by
        unfold rv_val
        rw [hseen]
        simp [hcap, hok]
      refine ⟨?_, ?_, ?_, ?_, ?_⟩
      · intro v c
        simp only
        rw [find2_set2]
        by_cases hvc : v = cand ∧ c = cust_a
        · obtain ⟨rfl, rfl⟩ := hvc
          simp [hnew]
        · rw [if_neg hvc, hval v c hvc]
          exact h1 v c
      · intro v c
        simp only
        rw [find2_set2]
        by_cases hvc : v = cand ∧ c = cust_a
        · obtain ⟨rfl, rfl⟩ := hvc
          simp [hnew]
        · rw [if_neg hvc, hval v c hvc]
          exact h2 v c
      · intro v c
        simp only
        rw [find2_set2]
        by_cases hvc : v = cand ∧ c = cust_a
        · obtain ⟨rfl, rfl⟩ := hvc
          simp [hnew]
        · rw [if_neg hvc, hval v c hvc]
          exact h3 v c
      · simp only
        rw [keys_set2, keys_set2, ← h4]
      · simp only
        rw [keys_set2, keys_set2, ← h5]
    · have hsame : ∀ v c, rv_val E (rv_seen E done cust_a (pre ++ [cand])) v c =
          rv_val E (rv_seen E done cust_a pre) v c := by
        intro v c
        by_cases hvc : v = cand ∧ c = cust_a
        · obtain ⟨rfl, rfl⟩ := hvc
          unfold rv_val
          simp [hok]
        · exact hval v c hvc
      simp only [hcap, hok, if_true, if_false, Bool.false_eq_true]
      exact ⟨fun v c => by rw [hsame]; exact h1 v c, fun v c => by rw [hsame]; exact h2 v c,
        fun v c => by rw [hsame]; exact h3 v c, h4, h5⟩
  · have hsame : ∀ v c, rv_val E (rv_seen E done cust_a (pre ++ [cand])) v c =
        rv_val E (rv_seen E done cust_a pre) v c := by
      intro v c
      by_cases hvc : v = cand ∧ c = cust_a
      · obtain ⟨rfl, rfl⟩ := hvc
        unfold rv_val
        simp [hcap]
      · exact hval v c hvc
    simp only [hcap, if_false]
    exact ⟨fun v c => by rw [hsame]; exact h1 v c, fun v c => by rw [hsame]; exact h2 v c,
      fun v c => by rw [hsame]; exact h3 v c, h4, h5⟩

theorem rv_cands_fold (E : Env) (done : List Customer) (cust_a : Customer) (w : TVG)
    (cands : List Vehicle) (h : RvInv E (rv_seen E done cust_a []) w) :
    RvInv E (rv_seen E done cust_a cands) (cands.foldl (rv_cand_step E cust_a) w) := by
  have := foldl_sofar_inv (fun w pre => RvInv E (rv_seen E done cust_a pre) w)
    (rv_cand_step E cust_a) (fun s pre x hs => rv_cand_step_inv E done cust_a s pre x hs)
    cands [] w h
  simpa using this

theorem rv_cands_frame (E : Env) (cust_a : Customer) (w : TVG) (cands : List Vehicle) :
    (cands.foldl (rv_cand_step E cust_a) w).rvgrph_rr_ = w.rvgrph_rr_ ∧
    (cands.foldl (rv_cand_step E cust_a) w).matchable_custs = w.matchable_custs := by
  refine foldl_inv (fun w1 => w1.rvgrph_rr_ = w.rvgrph_rr_ ∧
    w1.matchable_custs = w.matchable_custs) (rv_cand_step E cust_a) cands ?_ w ⟨rfl, rfl⟩
  intro s x hs
  unfold rv_cand_step
  by_cases h1 : x.queued < x.capacity
  · by_cases h2 : (travel E x [cust_a] 0 [] []).ok = true
    · simp only [h1, h2, if_true]
      exact hs
    · simp only [h1, h2, if_true, if_false, Bool.false_eq_true]
      exact hs
  · simp only [h1, if_false]
    exact hs

/-- One customer of the loop of lines 114-137 keeps `rvgrph_rr_` exact. -/
theorem rr_step_inv (E : Env) (custs done : List Customer) (cust_a : Customer) (w : TVG)
    (pre : List Customer) (cust_b : Customer)
    (h : RrInv E (rr_seen E custs done cust_a pre) w) :
    RrInv E (rr_seen E custs done cust_a (pre ++ [cust_b]))
      (rr_step E cust_a (vtvehl_of E cust_a) w cust_b) := by
  have hseen : ∀ c c2, rr_seen E custs done cust_a (pre ++ [cust_b]) c c2 =
      (rr_seen E custs done cust_a pre c c2 || (decide (c = cust_a) && decide (c2 = cust_b))) := by
    intro c c2
    unfold rr_seen
    by_cases hc : c = cust_a <;> by_cases hv : c2 = cust_b <;> simp [hc, hv]
  have hkeep : rr_ok E cust_a cust_b = false →
      RrInv E (rr_seen E custs done cust_a (pre ++ [cust_b])) w := by
    intro hno c c2
    rw [h c c2, hseen]
    by_cases hcc : c = cust_a ∧ c2 = cust_b
    · obtain ⟨rfl, rfl⟩ := hcc
      simp [hno]
    · have : (decide (c = cust_a) && decide (c2 = cust_b)) = false := by
        simp only [Bool.and_eq_false_iff, decide_eq_false_iff_not]
        by_cases hv : c = cust_a
        · exact Or.inr (fun hc => hcc ⟨hv, hc⟩)
        · exact Or.inl hv
      rw [this, Bool.or_false]
  unfold rr_step
  by_cases h1 : cust_a = cust_b
  · rw [if_pos h1]
    apply hkeep
    simp [rr_ok, h1]
  · by_cases h2 : E.haversine cust_a.orig cust_b.orig > RANGE
    · simp only [h1, h2, if_true, if_false]
      apply hkeep
      have : ¬ E.haversine cust_a.orig cust_b.orig ≤ RANGE := by omega
      simp [rr_ok, this]
    · by_cases h3 : E.haversine cust_a.dest cust_b.dest > RANGE
      · simp only [h1, h2, h3, if_true, if_false]
        apply hkeep
        have : ¬ E.haversine cust_a.dest cust_b.dest ≤ RANGE := by omega
        simp [rr_ok, this]
      · by_cases h4 : (travel E (vtvehl_of E cust_a) [cust_b] 0 [] []).ok = true
        · simp only [h1, h2, h3, h4, if_true, if_false]
          have hok : rr_ok E cust_a cust_b = true := by
            have h2b : E.haversine cust_a.orig cust_b.orig ≤ RANGE := by omega
            have h3b : E.haversine cust_a.dest cust_b.dest ≤ RANGE := by omega
            simp [rr_ok, h1, h2b, h3b, h4]
          intro c c2
          simp only
          rw [getD_push_back_at, hseen]
          by_cases hc : cust_a = c
          · subst hc
            simp only [if_true, List.mem_append, List.mem_singleton, h cust_a c2]
            by_cases hc2 : c2 = cust_b
            · subst hc2
              simp [hok]
            · simp [hc2]
          · have hc2 : ¬ c = cust_a := fun hh => hc hh.symm
            simp only [hc, if_false, h c c2, hc2, decide_False, Bool.false_and, Bool.or_false]
        · simp only [h1, h2, h3, h4, if_false, Bool.false_eq_true]
          apply hkeep
          simp [rr_ok, h4]

theorem rr_fold (E : Env) (custs done : List Customer) (cust_a : Customer) (w : TVG)
    (bs : List Customer) (h : RrInv E (rr_seen E custs done cust_a []) w) :
    RrInv E (rr_seen E custs done cust_a bs)
      (bs.foldl (rr_step E cust_a (vtvehl_of E cust_a)) w) := by
  have := foldl_sofar_inv (fun w pre => RrInv E (rr_seen E custs done cust_a pre) w)
    (rr_step E cust_a (vtvehl_of E cust_a))
    (fun s pre x hs => rr_step_inv E custs done cust_a s pre x hs) bs [] w h
  simpa using this

theorem rr_frame (E : Env) (cust_a : Customer) (vt : Vehicle) (w : TVG) (bs : List Customer) :
    (bs.foldl (rr_step E cust_a vt) w).rv_cst = w.rv_cst ∧
    (bs.foldl (rr_step E cust_a vt) w).rv_sch = w.rv_sch ∧
    (bs.foldl (rr_step E cust_a vt) w).rv_rte = w.rv_rte ∧
    (bs.foldl (rr_step E cust_a vt) w).matchable_custs = w.matchable_custs := by
  refine foldl_inv (fun w1 => w1.rv_cst = w.rv_cst ∧ w1.rv_sch = w.rv_sch ∧
    w1.rv_rte = w.rv_rte ∧ w1.matchable_custs = w.matchable_custs) (rr_step E cust_a vt) bs
    ?_ w ⟨rfl, rfl, rfl, rfl⟩
  intro s x hs
  unfold rr_step
  split
  · exact hs
  · split
    · exact hs
    · split
      · exact hs
      · split
        · exact hs
        · exact hs

theorem RvInv_of_eq (E : Env) {seen : Vehicle → Customer → Bool} {w w1 : TVG}
    (h1 : w1.rv_cst = w.rv_cst) (h2 : w1.rv_sch = w.rv_sch) (h3 : w1.rv_rte = w.rv_rte)
    (h : RvInv E seen w) : RvInv E seen w1 := by
  unfold RvInv
  rw [h1, h2, h3]
  exact h

theorem RrInv_of_eq (E : Env) {seen : Customer → Customer → Bool} {w w1 : TVG}
    (h1 : w1.rvgrph_rr_ = w.rvgrph_rr_) (h : RrInv E seen w) : RrInv E seen w1 := by
  unfold RrInv
  rw [h1]
  exact h

/-- One iteration of the loop over `lcl_cust`, when no deadline expires. -/
theorem rv_customer_inv (E : Env) (custs done : List Customer) (s : RvState)
    (cust_a : Customer) (hno : ∀ n, E.timeout_rv n = false) (hc : s.cancelled = false)
    (h : RvDone E custs done s.w) :
    (rv_customer E custs s cust_a).cancelled = false ∧
    RvDone E custs (done ++ [cust_a]) (rv_customer E custs s cust_a).w := by
  obtain ⟨hrv, hrr, hm⟩ := h
  have hw1 : RvInv E (rv_seen E done cust_a [])
      { s.w with matchable_custs := s.w.matchable_custs ++ [cust_a.id] } := by
    apply RvInv_of_eq E rfl rfl rfl
    apply RvInv_congr E _ hrv
    intro v c
    simp [rv_done, rv_seen]
  have hw2 := rv_cands_fold E done cust_a _ (E.within RANGE cust_a.orig) hw1
  have hf2 := rv_cands_frame E cust_a
    { s.w with matchable_custs := s.w.matchable_custs ++ [cust_a.id] }
    (E.within RANGE cust_a.orig)
  have hrv2 : RvInv E (rv_done E (done ++ [cust_a]))
      ((E.within RANGE cust_a.orig).foldl (rv_cand_step E cust_a)
        { s.w with matchable_custs := s.w.matchable_custs ++ [cust_a.id] }) := by
    apply RvInv_congr E _ hw2
    intro v c
    unfold rv_seen rv_done
    by_cases hca : c = cust_a
    · subst hca
      by_cases hd : c ∈ done <;> by_cases hv : v ∈ E.within RANGE c.orig <;> simp [hd, hv]
    · simp [hca]
  have hmm : (done ++ [cust_a]).map (fun c => c.id) = s.w.matchable_custs ++ [cust_a.id] := by
    rw [hm]; simp
  unfold rv_customer
  simp only [hc, Bool.false_eq_true, if_false]
  by_cases hcands : (E.within RANGE cust_a.orig).length = 0
  · simp only [hcands, if_true]
    refine ⟨trivial, hrv2, ?_, ?_⟩
    · apply RrInv_of_eq E hf2.1
      apply RrInv_congr E _ hrr
      intro c c2
      have hnil : E.within RANGE cust_a.orig = [] := List.length_eq_zero.mp hcands
      unfold rr_done
      by_cases hca : c = cust_a
      · subst hca
        simp [hnil]
      · simp [hca]
    · rw [hf2.2, hmm]
  · simp only [hcands, if_false, hno]
    have hne : E.within RANGE cust_a.orig ≠ [] := fun hh => hcands (by rw [hh]; rfl)
    have hfr := rr_frame E cust_a (vtvehl_of E cust_a)
      ((E.within RANGE cust_a.orig).foldl (rv_cand_step E cust_a)
        { s.w with matchable_custs := s.w.matchable_custs ++ [cust_a.id] }) custs
    refine ⟨rfl, RvInv_of_eq E hfr.1 hfr.2.1 hfr.2.2.1 hrv2, ?_, ?_⟩
    · have h0 : RrInv E (rr_seen E custs done cust_a [])
          ((E.within RANGE cust_a.orig).foldl (rv_cand_step E cust_a)
            { s.w with matchable_custs := s.w.matchable_custs ++ [cust_a.id] }) := by
        apply RrInv_of_eq E hf2.1
        apply RrInv_congr E _ hrr
        intro c c2
        simp [rr_done, rr_seen]
      have h1 := rr_fold E custs done cust_a _ custs h0
      apply RrInv_congr E _ h1
      intro c c2
      unfold rr_seen rr_done
      by_cases hca : c = cust_a
      · subst hca
        by_cases hd : c ∈ done <;> by_cases hv : c2 ∈ custs <;> simp [hd, hv, hne]
      · simp [hca]
    · exact hfr.2.2.2.trans (hf2.2.trans hmm.symm)

/-- The customers of one worker, when no deadline expires. -/
theorem rv_worker_inv (E : Env) (custs : List Customer) (hno : ∀ n, E.timeout_rv n = false)
    (done : List Customer) (acc : TVG × Nat) (share : List Customer)
    (h : RvDone E custs done acc.1) :
    RvDone E custs (done ++ share) (rv_worker E custs acc share).1 := by
  have := foldl_sofar_inv
    (fun (s : RvState) pre => s.cancelled = false ∧ RvDone E custs (done ++ pre) s.w)
    (rv_customer E custs)
    (fun s pre x hs => by
      have := rv_customer_inv E custs (done ++ pre) s x hno hs.1 hs.2
      rw [List.append_assoc] at this
      exact this)
    share [] { w := acc.1, clock := acc.2, cancelled := false }
    ⟨rfl, by simpa using h⟩
  simp only [List.nil_append] at this
  exact this.2

/-- The rv region, when no deadline expires: the rv tables and `rvgrph_rr_` are
exact for the customers of all workers. -/
theorem rv_graph_inv (E : Env) (custs : List Customer) (workers : List (List Customer))
    (hno : ∀ n, E.timeout_rv n = false) :
    RvDone E custs workers.flatten (rv_graph E custs workers (init_is_matched custs reset_workspace)) := by
  have := foldl_sofar_inv
    (fun (acc : TVG × Nat) (pre : List (List Customer)) => RvDone E custs pre.flatten acc.1)
    (rv_worker E custs)
    (fun acc pre x hs => by
      have := rv_worker_inv E custs hno pre.flatten acc x hs
      simpa using this)
    workers [] (init_is_matched custs reset_workspace, 0)
    (by
      refine ⟨⟨?_, ?_, ?_, rfl, rfl⟩, ?_, rfl⟩
      · intro v c; simp [rv_val, rv_done, find2, init_is_matched, reset_workspace, Dict.find]
      · intro v c; simp [rv_val, rv_done, find2, init_is_matched, reset_workspace, Dict.find]
      · intro v c; simp [rv_val, rv_done, find2, init_is_matched, reset_workspace, Dict.find]
      · intro c c2; simp [rr_done, init_is_matched, reset_workspace, Dict.getD, Dict.find])
  simpa using this

/-- C20: when no deadline of the rv region expires, `rv_cst[v][c]` is defined
exactly when `c` is a customer of the batch, `v` is returned by the index for
`(RANGE, c.orig)`, `v` has `queued < capacity` and `travel(v, {c})` succeeds;
when it is defined, `rv_cst[v][c]`, `rv_sch[v][c]` and `rv_rte[v][c]` are the
cost, the schedule and the route that this call returns; the three tables
have the same keys and an entry for the same pairs. -/
theorem rv_edges_exact (E : Env) (custs : List Customer) (workers : List (List Customer))
    (hno : ∀ n, E.timeout_rv n = false) (v : Vehicle) (c : Customer) :
    ((∃ cst, find2 (rv_graph E custs workers (init_is_matched custs reset_workspace)).rv_cst v c = some cst) ↔
      (c ∈ workers.flatten ∧ v ∈ E.within RANGE c.orig ∧ v.queued < v.capacity ∧
        (travel E v [c] 0 [] []).ok = true)) ∧
    (∀ cst, find2 (rv_graph E custs workers (init_is_matched custs reset_workspace)).rv_cst v c = some cst →
      cst = (travel E v [c] 0 [] []).cstout ∧
      find2 (rv_graph E custs workers (init_is_matched custs reset_workspace)).rv_sch v c =
        some (travel E v [c] 0 [] []).schout ∧
      find2 (rv_graph E custs workers (init_is_matched custs reset_workspace)).rv_rte v c =
        some (travel E v [c] 0 [] []).rteout) ∧
    (find2 (rv_graph E custs workers (init_is_matched custs reset_workspace)).rv_sch v c).isSome =
      (find2 (rv_graph E custs workers (init_is_matched custs reset_workspace)).rv_cst v c).isSome ∧
    (find2 (rv_graph E custs workers (init_is_matched custs reset_workspace)).rv_rte v c).isSome =
      (find2 (rv_graph E custs workers (init_is_matched custs reset_workspace)).rv_cst v c).isSome ∧
    Dict.keys (rv_graph E custs workers (init_is_matched custs reset_workspace)).rv_cst =
      Dict.keys (rv_graph E custs workers (init_is_matched custs reset_workspace)).rv_sch ∧
    Dict.keys (rv_graph E custs workers (init_is_matched custs reset_workspace)).rv_cst =
      Dict.keys (rv_graph E custs workers (init_is_matched custs reset_workspace)).rv_rte := by
  obtain ⟨⟨h1, h2, h3, h4, h5⟩, _, _⟩ := rv_graph_inv E custs workers hno
  rw [h1 v c, h2 v c, h3 v c]
  refine ⟨?_, ?_, ?_, ?_, h4, h5⟩
  · unfold rv_val rv_done
    by_cases hc : c ∈ workers.flatten <;> by_cases hv : v ∈ E.within RANGE c.orig <;>
      by_cases hq : v.queued < v.capacity <;>
      by_cases hok : (travel E v [c] 0 [] []).ok = true <;> simp [hc, hv, hq, hok]
  · intro cst hcst
    unfold rv_val at hcst ⊢
    split at hcst
    · simp only [Option.map_some', Option.some.injEq] at hcst
      rename_i hcond
      simp [hcond, hcst]
    · simp at hcst
  · cases rv_val E (rv_done E workers.flatten) v c <;> rfl
  · cases rv_val E (rv_done E workers.flatten) v c <;> rfl

/-- C20 at a concrete input: two customers, one worker each; the index returns
the vehicle `vehl1` for both. -/
theorem rv_edges_exact_witness :
    (rv_graph exEnv [custA, custB] [[custA], [custB]]
      (init_is_matched [custA, custB] reset_workspace)).rv_cst =
      [(vehl1, [(custA, 0), (custB, 0)])] ∧
    ((∃ cst, find2 (rv_graph exEnv [custA, custB] [[custA], [custB]]
      (init_is_matched [custA, custB] reset_workspace)).rv_cst
        vehl1 custA = some cst) ↔
      (custA ∈ [[custA], [custB]].flatten ∧ vehl1 ∈ exEnv.within RANGE custA.orig ∧
        vehl1.queued < vehl1.capacity ∧ (travel exEnv vehl1 [custA] 0 [] []).ok = true)) :=
  ⟨by decide!, (rv_edges_exact exEnv [custA, custB] [[custA], [custB]] (fun _ => rfl)
    vehl1 custA).1⟩

/-- C18 (as stated, refuted): with an empty spatial index the ordered pair
(customer 1, customer 2) passes both distance filters and the oracle accepts
customer 2 on the virtual vehicle of customer 1, but no rr edge is recorded:
line 98 ends the iteration of a customer that has no candidate vehicle. -/
theorem rr_edge_skipped_without_candidates :
    custA ≠ custB ∧
    decide (noVehEnv.haversine custA.orig custB.orig ≤ RANGE) = true ∧
    decide (noVehEnv.haversine custA.dest custB.dest ≤ RANGE) = true ∧
    (travel noVehEnv (vtvehl_of noVehEnv custA) [custB] 0 [] []).ok = true ∧
    (rv_graph noVehEnv [custA, custB] [[custA, custB]]
      (init_is_matched [custA, custB] reset_workspace)).rvgrph_rr_ = [] ∧
    (rv_graph noVehEnv [custA, custB] [[custA, custB]]
      (init_is_matched [custA, custB] reset_workspace)).matchable_custs =
      [1, 2] := by
  refine ⟨by decide, by decide!, by decide!, by decide!, by decide!, by decide!⟩

/-- C18 (amended): when no deadline of the rv region expires, `c2` is in
`rvgrph_rr_[c]` exactly when `c` is a customer of the batch for which the index
returned at least one candidate vehicle, `c2` is a customer of `customers()`
other than `c`, both distance filters pass and the oracle accepts `c2` on the
virtual vehicle built from `c`. In particular no customer has an edge to
itself. -/
theorem rr_edges_exact (E : Env) (custs : List Customer) (workers : List (List Customer))
    (hno : ∀ n, E.timeout_rv n = false) (c c2 : Customer) :
    c2 ∈ Dict.getD (rv_graph E custs workers (init_is_matched custs reset_workspace)).rvgrph_rr_ c [] ↔
      (c ∈ workers.flatten ∧ E.within RANGE c.orig ≠ [] ∧ c2 ∈ custs ∧ c ≠ c2 ∧
        E.haversine c.orig c2.orig ≤ RANGE ∧ E.haversine c.dest c2.dest ≤ RANGE ∧
        (travel E (vtvehl_of E c) [c2] 0 [] []).ok = true) := by
  obtain ⟨_, h, _⟩ := rv_graph_inv E custs workers hno
  rw [h c c2]
  unfold rr_done rr_ok
  simp only [Bool.and_eq_true, decide_eq_true_eq]
  tauto

/-- C18 (amended) at a concrete input: the index returns `vehl1`, and customer
2 is recorded as a neighbour of customer 1. -/
theorem rr_edges_exact_witness :
    (rv_graph exEnv [custA, custB] [[custA], [custB]]
      (init_is_matched [custA, custB] reset_workspace)).rvgrph_rr_ =
      [(custA, [custB]), (custB, [custA])] ∧
    (custB ∈ Dict.getD
        (rv_graph exEnv [custA, custB] [[custA], [custB]]
      (init_is_matched [custA, custB] reset_workspace)).rvgrph_rr_ custA [] ↔
      (custA ∈ [[custA], [custB]].flatten ∧ exEnv.within RANGE custA.orig ≠ [] ∧
        custB ∈ [custA, custB] ∧ custA ≠ custB ∧
        exEnv.haversine custA.orig custB.orig ≤ RANGE ∧
        exEnv.haversine custA.dest custB.dest ≤ RANGE ∧
        (travel exEnv (vtvehl_of exEnv custA) [custB] 0 [] []).ok = true)) :=
  ⟨by decide!, rr_edges_exact exEnv [custA, custB] [[custA], [custB]] (fun _ => rfl)
    custA custB⟩

/-! ### Extraction of the assignments -/

theorem foldOpt_sofar_total {σ α : Type} (P : σ → List α → Prop) (f : σ → α → Option σ)
    (xs : List α)
    (h : ∀ s pre x, x ∈ xs → P s pre → ∃ s1, f s x = some s1 ∧ P s1 (pre ++ [x])) :
    ∀ (pre : List α) (s : σ), P s pre → ∃ s1, foldOpt f s xs = some s1 ∧ P s1 (pre ++ xs) := by
  induction xs with
  | nil => intro pre s hs; exact ⟨s, rfl, by simpa using hs⟩
  | cons x r ih =>
    intro pre s hs
    obtain ⟨s1, h1, h2⟩ := h s pre x (List.mem_cons_self _ _) hs
    obtain ⟨s2, h3, h4⟩ := ih (fun s pre y hy => h s pre y (List.mem_cons_of_mem _ hy))
      (pre ++ [x]) s1 h2
    exact ⟨s2, by simp [foldOpt, h1, h3], by simpa using h4⟩

/-- The loop of lines 535-538 over a trip whose customers are all keys of
`is_matched`. -/
theorem mark_matched_fold (trip : SharedTrip) :
    ∀ (s : ExtState), (∀ cust ∈ trip, cust.id ∈ Dict.keys s.is_matched) →
    ∃ s1, foldOpt mark_matched s trip = some s1 ∧
      Dict.keys s1.is_matched = Dict.keys s.is_matched ∧
      s1.log = s.log ++ trip.map (fun c => Event.end_delay c.id) ∧
      (∀ c, Dict.find s1.is_matched c =
        if c ∈ trip.map (fun x => x.id) then some true else Dict.find s.is_matched c) := by
  induction trip with
  | nil => intro s _; exact ⟨s, rfl, rfl, by simp, by simp⟩
  | cons cust rest ih =>
    intro s hk
    obtain ⟨b, hb⟩ := find_isSome_of_mem_keys (hk cust (List.mem_cons_self _ _))
    have hkeys : Dict.keys (Dict.set s.is_matched cust.id true) = Dict.keys s.is_matched := by
      rw [Dict.keys_set, if_pos (hk cust (List.mem_cons_self _ _))]
    obtain ⟨s1, h1, h2, h3, h4⟩ := ih
      { s with
        is_matched := Dict.set s.is_matched cust.id true
        log := s.log ++ [Event.end_delay cust.id] }
      (by
        intro c hc
        simp only [hkeys]
        exact hk c (List.mem_cons_of_mem _ hc))
    refine ⟨s1, ?_, ?_, ?_, ?_⟩
    · simp only [foldOpt, mark_matched, hb]
      exact h1
    · rw [h2]; exact hkeys
    · rw [h3]; simp
    · intro c
      rw [h4 c]
      simp only [List.map_cons, List.mem_cons]
      by_cases hr : c ∈ rest.map (fun x => x.id)
      · simp [hr]
      · simp only [hr, if_false, or_false]
        rw [Dict.find_set]
        by_cases hc : cust.id = c
        · simp [hc]
        · have hc2 : ¬ c = cust.id := fun hh => hc hh.symm
          simp [hc, hc2]

/-- The loop of lines 540-543. -/
theorem reject_fold (ids : List CustId) :
    ∀ (s : ExtState), (ids.foldl reject_cust s).is_matched = s.is_matched ∧
      (ids.foldl reject_cust s).log = s.log ++ ids.map (fun c => Event.beg_delay c) := by
  induction ids with
  | nil => intro s; simp
  | cons c rest ih =>
    intro s
    obtain ⟨h1, h2⟩ := ih (reject_cust s c)
    simp only [List.foldl_cons, h1, h2]
    simp [reject_cust]

theorem col_commit_ne (E : Env) (w : TVG) (colmap : Dict Nat (Int × SharedTripId))
    (sel : Nat → Bool) (i : Nat) (r : Bool × SharedTrip)
    (h : col_commit E w colmap sel i = some (some r)) :
    (Dict.getD colmap i (0, 0)).2 ≠ -1 := by
  intro hneg
  unfold col_commit at h
  dsimp only at h
  rw [if_pos hneg] at h
  simp at h

theorem ExtInv_snoc (E : Env) (w : TVG) (colmap : Dict Nat (Int × SharedTripId))
    (sel : Nat → Bool) (d0 : Dict CustId Bool) (s s1 : ExtState) (pre : List Nat) (i : Nat)
    (hinv : ExtInv E w colmap sel d0 s pre)
    (hk : Dict.keys s1.is_matched = Dict.keys s.is_matched)
    (hm : ∀ c, Dict.find s1.is_matched c = some true ↔
      (Dict.find s.is_matched c = some true ∨ commit_of E w colmap sel true i c))
    (hlog : ∀ e ∈ s.log, e ∈ s1.log)
    (he : ∀ c, commit_of E w colmap sel true i c → Event.end_delay c ∈ s1.log)
    (hb : ∀ c, commit_of E w colmap sel false i c → Event.beg_delay c ∈ s1.log)
    (ha : ∀ j cadd ok, Event.assign j cadd ok ∈ s1.log →
      Event.assign j cadd ok ∈ s.log ∨ (Dict.getD colmap j (0, 0)).2 ≠ -1) :
    ExtInv E w colmap sel d0 s1 (pre ++ [i]) := by
  obtain ⟨h1, h2, h3, h4, h5⟩ := hinv
  refine ⟨hk.trans h1, ?_, ?_, ?_, ?_⟩
  · intro c
    rw [hm c, h2 c]
    constructor
    · rintro (⟨j, hj, hc⟩ | hc)
      · exact ⟨j, List.mem_append_left _ hj, hc⟩
      · exact ⟨i, by simp, hc⟩
    · rintro ⟨j, hj, hc⟩
      rcases List.mem_append.mp hj with hj | hj
      · exact Or.inl ⟨j, hj, hc⟩
      · rw [List.mem_singleton.mp hj] at hc
        exact Or.inr hc
  · intro j hj c hc
    rcases List.mem_append.mp hj with hj | hj
    · exact hlog _ (h3 j hj c hc)
    · rw [List.mem_singleton.mp hj] at hc
      exact he c hc
  · intro j hj c hc
    rcases List.mem_append.mp hj with hj | hj
    · exact hlog _ (h4 j hj c hc)
    · rw [List.mem_singleton.mp hj] at hc
      exact hb c hc
  · intro j cadd ok hj
    rcases ha j cadd ok hj with h | h
    · exact h5 j cadd ok h
    · exact h

/-- One column of the loop of lines 523-546 keeps the invariant, when no
`.at(..)` throws on it. -/
theorem extract_col_inv (E : Env) (w : TVG) (colmap : Dict Nat (Int × SharedTripId))
    (sel : Nat → Bool) (d0 : Dict CustId Bool) (s : ExtState) (pre : List Nat) (i : Nat)
    (hinv : ExtInv E w colmap sel d0 s pre)
    (htot : ∃ r, col_commit E w colmap sel i = some r)
    (hids : ∀ ok trip, col_commit E w colmap sel i = some (some (ok, trip)) →
      ∀ cust ∈ trip, cust.id ∈ Dict.keys d0) :
    ∃ s1, extract_col E w colmap sel s i = some s1 ∧
      ExtInv E w colmap sel d0 s1 (pre ++ [i]) := by
  obtain ⟨r, hr⟩ := htot
  unfold extract_col
  rw [hr]
  cases r with
  | none =>
    refine ⟨s, rfl, ExtInv_snoc E w colmap sel d0 s s pre i hinv rfl ?_ (fun e he => he)
      ?_ ?_ (fun j cadd ok h => Or.inl h)⟩
    · intro c
      constructor
      · exact Or.inl
      · rintro (h | ⟨trip, h, _⟩)
        · exact h
        · rw [hr] at h; simp at h
    · rintro c ⟨trip, h, _⟩
      rw [hr] at h; simp at h
    · rintro c ⟨trip, h, _⟩
      rw [hr] at h; simp at h
  | some p =>
    obtain ⟨ok, trip⟩ := p
    have hne := col_commit_ne E w colmap sel i (ok, trip) hr
    cases ok with
    | true =>
      have hT : ∀ c, commit_of E w colmap sel true i c ↔ c ∈ trip.map (fun x => x.id) := by
        intro c
        constructor
        · rintro ⟨t2, h, hc⟩
          rw [hr] at h
          simp only [Option.some.injEq, Prod.mk.injEq, true_and] at h
          rw [h]; exact hc
        · intro hc
          exact ⟨trip, hr, hc⟩
      obtain ⟨s1, h1, h2, h3, h4⟩ := mark_matched_fold trip
        { s with log := s.log ++ [Event.assign i (trip.map (fun c => c.id)) true] }
        (by
          intro cust hc
          simp only
          rw [hinv.1]
          exact hids true trip hr cust hc)
      refine ⟨s1, h1, ExtInv_snoc E w colmap sel d0 s s1 pre i hinv h2 ?_ ?_ ?_ ?_ ?_⟩
      · intro c
        rw [h4 c, hT c]
        by_cases hc : c ∈ trip.map (fun x => x.id)
        · simp [hc]
        · simp [hc]
      · intro e he
        rw [h3]
        simp [he]
      · intro c hc
        rw [h3]
        have := (hT c).mp hc
        obtain ⟨x, hx, rfl⟩ := List.mem_map.mp this
        exact List.mem_append_right _ (List.mem_map.mpr ⟨x, hx, rfl⟩)
      · rintro c ⟨t2, h, _⟩
        rw [hr] at h; simp at h
      · intro j cadd ok hj
        rw [h3] at hj
        simp only [List.mem_append, List.mem_singleton, List.mem_map] at hj
        rcases hj with (hj | hj) | ⟨x, _, hx⟩
        · exact Or.inl hj
        · simp only [Event.assign.injEq] at hj
          rw [hj.1]
          exact Or.inr hne
        · simp at hx
    | false =>
      have hF : ∀ c, commit_of E w colmap sel false i c ↔ c ∈ trip.map (fun x => x.id) := by
        intro c
        constructor
        · rintro ⟨t2, h, hc⟩
          rw [hr] at h
          simp only [Option.some.injEq, Prod.mk.injEq, true_and] at h
          rw [h]; exact hc
        · intro hc
          exact ⟨trip, hr, hc⟩
      obtain ⟨h1, h2⟩ := reject_fold (trip.map (fun c => c.id))
        { s with log := s.log ++ [Event.assign i (trip.map (fun c => c.id)) false] }
      refine ⟨_, rfl, ExtInv_snoc E w colmap sel d0 s _ pre i hinv (by rw [h1]) ?_ ?_ ?_ ?_ ?_⟩
      · intro c
        rw [h1]
        constructor
        · exact Or.inl
        · rintro (h | ⟨t2, h, _⟩)
          · exact h
          · rw [hr] at h; simp at h
      · intro e he
        rw [h2]
        simp [he]
      · rintro c ⟨t2, h, _⟩
        rw [hr] at h; simp at h
      · intro c hc
        rw [h2]
        have := (hF c).mp hc
        exact List.mem_append_right _ (List.mem_map.mpr ⟨c, this, rfl⟩)
      · intro j cadd ok hj
        rw [h2] at hj
        simp only [List.mem_append, List.mem_singleton, List.mem_map] at hj
        rcases hj with (hj | hj) | ⟨x, _, hx⟩
        · exact Or.inl hj
        · simp only [Event.assign.injEq] at hj
          rw [hj.1]
          exact Or.inr hne
        · simp at hx

/-- The column `i` of the loop, `1 ≤ i ≤ ncol`: no `.at(..)` throws on it and
the customers of its trip are keys of `is_matched`, when the tables of the
workspace have an entry for every edge of `vted_`. -/
theorem col_commit_wf (E : Env) (w : TVG) (sel : Nat → Bool) (i : Nat)
    (hi : i ∈ List.range' 1 (x_cols w ++ y_cols w).length)
    (hat : ∀ v t, (v, t) ∈ x_cols w →
      (∃ vehl, Dict.find w.vehmap v = some vehl) ∧ (∃ r, find2 w.vt_rte v t = some r) ∧
      (∃ sc, find2 w.vt_sch v t = some sc) ∧
      ∃ trip, Dict.find w.trip_ t = some trip ∧
        ∀ cust ∈ trip, cust.id ∈ Dict.keys w.is_matched) :
    (∃ r, col_commit E w (List.enumFrom 1 (x_cols w ++ y_cols w)) sel i = some r) ∧
    (∀ ok trip,
      col_commit E w (List.enumFrom 1 (x_cols w ++ y_cols w)) sel i = some (some (ok, trip)) →
      ∀ cust ∈ trip, cust.id ∈ Dict.keys w.is_matched) := by
  rw [List.mem_range'_1] at hi
  have hlt : i - 1 < (x_cols w ++ y_cols w).length := by omega
  have hmem := mem_enumFrom_of_getElem? 1 (List.getElem?_eq_getElem hlt)
  have h1i : 1 + (i - 1) = i := by omega
  rw [h1i] at hmem
  have hget : Dict.getD (List.enumFrom 1 (x_cols w ++ y_cols w)) i (0, 0) =
      (x_cols w ++ y_cols w)[i - 1] := by
    unfold Dict.getD
    rw [Dict.find_some_of_mem (keys_enumFrom_nodup _ _) hmem]
    rfl
  unfold col_commit
  dsimp only
  rw [hget]
  rcases colmap_cases w i _ hmem with hx | ⟨c, _, hy⟩
  · obtain ⟨⟨vehl, hv⟩, ⟨r, hr⟩, ⟨sc, hsc⟩, trip, ht, hids⟩ :=
      hat (x_cols w ++ y_cols w)[i - 1].1 (x_cols w ++ y_cols w)[i - 1].2 hx
    rw [hv, hr, hsc, ht]
    dsimp only
    by_cases h1 : (x_cols w ++ y_cols w)[i - 1].2 = -1
    · simp [h1]
    · by_cases h2 : sel i = true
      · simp only [h1, h2, if_true, if_false]
        refine ⟨⟨_, rfl⟩, ?_⟩
        intro ok trip2 heq
        simp only [Option.some.injEq, Prod.mk.injEq] at heq
        rw [← heq.2]
        exact hids
      · simp [h1, h2]
  · rw [hy]
    simp

/-- C16 (the code departs from the claim): the oracle rejects every candidate,
so `vted_` is empty after the rtv region; `match` returns with both customers
of the batch unmatched and without a single call of `beg_delay`, because the
sweep of lines 548-550 is inside the block `if (vted_.size() > 0)`. With the
oracle of the examples and a solver that selects no column, `vted_` is not
empty and the same two unmatched customers are passed to `beg_delay`. -/
theorem no_feasible_batch_is_not_delayed :
    (tvg_match rejEnv nth_by_sort 1000 [custA, custB] [[custA, custB]] [[vehl1]]
      (fun _ _ => false) 0).map (fun r => r.w.vted_) = some [] ∧
    (tvg_match rejEnv nth_by_sort 1000 [custA, custB] [[custA, custB]] [[vehl1]]
      (fun _ _ => false) 0).map (fun r => r.w.is_matched) = some [(1, false), (2, false)] ∧
    (tvg_match rejEnv nth_by_sort 1000 [custA, custB] [[custA, custB]] [[vehl1]]
      (fun _ _ => false) 0).map (fun r => r.log) = some [] ∧
    (tvg_match exEnv nth_by_sort 1000 [custA, custB] [[custA, custB]] [[vehl1]]
      (fun _ _ => false) 0).map (fun r => r.w.is_matched) = some [(1, false), (2, false)] ∧
    (tvg_match exEnv nth_by_sort 1000 [custA, custB] [[custA, custB]] [[vehl1]]
      (fun _ _ => false) 0).map (fun r => r.log) =
      some [Event.beg_delay 1, Event.beg_delay 2] := by
  refine ⟨by decide!, by decide!, by decide!, by decide!, by decide!⟩

/-! ### The rtv region as a sequence of writes -/

theorem reach_trans {E : Env} {vehl : Vehicle} {s s1 s2 : RtvState}
    (h1 : RtvReach E vehl s s1) (h2 : RtvReach E vehl s1 s2) : RtvReach E vehl s s2 := by
  induction h2 with
  | refl => exact h1
  | step a b _ hstep ih => exact RtvReach.step _ a b ih hstep

theorem reach_one {E : Env} {vehl : Vehicle} {s s1 : RtvState} (h : RtvStep E vehl s s1) :
    RtvReach E vehl s s1 :=
  RtvReach.step s s s1 (RtvReach.refl s) h

/-- An invariant of the single writes is an invariant of their sequences. -/
theorem reach_inv {E : Env} {vehl : Vehicle} (P : RtvState → Prop)
    (hP : ∀ s s1, P s → RtvStep E vehl s s1 → P s1) {s s1 : RtvState}
    (h : RtvReach E vehl s s1) (hs : P s) : P s1 := by
  induction h with
  | refl => exact hs
  | step a b _ hstep ih => exact hP a b ih hstep

theorem step_NoEmpty {E : Env} {vehl : Vehicle} (s s1 : RtvState) (h : NoEmpty s)
    (hs : RtvStep E vehl s s1) : NoEmpty s1 := by
  cases hs with
  | size1 custs cust _ _ => exact size1_step_NoEmpty vehl s cust h
  | record k shtrip hlen _ _ =>
    apply record_trip_NoEmpty
    · intro hnil
      rw [hnil] at hlen
      simp at hlen
    · exact h
  | tick => exact NoEmpty_of_eq rfl rfl h

theorem step_rvgrph_rv {E : Env} {vehl : Vehicle} (s s1 : RtvState)
    (hs : RtvStep E vehl s s1) : s1.w.rvgrph_rv_ = s.w.rvgrph_rv_ := by
  cases hs with
  | size1 custs cust _ _ =>
    unfold size1_step record_trip
    exact add_trip_rvgrph_rv _ _
  | record k shtrip _ _ _ =>
    unfold record_trip
    exact add_trip_rvgrph_rv _ _
  | tick => rfl

theorem reach_NoEmpty {E : Env} {vehl : Vehicle} {s s1 : RtvState}
    (h : RtvReach E vehl s s1) (hs : NoEmpty s) : NoEmpty s1 :=
  reach_inv NoEmpty step_NoEmpty h hs

theorem reach_rvgrph_rv {E : Env} {vehl : Vehicle} {s s1 : RtvState}
    (h : RtvReach E vehl s s1) : s1.w.rvgrph_rv_ = s.w.rvgrph_rv_ :=
  reach_inv (fun x => x.w.rvgrph_rv_ = s.w.rvgrph_rv_)
    (fun a b ha hab => (step_rvgrph_rv a b hab).trans ha) h rfl

/-- A loop whose body is a sequence of writes is a sequence of writes. -/
theorem foldOpt_reach {E : Env} {vehl : Vehicle} {σ α : Type} (π : σ → RtvState)
    (P : σ → Prop) (f : σ → α → Option σ) (xs : List α)
    (h : ∀ a x a1, x ∈ xs → P a → f a x = some a1 → P a1 ∧ RtvReach E vehl (π a) (π a1)) :
    ∀ a a1, P a → foldOpt f a xs = some a1 → P a1 ∧ RtvReach E vehl (π a) (π a1) := by
  induction xs with
  | nil =>
    intro a a1 ha hf
    simp only [foldOpt, Option.some.injEq] at hf
    subst hf
    exact ⟨ha, RtvReach.refl _⟩
  | cons x r ih =>
    intro a a1 ha hf
    simp only [foldOpt] at hf
    cases hx : f a x with
    | none => rw [hx] at hf; simp at hf
    | some a2 =>
      rw [hx] at hf
      simp only at hf
      obtain ⟨h1, h2⟩ := h a x a2 (List.mem_cons_self _ _) ha hx
      obtain ⟨h3, h4⟩ := ih (fun a x a1 hx => h a x a1 (List.mem_cons_of_mem _ hx)) a2 a1 h1 hf
      exact ⟨h3, reach_trans h2 h4⟩

theorem foldl_reach {E : Env} {vehl : Vehicle} {α : Type} (P : RtvState → Prop)
    (f : RtvState → α → RtvState) (xs : List α)
    (h : ∀ a x, x ∈ xs → P a → P (f a x) ∧ RtvReach E vehl a (f a x)) :
    ∀ a, P a → P (xs.foldl f a) ∧ RtvReach E vehl a (xs.foldl f a) := by
  induction xs with
  | nil => intro a ha; exact ⟨ha, RtvReach.refl _⟩
  | cons x r ih =>
    intro a ha
    obtain ⟨h1, h2⟩ := h a x (List.mem_cons_self _ _) ha
    obtain ⟨h3, h4⟩ := ih (fun a x hx => h a x (List.mem_cons_of_mem _ hx)) (f a x) h1
    exact ⟨h3, reach_trans h2 h4⟩

/-- The loop of the size-1 trips is a sequence of writes. -/
theorem size1_fold_reach (E : Env) (vehl : Vehicle) (custs cs : List Customer)
    (hsub : ∀ c ∈ cs, c ∈ custs) (s : RtvState)
    (hf : Dict.find s.w.rvgrph_rv_ vehl = some custs) :
    RtvReach E vehl s (cs.foldl (size1_step vehl) s) := by
  have := @foldl_reach E vehl _
    (fun a => Dict.find a.w.rvgrph_rv_ vehl = some custs) (size1_step vehl) cs
    (by
      intro a x hx ha
      have hstep : RtvStep E vehl a (size1_step vehl a x) :=
        RtvStep.size1 a custs x ha (hsub x hx)
      refine ⟨?_, reach_one hstep⟩
      show Dict.find (size1_step vehl a x).w.rvgrph_rv_ vehl = some custs
      rw [step_rvgrph_rv a _ hstep]
      exact ha) s hf
  exact this.2

theorem NoEmpty_trip {s : RtvState} (h : NoEmpty s) {q : SharedTripId} {t : SharedTrip}
    (hf : Dict.find s.lcl_trip q = some t) : t ≠ [] :=
  h.1 (q, t) (Dict.mem_of_find_some hf)

theorem join_inner_reach (E : Env) (vehl : Vehicle) (hcap : vehl.capacity - vehl.queued > 1)
    (id_a : SharedTripId) (acc acc1 : SharedTrip × RtvState) (id_b : SharedTripId)
    (h : acc.1 ≠ [] ∧ NoEmpty acc.2) (hf : join_inner E vehl id_a acc id_b = some acc1) :
    (acc1.1 ≠ [] ∧ NoEmpty acc1.2) ∧ RtvReach E vehl acc.2 acc1.2 := by
  unfold join_inner at hf
  by_cases hab : id_a = id_b
  · simp only [hab, if_true, Option.some.injEq] at hf
    subst hf
    exact ⟨h, RtvReach.refl _⟩
  · simp only [hab, if_false] at hf
    cases hb : Dict.find acc.2.lcl_trip id_b with
    | none => rw [hb] at hf; simp at hf
    | some trip_b =>
      rw [hb] at hf
      simp only at hf
      have hne : acc.1 ++ trip_b ≠ [] := by simp [h.1]
      have hlen : 2 ≤ (acc.1 ++ trip_b).length := by
        have h1 : 0 < acc.1.length := List.length_pos.mpr h.1
        have h2 : 0 < trip_b.length := List.length_pos.mpr (NoEmpty_trip h.2 hb)
        rw [List.length_append]
        omega
      cases hh : (acc.1 ++ trip_b).head? with
      | none => rw [hh] at hf; simp at hf
      | some c0 =>
        rw [hh] at hf
        simp only at hf
        split at hf
        · simp only [Option.some.injEq] at hf
          subst hf
          exact ⟨⟨hne, h.2⟩, RtvReach.refl _⟩
        · split at hf
          · rename_i hok
            simp only [Option.some.injEq] at hf
            subst hf
            have hstep := @RtvStep.record E vehl acc.2 2 (acc.1 ++ trip_b)
              hlen hcap hok
            exact ⟨⟨hne, step_NoEmpty _ _ h.2 hstep⟩, reach_one hstep⟩
          · simp only [Option.some.injEq] at hf
            subst hf
            exact ⟨⟨hne, h.2⟩, RtvReach.refl _⟩

theorem join_outer_reach (E : Env) (vehl : Vehicle) (hcap : vehl.capacity - vehl.queued > 1)
    (s s1 : RtvState) (id_a : SharedTripId) (h : NoEmpty s)
    (hf : join_outer E vehl s id_a = some s1) : NoEmpty s1 ∧ RtvReach E vehl s s1 := by
  unfold join_outer at hf
  cases ha : Dict.find s.lcl_trip id_a with
  | none => rw [ha] at hf; simp at hf
  | some trip_a =>
    rw [ha] at hf
    simp only at hf
    cases hids : Dict.find s.tripk 1 with
    | none => rw [hids] at hf; simp at hf
    | some ids =>
      rw [hids] at hf
      simp only at hf
      cases hr : foldOpt (join_inner E vehl id_a) (trip_a, s) ids with
      | none => rw [hr] at hf; simp at hf
      | some r =>
        rw [hr] at hf
        simp only [Option.some.injEq] at hf
        subst hf
        have := @foldOpt_reach E vehl _ _
          (fun (a : SharedTrip × RtvState) => a.2) (fun a => a.1 ≠ [] ∧ NoEmpty a.2)
          (join_inner E vehl id_a) ids
          (fun a x a1 _ hP hfa => join_inner_reach E vehl hcap id_a a a1 x hP hfa)
          (trip_a, s) r ⟨NoEmpty_trip h ha, h⟩ hr
        exact ⟨this.1.2, this.2⟩

theorem rr_inner_reach (E : Env) (vehl : Vehicle) (hcap : vehl.capacity - vehl.queued > 1)
    (cust_a : Customer) (s : RtvState) (cust_b : Customer) (h : NoEmpty s) :
    NoEmpty (rr_inner E vehl cust_a s cust_b) ∧
      RtvReach E vehl s (rr_inner E vehl cust_a s cust_b) := by
  unfold rr_inner
  by_cases hok : (travel E vehl [cust_a, cust_b] 0 [] []).ok = true
  · simp only [hok, if_true]
    have hstep := @RtvStep.record E vehl s 2 [cust_a, cust_b] (by simp)
      hcap hok
    exact ⟨step_NoEmpty _ _ h hstep, reach_one hstep⟩
  · simp only [hok, if_false, Bool.false_eq_true]
    exact ⟨h, RtvReach.refl _⟩

theorem rr_outer_reach (E : Env) (vehl : Vehicle) (hcap : vehl.capacity - vehl.queued > 1)
    (s : RtvState) (kv : Customer × List Customer) (h : NoEmpty s) :
    NoEmpty (rr_outer E vehl s kv) ∧ RtvReach E vehl s (rr_outer E vehl s kv) := by
  unfold rr_outer
  split
  · exact ⟨h, RtvReach.refl _⟩
  · exact foldl_reach NoEmpty (rr_inner E vehl kv.1) kv.2
      (fun a x _ ha => rr_inner_reach E vehl hcap kv.1 a x ha) s h

theorem sizek_inner_reach (E : Env) (vehl : Vehicle) (hcap : vehl.capacity - vehl.queued > 1)
    (k : Nat) (hk : 2 ≤ k) (id_a : SharedTripId) (s s1 : RtvState) (id_b : SharedTripId)
    (h : NoEmpty s) (hf : sizek_inner E vehl k id_a s id_b = some s1) :
    NoEmpty s1 ∧ RtvReach E vehl s s1 := by
  unfold sizek_inner at hf
  by_cases hab : id_a = id_b
  · simp only [hab, if_true, Option.some.injEq] at hf
    subst hf
    exact ⟨h, RtvReach.refl _⟩
  · simp only [hab, if_false] at hf
    cases ha : Dict.find s.lcl_trip id_a with
    | none => rw [ha] at hf; simp at hf
    | some trip_a =>
      cases hb : Dict.find s.lcl_trip id_b with
      | none => rw [ha, hb] at hf; simp at hf
      | some trip_b =>
        rw [ha, hb] at hf
        simp only at hf
        by_cases hlen : (join_no_dups trip_a trip_b).length = k
        · simp only [hlen, if_true] at hf
          cases hids : Dict.find s.tripk (k - 1) with
          | none => rw [hids] at hf; simp at hf
          | some ids =>
            rw [hids] at hf
            simp only at hf
            cases hall : all_subtrips_known s.lcl_trip ids (join_no_dups trip_a trip_b)
                (List.range k) with
            | none => rw [hall] at hf; simp at hf
            | some b =>
              rw [hall] at hf
              cases b with
              | false =>
                simp only [Option.some.injEq] at hf
                subst hf
                exact ⟨h, RtvReach.refl _⟩
              | true =>
                simp only at hf
                split at hf
                · rename_i hok
                  simp only [Option.some.injEq] at hf
                  subst hf
                  have hstep := @RtvStep.record E vehl s k
                    (join_no_dups trip_a trip_b) (by omega) hcap hok
                  exact ⟨step_NoEmpty _ _ h hstep, reach_one hstep⟩
                · simp only [Option.some.injEq] at hf
                  subst hf
                  exact ⟨h, RtvReach.refl _⟩
        · simp only [hlen, if_false, Option.some.injEq] at hf
          subst hf
          exact ⟨h, RtvReach.refl _⟩

theorem sizek_outer_reach (E : Env) (vehl : Vehicle) (hcap : vehl.capacity - vehl.queued > 1)
    (k : Nat) (hk : 2 ≤ k) (s s1 : RtvState) (id_a : SharedTripId) (h : NoEmpty s)
    (hf : sizek_outer E vehl k s id_a = some s1) : NoEmpty s1 ∧ RtvReach E vehl s s1 := by
  unfold sizek_outer at hf
  cases ha : Dict.find s.lcl_trip id_a with
  | none => rw [ha] at hf; simp at hf
  | some trip_a =>
    rw [ha] at hf
    simp only at hf
    cases hids : Dict.find s.tripk (k - 1) with
    | none => rw [hids] at hf; simp at hf
    | some ids =>
      rw [hids] at hf
      simp only at hf
      exact foldOpt_reach (fun (a : RtvState) => a) NoEmpty (sizek_inner E vehl k id_a) ids
        (fun a x a1 _ hP hfa => sizek_inner_reach E vehl hcap k hk id_a a a1 x hP hfa) s s1 h hf

theorem sizek_loop_reach (E : Env) (vehl : Vehicle) (hcap : vehl.capacity - vehl.queued > 1) :
    ∀ (fuel k : Nat), 2 ≤ k → ∀ (s s1 : RtvState), NoEmpty s →
      sizek_loop E vehl fuel k s = some s1 → NoEmpty s1 ∧ RtvReach E vehl s s1 := by
  intro fuel
  induction fuel with
  | zero =>
    intro k _ s s1 h hf
    unfold sizek_loop at hf
    split at hf
    · simp at hf
    · simp only [Option.some.injEq] at hf
      subst hf
      exact ⟨h, RtvReach.refl _⟩
  | succ n ih =>
    intro k hk s s1 h hf
    unfold sizek_loop at hf
    split at hf
    · simp only at hf
      cases hids : Dict.find s.tripk (k - 1) with
      | none => rw [hids] at hf; simp at hf
      | some ids =>
        rw [hids] at hf
        simp only at hf
        cases hr : foldOpt (sizek_outer E vehl k) s ids with
        | none => rw [hr] at hf; simp at hf
        | some s2 =>
          rw [hr] at hf
          simp only at hf
          obtain ⟨h1, h2⟩ := foldOpt_reach (fun (a : RtvState) => a) NoEmpty
            (sizek_outer E vehl k) ids
            (fun a x a1 _ hP hfa => sizek_outer_reach E vehl hcap k hk a a1 x hP hfa) s s2 h hr
          obtain ⟨h3, h4⟩ := ih (k + 1) (by omega) s2 s1 h1 hf
          exact ⟨h3, reach_trans h2 h4⟩
    · simp only [Option.some.injEq] at hf
      subst hf
      exact ⟨h, RtvReach.refl _⟩

/-- The loop body of a vehicle with a free seat: the size-1 trips of the
customers of `rvgrph_rv_.at(vehl)`, then a sequence of writes. -/
theorem rtv_vehicle_reach (E : Env) (vehl : Vehicle) (s0 s1 : RtvState) (hN : NoEmpty s0)
    (hq : vehl.queued ≠ vehl.capacity) (hf : rtv_vehicle E vehl s0 = some s1) :
    (Dict.find s0.w.rvgrph_rv_ vehl = none → s1 = rtv_start vehl s0) ∧
    (∀ custs, Dict.find s0.w.rvgrph_rv_ vehl = some custs →
      RtvReach E vehl (custs.foldl (size1_step vehl) (rtv_start vehl s0)) s1) := by
  unfold rtv_vehicle at hf
  simp only [hq, if_false] at hf
  have hN0 : NoEmpty (rtv_start vehl s0) := NoEmpty_of_eq rfl rfl hN
  have hc0 : (rtv_start vehl s0).w.rvgrph_rv_ = s0.w.rvgrph_rv_ := rfl
  unfold rtv_start at hN0 hc0 ⊢
  generalize hst : ({ s0 with
    w := { s0.w with vehmap := Dict.set s0.w.vehmap vehl.id vehl }, tripk := [] } : RtvState)
    = st at hf hN0 hc0 ⊢
  have hN1 : NoEmpty st := hN0
  cases hc : Dict.find s0.w.rvgrph_rv_ vehl with
  | none =>
    rw [hc] at hf
    simp only [Option.some.injEq] at hf
    exact ⟨fun _ => hf.symm, fun custs h => by simp at h⟩
  | some custs =>
    refine ⟨fun h => by simp at h, ?_⟩
    intro custs2 hc2
    simp only [Option.some.injEq] at hc2
    subst hc2
    rw [hc] at hf
    simp only at hf
    have hr1 : RtvReach E vehl st (custs.foldl (size1_step vehl) st) :=
      size1_fold_reach E vehl custs custs (fun c hc => hc) st (by rw [hc0]; exact hc)
    have hN2 := reach_NoEmpty hr1 hN1
    have ht : ∀ s, RtvReach E vehl s (check_timeout E s) := fun s => reach_one (RtvStep.tick s)
    have hr3 := ht (custs.foldl (size1_step vehl) st)
    have hN3 := reach_NoEmpty hr3 hN2
    split at hf
    · simp only [Option.some.injEq] at hf
      subst hf
      exact hr3
    · split at hf
      · rename_i hcap
        cases hids : Dict.find
            (check_timeout E (custs.foldl (size1_step vehl) st)).tripk 1 with
        | none => rw [hids] at hf; simp at hf
        | some ids =>
          rw [hids] at hf
          simp only at hf
          cases hj : foldOpt (join_outer E vehl)
              (check_timeout E (custs.foldl (size1_step vehl) st)) ids with
          | none => rw [hj] at hf; simp at hf
          | some s4 =>
            rw [hj] at hf
            simp only at hf
            obtain ⟨hN4, hr4⟩ := foldOpt_reach (fun (a : RtvState) => a) NoEmpty
              (join_outer E vehl) ids
              (fun a x a1 _ hP hfa => join_outer_reach E vehl hcap a a1 x hP hfa) _ s4 hN3 hj
            have hr5 := reach_trans (reach_trans hr3 hr4) (ht s4)
            have hN5 := reach_NoEmpty (ht s4) hN4
            split at hf
            · simp only [Option.some.injEq] at hf
              subst hf
              exact hr5
            · obtain ⟨hN6, hr6⟩ := foldl_reach NoEmpty (rr_outer E vehl)
                (check_timeout E s4).w.rvgrph_rr_
                (fun a x _ ha => rr_outer_reach E vehl hcap a x ha) (check_timeout E s4) hN5
              have hr7 := reach_trans (reach_trans hr5 hr6) (ht _)
              have hN7 := reach_NoEmpty (ht _) hN6
              split at hf
              · simp only [Option.some.injEq] at hf
                subst hf
                exact hr7
              · cases hl : sizek_loop E vehl (vehl.capacity - vehl.queued).toNat 3
                    (check_timeout E ((check_timeout E s4).w.rvgrph_rr_.foldl (rr_outer E vehl)
                      (check_timeout E s4))) with
                | none => rw [hl] at hf; simp at hf
                | some s8 =>
                  rw [hl] at hf
                  simp only [Option.some.injEq] at hf
                  subst hf
                  obtain ⟨_, hr8⟩ := sizek_loop_reach E vehl hcap _ 3 (by omega) _ s8 hN7 hl
                  exact reach_trans (reach_trans hr7 hr8) (ht s8)
      · simp only [Option.some.injEq] at hf
        subst hf
        exact reach_trans hr3 (ht _)

/-! ### What the tables of the rtv region hold -/

theorem set2_entries {V : Type} (Q : VehlId → SharedTripId → V → Prop)
    (m : Dict VehlId (Dict SharedTripId V)) (a : VehlId) (b : SharedTripId) (v : V)
    (hm : Entries Q m) (hb : Q a b v) : Entries Q (set2 m a b v) := by
  intro e he kv hkv
  rcases Dict.mem_set he with rfl | h
  · rcases Dict.mem_set hkv with rfl | h2
    · exact hb
    · exact hm _ (Dict.getD_nil_mem h2) _ h2
  · exact hm e h kv hkv

theorem Entries_mono {V : Type} {Q Q1 : VehlId → SharedTripId → V → Prop}
    {m : Dict VehlId (Dict SharedTripId V)} (h : ∀ a b v, Q a b v → Q1 a b v)
    (hm : Entries Q m) : Entries Q1 m :=
  fun e he kv hkv => h _ _ _ (hm e he kv hkv)

theorem add_trip_frame (w : TVG) (t : SharedTrip) :
    (add_trip w t).2.vehmap = w.vehmap ∧ (add_trip w t).2.rv_cst = w.rv_cst ∧
    (add_trip w t).2.rv_sch = w.rv_sch ∧ (add_trip w t).2.rv_rte = w.rv_rte ∧
    (add_trip w t).2.vt_sch = w.vt_sch ∧ (add_trip w t).2.vt_rte = w.vt_rte := by
  unfold add_trip
  split <;> exact ⟨rfl, rfl, rfl, rfl, rfl, rfl⟩

theorem get2_eq_find2 {A B V : Type} [DecidableEq A] [DecidableEq B] (m : Dict A (Dict B V))
    (a : A) (b : B) (d : V) : get2 m a b d = (find2 m a b).getD d := by
  unfold get2 find2 Dict.getD
  cases Dict.find m a <;> simp [Dict.find]

theorem get2_touch2 {A B V : Type} [DecidableEq A] [DecidableEq B] (m : Dict A (Dict B V))
    (a a2 : A) (b b2 : B) (d : V) : get2 (touch2 m a b d) a2 b2 d = get2 m a2 b2 d := by
  unfold touch2
  rw [get2_eq_find2, find2_set2, get2_eq_find2 m a2 b2 d]
  by_cases h : a2 = a ∧ b2 = b
  · obtain ⟨rfl, rfl⟩ := h
    simp [get2_eq_find2]
  · simp [h]

theorem Ext_refl (F : List Vehicle) (w : TVG) : Ext F w w :=
  ⟨fun _ h => h, fun _ _ h => h, fun _ _ h => h, fun _ _ h => h⟩

theorem Ext_trans {F : List Vehicle} {w w1 w2 : TVG} (h1 : Ext F w w1) (h2 : Ext F w1 w2) :
    Ext F w w2 :=
  ⟨fun e he => h2.1 e (h1.1 e he), fun v hv h => h2.2.1 v hv (h1.2.1 v hv h),
    fun a b h => h2.2.2.1 a b (h1.2.2.1 a b h), fun a b h => h2.2.2.2 a b (h1.2.2.2 a b h)⟩

theorem find2_set2_isSome {A B V : Type} [DecidableEq A] [DecidableEq B]
    (m : Dict A (Dict B V)) (a a2 : A) (b b2 : B) (v : V)
    (h : (find2 m a2 b2).isSome = true) : (find2 (set2 m a b v) a2 b2).isSome = true := by
  rw [find2_set2]
  split
  · rfl
  · exact h

theorem Ent_mono {E : Env} {F : List Vehicle} {w0 w w1 : TVG} (h : Ext F w w1)
    {vid : VehlId} {stid : SharedTripId} {r : TravelOut} (he : Ent E F w0 w vid stid r) :
    Ent E F w0 w1 vid stid r := by
  obtain ⟨vehl, trip, h1, h2, h3, h4, h5⟩ := he
  refine ⟨vehl, trip, h1, h2, ?_, h.1 _ h4, h5⟩
  rw [← h2] at h3 ⊢
  exact h.2.1 vehl h1 h3

/-- The block that records a trip keeps the invariant of the worker, when the
recorded triple is one that `Written` allows. -/
theorem record_trip_CurInv (E : Env) (F : List Vehicle) (w0 wb : TVG) (vehl : Vehicle)
    (hv : vehl ∈ F) (s : RtvState) (k : Nat) (shtrip : SharedTrip) (r : TravelOut)
    (hW : Written E w0 vehl shtrip r) (h : CurInv E F w0 wb vehl s) :
    CurInv E F w0 wb vehl (record_trip vehl.id k shtrip r.cstout r.schout r.rteout s) := by
  obtain ⟨⟨⟨hR, hrv, hc, hs, hr, hvs, hvr, hvt⟩, hext, hl⟩, hcur⟩ := h
  obtain ⟨f1, f2, f3, f4, f5, f6⟩ := add_trip_frame s.w shtrip
  have hR1 : RegInv (add_trip s.w shtrip).2 := add_trip_RegInv hR shtrip
  have hE : Ext F s.w (record_trip vehl.id k shtrip r.cstout r.schout r.rteout s).w := by
    refine ⟨fun e he => add_trip_trip_mono hR shtrip e he, ?_, ?_, ?_⟩
    · intro v _ hf
      show Dict.find (add_trip s.w shtrip).2.vehmap v.id = some v
      rw [f1]; exact hf
    · intro a b hab
      show (find2 (set2 (add_trip s.w shtrip).2.vt_sch vehl.id (add_trip s.w shtrip).1
        r.schout) a b).isSome = true
      rw [f5]
      exact find2_set2_isSome _ _ _ _ _ _ hab
    · intro a b hab
      show (find2 (set2 (add_trip s.w shtrip).2.vt_rte vehl.id (add_trip s.w shtrip).1
        r.rteout) a b).isSome = true
      rw [f6]
      exact find2_set2_isSome _ _ _ _ _ _ hab
  have hnew : Ent E F w0 (record_trip vehl.id k shtrip r.cstout r.schout r.rteout s).w
      vehl.id (add_trip s.w shtrip).1 r := by
    refine ⟨vehl, shtrip, hv, rfl, ?_, add_trip_id_mem hR shtrip, hW⟩
    show Dict.find (add_trip s.w shtrip).2.vehmap vehl.id = some vehl
    rw [f1]; exact hcur
  refine ⟨⟨⟨RegInv_of_eq rfl rfl hR1, ?_, ?_, ?_, ?_, ?_, ?_, ?_⟩, Ext_trans hext hE, ?_⟩, ?_⟩
  · exact (add_trip_rvgrph_rv s.w shtrip).trans hrv
  · intro v c
    show get2 (add_trip s.w shtrip).2.rv_cst v c 0 = _
    rw [f2]; exact hc v c
  · intro v c
    show get2 (add_trip s.w shtrip).2.rv_sch v c [] = _
    rw [f3]; exact hs v c
  · intro v c
    show get2 (add_trip s.w shtrip).2.rv_rte v c [] = _
    rw [f4]; exact hr v c
  · show Entries _ (set2 (add_trip s.w shtrip).2.vt_sch vehl.id (add_trip s.w shtrip).1 r.schout)
    rw [f5]
    exact set2_entries _ _ _ _ _
      (Entries_mono (fun a b v ⟨r1, h1, h2⟩ => ⟨r1, Ent_mono hE h1, h2⟩) hvs) ⟨r, hnew, rfl⟩
  · show Entries _ (set2 (add_trip s.w shtrip).2.vt_rte vehl.id (add_trip s.w shtrip).1 r.rteout)
    rw [f6]
    exact set2_entries _ _ _ _ _
      (Entries_mono (fun a b v ⟨r1, h1, h2⟩ => ⟨r1, Ent_mono hE h1, h2⟩) hvr) ⟨r, hnew, rfl⟩
  · exact (add_trip_vted s.w shtrip).trans hvt
  · exact set2_entries _ _ _ _ _
      (Entries_mono (fun a b v ⟨r1, h1, h2⟩ => ⟨r1, Ent_mono hE h1, h2⟩) hl) ⟨r, hnew, rfl⟩
  · show Dict.find (add_trip s.w shtrip).2.vehmap vehl.id = some vehl
    rw [f1]; exact hcur

theorem getD_of_find {K V : Type} [DecidableEq K] {d : Dict K V} {k : K} {v dflt : V}
    (h : Dict.find d k = some v) : Dict.getD d k dflt = v := by
  unfold Dict.getD
  rw [h]
  rfl

theorem foldOpt_inv_mem {σ α : Type} (P : σ → Prop) (f : σ → α → Option σ) (xs : List α)
    (h : ∀ s x s1, x ∈ xs → P s → f s x = some s1 → P s1) :
    ∀ s s1, P s → foldOpt f s xs = some s1 → P s1 := by
  induction xs with
  | nil =>
    intro s s1 hs hf
    simp only [foldOpt, Option.some.injEq] at hf
    exact hf ▸ hs
  | cons x r ih =>
    intro s s1 hs hf
    simp only [foldOpt] at hf
    cases hx : f s x with
    | none => rw [hx] at hf; simp at hf
    | some s2 =>
      rw [hx] at hf
      exact ih (fun s x s1 hm => h s x s1 (List.mem_cons_of_mem _ hm)) s2 s1
        (h s x s2 (List.mem_cons_self _ _) hs hx) hf

/-- Every single write of the rtv region keeps the invariant of the worker. -/
theorem step_CurInv (E : Env) (F : List Vehicle) (w0 wb : TVG) (vehl : Vehicle)
    (hv : vehl ∈ F) (s s1 : RtvState) (h : CurInv E F w0 wb vehl s)
    (hs : RtvStep E vehl s s1) : CurInv E F w0 wb vehl s1 := by
  cases hs with
  | size1 custs cust hf hc =>
    obtain ⟨⟨⟨hR, hrv, hcst, hsch, hrte, hvs, hvr, hvt⟩, hext, hl⟩, hcur⟩ := h
    have hE : Ext F s.w
        { s.w with
          rv_sch := touch2 s.w.rv_sch vehl cust []
          rv_rte := touch2 s.w.rv_rte vehl cust []
          rv_cst := touch2 s.w.rv_cst vehl cust 0 } := ⟨fun _ h => h, fun _ _ h => h, fun _ _ h => h, fun _ _ h => h⟩
    have hpre : CurInv E F w0 wb vehl
        { s with w := { s.w with
          rv_sch := touch2 s.w.rv_sch vehl cust []
          rv_rte := touch2 s.w.rv_rte vehl cust []
          rv_cst := touch2 s.w.rv_cst vehl cust 0 } } := by
      refine ⟨⟨⟨RegInv_of_eq rfl rfl hR, hrv, ?_, ?_, ?_, ?_, ?_, hvt⟩, Ext_trans hext hE, ?_⟩,
        hcur⟩
      · intro v c
        show get2 (touch2 s.w.rv_cst vehl cust 0) v c 0 = _
        rw [get2_touch2]; exact hcst v c
      · intro v c
        show get2 (touch2 s.w.rv_sch vehl cust []) v c [] = _
        rw [get2_touch2]; exact hsch v c
      · intro v c
        show get2 (touch2 s.w.rv_rte vehl cust []) v c [] = _
        rw [get2_touch2]; exact hrte v c
      · exact Entries_mono (fun a b v ⟨r1, h1, h2⟩ => ⟨r1, Ent_mono hE h1, h2⟩) hvs
      · exact Entries_mono (fun a b v ⟨r1, h1, h2⟩ => ⟨r1, Ent_mono hE h1, h2⟩) hvr
      · exact Entries_mono (fun a b v ⟨r1, h1, h2⟩ => ⟨r1, Ent_mono hE h1, h2⟩) hl
    have hW : Written E w0 vehl [cust]
        { ok := true, cstout := get2 s.w.rv_cst vehl cust 0,
          schout := get2 s.w.rv_sch vehl cust [], rteout := get2 s.w.rv_rte vehl cust [],
          calls := [] } := by
      left
      refine ⟨cust, rfl, ?_, hcst vehl cust, hsch vehl cust, hrte vehl cust⟩
      rw [← hrv, getD_of_find hf]
      exact hc
    exact record_trip_CurInv E F w0 wb vehl hv _ 1 [cust] _ hW hpre
  | record k shtrip hlen hcap hok =>
    exact record_trip_CurInv E F w0 wb vehl hv s k shtrip (travel E vehl shtrip 0 [] [])
      (Or.inr ⟨hlen, hcap, hok, rfl, rfl, rfl⟩) h
  | tick => exact h

/-- The invariant of the worker holds when it turns to a vehicle of the feed,
the ids of the feed being distinct. -/
theorem rtv_start_CurInv (E : Env) (F : List Vehicle) (w0 wb : TVG) (vehl : Vehicle)
    (hv : vehl ∈ F) (hU : ∀ a ∈ F, ∀ b ∈ F, a.id = b.id → a = b) (s : RtvState)
    (h : SInv E F w0 wb s) : CurInv E F w0 wb vehl (rtv_start vehl s) := by
  obtain ⟨⟨hR, hrv, hcst, hsch, hrte, hvs, hvr, hvt⟩, hext, hl⟩ := h
  have hE : Ext F s.w (rtv_start vehl s).w := by
    refine ⟨fun _ h => h, ?_, fun _ _ h => h, fun _ _ h => h⟩
    intro v hvF hf
    show Dict.find (Dict.set s.w.vehmap vehl.id vehl) v.id = some v
    rw [Dict.find_set]
    by_cases hid : vehl.id = v.id
    · rw [if_pos hid, hU vehl hv v hvF hid]
    · rw [if_neg hid]; exact hf
  refine ⟨⟨⟨RegInv_of_eq rfl rfl hR, hrv, hcst, hsch, hrte, ?_, ?_, hvt⟩, Ext_trans hext hE, ?_⟩,
    ?_⟩
  · exact Entries_mono (fun a b v ⟨r1, h1, h2⟩ => ⟨r1, Ent_mono hE h1, h2⟩) hvs
  · exact Entries_mono (fun a b v ⟨r1, h1, h2⟩ => ⟨r1, Ent_mono hE h1, h2⟩) hvr
  · exact Entries_mono (fun a b v ⟨r1, h1, h2⟩ => ⟨r1, Ent_mono hE h1, h2⟩) hl
  · show Dict.find (Dict.set s.w.vehmap vehl.id vehl) vehl.id = some vehl
    exact Dict.find_set_self _ _ _

/-- The loop body of one vehicle keeps the invariant of the worker. -/
theorem rtv_vehicle_SInv (E : Env) (F : List Vehicle) (w0 wb : TVG) (vehl : Vehicle)
    (hv : vehl ∈ F) (hU : ∀ a ∈ F, ∀ b ∈ F, a.id = b.id → a = b) (s0 s1 : RtvState)
    (hN : NoEmpty s0) (h : SInv E F w0 wb s0) (hf : rtv_vehicle E vehl s0 = some s1) :
    SInv E F w0 wb s1 ∧ NoEmpty s1 := by
  by_cases hq : vehl.queued = vehl.capacity
  · unfold rtv_vehicle at hf
    simp only [hq, if_true, Option.some.injEq] at hf
    subst hf
    exact ⟨h, NoEmpty_of_eq rfl rfl hN⟩
  · obtain ⟨h1, h2⟩ := rtv_vehicle_reach E vehl s0 s1 hN hq hf
    have hstart := rtv_start_CurInv E F w0 wb vehl hv hU s0 h
    have hN1 : NoEmpty (rtv_start vehl s0) := NoEmpty_of_eq rfl rfl hN
    cases hc : Dict.find s0.w.rvgrph_rv_ vehl with
    | none =>
      rw [h1 hc]
      exact ⟨hstart.1, hN1⟩
    | some custs =>
      have hr1 := size1_fold_reach E vehl custs custs (fun c hc => hc) (rtv_start vehl s0) hc
      have hr := reach_trans hr1 (h2 custs hc)
      exact ⟨(reach_inv (CurInv E F w0 wb vehl)
        (fun a b ha hab => step_CurInv E F w0 wb vehl hv a b ha hab) hr hstart).1,
        reach_NoEmpty hr hN1⟩

theorem rtv_worker_SInv (E : Env) (F : List Vehicle) (w0 : TVG)
    (hU : ∀ a ∈ F, ∀ b ∈ F, a.id = b.id → a = b) (vehls : List Vehicle)
    (hsub : ∀ v ∈ vehls, v ∈ F) (w : TVG) (clock : Nat) (s1 : RtvState)
    (hW : WInv E F w0 w) (hne : ∀ e ∈ w.rvgrph_rv_, e.2 ≠ [])
    (hf : rtv_worker E vehls w clock = some s1) :
    SInv E F w0 w s1 ∧ NoEmpty s1 := by
  unfold rtv_worker at hf
  refine foldOpt_inv_mem (fun a => SInv E F w0 w a ∧ NoEmpty a) (rtv_worker_step E) vehls
    ?_ _ s1 ⟨⟨hW, Ext_refl F w, fun e he => by simp at he⟩, ⟨fun e he => by simp at he, hne⟩⟩ hf
  intro a x a1 hx hP hfa
  unfold rtv_worker_step at hfa
  split at hfa
  · simp only [Option.some.injEq] at hfa
    subst hfa
    exact hP
  · exact rtv_vehicle_SInv E F w0 w x (hsub x hx) hU a a1 hP.2 hP.1 hfa

theorem WInv_mono_entries {E : Env} {F : List Vehicle} {w0 w w1 : TVG} (h : Ext F w w1)
    {V : Type} {proj : TravelOut → V} {tbl : Dict VehlId (Dict SharedTripId V)}
    (ht : Entries (fun vid stid x => ∃ r, Ent E F w0 w vid stid r ∧ proj r = x) tbl) :
    Entries (fun vid stid x => ∃ r, Ent E F w0 w1 vid stid r ∧ proj r = x) tbl :=
  Entries_mono (fun _ _ _ ⟨r1, h1, h2⟩ => ⟨r1, Ent_mono h h1, h2⟩) ht

/-- The workers one after the other keep the invariant of the workspace, and
every entry of every collected `lcl_vted` belongs to an edge. -/
theorem rtv_enumerate_SInv (E : Env) (F : List Vehicle) (w0 : TVG)
    (hU : ∀ a ∈ F, ∀ b ∈ F, a.id = b.id → a = b) (hne : ∀ e ∈ w0.rvgrph_rv_, e.2 ≠ [])
    (workers : List (List Vehicle)) :
    ∀ (acc : TVG × Nat) (r : TVG × Nat × List (Dict VehlId (Dict SharedTripId DistInt))),
    (∀ vehls ∈ workers, ∀ v ∈ vehls, v ∈ F) → WInv E F w0 acc.1 →
    rtv_enumerate E workers acc = some r →
    WInv E F w0 r.1 ∧ Ext F acc.1 r.1 ∧
    ∀ l ∈ r.2.2, Entries (fun vid stid x => ∃ r0, Ent E F w0 r.1 vid stid r0 ∧ r0.cstout = x) l := by
  induction workers with
  | nil =>
    intro acc r _ hW hf
    simp only [rtv_enumerate, Option.some.injEq] at hf
    subst hf
    exact ⟨hW, Ext_refl F _, fun l hl => by simp at hl⟩
  | cons vehls rest ih =>
    intro acc r hsub hW hf
    simp only [rtv_enumerate] at hf
    cases hw : rtv_worker E vehls acc.1 acc.2 with
    | none => rw [hw] at hf; simp at hf
    | some s =>
      rw [hw] at hf
      simp only at hf
      cases hr : rtv_enumerate E rest (s.w, s.clock) with
      | none => rw [hr] at hf; simp at hf
      | some r1 =>
        rw [hr] at hf
        simp only [Option.some.injEq] at hf
        subst hf
        have hne1 : ∀ e ∈ acc.1.rvgrph_rv_, e.2 ≠ [] := by rw [hW.2.1]; exact hne
        obtain ⟨⟨hWs, hExt, hl⟩, _⟩ := rtv_worker_SInv E F w0 hU vehls
          (hsub vehls (List.mem_cons_self _ _)) acc.1 acc.2 s hW hne1 hw
        obtain ⟨h1, h2, h3⟩ := ih (s.w, s.clock) r1
          (fun v hv => hsub v (List.mem_cons_of_mem _ hv)) hWs hr
        refine ⟨h1, Ext_trans hExt h2, ?_⟩
        intro l hl2
        rcases List.mem_cons.mp hl2 with rfl | hl2
        · exact WInv_mono_entries h2 hl
        · exact h3 l hl2

theorem merge_inner_entries (Q : VehlId → SharedTripId → DistInt → Prop) (cap : Int)
    (vid : VehlId) (l : List (SharedTripId × DistInt)) :
    ∀ (acc : Dict VehlId (Dict SharedTripId DistInt) × Int),
    Entries Q acc.1 → (∀ kv2 ∈ l, Q vid kv2.1 kv2.2) →
    Entries Q (merge_inner cap vid acc l).1 := by
  induction l with
  | nil => intro acc hacc _; exact hacc
  | cons kv2 rest ih =>
    intro acc hacc hl
    have h1 := set2_entries Q acc.1 vid kv2.1 kv2.2 hacc (hl kv2 (List.mem_cons_self _ _))
    simp only [merge_inner]
    split
    · exact h1
    · exact ih _ h1 (fun x hx => hl x (List.mem_cons_of_mem _ hx))

theorem merge_outer_entries (Q : VehlId → SharedTripId → DistInt → Prop) (cap : Int)
    (l : List (VehlId × Dict SharedTripId DistInt)) :
    ∀ (acc : Dict VehlId (Dict SharedTripId DistInt) × Int),
    Entries Q acc.1 → Entries Q l → Entries Q (merge_outer cap acc l).1 := by
  induction l with
  | nil => intro acc hacc _; exact hacc
  | cons kv rest ih =>
    intro acc hacc hl
    have hrest : Entries Q rest := fun e he => hl e (List.mem_cons_of_mem _ he)
    simp only [merge_outer]
    split
    · have h1 : Entries Q (Dict.set acc.1 kv.1 kv.2) := by
        intro e he x hx
        rcases Dict.mem_set he with rfl | h
        · exact hl kv (List.mem_cons_self _ _) x hx
        · exact hacc e h x hx
      split
      · exact h1
      · exact ih _ h1 hrest
    · have h1 := merge_inner_entries Q cap kv.1 kv.2 acc hacc
        (fun kv2 hkv2 => hl kv (List.mem_cons_self _ _) kv2 hkv2)
      split
      · exact h1
      · exact ih _ h1 hrest

theorem merge_all_entries (Q : VehlId → SharedTripId → DistInt → Prop)
    (ls : List (Dict VehlId (Dict SharedTripId DistInt))) :
    ∀ (acc : Dict VehlId (Dict SharedTripId DistInt) × Int),
    Entries Q acc.1 → (∀ l ∈ ls, Entries Q l) →
    Entries Q (ls.foldl merge_lcl_vted acc).1 := by
  induction ls with
  | nil => intro acc hacc _; exact hacc
  | cons l rest ih =>
    intro acc hacc hl
    simp only [List.foldl_cons]
    exact ih _ (merge_outer_entries Q TRIP_MAX l acc hacc (hl l (List.mem_cons_self _ _)))
      (fun x hx => hl x (List.mem_cons_of_mem _ hx))

/-- After the rtv region every entry of `vted_`, `vt_sch` and `vt_rte` belongs
to an edge, for a feed with distinct ids and a workspace whose three tables
are empty at the start. -/
theorem rtv_graph_entries (E : Env) (workers : List (List Vehicle)) (w0 : TVG)
    (res : TVG × Int)
    (hU : ∀ a ∈ workers.flatten, ∀ b ∈ workers.flatten, a.id = b.id → a = b)
    (hR : RegInv w0) (hvt : w0.vted_ = []) (hvs : w0.vt_sch = []) (hvr : w0.vt_rte = [])
    (hne : ∀ e ∈ w0.rvgrph_rv_, e.2 ≠ [])
    (hrun : rtv_graph E workers w0 = some res) :
    RegInv res.1 ∧
    Entries (fun vid stid x =>
      ∃ r, Ent E workers.flatten w0 res.1 vid stid r ∧ r.cstout = x) res.1.vted_ ∧
    Entries (fun vid stid x =>
      ∃ r, Ent E workers.flatten w0 res.1 vid stid r ∧ r.schout = x) res.1.vt_sch ∧
    Entries (fun vid stid x =>
      ∃ r, Ent E workers.flatten w0 res.1 vid stid r ∧ r.rteout = x) res.1.vt_rte := by
  unfold rtv_graph at hrun
  cases hr : rtv_enumerate E workers (w0, 0) with
  | none => rw [hr] at hrun; simp at hrun
  | some r =>
    rw [hr] at hrun
    simp only [Option.some.injEq] at hrun
    subst hrun
    have hW0 : WInv E workers.flatten w0 w0 := by
      refine ⟨hR, rfl, fun _ _ => rfl, fun _ _ => rfl, fun _ _ => rfl, ?_, ?_, rfl⟩
      · rw [hvs]; intro e he; simp at he
      · rw [hvr]; intro e he; simp at he
    obtain ⟨⟨h1, _, _, _, _, h6, h7, h8⟩, _, h3⟩ := rtv_enumerate_SInv E workers.flatten w0 hU hne
      workers (w0, 0) r
      (fun vehls hv v hvv => List.mem_flatten.mpr ⟨vehls, hv, hvv⟩) hW0 hr
    have hE : Ext workers.flatten r.1
        { r.1 with vted_ := (r.2.2.foldl merge_lcl_vted (r.1.vted_, 0)).1 } :=
      ⟨fun _ h => h, fun _ _ h => h, fun _ _ h => h, fun _ _ h => h⟩
    refine ⟨RegInv_of_eq rfl rfl h1, ?_, WInv_mono_entries hE h6, WInv_mono_entries hE h7⟩
    apply WInv_mono_entries hE
    apply merge_all_entries
    · rw [h8, hvt]; intro e he; simp at he
    · exact h3

/-! ### The rv tables under every behaviour of the deadline -/

theorem set2_KeysNodup {A B V : Type} [DecidableEq A] [DecidableEq B] (m : Dict A (Dict B V))
    (a : A) (b : B) (v : V) (h : KeysNodup m) : KeysNodup (set2 m a b v) := by
  obtain ⟨h1, h2⟩ := h
  refine ⟨Dict.nodup_keys_set _ _ _ h1, ?_⟩
  intro e he
  rcases Dict.mem_set he with rfl | hm
  · apply Dict.nodup_keys_set
    unfold Dict.getD
    cases hf : Dict.find m a with
    | none => simp [Dict.keys]
    | some d => exact h2 _ (Dict.mem_of_find_some hf)
  · exact h2 e hm

theorem rv_cand_step_gen (E : Env) (seen : Vehicle → Customer → Bool) (cust_a : Customer)
    (w : TVG) (cand : Vehicle) (h : RvInv E seen w) :
    RvInv E (fun v c => seen v c || (decide (v = cand) && decide (c = cust_a)))
      (rv_cand_step E cust_a w cand) := by
  obtain ⟨h1, h2, h3, h4, h5⟩ := h
  have hval : ∀ v c, ¬ (v = cand ∧ c = cust_a) →
      rv_val E (fun v c => seen v c || (decide (v = cand) && decide (c = cust_a))) v c =
        rv_val E seen v c := by
    intro v c hne
    unfold rv_val
    have : (decide (v = cand) && decide (c = cust_a)) = false := by
      simp only [Bool.and_eq_false_iff, decide_eq_false_iff_not]
      by_cases hv : v = cand
      · exact Or.inr (fun hc => hne ⟨hv, hc⟩)
      · exact Or.inl hv
    simp only [this, Bool.or_false]
  have hsame : (¬ cand.queued < cand.capacity ∨ ¬ (travel E cand [cust_a] 0 [] []).ok = true) →
      ∀ v c, rv_val E (fun v c => seen v c || (decide (v = cand) && decide (c = cust_a))) v c =
        rv_val E seen v c := by
    intro hno v c
    by_cases hvc : v = cand ∧ c = cust_a
    · obtain ⟨rfl, rfl⟩ := hvc
      unfold rv_val
      rcases hno with hq | hok
      · simp [hq]
      · simp [hok]
    · exact hval v c hvc
  unfold rv_cand_step
  by_cases hcap : cand.queued < cand.capacity
  · by_cases hok : (travel E cand [cust_a] 0 [] []).ok = true
    · simp only [hcap, hok, if_true]
      have hnew : rv_val E (fun v c => seen v c || (decide (v = cand) && decide (c = cust_a)))
          cand cust_a = some (travel E cand [cust_a] 0 [] []) := by
        unfold rv_val
        simp [hcap, hok]
      refine ⟨?_, ?_, ?_, ?_, ?_⟩
      · intro v c
        simp only
        rw [find2_set2]
        by_cases hvc : v = cand ∧ c = cust_a
        · obtain ⟨rfl, rfl⟩ := hvc
          simp [hnew]
        · rw [if_neg hvc, hval v c hvc]
          exact h1 v c
      · intro v c
        simp only
        rw [find2_set2]
        by_cases hvc : v = cand ∧ c = cust_a
        · obtain ⟨rfl, rfl⟩ := hvc
          simp [hnew]
        · rw [if_neg hvc, hval v c hvc]
          exact h2 v c
      · intro v c
        simp only
        rw [find2_set2]
        by_cases hvc : v = cand ∧ c = cust_a
        · obtain ⟨rfl, rfl⟩ := hvc
          simp [hnew]
        · rw [if_neg hvc, hval v c hvc]
          exact h3 v c
      · simp only
        rw [keys_set2, keys_set2, ← h4]
      · simp only
        rw [keys_set2, keys_set2, ← h5]
    · simp only [hcap, hok, if_true, if_false, Bool.false_eq_true]
      have hs := hsame (Or.inr hok)
      exact ⟨fun v c => by rw [hs]; exact h1 v c, fun v c => by rw [hs]; exact h2 v c,
        fun v c => by rw [hs]; exact h3 v c, h4, h5⟩
  · simp only [hcap, if_false]
    have hs := hsame (Or.inl hcap)
    exact ⟨fun v c => by rw [hs]; exact h1 v c, fun v c => by rw [hs]; exact h2 v c,
      fun v c => by rw [hs]; exact h3 v c, h4, h5⟩

theorem RvFrame_refl (w : TVG) : RvFrame w w := ⟨rfl, rfl, rfl, rfl, rfl, rfl, rfl⟩

theorem RvFrame_trans {w w1 w2 : TVG} (h1 : RvFrame w w1) (h2 : RvFrame w1 w2) :
    RvFrame w w2 := by
  obtain ⟨a1, a2, a3, a4, a5, a6, a7⟩ := h1
  obtain ⟨b1, b2, b3, b4, b5, b6, b7⟩ := h2
  exact ⟨b1.trans a1, b2.trans a2, b3.trans a3, b4.trans a4, b5.trans a5, b6.trans a6,
    b7.trans a7⟩

theorem rv_cand_step_sound (E : Env) (cust_a : Customer) (w0 w : TVG) (cand : Vehicle)
    (h : RvSound E w ∧ RvFrame w0 w) :
    RvSound E (rv_cand_step E cust_a w cand) ∧ RvFrame w0 (rv_cand_step E cust_a w cand) := by
  obtain ⟨⟨⟨seen, hs⟩, hk⟩, hf⟩ := h
  refine ⟨⟨⟨_, rv_cand_step_gen E seen cust_a w cand hs⟩, ?_⟩, ?_⟩
  · unfold rv_cand_step
    by_cases h1 : cand.queued < cand.capacity
    · by_cases h2 : (travel E cand [cust_a] 0 [] []).ok = true
      · simp only [h1, h2, if_true]
        exact set2_KeysNodup _ _ _ _ hk
      · simp only [h1, h2, if_true, if_false, Bool.false_eq_true]
        exact hk
    · simp only [h1, if_false]
      exact hk
  · apply RvFrame_trans hf
    unfold rv_cand_step
    by_cases h1 : cand.queued < cand.capacity
    · by_cases h2 : (travel E cand [cust_a] 0 [] []).ok = true
      · simp only [h1, h2, if_true]
        exact ⟨rfl, rfl, rfl, rfl, rfl, rfl, rfl⟩
      · simp only [h1, h2, if_true, if_false, Bool.false_eq_true]
        exact RvFrame_refl w
    · simp only [h1, if_false]
      exact RvFrame_refl w

theorem RvSound_of_eq (E : Env) {w w1 : TVG}
    (h1 : w1.rv_cst = w.rv_cst) (h2 : w1.rv_sch = w.rv_sch) (h3 : w1.rv_rte = w.rv_rte)
    (h : RvSound E w) : RvSound E w1 := by
  obtain ⟨⟨seen, hs⟩, hk⟩ := h
  refine ⟨⟨seen, RvInv_of_eq E h1 h2 h3 hs⟩, ?_⟩
  rw [h1]; exact hk

theorem rr_step_sound (E : Env) (cust_a : Customer) (vt : Vehicle) (w0 w : TVG)
    (cust_b : Customer) (h : RvSound E w ∧ RvFrame w0 w) :
    RvSound E (rr_step E cust_a vt w cust_b) ∧ RvFrame w0 (rr_step E cust_a vt w cust_b) := by
  have key : (rr_step E cust_a vt w cust_b = w) ∨
      (rr_step E cust_a vt w cust_b =
        { w with rvgrph_rr_ := push_back_at w.rvgrph_rr_ cust_a cust_b }) := by
    unfold rr_step
    split
    · exact Or.inl rfl
    · split
      · exact Or.inl rfl
      · split
        · exact Or.inl rfl
        · split
          · exact Or.inr rfl
          · exact Or.inl rfl
  rcases key with hk | hk
  · rw [hk]; exact h
  · rw [hk]
    exact ⟨RvSound_of_eq E rfl rfl rfl h.1,
      RvFrame_trans h.2 ⟨rfl, rfl, rfl, rfl, rfl, rfl, rfl⟩⟩

theorem rv_customer_sound (E : Env) (custs : List Customer) (w0 : TVG) (s : RvState)
    (cust_a : Customer) (h : RvSound E s.w ∧ RvFrame w0 s.w) :
    RvSound E (rv_customer E custs s cust_a).w ∧ RvFrame w0 (rv_customer E custs s cust_a).w := by
  have h1 : RvSound E { s.w with matchable_custs := s.w.matchable_custs ++ [cust_a.id] } ∧
      RvFrame w0 { s.w with matchable_custs := s.w.matchable_custs ++ [cust_a.id] } :=
    ⟨RvSound_of_eq E rfl rfl rfl h.1, RvFrame_trans h.2 ⟨rfl, rfl, rfl, rfl, rfl, rfl, rfl⟩⟩
  have h2 := foldl_inv (fun w => RvSound E w ∧ RvFrame w0 w) (rv_cand_step E cust_a)
    (E.within RANGE cust_a.orig) (fun w x hw => rv_cand_step_sound E cust_a w0 w x hw) _ h1
  have h3 := foldl_inv (fun w => RvSound E w ∧ RvFrame w0 w)
    (rr_step E cust_a (vtvehl_of E cust_a)) custs
    (fun w x hw => rr_step_sound E cust_a _ w0 w x hw) _ h2
  unfold rv_customer
  by_cases hc : s.cancelled = true
  · simp only [hc, if_true]
    exact h
  · by_cases hl : (E.within RANGE cust_a.orig).length = 0
    · simp only [hc, hl, if_true, if_false]
      exact h2
    · by_cases ht : E.timeout_rv s.clock = true
      · simp only [hc, hl, ht, if_true, if_false]
        exact h2
      · simp only [hc, hl, ht, if_false]
        exact h3

/-- The rv region keeps its rv tables sound and leaves the other tables alone. -/
theorem rv_graph_sound (E : Env) (custs : List Customer) (workers : List (List Customer))
    (w0 : TVG) (h : RvSound E w0) :
    RvSound E (rv_graph E custs workers w0) ∧ RvFrame w0 (rv_graph E custs workers w0) := by
  unfold rv_graph
  refine foldl_inv (fun (acc : TVG × Nat) => RvSound E acc.1 ∧ RvFrame w0 acc.1)
    (rv_worker E custs) workers ?_ (w0, 0) ⟨h, RvFrame_refl w0⟩
  intro acc share hacc
  unfold rv_worker
  exact foldl_inv (fun (s : RvState) => RvSound E s.w ∧ RvFrame w0 s.w) (rv_customer E custs)
    share (fun s x hs => rv_customer_sound E custs w0 s x hs) _ hacc

theorem mem_of_find2 {A B V : Type} [DecidableEq A] [DecidableEq B] {m : Dict A (Dict B V)}
    {a : A} {b : B} {v : V} (h : find2 m a b = some v) : ∃ d, (a, d) ∈ m ∧ (b, v) ∈ d := by
  unfold find2 at h
  cases hf : Dict.find m a with
  | none => rw [hf] at h; simp at h
  | some d =>
    rw [hf] at h
    exact ⟨d, Dict.mem_of_find_some hf, Dict.mem_of_find_some h⟩

theorem kept_customers_mem (nth : Nat → List (Customer × DistInt) → List (Customer × DistInt))
    (hnth : NthElementSpec nth) (topk : Nat) (tbl : Dict Customer DistInt) (c : Customer)
    (h : c ∈ kept_customers nth topk tbl) : c ∈ Dict.keys tbl := by
  unfold kept_customers at h
  by_cases hlen : tbl.length > topk
  · simp only [hlen, if_true] at h
    obtain ⟨a, ha, rfl⟩ := List.mem_map.mp h
    exact List.mem_map.mpr ⟨a, (hnth topk tbl hlen).1.subset (List.mem_of_mem_take ha), rfl⟩
  · simp only [hlen, if_false] at h
    exact h

/-- The customers that the heuristic keeps for a vehicle, for a cost table with
distinct vehicles and an empty `rvgrph_rv_` at the start. -/
theorem rv_prune_getD (nth : Nat → List (Customer × DistInt) → List (Customer × DistInt))
    (hnth : NthElementSpec nth) (w : TVG) (hempty : w.rvgrph_rv_ = [])
    (hk : (Dict.keys w.rv_cst).Nodup) (v : Vehicle) :
    Dict.getD (rv_prune nth w).rvgrph_rv_ v [] =
      match Dict.find w.rv_cst v with
      | some tbl => kept_customers nth TOP_CUST tbl
      | none => [] := by
  simp only [rv_prune]
  rw [getD_prune_fold nth hnth TOP_CUST w.rv_cst hk, hempty]
  simp [Dict.getD, Dict.find]

/-- After the rv region and the heuristic the rv tables hold the results of
successful `travel` calls for the customers of `rvgrph_rv_`. -/
theorem rv_prune_RvOk (E : Env)
    (nth : Nat → List (Customer × DistInt) → List (Customer × DistInt))
    (hnth : NthElementSpec nth) (w : TVG) (hempty : w.rvgrph_rv_ = []) (hs : RvSound E w) :
    RvOk E (rv_prune nth w) := by
  obtain ⟨⟨seen, h1, h2, h3, _, _⟩, hk, _⟩ := hs
  intro v c hc
  rw [rv_prune_getD nth hnth w hempty hk v] at hc
  cases hf : Dict.find w.rv_cst v with
  | none => rw [hf] at hc; simp at hc
  | some tbl =>
    rw [hf] at hc
    simp only at hc
    obtain ⟨x, hx⟩ := find_isSome_of_mem_keys (kept_customers_mem nth hnth TOP_CUST tbl c hc)
    have hf2 : find2 w.rv_cst v c = some x := by
      unfold find2
      rw [hf]
      exact hx
    have hval := h1 v c
    rw [hf2] at hval
    cases hr : rv_val E seen v c with
    | none => rw [hr] at hval; simp at hval
    | some r =>
      have hr2 := hr
      unfold rv_val at hr2
      split at hr2
      · rename_i hcond
        simp only [Option.some.injEq] at hr2
        simp only [Bool.and_eq_true] at hcond
        have e1 : get2 (rv_prune nth w).rv_cst v c 0 = (find2 w.rv_cst v c).getD 0 :=
          get2_eq_find2 w.rv_cst v c 0
        have e2 : get2 (rv_prune nth w).rv_sch v c [] = (find2 w.rv_sch v c).getD [] :=
          get2_eq_find2 w.rv_sch v c []
        have e3 : get2 (rv_prune nth w).rv_rte v c [] = (find2 w.rv_rte v c).getD [] :=
          get2_eq_find2 w.rv_rte v c []
        rw [e1, e2, e3, h1 v c, h2 v c, h3 v c, hr, ← hr2]
        exact ⟨hcond.2, rfl, rfl, rfl⟩
      · simp at hr2

/-- The workspace that the rv region and the heuristic hand to the rtv region:
the registry is as `reset_workspace` left it, the tables of the rtv region are
empty, no customer list is empty, and the rv tables hold results of `travel`. -/
theorem rv_pipeline_ready (E : Env)
    (nth : Nat → List (Customer × DistInt) → List (Customer × DistInt))
    (hnth : NthElementSpec nth) (custs : List Customer) (workers : List (List Customer)) :
    RegInv (rv_prune nth (rv_graph E custs workers (init_is_matched custs reset_workspace))) ∧
    (rv_prune nth (rv_graph E custs workers (init_is_matched custs reset_workspace))).vted_
      = [] ∧
    (rv_prune nth (rv_graph E custs workers (init_is_matched custs reset_workspace))).vt_sch
      = [] ∧
    (rv_prune nth (rv_graph E custs workers (init_is_matched custs reset_workspace))).vt_rte
      = [] ∧
    (∀ e ∈ (rv_prune nth (rv_graph E custs workers
      (init_is_matched custs reset_workspace))).rvgrph_rv_, e.2 ≠ []) ∧
    RvOk E (rv_prune nth (rv_graph E custs workers (init_is_matched custs reset_workspace))) := by
  have hs0 : RvSound E (init_is_matched custs reset_workspace) := by
    refine ⟨⟨fun _ _ => false, ?_, ?_, ?_, rfl, rfl⟩, ?_, ?_⟩
    · intro v c; simp [rv_val, find2, init_is_matched, reset_workspace, Dict.find]
    · intro v c; simp [rv_val, find2, init_is_matched, reset_workspace, Dict.find]
    · intro v c; simp [rv_val, find2, init_is_matched, reset_workspace, Dict.find]
    · simp [init_is_matched, reset_workspace, Dict.keys]
    · intro e he; simp [init_is_matched, reset_workspace] at he
  obtain ⟨hs1, f1, f2, f3, f4, f5, f6, _⟩ :=
    rv_graph_sound E custs workers (init_is_matched custs reset_workspace) hs0
  have hempty : (rv_graph E custs workers (init_is_matched custs reset_workspace)).rvgrph_rv_
      = [] := f6
  refine ⟨RegInv_of_eq (w := reset_workspace) f1 f2 reset_RegInv, f3, f4, f5, ?_,
    rv_prune_RvOk E nth hnth _ hempty hs1⟩
  apply rv_prune_lists_nonempty
  rw [hempty]
  intro e he
  simp at he

/-- C15: the rv region, the heuristic and the rtv region run from the workspace
that `reset_workspace` and lines 56-57 leave, for every behaviour of the two
deadlines, every split of the customers and of the vehicles among the threads,
every `nth_element` that meets its contract, and a vehicle feed with distinct
ids. The run returns, and for every edge `vted_[v][t] = cst` the workspace
holds a vehicle `vehmap[v]` and a trip `trip_[t]` on which `travel` succeeds
with cost `cst`. The oracle `sop_insert` and the validator `chktw` are functions
of their arguments, and the rv tables are keyed by the vehicle records that the
index returns, so an edge exists only for a record that is also in the feed. -/
theorem cost_consistency (E : Env)
    (nth : Nat → List (Customer × DistInt) → List (Customer × DistInt))
    (custs : List Customer) (cust_workers : List (List Customer))
    (vehl_workers : List (List Vehicle)) (hnth : NthElementSpec nth)
    (hU : ∀ a ∈ vehl_workers.flatten, ∀ b ∈ vehl_workers.flatten, a.id = b.id → a = b) :
    ∃ res, rtv_graph E vehl_workers (rv_prune nth (rv_graph E custs cust_workers
        (init_is_matched custs reset_workspace))) = some res ∧
      ∀ v t cst, find2 res.1.vted_ v t = some cst →
        ∃ vehl trip, Dict.find res.1.vehmap v = some vehl ∧
          Dict.find res.1.trip_ t = some trip ∧
          (travel E vehl trip 0 [] []).ok = true ∧
          (travel E vehl trip 0 [] []).cstout = cst := by
  obtain ⟨hR, hvt, hvs, hvr, hne, hOk⟩ := rv_pipeline_ready E nth hnth custs cust_workers
  obtain ⟨res, hrun⟩ := rtv_graph_total E vehl_workers _ hR
    (by rw [hvt]; intro e he; simp at he) hne
  refine ⟨res, hrun, ?_⟩
  obtain ⟨hRr, hent, _, _⟩ := rtv_graph_entries E vehl_workers _ res hU hR hvt hvs hvr hne hrun
  intro v t cst hf
  obtain ⟨d, hd, hm⟩ := mem_of_find2 hf
  obtain ⟨r, ⟨vehl, trip, _, _, hvm, htr, hW⟩, hrc⟩ := hent (v, d) hd (t, cst) hm
  refine ⟨vehl, trip, hvm, Dict.find_some_of_mem (nodup_keys_of_RegInv hRr) htr, ?_⟩
  simp only at hrc
  rcases hW with ⟨c, rfl, hc, h1, _, _⟩ | ⟨_, _, hok, h1, _, _⟩
  · obtain ⟨hok, hcst, _, _⟩ := hOk vehl c hc
    refine ⟨hok, ?_⟩
    rw [← hrc, h1, hcst]
  · refine ⟨hok, ?_⟩
    rw [← hrc, h1]

/-- C15 at a concrete input: two customers and the two-seat vehicle, with the
oracle of the examples. -/
theorem cost_consistency_witness :
    (rtv_graph exEnv [[vehl1]] (rv_prune nth_by_sort (rv_graph exEnv [custA, custB]
      [[custA, custB]] (init_is_matched [custA, custB] reset_workspace)))).map
      (fun res => res.1.vted_) = some [(7, [(1, 0), (2, 0), (3, 10), (4, 10)])] ∧
    ∃ res, rtv_graph exEnv [[vehl1]] (rv_prune nth_by_sort (rv_graph exEnv [custA, custB]
        [[custA, custB]] (init_is_matched [custA, custB] reset_workspace))) = some res ∧
      ∀ v t cst, find2 res.1.vted_ v t = some cst →
        ∃ vehl trip, Dict.find res.1.vehmap v = some vehl ∧
          Dict.find res.1.trip_ t = some trip ∧
          (travel exEnv vehl trip 0 [] []).ok = true ∧
          (travel exEnv vehl trip 0 [] []).cstout = cst :=
  ⟨by decide!, cost_consistency exEnv nth_by_sort [custA, custB] [[custA, custB]] [[vehl1]]
    nth_by_sort_spec (by simp)⟩

/-! ### The size-1 trips -/

theorem foldl_sofar_inv_mem {σ α : Type} (P : σ → List α → Prop) (f : σ → α → σ)
    (xs : List α) (h : ∀ s pre x, x ∈ xs → P s pre → P (f s x) (pre ++ [x])) :
    ∀ (pre : List α) (s : σ), P s pre → P (xs.foldl f s) (pre ++ xs) := by
  induction xs with
  | nil => intro pre s hs; simpa using hs
  | cons x r ih =>
    intro pre s hs
    have := ih (fun s pre y hy => h s pre y (List.mem_cons_of_mem _ hy)) (pre ++ [x]) (f s x)
      (h s pre x (List.mem_cons_self _ _) hs)
    simpa using this

theorem foldOpt_sofar_inv_mem {σ α : Type} (P : σ → List α → Prop) (f : σ → α → Option σ)
    (xs : List α)
    (h : ∀ s pre x s1, x ∈ xs → P s pre → f s x = some s1 → P s1 (pre ++ [x])) :
    ∀ (pre : List α) (s s1 : σ), P s pre → foldOpt f s xs = some s1 → P s1 (pre ++ xs) := by
  induction xs with
  | nil =>
    intro pre s s1 hs hf
    simp only [foldOpt, Option.some.injEq] at hf
    subst hf
    simpa using hs
  | cons x r ih =>
    intro pre s s1 hs hf
    simp only [foldOpt] at hf
    cases hx : f s x with
    | none => rw [hx] at hf; simp at hf
    | some s2 =>
      rw [hx] at hf
      have := ih (fun s pre y s1 hy => h s pre y s1 (List.mem_cons_of_mem _ hy)) (pre ++ [x])
        s2 s1 (h s pre x s2 (List.mem_cons_self _ _) hs hx) hf
      simpa using this

theorem record_trip_HasEdge (vid2 : VehlId) (k : Nat) (shtrip : SharedTrip) (cst : DistInt)
    (sch : List Stop) (rte : List Wayp) (s : RtvState) (hR : RegInv s.w) (vid : VehlId)
    (c : Customer) (h : HasEdge s vid c) :
    HasEdge (record_trip vid2 k shtrip cst sch rte s) vid c := by
  obtain ⟨stid, h1, h2, h3, h4⟩ := h
  obtain ⟨_, _, _, _, f5, f6⟩ := add_trip_frame s.w shtrip
  refine ⟨stid, add_trip_trip_mono hR shtrip _ h1, find2_set2_isSome _ _ _ _ _ _ h2, ?_, ?_⟩
  · show (find2 (set2 (add_trip s.w shtrip).2.vt_sch vid2 (add_trip s.w shtrip).1 sch)
      vid stid).isSome = true
    rw [f5]
    exact find2_set2_isSome _ _ _ _ _ _ h3
  · show (find2 (set2 (add_trip s.w shtrip).2.vt_rte vid2 (add_trip s.w shtrip).1 rte)
      vid stid).isSome = true
    rw [f6]
    exact find2_set2_isSome _ _ _ _ _ _ h4

theorem record_trip_new_edge (vid : VehlId) (k : Nat) (c : Customer) (cst : DistInt)
    (sch : List Stop) (rte : List Wayp) (s : RtvState) (hR : RegInv s.w) :
    HasEdge (record_trip vid k [c] cst sch rte s) vid c := by
  refine ⟨(add_trip s.w [c]).1, add_trip_id_mem hR [c], ?_, ?_, ?_⟩
  · show (find2 (set2 s.lcl_vted vid (add_trip s.w [c]).1 cst) vid (add_trip s.w [c]).1).isSome
      = true
    rw [find2_set2]
    simp
  · show (find2 (set2 (add_trip s.w [c]).2.vt_sch vid (add_trip s.w [c]).1 sch) vid
      (add_trip s.w [c]).1).isSome = true
    rw [find2_set2]
    simp
  · show (find2 (set2 (add_trip s.w [c]).2.vt_rte vid (add_trip s.w [c]).1 rte) vid
      (add_trip s.w [c]).1).isSome = true
    rw [find2_set2]
    simp

/-- A single write of the rtv region removes no edge. -/
theorem step_HasEdge (E : Env) (vehl : Vehicle) (s s1 : RtvState) (hR : RegInv s.w)
    (hs : RtvStep E vehl s s1) (vid : VehlId) (c : Customer) (h : HasEdge s vid c) :
    HasEdge s1 vid c := by
  cases hs with
  | size1 custs cust _ _ =>
    unfold size1_step
    apply record_trip_HasEdge
    · exact RegInv_of_eq rfl rfl hR
    · exact h
  | record k shtrip _ _ _ => exact record_trip_HasEdge vehl.id k shtrip _ _ _ s hR vid c h
  | tick => exact h

/-- A single write of the rtv region keeps the worker running, when no
deadline expires, and keeps the keys of `lcl_vted` distinct. -/
theorem step_Run (E : Env) (hno : ∀ n, E.timeout n = false) (vehl : Vehicle)
    (s s1 : RtvState) (hs : RtvStep E vehl s s1) (h : Run s) : Run s1 := by
  cases hs with
  | size1 custs cust _ _ => exact ⟨h.1, set2_KeysNodup _ _ _ _ h.2⟩
  | record k shtrip _ _ _ => exact ⟨h.1, set2_KeysNodup _ _ _ _ h.2⟩
  | tick => exact ⟨hno _, h.2⟩

/-- A sequence of writes keeps the invariant of the worker, keeps the worker
running and removes no edge. -/
theorem reach_prog (E : Env) (F : List Vehicle) (w0 wb : TVG) (vehl : Vehicle)
    (hno : ∀ n, E.timeout n = false) (hv : vehl ∈ F) {a b : RtvState}
    (hr : RtvReach E vehl a b) (hC : CurInv E F w0 wb vehl a) (hRun : Run a) :
    CurInv E F w0 wb vehl b ∧ Run b ∧ ∀ vid c, HasEdge a vid c → HasEdge b vid c := by
  refine reach_inv
    (fun s => CurInv E F w0 wb vehl s ∧ Run s ∧ ∀ vid c, HasEdge a vid c → HasEdge s vid c)
    ?_ hr ⟨hC, hRun, fun _ _ h => h⟩
  intro s s1 ⟨h1, h2, h3⟩ hs
  exact ⟨step_CurInv E F w0 wb vehl hv s s1 h1 hs, step_Run E hno vehl s s1 hs h2,
    fun vid c h => step_HasEdge E vehl s s1 h1.1.1.1 hs vid c (h3 vid c h)⟩

/-- After the loop of the size-1 trips the worker holds an edge for every
customer of the loop. -/
theorem size1_fold_edges (E : Env) (F : List Vehicle) (w0 wb : TVG) (vehl : Vehicle)
    (hv : vehl ∈ F) (custs : List Customer) (s : RtvState)
    (hf : Dict.find w0.rvgrph_rv_ vehl = some custs)
    (hC : CurInv E F w0 wb vehl s) :
    ∀ c ∈ custs, HasEdge (custs.foldl (size1_step vehl) s) vehl.id c := by
  have := foldl_sofar_inv_mem
    (fun (a : RtvState) pre => CurInv E F w0 wb vehl a ∧ ∀ c ∈ pre, HasEdge a vehl.id c)
    (size1_step vehl) custs
    (by
      intro a pre x hx ⟨h1, h2⟩
      have hfa : Dict.find a.w.rvgrph_rv_ vehl = some custs := by
        rw [h1.1.1.2.1]; exact hf
      have hstep : RtvStep E vehl a (size1_step vehl a x) := RtvStep.size1 a custs x hfa hx
      refine ⟨step_CurInv E F w0 wb vehl hv a _ h1 hstep, ?_⟩
      intro c hc
      rcases List.mem_append.mp hc with hc | hc
      · exact step_HasEdge E vehl a _ h1.1.1.1 hstep vehl.id c (h2 c hc)
      · rw [List.mem_singleton.mp hc]
        unfold size1_step
        apply record_trip_new_edge
        exact RegInv_of_eq rfl rfl h1.1.1.1)
    [] s ⟨hC, fun c hc => by simp at hc⟩
  simpa using this.2

/-- The loop body of one vehicle, when no deadline expires: the invariants are
kept, no edge is removed, and a vehicle with a free seat gets an edge for every
customer of `rvgrph_rv_.at(vehl)`. -/
theorem rtv_vehicle_prog (E : Env) (F : List Vehicle) (w0 wb : TVG) (vehl : Vehicle)
    (hno : ∀ n, E.timeout n = false) (hv : vehl ∈ F)
    (hU : ∀ a ∈ F, ∀ b ∈ F, a.id = b.id → a = b) (s0 s1 : RtvState)
    (hN : NoEmpty s0) (hS : SInv E F w0 wb s0) (hRun : Run s0)
    (hf : rtv_vehicle E vehl s0 = some s1) :
    SInv E F w0 wb s1 ∧ NoEmpty s1 ∧ Run s1 ∧
    (∀ vid c, HasEdge s0 vid c → HasEdge s1 vid c) ∧
    (vehl.queued < vehl.capacity →
      ∀ c ∈ Dict.getD w0.rvgrph_rv_ vehl [], HasEdge s1 vehl.id c) := by
  by_cases hq : vehl.queued = vehl.capacity
  · unfold rtv_vehicle at hf
    simp only [hq, if_true, Option.some.injEq] at hf
    subst hf
    refine ⟨hS, NoEmpty_of_eq rfl rfl hN, hRun, fun _ _ h => h, ?_⟩
    intro hlt
    rw [hq] at hlt
    exact absurd hlt (lt_irrefl _)
  · obtain ⟨h1, h2⟩ := rtv_vehicle_reach E vehl s0 s1 hN hq hf
    have hstart := rtv_start_CurInv E F w0 wb vehl hv hU s0 hS
    have hN1 : NoEmpty (rtv_start vehl s0) := NoEmpty_of_eq rfl rfl hN
    have hRun1 : Run (rtv_start vehl s0) := hRun
    have hE1 : ∀ vid c, HasEdge s0 vid c → HasEdge (rtv_start vehl s0) vid c :=
      fun _ _ h => h
    have hrv : s0.w.rvgrph_rv_ = w0.rvgrph_rv_ := hS.1.2.1
    cases hc : Dict.find s0.w.rvgrph_rv_ vehl with
    | none =>
      rw [h1 hc]
      refine ⟨hstart.1, hN1, hRun1, hE1, ?_⟩
      intro _ c hcm
      rw [← hrv] at hcm
      unfold Dict.getD at hcm
      rw [hc] at hcm
      simp at hcm
    | some custs =>
      have hr1 := size1_fold_reach E vehl custs custs (fun c hc => hc) (rtv_start vehl s0) hc
      obtain ⟨hC2, hRun2, hE2⟩ := reach_prog E F w0 wb vehl hno hv hr1 hstart hRun1
      obtain ⟨hC3, hRun3, hE3⟩ := reach_prog E F w0 wb vehl hno hv (h2 custs hc) hC2 hRun2
      have hedges := size1_fold_edges E F w0 wb vehl hv custs (rtv_start vehl s0)
        (by rw [← hrv]; exact hc) hstart
      refine ⟨hC3.1, reach_NoEmpty (reach_trans hr1 (h2 custs hc)) hN1, hRun3,
        fun vid c h => hE3 vid c (hE2 vid c (hE1 vid c h)), ?_⟩
      intro _ c hcm
      rw [← hrv, getD_of_find hc] at hcm
      exact hE3 _ _ (hedges c hcm)

/-- The vehicles of one worker, when no deadline expires: at the end the worker
holds an edge for every customer of `rvgrph_rv_[v]` of each of its vehicles `v`
with a free seat. -/
theorem rtv_worker_prog (E : Env) (F : List Vehicle) (w0 : TVG)
    (hno : ∀ n, E.timeout n = false) (hU : ∀ a ∈ F, ∀ b ∈ F, a.id = b.id → a = b)
    (vehls : List Vehicle) (hsub : ∀ v ∈ vehls, v ∈ F) (w : TVG) (clock : Nat)
    (s1 : RtvState) (hW : WInv E F w0 w) (hne : ∀ e ∈ w.rvgrph_rv_, e.2 ≠ [])
    (hf : rtv_worker E vehls w clock = some s1) :
    SInv E F w0 w s1 ∧ KeysNodup s1.lcl_vted ∧
    ∀ v ∈ vehls, v.queued < v.capacity →
      ∀ c ∈ Dict.getD w0.rvgrph_rv_ v [], HasEdge s1 v.id c := by
  unfold rtv_worker at hf
  have := foldOpt_sofar_inv_mem
    (fun (a : RtvState) pre => SInv E F w0 w a ∧ NoEmpty a ∧ Run a ∧
      ∀ v ∈ pre, v.queued < v.capacity →
        ∀ c ∈ Dict.getD w0.rvgrph_rv_ v [], HasEdge a v.id c)
    (rtv_worker_step E) vehls
    (by
      intro a pre x a1 hx ⟨hS, hN, hRun, hE⟩ hfa
      unfold rtv_worker_step at hfa
      rw [hRun.1] at hfa
      simp only [Bool.false_eq_true, if_false] at hfa
      obtain ⟨g1, g2, g3, g4, g5⟩ := rtv_vehicle_prog E F w0 w x hno (hsub x hx) hU a a1 hN hS
        hRun hfa
      refine ⟨g1, g2, g3, ?_⟩
      intro v hvm hlt c hc
      rcases List.mem_append.mp hvm with hvm | hvm
      · exact g4 _ _ (hE v hvm hlt c hc)
      · rw [List.mem_singleton.mp hvm] at hlt hc ⊢
        exact g5 hlt c hc)
    [] _ s1
    ⟨⟨hW, Ext_refl F w, fun e he => by simp at he⟩, ⟨fun e he => by simp at he, hne⟩,
      ⟨rfl, by simp [KeysNodup, Dict.keys]⟩, fun v hv => by simp at hv⟩ hf
  simp only [List.nil_append] at this
  exact ⟨this.1, this.2.2.1.2, this.2.2.2⟩

/-! ### The merge keeps every edge while the counter stays within the cap -/

theorem find2_set_whole {A B V : Type} [DecidableEq A] [DecidableEq B] (m : Dict A (Dict B V))
    (a a2 : A) (d : Dict B V) (b2 : B) :
    find2 (Dict.set m a d) a2 b2 = if a = a2 then Dict.find d b2 else find2 m a2 b2 := by
  unfold find2
  rw [Dict.find_set]
  by_cases h : a = a2
  · simp [h]
  · simp [h]

theorem merge_inner_mono (cap : Int) (vid : VehlId) (l : List (SharedTripId × DistInt)) :
    ∀ (acc : Dict VehlId (Dict SharedTripId DistInt) × Int),
    acc.2 ≤ (merge_inner cap vid acc l).2 ∧
    (KeysNodup acc.1 → KeysNodup (merge_inner cap vid acc l).1) ∧
    ∀ a b, (find2 acc.1 a b).isSome = true →
      (find2 (merge_inner cap vid acc l).1 a b).isSome = true := by
  induction l with
  | nil => intro acc; exact ⟨le_refl _, fun h => h, fun _ _ h => h⟩
  | cons kv2 rest ih =>
    intro acc
    simp only [merge_inner]
    split
    · exact ⟨by simp only; omega, fun h => set2_KeysNodup _ _ _ _ h,
        fun a b h => find2_set2_isSome _ _ _ _ _ _ h⟩
    · obtain ⟨h1, h2, h3⟩ := ih (set2 acc.1 vid kv2.1 kv2.2, acc.2 + 1)
      exact ⟨by simp only at h1; omega, fun h => h2 (set2_KeysNodup _ _ _ _ h),
        fun a b h => h3 a b (find2_set2_isSome _ _ _ _ _ _ h)⟩

theorem merge_inner_complete (cap : Int) (vid : VehlId) (l : List (SharedTripId × DistInt)) :
    ∀ (acc : Dict VehlId (Dict SharedTripId DistInt) × Int),
    (merge_inner cap vid acc l).2 ≤ cap →
    ∀ kv2 ∈ l, (find2 (merge_inner cap vid acc l).1 vid kv2.1).isSome = true := by
  induction l with
  | nil => intro acc _ kv2 h; simp at h
  | cons kv2 rest ih =>
    intro acc hcap x hx
    simp only [merge_inner] at hcap ⊢
    split at hcap
    · rename_i hgt
      simp only at hcap
      omega
    · rename_i hle
      simp only [hle, if_false]
      rcases List.mem_cons.mp hx with rfl | hx
      · apply (merge_inner_mono cap vid rest _).2.2
        rw [find2_set2]
        simp
      · exact ih _ hcap x hx

theorem merge_outer_mono (cap : Int) (l : List (VehlId × Dict SharedTripId DistInt)) :
    ∀ (acc : Dict VehlId (Dict SharedTripId DistInt) × Int),
    acc.2 ≤ (merge_outer cap acc l).2 ∧
    (KeysNodup acc.1 → (∀ e ∈ l, (Dict.keys e.2).Nodup) →
      KeysNodup (merge_outer cap acc l).1) ∧
    ∀ a b, (find2 acc.1 a b).isSome = true →
      (find2 (merge_outer cap acc l).1 a b).isSome = true := by
  induction l with
  | nil => intro acc; exact ⟨le_refl _, fun h _ => h, fun _ _ h => h⟩
  | cons kv rest ih =>
    intro acc
    have hwhole : (Dict.has acc.1 kv.1 = false) →
        (KeysNodup acc.1 → (Dict.keys kv.2).Nodup → KeysNodup (Dict.set acc.1 kv.1 kv.2)) ∧
        ∀ a b, (find2 acc.1 a b).isSome = true →
          (find2 (Dict.set acc.1 kv.1 kv.2) a b).isSome = true := by
      intro hhas
      constructor
      · intro hk hkv
        refine ⟨Dict.nodup_keys_set _ _ _ hk.1, ?_⟩
        intro e he
        rcases Dict.mem_set he with rfl | hm
        · exact hkv
        · exact hk.2 e hm
      · intro a b hab
        rw [find2_set_whole]
        by_cases hka : kv.1 = a
        · subst hka
          unfold Dict.has at hhas
          unfold find2 at hab
          cases hf : Dict.find acc.1 kv.1 with
          | none => rw [hf] at hab; simp at hab
          | some d => rw [hf] at hhas; simp at hhas
        · rw [if_neg hka]; exact hab
    simp only [merge_outer]
    split
    · rename_i hhas
      obtain ⟨w1, w2⟩ := hwhole hhas
      split
      · refine ⟨?_, fun hk hl => w1 hk (hl kv (List.mem_cons_self _ _)), w2⟩
        simp only
        omega
      · obtain ⟨h1, h2, h3⟩ := ih (Dict.set acc.1 kv.1 kv.2, acc.2 + (kv.2.length : Int))
        refine ⟨?_, ?_, fun a b h => h3 a b (w2 a b h)⟩
        · simp only at h1
          omega
        · intro hk hl
          exact h2 (w1 hk (hl kv (List.mem_cons_self _ _)))
            (fun e he => hl e (List.mem_cons_of_mem _ he))
    · obtain ⟨m1, m2, m3⟩ := merge_inner_mono cap kv.1 kv.2 acc
      split
      · exact ⟨m1, fun hk _ => m2 hk, m3⟩
      · obtain ⟨h1, h2, h3⟩ := ih (merge_inner cap kv.1 acc kv.2)
        exact ⟨le_trans m1 h1,
          fun hk hl => h2 (m2 hk) (fun e he => hl e (List.mem_cons_of_mem _ he)),
          fun a b h => h3 a b (m3 a b h)⟩

theorem merge_outer_complete (cap : Int) (l : List (VehlId × Dict SharedTripId DistInt)) :
    ∀ (acc : Dict VehlId (Dict SharedTripId DistInt) × Int),
    (merge_outer cap acc l).2 ≤ cap →
    ∀ kv ∈ l, ∀ kv2 ∈ kv.2, (find2 (merge_outer cap acc l).1 kv.1 kv2.1).isSome = true := by
  induction l with
  | nil => intro acc _ kv h; simp at h
  | cons kv rest ih =>
    intro acc hcap x hx x2 hx2
    simp only [merge_outer] at hcap ⊢
    split at hcap
    · rename_i hhas
      simp only [hhas, if_true]
      split at hcap
      · rename_i hgt
        simp only at hcap
        omega
      · rename_i hle
        simp only [hle, if_false]
        rcases List.mem_cons.mp hx with rfl | hx
        · apply (merge_outer_mono cap rest _).2.2
          rw [find2_set_whole]
          simp only [if_true]
          obtain ⟨y, hy⟩ := find_isSome_of_mem_keys (mem_keys_of_mem hx2)
          rw [hy]; rfl
        · exact ih _ hcap x hx x2 hx2
    · rename_i hhas
      simp only [hhas, if_false, Bool.false_eq_true]
      split at hcap
      · rename_i hgt
        omega
      · rename_i hle
        simp only [hle, if_false]
        rcases List.mem_cons.mp hx with rfl | hx
        · apply (merge_outer_mono cap rest _).2.2
          exact merge_inner_complete cap x.1 x.2 acc (by omega) x2 hx2
        · exact ih _ hcap x hx x2 hx2

theorem merge_all_mono (ls : List (Dict VehlId (Dict SharedTripId DistInt))) :
    ∀ (acc : Dict VehlId (Dict SharedTripId DistInt) × Int),
    acc.2 ≤ (ls.foldl merge_lcl_vted acc).2 ∧
    (KeysNodup acc.1 → (∀ l ∈ ls, KeysNodup l) → KeysNodup (ls.foldl merge_lcl_vted acc).1) ∧
    ∀ a b, (find2 acc.1 a b).isSome = true →
      (find2 (ls.foldl merge_lcl_vted acc).1 a b).isSome = true := by
  induction ls with
  | nil => intro acc; exact ⟨le_refl _, fun h _ => h, fun _ _ h => h⟩
  | cons l rest ih =>
    intro acc
    simp only [List.foldl_cons]
    obtain ⟨m1, m2, m3⟩ := merge_outer_mono TRIP_MAX l acc
    obtain ⟨h1, h2, h3⟩ := ih (merge_lcl_vted acc l)
    refine ⟨le_trans m1 h1, ?_, fun a b h => h3 a b (m3 a b h)⟩
    intro hk hl
    exact h2 (m2 hk (hl l (List.mem_cons_self _ _)).2)
      (fun x hx => hl x (List.mem_cons_of_mem _ hx))

theorem merge_all_complete (ls : List (Dict VehlId (Dict SharedTripId DistInt))) :
    ∀ (acc : Dict VehlId (Dict SharedTripId DistInt) × Int),
    (ls.foldl merge_lcl_vted acc).2 ≤ TRIP_MAX →
    ∀ l ∈ ls, ∀ kv ∈ l, ∀ kv2 ∈ kv.2,
      (find2 (ls.foldl merge_lcl_vted acc).1 kv.1 kv2.1).isSome = true := by
  induction ls with
  | nil => intro acc _ l h; simp at h
  | cons l rest ih =>
    intro acc hcap x hx kv hkv kv2 hkv2
    simp only [List.foldl_cons] at hcap ⊢
    rcases List.mem_cons.mp hx with rfl | hx
    · apply (merge_all_mono rest _).2.2
      have hle := (merge_all_mono rest (merge_lcl_vted acc x)).1
      exact merge_outer_complete TRIP_MAX x acc (le_trans hle hcap) kv hkv kv2 hkv2
    · exact ih _ hcap x hx kv hkv kv2 hkv2

/-- The workers one after the other, when no deadline expires: every vehicle of
the feed with a free seat has, for every customer of its `rvgrph_rv_` list, an
edge in the `lcl_vted` of a worker, with entries in `vt_sch` and `vt_rte`. -/
theorem rtv_enumerate_prog (E : Env) (F : List Vehicle) (w0 : TVG)
    (hno : ∀ n, E.timeout n = false) (hU : ∀ a ∈ F, ∀ b ∈ F, a.id = b.id → a = b)
    (hne : ∀ e ∈ w0.rvgrph_rv_, e.2 ≠ []) (workers : List (List Vehicle)) :
    ∀ (acc : TVG × Nat) (r : TVG × Nat × List (Dict VehlId (Dict SharedTripId DistInt))),
    (∀ vehls ∈ workers, ∀ v ∈ vehls, v ∈ F) → WInv E F w0 acc.1 →
    rtv_enumerate E workers acc = some r →
    (∀ l ∈ r.2.2, KeysNodup l) ∧
    ∀ v ∈ workers.flatten, v.queued < v.capacity → ∀ c ∈ Dict.getD w0.rvgrph_rv_ v [],
      ∃ stid, (stid, [c]) ∈ r.1.trip_ ∧
        (∃ l ∈ r.2.2, (find2 l v.id stid).isSome = true) ∧
        (find2 r.1.vt_sch v.id stid).isSome = true ∧
        (find2 r.1.vt_rte v.id stid).isSome = true := by
  induction workers with
  | nil =>
    intro acc r _ _ hf
    simp only [rtv_enumerate, Option.some.injEq] at hf
    subst hf
    exact ⟨fun l hl => by simp at hl, fun v hv => by simp at hv⟩
  | cons vehls rest ih =>
    intro acc r hsub hW hf
    simp only [rtv_enumerate] at hf
    cases hw : rtv_worker E vehls acc.1 acc.2 with
    | none => rw [hw] at hf; simp at hf
    | some s =>
      rw [hw] at hf
      simp only at hf
      cases hr : rtv_enumerate E rest (s.w, s.clock) with
      | none => rw [hr] at hf; simp at hf
      | some r1 =>
        rw [hr] at hf
        simp only [Option.some.injEq] at hf
        subst hf
        have hne1 : ∀ e ∈ acc.1.rvgrph_rv_, e.2 ≠ [] := by rw [hW.2.1]; exact hne
        obtain ⟨⟨hWs, _, _⟩, hk, hedge⟩ := rtv_worker_prog E F w0 hno hU vehls
          (hsub vehls (List.mem_cons_self _ _)) acc.1 acc.2 s hW hne1 hw
        have hsub2 : ∀ vehls ∈ rest, ∀ v ∈ vehls, v ∈ F :=
          fun v hv => hsub v (List.mem_cons_of_mem _ hv)
        obtain ⟨_, hExt, _⟩ := rtv_enumerate_SInv E F w0 hU hne rest (s.w, s.clock) r1 hsub2
          hWs hr
        obtain ⟨i1, i2⟩ := ih (s.w, s.clock) r1 hsub2 hWs hr
        constructor
        · intro l hl
          rcases List.mem_cons.mp hl with rfl | hl
          · exact hk
          · exact i1 l hl
        · intro v hv hlt c hc
          simp only [List.flatten_cons, List.mem_append] at hv
          rcases hv with hv | hv
          · obtain ⟨stid, e1, e2, e3, e4⟩ := hedge v hv hlt c hc
            exact ⟨stid, hExt.1 _ e1, ⟨s.lcl_vted, List.mem_cons_self _ _, e2⟩,
              hExt.2.2.1 _ _ e3, hExt.2.2.2 _ _ e4⟩
          · obtain ⟨stid, e1, ⟨l, hl, e2⟩, e3, e4⟩ := i2 v hv hlt c hc
            exact ⟨stid, e1, ⟨l, List.mem_cons_of_mem _ hl, e2⟩, e3, e4⟩

/-- The triple of an edge to a size-1 trip is the one read from the rv tables. -/
theorem ent_single {E : Env} {F : List Vehicle} {w0 w : TVG} {v : Vehicle}
    {stid : SharedTripId} {r : TravelOut} {c : Customer} (hv : v ∈ F)
    (hU : ∀ a ∈ F, ∀ b ∈ F, a.id = b.id → a = b) (hR : RegInv w)
    (hc : (stid, [c]) ∈ w.trip_) (he : Ent E F w0 w v.id stid r) :
    r.cstout = get2 w0.rv_cst v c 0 ∧ r.schout = get2 w0.rv_sch v c [] ∧
    r.rteout = get2 w0.rv_rte v c [] := by
  obtain ⟨vehl, trip, h1, h2, _, h4, h5⟩ := he
  have hveq : vehl = v := hU vehl h1 v hv h2
  have hteq : trip = [c] := RegInv_functional hR h4 hc
  subst hveq hteq
  rcases h5 with ⟨c2, hc2, _, g1, g2, g3⟩ | ⟨hlen, _⟩
  · simp only [List.cons.injEq, and_true] at hc2
    subst hc2
    exact ⟨g1, g2, g3⟩
  · simp at hlen

/-- An entry of a two-level table that belongs to an edge, read with `find2`. -/
theorem entries_find2 {V : Type} {Q : VehlId → SharedTripId → V → Prop}
    {tbl : Dict VehlId (Dict SharedTripId V)} (h : Entries Q tbl) {vid : VehlId}
    {stid : SharedTripId} (hs : (find2 tbl vid stid).isSome = true) :
    ∃ x, find2 tbl vid stid = some x ∧ Q vid stid x := by
  cases hf : find2 tbl vid stid with
  | none => rw [hf] at hs; simp at hs
  | some x =>
    obtain ⟨d, hd, hm⟩ := mem_of_find2 hf
    exact ⟨x, rfl, h (vid, d) hd (stid, x) hm⟩

/-- The rtv region and the size-1 trips, on a workspace whose three tables are
empty at the start, for a feed with distinct ids and no deadline expiry. -/
theorem rtv_graph_size1 (E : Env) (workers : List (List Vehicle)) (w0 : TVG)
    (res : TVG × Int) (hno : ∀ n, E.timeout n = false)
    (hU : ∀ a ∈ workers.flatten, ∀ b ∈ workers.flatten, a.id = b.id → a = b)
    (hR : RegInv w0) (hvt : w0.vted_ = []) (hvs : w0.vt_sch = []) (hvr : w0.vt_rte = [])
    (hne : ∀ e ∈ w0.rvgrph_rv_, e.2 ≠ [])
    (hrun : rtv_graph E workers w0 = some res) :
    RegInv res.1 ∧ KeysNodup res.1.vted_ ∧
    (res.2 ≤ TRIP_MAX → ∀ v ∈ workers.flatten, v.queued < v.capacity →
      ∀ c ∈ Dict.getD w0.rvgrph_rv_ v [],
        ∃ stid, (stid, [c]) ∈ res.1.trip_ ∧
          find2 res.1.vted_ v.id stid = some (get2 w0.rv_cst v c 0) ∧
          find2 res.1.vt_sch v.id stid = some (get2 w0.rv_sch v c []) ∧
          find2 res.1.vt_rte v.id stid = some (get2 w0.rv_rte v c [])) ∧
    (∀ v ∈ workers.flatten, v.capacity - v.queued ≤ 1 →
      ∀ e ∈ Dict.getD res.1.vted_ v.id [],
        ∃ c ∈ Dict.getD w0.rvgrph_rv_ v [], (e.1, [c]) ∈ res.1.trip_) := by
  obtain ⟨hRr, hent, hsch, hrte⟩ :=
    rtv_graph_entries E workers w0 res hU hR hvt hvs hvr hne hrun
  unfold rtv_graph at hrun
  cases hr : rtv_enumerate E workers (w0, 0) with
  | none => rw [hr] at hrun; simp at hrun
  | some r =>
    rw [hr] at hrun
    simp only [Option.some.injEq] at hrun
    subst hrun
    have hW0 : WInv E workers.flatten w0 w0 := by
      refine ⟨hR, rfl, fun _ _ => rfl, fun _ _ => rfl, fun _ _ => rfl, ?_, ?_, rfl⟩
      · rw [hvs]; intro e he; simp at he
      · rw [hvr]; intro e he; simp at he
    have hsub : ∀ vehls ∈ workers, ∀ v ∈ vehls, v ∈ workers.flatten :=
      fun vehls hv v hvv => List.mem_flatten.mpr ⟨vehls, hv, hvv⟩
    obtain ⟨hk, hedge⟩ := rtv_enumerate_prog E workers.flatten w0 hno hU hne workers (w0, 0) r
      hsub hW0 hr
    obtain ⟨⟨_, _, _, _, _, _, _, h8⟩, _, _⟩ := rtv_enumerate_SInv E workers.flatten w0 hU hne
      workers (w0, 0) r hsub hW0 hr
    have hacc : KeysNodup (r.1.vted_, (0 : Int)).1 := by
      show KeysNodup r.1.vted_
      rw [h8, hvt]
      exact ⟨by simp [Dict.keys], fun e he => by simp at he⟩
    refine ⟨hRr, (merge_all_mono r.2.2 (r.1.vted_, 0)).2.1 hacc hk, ?_, ?_⟩
    · intro hcap v hv hlt c hc
      obtain ⟨stid, e1, ⟨l, hl, e2⟩, e3, e4⟩ := hedge v hv hlt c hc
      refine ⟨stid, e1, ?_, ?_, ?_⟩
      · cases hf : find2 l v.id stid with
        | none => rw [hf] at e2; simp at e2
        | some y =>
          obtain ⟨d, hd, hm⟩ := mem_of_find2 hf
          have hs := merge_all_complete r.2.2 (r.1.vted_, 0) hcap l hl (v.id, d) hd (stid, y) hm
          obtain ⟨x, hx, r0, he, hx2⟩ := entries_find2 hent hs
          rw [hx, ← hx2, (ent_single hv hU hRr e1 he).1]
      · obtain ⟨x, hx, r0, he, hx2⟩ := entries_find2 hsch e3
        rw [hx, ← hx2, (ent_single hv hU hRr e1 he).2.1]
      · obtain ⟨x, hx, r0, he, hx2⟩ := entries_find2 hrte e4
        rw [hx, ← hx2, (ent_single hv hU hRr e1 he).2.2]
    · intro v hv hcap e he
      obtain ⟨r0, ⟨vehl, trip, h1, h2, _, h4, h5⟩, _⟩ := hent _ (Dict.getD_nil_mem he) e he
      have hveq : vehl = v := hU vehl h1 v hv h2
      subst hveq
      rcases h5 with ⟨c, hc, hcm, _⟩ | ⟨_, hgt, _⟩
      · subst hc
        exact ⟨c, hcm, h4⟩
      · exact absurd hgt (not_lt.mpr hcap)

theorem kept_customers_nodup
    (nth : Nat → List (Customer × DistInt) → List (Customer × DistInt))
    (hnth : NthElementSpec nth) (topk : Nat) (tbl : Dict Customer DistInt)
    (hc : (Dict.keys tbl).Nodup) : (kept_customers nth topk tbl).Nodup := by
  unfold kept_customers
  by_cases hlen : tbl.length > topk
  · simp only [hlen, if_true]
    have hnd : ((nth topk tbl).map Prod.fst).Nodup :=
      ((hnth topk tbl hlen).1.map Prod.fst).nodup_iff.mpr hc
    rw [List.map_take]
    exact hnd.sublist (List.take_sublist _ _)
  · simp only [hlen, if_false]
    exact hc

theorem kept_customers_length
    (nth : Nat → List (Customer × DistInt) → List (Customer × DistInt))
    (hnth : NthElementSpec nth) (topk : Nat) (tbl : Dict Customer DistInt) :
    (kept_customers nth topk tbl).length = min topk tbl.length := by
  unfold kept_customers
  by_cases hlen : tbl.length > topk
  · simp only [hlen, if_true]
    rw [List.length_map, List.length_take, (hnth topk tbl hlen).1.length_eq]
  · simp only [hlen, if_false]
    rw [List.length_map]
    omega

/-- A table whose keys are the ids of the size-1 trips of a list of distinct
customers has as many entries as the list has customers. -/
theorem length_of_single_trips (w : TVG) (hR : RegInv w) (d : Dict SharedTripId DistInt)
    (hd : (Dict.keys d).Nodup) (custs : List Customer) (hc : custs.Nodup)
    (h1 : ∀ e ∈ d, ∃ c ∈ custs, (e.1, [c]) ∈ w.trip_)
    (h2 : ∀ c ∈ custs, ∃ stid ∈ Dict.keys d, (stid, [c]) ∈ w.trip_) :
    d.length = custs.length := by
  have hkn := nodup_keys_of_RegInv hR
  have hK : ((Dict.keys d).map (fun k => Dict.find w.trip_ k)).Nodup := by
    apply List.Nodup.map_on _ hd
    intro k1 hk1 k2 hk2 heq
    obtain ⟨e1, he1, rfl⟩ := List.mem_map.mp hk1
    obtain ⟨e2, he2, rfl⟩ := List.mem_map.mp hk2
    obtain ⟨c1, _, hc1⟩ := h1 e1 he1
    obtain ⟨c2, _, hc2⟩ := h1 e2 he2
    rw [Dict.find_some_of_mem hkn hc1, Dict.find_some_of_mem hkn hc2] at heq
    simp only [Option.some.injEq] at heq
    rw [← heq] at hc2
    exact RegInv_injective hR hc1 hc2
  have hC : (custs.map (fun c => some [c])).Nodup := by
    apply List.Nodup.map _ hc
    intro a b hab
    simpa using hab
  have hperm : ((Dict.keys d).map (fun k => Dict.find w.trip_ k)).Perm
      (custs.map (fun c => some [c])) := by
    rw [List.perm_ext_iff_of_nodup hK hC]
    intro a
    simp only [List.mem_map]
    constructor
    · rintro ⟨k, hk, rfl⟩
      obtain ⟨e, he, rfl⟩ := List.mem_map.mp hk
      obtain ⟨c, hcm, hct⟩ := h1 e he
      exact ⟨c, hcm, (Dict.find_some_of_mem hkn hct).symm⟩
    · rintro ⟨c, hcm, rfl⟩
      obtain ⟨stid, hs, hst⟩ := h2 c hcm
      exact ⟨stid, hs, Dict.find_some_of_mem hkn hst⟩
  have := hperm.length_eq
  simp only [List.length_map, Dict.keys] at this
  exact this

theorem find2_getD {A B V : Type} [DecidableEq A] [DecidableEq B] {m : Dict A (Dict B V)}
    {a : A} {b : B} {x : V} (h : find2 m a b = some x) : (b, x) ∈ Dict.getD m a [] := by
  unfold find2 at h
  unfold Dict.getD
  cases hf : Dict.find m a with
  | none => rw [hf] at h; simp at h
  | some d =>
    rw [hf] at h
    exact Dict.mem_of_find_some h

theorem getD_keys_nodup {A B V : Type} [DecidableEq A] {m : Dict A (Dict B V)}
    (h : KeysNodup m) (a : A) : (Dict.keys (Dict.getD m a [])).Nodup := by
  unfold Dict.getD
  cases hf : Dict.find m a with
  | none => simp [Dict.keys]
  | some d => exact h.2 _ (Dict.mem_of_find_some hf)

/-- After the rv region the keys of `rv_cst` are distinct and `rvgrph_rv_` is
still empty. -/
theorem rv_pipeline_keys (E : Env) (custs : List Customer) (workers : List (List Customer)) :
    KeysNodup (rv_graph E custs workers (init_is_matched custs reset_workspace)).rv_cst ∧
    (rv_graph E custs workers (init_is_matched custs reset_workspace)).rvgrph_rv_ = [] := by
  have hs0 : RvSound E (init_is_matched custs reset_workspace) := by
    refine ⟨⟨fun _ _ => false, ?_, ?_, ?_, rfl, rfl⟩, ?_, ?_⟩
    · intro v c; simp [rv_val, find2, init_is_matched, reset_workspace, Dict.find]
    · intro v c; simp [rv_val, find2, init_is_matched, reset_workspace, Dict.find]
    · intro v c; simp [rv_val, find2, init_is_matched, reset_workspace, Dict.find]
    · simp [init_is_matched, reset_workspace, Dict.keys]
    · intro e he; simp [init_is_matched, reset_workspace] at he
  obtain ⟨hs1, _, _, _, _, _, f6, _⟩ :=
    rv_graph_sound E custs workers (init_is_matched custs reset_workspace) hs0
  exact ⟨hs1.2, f6⟩

/-- C19: the rv region, the heuristic and the rtv region run from the workspace
that `reset_workspace` and lines 56-57 leave, with no expiry of the rtv
deadline, an `nth_element` that meets its contract and a vehicle feed with
distinct ids. The run returns, and when the counter `nvted` ends within
`TRIP_MAX`: for every vehicle `v` of the feed with `queued < capacity` and every
customer `c` of `rvgrph_rv_[v]`, the trip `[c]` is registered under an id `stid`
with `vted_[v][stid] = rv_cst[v][c]`, `vt_sch[v][stid] = rv_sch[v][c]` and
`vt_rte[v][stid] = rv_rte[v][c]`; when `capacity - queued = 1` every key of
`vted_[v]` is the id of such a trip, `vted_[v]` has as many entries as
`rvgrph_rv_[v]` has customers, and that number is `TOP_CUST` when `rv_cst[v]`
has more than `TOP_CUST` entries. -/
theorem size1_trips (E : Env)
    (nth : Nat → List (Customer × DistInt) → List (Customer × DistInt))
    (custs : List Customer) (cust_workers : List (List Customer))
    (vehl_workers : List (List Vehicle)) (hnth : NthElementSpec nth)
    (hno : ∀ n, E.timeout n = false)
    (hU : ∀ a ∈ vehl_workers.flatten, ∀ b ∈ vehl_workers.flatten, a.id = b.id → a = b) :
    ∃ res, rtv_graph E vehl_workers (rv_prune nth (rv_graph E custs cust_workers
        (init_is_matched custs reset_workspace))) = some res ∧
      (res.2 ≤ TRIP_MAX → ∀ v ∈ vehl_workers.flatten, v.queued < v.capacity →
        (∀ c ∈ Dict.getD (rv_prune nth (rv_graph E custs cust_workers
            (init_is_matched custs reset_workspace))).rvgrph_rv_ v [],
          ∃ stid, Dict.find res.1.trip_ stid = some [c] ∧
            find2 res.1.vted_ v.id stid = some (get2 (rv_prune nth (rv_graph E custs
              cust_workers (init_is_matched custs reset_workspace))).rv_cst v c 0) ∧
            find2 res.1.vt_sch v.id stid = some (get2 (rv_prune nth (rv_graph E custs
              cust_workers (init_is_matched custs reset_workspace))).rv_sch v c []) ∧
            find2 res.1.vt_rte v.id stid = some (get2 (rv_prune nth (rv_graph E custs
              cust_workers (init_is_matched custs reset_workspace))).rv_rte v c [])) ∧
        (v.capacity - v.queued = 1 →
          (∀ stid ∈ Dict.keys (Dict.getD res.1.vted_ v.id []),
            ∃ c ∈ Dict.getD (rv_prune nth (rv_graph E custs cust_workers
              (init_is_matched custs reset_workspace))).rvgrph_rv_ v [],
              Dict.find res.1.trip_ stid = some [c]) ∧
          (Dict.getD res.1.vted_ v.id []).length =
            (Dict.getD (rv_prune nth (rv_graph E custs cust_workers
              (init_is_matched custs reset_workspace))).rvgrph_rv_ v []).length ∧
          (∀ tbl, Dict.find (rv_graph E custs cust_workers
              (init_is_matched custs reset_workspace)).rv_cst v = some tbl →
            tbl.length > TOP_CUST → (Dict.getD res.1.vted_ v.id []).length = TOP_CUST))) := by
  obtain ⟨hR, hvt, hvs, hvr, hne, _⟩ := rv_pipeline_ready E nth hnth custs cust_workers
  obtain ⟨hkn, hempty⟩ := rv_pipeline_keys E custs cust_workers
  obtain ⟨res, hrun⟩ := rtv_graph_total E vehl_workers _ hR
    (by rw [hvt]; intro e he; simp at he) hne
  refine ⟨res, hrun, ?_⟩
  obtain ⟨hRr, hkv, hA, hB⟩ :=
    rtv_graph_size1 E vehl_workers _ res hno hU hR hvt hvs hvr hne hrun
  have hnk := nodup_keys_of_RegInv hRr
  intro hcap v hv hlt
  have hA1 := hA hcap v hv hlt
  refine ⟨?_, ?_⟩
  · intro c hc
    obtain ⟨stid, e1, e2, e3, e4⟩ := hA1 c hc
    exact ⟨stid, Dict.find_some_of_mem hnk e1, e2, e3, e4⟩
  · intro hone
    have hB1 := hB v hv (le_of_eq hone)
    have hget := rv_prune_getD nth hnth _ hempty hkn.1 v
    have hlen : (Dict.getD res.1.vted_ v.id []).length =
        (Dict.getD (rv_prune nth (rv_graph E custs cust_workers
          (init_is_matched custs reset_workspace))).rvgrph_rv_ v []).length := by
      apply length_of_single_trips res.1 hRr _ (getD_keys_nodup hkv v.id) _ ?_ hB1
      · intro c hc
        obtain ⟨stid, e1, e2, _, _⟩ := hA1 c hc
        exact ⟨stid, mem_keys_of_mem (find2_getD e2), e1⟩
      · rw [hget]
        cases hf : Dict.find (rv_graph E custs cust_workers
            (init_is_matched custs reset_workspace)).rv_cst v with
        | none => simp
        | some tbl =>
          exact kept_customers_nodup nth hnth TOP_CUST tbl
            (hkn.2 _ (Dict.mem_of_find_some hf))
    refine ⟨?_, hlen, ?_⟩
    · intro stid hs
      obtain ⟨e, he, rfl⟩ := List.mem_map.mp hs
      obtain ⟨c, hc, hct⟩ := hB1 e he
      exact ⟨c, hc, Dict.find_some_of_mem hnk hct⟩
    · intro tbl hf hgt
      rw [hlen, hget, hf]
      simp only
      rw [kept_customers_length nth hnth]
      omega

/-- C19 at a concrete input: two customers and the one-seat vehicle; `vted_`
holds the two size-1 trips and nothing else. -/
theorem size1_trips_witness :
    (rtv_graph oneEnv [[vehlOne]] (rv_prune nth_by_sort (rv_graph oneEnv [custA, custB]
      [[custA, custB]] (init_is_matched [custA, custB] reset_workspace)))).map
      (fun res => res.1.vted_) = some [(7, [(1, 0), (2, 0)])] ∧
    ∃ res, rtv_graph oneEnv [[vehlOne]] (rv_prune nth_by_sort (rv_graph oneEnv [custA, custB]
        [[custA, custB]] (init_is_matched [custA, custB] reset_workspace))) = some res ∧
      (res.2 ≤ TRIP_MAX → ∀ v ∈ [[vehlOne]].flatten, v.queued < v.capacity →
        (∀ c ∈ Dict.getD (rv_prune nth_by_sort (rv_graph oneEnv [custA, custB]
            [[custA, custB]] (init_is_matched [custA, custB] reset_workspace))).rvgrph_rv_ v [],
          ∃ stid, Dict.find res.1.trip_ stid = some [c] ∧
            find2 res.1.vted_ v.id stid = some (get2 (rv_prune nth_by_sort (rv_graph oneEnv
              [custA, custB] [[custA, custB]]
              (init_is_matched [custA, custB] reset_workspace))).rv_cst v c 0) ∧
            find2 res.1.vt_sch v.id stid = some (get2 (rv_prune nth_by_sort (rv_graph oneEnv
              [custA, custB] [[custA, custB]]
              (init_is_matched [custA, custB] reset_workspace))).rv_sch v c []) ∧
            find2 res.1.vt_rte v.id stid = some (get2 (rv_prune nth_by_sort (rv_graph oneEnv
              [custA, custB] [[custA, custB]]
              (init_is_matched [custA, custB] reset_workspace))).rv_rte v c [])) ∧
        (v.capacity - v.queued = 1 →
          (∀ stid ∈ Dict.keys (Dict.getD res.1.vted_ v.id []),
            ∃ c ∈ Dict.getD (rv_prune nth_by_sort (rv_graph oneEnv [custA, custB]
              [[custA, custB]] (init_is_matched [custA, custB] reset_workspace))).rvgrph_rv_
              v [],
              Dict.find res.1.trip_ stid = some [c]) ∧
          (Dict.getD res.1.vted_ v.id []).length =
            (Dict.getD (rv_prune nth_by_sort (rv_graph oneEnv [custA, custB]
              [[custA, custB]] (init_is_matched [custA, custB] reset_workspace))).rvgrph_rv_
              v []).length ∧
          (∀ tbl, Dict.find (rv_graph oneEnv [custA, custB] [[custA, custB]]
              (init_is_matched [custA, custB] reset_workspace)).rv_cst v = some tbl →
            tbl.length > TOP_CUST → (Dict.getD res.1.vted_ v.id []).length = TOP_CUST))) :=
  ⟨by decide!, size1_trips oneEnv nth_by_sort [custA, custB] [[custA, custB]] [[vehlOne]]
    nth_by_sort_spec (fun _ => rfl) (by simp)⟩

/-! ### Shortest-path length -/

theorem path_length_cons2 (edgew : NodeId → NodeId → DistInt) (a b : NodeId)
    (r : List NodeId) :
    path_length edgew (a :: b :: r) = edgew a b + path_length edgew (b :: r) := by
  simp [path_length]

/-- A value that `wrap32` returned is not changed by `wrap32`. -/
theorem wrap32_idem (x : Int) : wrap32 (wrap32 x) = wrap32 x :=
  wrap32_of_range _ (wrap32_range x).1 (wrap32_range x).2

/-- The accumulation from 0 over a list of weights is the plain sum, reduced
to 32 bits once. -/
theorem wrap32_foldl_zero (l : List Int) :
    l.foldl (fun acc x => wrap32 (acc + x)) 0 = wrap32 l.sum := by
  have hfix : ∀ (r : List Int) (a : Int), wrap32 a = a →
      wrap32 (r.foldl (fun acc x => wrap32 (acc + x)) a) =
        r.foldl (fun acc x => wrap32 (acc + x)) a := by
    intro r
    induction r with
    | nil => intro a ha; exact ha
    | cons x r ih =>
      intro a _
      rw [List.foldl_cons]
      exact ih _ (wrap32_idem _)
  have h0 : wrap32 0 = 0 := by decide
  have h := wrap32_foldl l 0 0
  simp only [add_zero, zero_add] at h
  rw [← hfix l 0 h0, h]

theorem sum_edges_loop (edgew : NodeId → NodeId → DistInt) :
    ∀ (rest pre : List NodeId) (a : NodeId) (cst : DistInt),
    foldOpt
      (fun (cst : DistInt) (i : Nat) =>
        match (pre ++ a :: rest).get? (i - 1), (pre ++ a :: rest).get? i with
        | some a, some b => some (wrap32 (cst + edgew a b))
        | _, _ => none)
      cst (List.range' (pre.length + 1) rest.length) =
    some ((((a :: rest).zip rest).map (fun p => edgew p.1 p.2)).foldl
      (fun acc x => wrap32 (acc + x)) cst) := by
  intro rest
  induction rest with
  | nil =>
    intro pre a cst
    simp [foldOpt]
  | cons b r ih =>
    intro pre a cst
    have h1 : (pre ++ a :: b :: r).get? (pre.length + 1 - 1) = some a := by
      rw [List.get?_eq_getElem?, List.getElem?_append_right (by omega)]
      simp
    have h2 : (pre ++ a :: b :: r).get? (pre.length + 1) = some b := by
      rw [List.get?_eq_getElem?, List.getElem?_append_right (by omega)]
      simp
    simp only [List.length_cons, List.range'_succ, foldOpt, h1, h2]
    have h3 := ih (pre ++ [a]) b (wrap32 (cst + edgew a b))
    simp only [List.append_assoc, List.singleton_append, List.length_append,
      List.length_singleton] at h3
    rw [h3]
    simp

/-- The loop of lines 99-101 never throws and returns the sum of `edgew` over
the consecutive node pairs, reduced to 32 bits. -/
theorem sum_edges_eq (edgew : NodeId → NodeId → DistInt) (seg : List NodeId) :
    sum_edges edgew seg = some (wrap32 (path_length edgew seg)) := by
  unfold sum_edges
  cases seg with
  | nil =>
    have h0 : wrap32 0 = 0 := by decide
    simp [foldOpt, path_length, h0]
  | cons a rest =>
    have h := sum_edges_loop edgew rest [] a 0
    simp only [List.nil_append, List.length_nil, Nat.zero_add] at h
    have h2 : (a :: rest).length - 1 = rest.length := by simp
    rw [h2, h, wrap32_foldl_zero]
    rfl

/-- C21 (as stated, refuted): on a network whose edges weigh 2000000000 the
path `[1, 2, 3]` has two edges; the sum of `edgew` over its consecutive pairs
is 4000000000, and `shortest_path_dist(1, 3)` returns -294967296, because the
accumulator of lines 99-101 is a 32-bit `int`. -/
theorem shortest_path_dist_wraps :
    hugeSp.find_path 1 3 = some [1, 2, 3] ∧
    path_length hugeSp.edgew [1, 2, 3] = 4000000000 ∧
    shortest_path_dist hugeSp { spcache := [], calls := [] } 1 3 =
      some (-294967296, { spcache := [((1, 3), [1, 2, 3])], calls := [(1, 3)] }) := by
  refine ⟨?_, ?_, ?_⟩
  · decide
  · decide
  · decide

/-- C21 (amended): a call of `shortest_path_dist(u, v)` with the cache `st`,
where the path for `(u, v)` is the cached one on a hit and the one `find_path`
returns on a miss. On a hit the call returns the sum of `edgew` over the
consecutive node pairs of the cached path, reduced to the 32 bits of `DistInt`,
and leaves the cache and the log of `find_path` calls as they were. On a miss
for which `find_path` returns `seg`, the call returns the reduced sum for
`seg`, stores `seg` under `(u, v)`, leaves the lookup of every other key as it
was, and has called `find_path` once. Whenever the sum lies within the range of
`int`, the returned value is the sum itself. The call fails only on a miss on
which `find_path` throws. A path with fewer than two nodes has length 0, and a
second call with the same pair returns the same length from the cache and
changes nothing. -/
theorem shortest_path_dist_spec (G : SpEnv) (st : SpState) (u v : NodeId) :
    (∀ seg, Dict.find st.spcache (u, v) = some seg →
      shortest_path_dist G st u v = some (wrap32 (path_length G.edgew seg), st)) ∧
    (∀ seg, Dict.find st.spcache (u, v) = none → G.find_path u v = some seg →
      ∃ st1, shortest_path_dist G st u v = some (wrap32 (path_length G.edgew seg), st1) ∧
        Dict.find st1.spcache (u, v) = some seg ∧
        (∀ k, k ≠ (u, v) → Dict.find st1.spcache k = Dict.find st.spcache k) ∧
        st1.calls = st.calls ++ [(u, v)]) ∧
    (∀ seg, (Dict.find st.spcache (u, v) = some seg ∨
        (Dict.find st.spcache (u, v) = none ∧ G.find_path u v = some seg)) →
      -2147483648 ≤ path_length G.edgew seg → path_length G.edgew seg ≤ 2147483647 →
      ∃ st1, shortest_path_dist G st u v = some (path_length G.edgew seg, st1)) ∧
    (shortest_path_dist G st u v = none ↔
      (Dict.find st.spcache (u, v) = none ∧ G.find_path u v = none)) ∧
    (∀ seg : List NodeId, seg.length < 2 → path_length G.edgew seg = 0) ∧
    (∀ d st1, shortest_path_dist G st u v = some (d, st1) →
      shortest_path_dist G st1 u v = some (d, st1)) := by
  have hit : ∀ (s : SpState) seg, Dict.find s.spcache (u, v) = some seg →
      shortest_path_dist G s u v = some (wrap32 (path_length G.edgew seg), s) := by
    intro s seg h
    unfold shortest_path_dist
    have hh : Dict.has s.spcache (u, v) = true := by
      unfold Dict.has; rw [h]; rfl
    rw [if_pos hh, getD_of_find h, sum_edges_eq]
  have miss : ∀ seg, Dict.find st.spcache (u, v) = none → G.find_path u v = some seg →
      shortest_path_dist G st u v = some (wrap32 (path_length G.edgew seg),
        { spcache := Dict.set st.spcache (u, v) seg, calls := st.calls ++ [(u, v)] }) := by
    intro seg h hp
    unfold shortest_path_dist
    have hh : ¬ Dict.has st.spcache (u, v) = true := by
      unfold Dict.has; rw [h]; simp
    rw [if_neg hh, hp]
    simp only [sum_edges_eq]
  refine ⟨hit st, ?_, ?_, ?_, ?_, ?_⟩
  · intro seg h hp
    refine ⟨_, miss seg h hp, Dict.find_set_self _ _ _, ?_, rfl⟩
    intro k hk
    exact Dict.find_set_ne _ _ _ _ (fun h => hk h.symm)
  · intro seg hseg h1 h2
    rcases hseg with hc | ⟨hc, hp⟩
    · exact ⟨st, by rw [hit st seg hc, wrap32_of_range _ h1 h2]⟩
    · exact ⟨_, by rw [miss seg hc hp, wrap32_of_range _ h1 h2]⟩
  · constructor
    · intro hn
      cases hc : Dict.find st.spcache (u, v) with
      | some seg => rw [hit st seg hc] at hn; simp at hn
      | none =>
        cases hp : G.find_path u v with
        | some seg => rw [miss seg hc hp] at hn; simp at hn
        | none => exact ⟨rfl, rfl⟩
    · rintro ⟨hc, hp⟩
      unfold shortest_path_dist
      have hh : ¬ Dict.has st.spcache (u, v) = true := by
        unfold Dict.has; rw [hc]; simp
      rw [if_neg hh, hp]
  · intro seg hl
    match seg, hl with
    | [], _ => rfl
    | [_], _ => rfl
  · intro d st1 h
    cases hc : Dict.find st.spcache (u, v) with
    | some seg =>
      rw [hit st seg hc] at h
      simp only [Option.some.injEq, Prod.mk.injEq] at h
      obtain ⟨rfl, rfl⟩ := h
      exact hit st seg hc
    | none =>
      cases hp : G.find_path u v with
      | some seg =>
        rw [miss seg hc hp] at h
        simp only [Option.some.injEq, Prod.mk.injEq] at h
        obtain ⟨rfl, rfl⟩ := h
        exact hit _ seg (Dict.find_set_self _ _ _)
      | none =>
        have : shortest_path_dist G st u v = none := by
          unfold shortest_path_dist
          have hh : ¬ Dict.has st.spcache (u, v) = true := by
            unfold Dict.has; rw [hc]; simp
          rw [if_neg hh, hp]
        rw [this] at h
        simp at h

/-- C21 (amended) at a concrete input: the pair `(5, 9)` is cached with the
path `[5, 7, 9]` of length 6, the pair `(1, 4)` is not and `find_path` returns
`[1, 2, 4]` of length 5, a sum inside the range of `int`. -/
theorem shortest_path_dist_spec_witness :
    shortest_path_dist exSp spOne 5 9 = some (6, spOne) ∧
    shortest_path_dist exSp spOne 1 4 =
      some (5, { spcache := [((5, 9), [5, 7, 9]), ((1, 4), [1, 2, 4])], calls := [(1, 4)] }) ∧
    shortest_path_dist exSp
      { spcache := [((5, 9), [5, 7, 9]), ((1, 4), [1, 2, 4])], calls := [(1, 4)] } 1 4 =
      some (5, { spcache := [((5, 9), [5, 7, 9]), ((1, 4), [1, 2, 4])], calls := [(1, 4)] }) ∧
    path_length exSp.edgew [1, 2, 4] = 5 ∧
    (∃ st1, shortest_path_dist exSp spOne 1 4 = some (path_length exSp.edgew [1, 2, 4], st1)) ∧
    ∃ st1, shortest_path_dist exSp spOne 1 4 =
        some (wrap32 (path_length exSp.edgew [1, 2, 4]), st1) ∧
      Dict.find st1.spcache (1, 4) = some [1, 2, 4] ∧
      (∀ k, k ≠ (1, 4) → Dict.find st1.spcache k = Dict.find spOne.spcache k) ∧
      st1.calls = spOne.calls ++ [(1, 4)] :=
  ⟨by decide, by decide, by decide, by decide,
    (shortest_path_dist_spec exSp spOne 1 4).2.2.1 [1, 2, 4] (Or.inr ⟨by decide, by decide⟩)
      (by decide) (by decide),
    (shortest_path_dist_spec exSp spOne 1 4).2.1 [1, 2, 4] (by decide) (by decide)⟩

/-! ### The size-2 join at a concrete input -/

/-- C22 (the code at the failing input): the two-seat vehicle with the size-1
trips 1 = `[1]`, 2 = `[2]`, 3 = `[3]` and an oracle that accepts every
candidate. In the outer iteration of trip 1 the inner iteration of trip 2
evaluates `[1, 2]`, and the inner iteration of trip 3, the pair of the trips
`[1]` and `[3]`, evaluates `[1, 2, 3]`: `shtrip` still holds customer 2. The
trip with three customers is registered under id 5 and filed in `tripk[2]`;
the pair `[1, 3]` is never evaluated in that outer iteration. -/
theorem join_evaluates_grown_candidate :
    vehl1.capacity - vehl1.queued ≥ 2 ∧
    Dict.find afterSize1.tripk 1 = some [1, 2, 3] ∧
    afterSize1.lcl_trip = [(1, [custA]), (2, [custB]), (3, [custC])] ∧
    (foldOpt (join_inner okEnv vehl1 1) ([custA], afterSize1) [1, 2]).map (fun r => r.1) =
      some [custA, custB] ∧
    (foldOpt (join_inner okEnv vehl1 1) ([custA], afterSize1) [1, 2, 3]).map (fun r => r.1) =
      some [custA, custB, custC] ∧
    (join_outer okEnv vehl1 afterSize1 1).map
      (fun s => (Dict.find s.tripk 2, Dict.find s.lcl_trip 5)) =
      some (some [4, 5], some [custA, custB, custC]) ∧
    (join_outer okEnv vehl1 afterSize1 1).map
      (fun s => decide ([custA, custC] ∈ s.lcl_trip.map Prod.snd)) = some false := by
  refine ⟨?_, ?_, ?_, ?_, ?_, ?_, ?_⟩
  · decide
  · decide!
  · decide!
  · decide!
  · decide!
  · decide!
  · decide!

/-! ### What the rtv region keeps -/

theorem add_trip_keeps (w : TVG) (t : SharedTrip) :
    (add_trip w t).2.matchable_custs = w.matchable_custs ∧
    (add_trip w t).2.is_matched = w.is_matched := by
  unfold add_trip
  split <;> exact ⟨rfl, rfl⟩

theorem Grow_refl (w : TVG) : Grow w w := fun _ _ h => h

theorem Grow_trans {w w1 w2 : TVG} (h1 : Grow w w1) (h2 : Grow w1 w2) : Grow w w2 :=
  fun a b h => h2 a b (h1 a b h)

theorem find_isSome_mono_add_trip {w : TVG} (hR : RegInv w) (t : SharedTrip)
    (stid : SharedTripId) (h : (Dict.find w.trip_ stid).isSome = true) :
    (Dict.find (add_trip w t).2.trip_ stid).isSome = true := by
  obtain ⟨tr, htr⟩ := Option.isSome_iff_exists.mp h
  have hm := add_trip_trip_mono hR t _ (Dict.mem_of_find_some htr)
  rw [Dict.find_some_of_mem (nodup_keys_of_RegInv (add_trip_RegInv hR t)) hm]
  rfl

theorem record_trip_Grow (vid : VehlId) (k : Nat) (shtrip : SharedTrip) (cst : DistInt)
    (sch : List Stop) (rte : List Wayp) (s : RtvState) (hR : RegInv s.w) :
    Grow s.w (record_trip vid k shtrip cst sch rte s).w := by
  obtain ⟨f1, _, _, _, f5, f6⟩ := add_trip_frame s.w shtrip
  intro a b ⟨h1, h2, h3, h4⟩
  refine ⟨?_, ?_, ?_, ?_⟩
  · show (Dict.find (add_trip s.w shtrip).2.vehmap a).isSome = true
    rw [f1]; exact h1
  · show (find2 (set2 (add_trip s.w shtrip).2.vt_rte vid (add_trip s.w shtrip).1 rte)
      a b).isSome = true
    rw [f6]
    exact find2_set2_isSome _ _ _ _ _ _ h2
  · show (find2 (set2 (add_trip s.w shtrip).2.vt_sch vid (add_trip s.w shtrip).1 sch)
      a b).isSome = true
    rw [f5]
    exact find2_set2_isSome _ _ _ _ _ _ h3
  · show (Dict.find (add_trip s.w shtrip).2.trip_ b).isSome = true
    exact find_isSome_mono_add_trip hR shtrip b h4

theorem record_trip_Lookups (vid : VehlId) (k : Nat) (shtrip : SharedTrip) (cst : DistInt)
    (sch : List Stop) (rte : List Wayp) (s : RtvState) (hR : RegInv s.w)
    (hcur : (Dict.find s.w.vehmap vid).isSome = true) :
    Lookups (record_trip vid k shtrip cst sch rte s).w vid (add_trip s.w shtrip).1 := by
  obtain ⟨f1, _, _, _, f5, f6⟩ := add_trip_frame s.w shtrip
  refine ⟨?_, ?_, ?_, ?_⟩
  · show (Dict.find (add_trip s.w shtrip).2.vehmap vid).isSome = true
    rw [f1]; exact hcur
  · show (find2 (set2 (add_trip s.w shtrip).2.vt_rte vid (add_trip s.w shtrip).1 rte)
      vid (add_trip s.w shtrip).1).isSome = true
    rw [find2_set2]; simp
  · show (find2 (set2 (add_trip s.w shtrip).2.vt_sch vid (add_trip s.w shtrip).1 sch)
      vid (add_trip s.w shtrip).1).isSome = true
    rw [find2_set2]; simp
  · show (Dict.find (add_trip s.w shtrip).2.trip_ (add_trip s.w shtrip).1).isSome = true
    rw [Dict.find_some_of_mem (nodup_keys_of_RegInv (add_trip_RegInv hR shtrip))
      (add_trip_id_mem hR shtrip)]
    rfl

theorem record_trip_Keep (F : List Vehicle) (w0 : TVG) (vid : VehlId) (k : Nat)
    (shtrip : SharedTrip) (cst : DistInt) (sch : List Stop) (rte : List Wayp) (s : RtvState)
    (h : Keep F w0 s.w) : Keep F w0 (record_trip vid k shtrip cst sch rte s).w := by
  obtain ⟨hR, h1, h2, h3, h4, h5, h6, h7⟩ := h
  obtain ⟨f1, f2, _, _, _, _⟩ := add_trip_frame s.w shtrip
  obtain ⟨g1, g2⟩ := add_trip_keeps s.w shtrip
  refine ⟨RegInv_of_eq rfl rfl (add_trip_RegInv hR shtrip), g1.trans h1, g2.trans h2,
    (add_trip_rvgrph_rr s.w shtrip).trans h3, (add_trip_rvgrph_rv s.w shtrip).trans h4,
    (add_trip_vted s.w shtrip).trans h5, ?_, ?_⟩
  · intro v hv
    apply h6
    have : (record_trip vid k shtrip cst sch rte s).w.rv_cst = s.w.rv_cst := f2
    rw [this] at hv
    exact hv
  · intro e he
    apply h7
    have : (record_trip vid k shtrip cst sch rte s).w.vehmap = s.w.vehmap := f1
    rw [this] at he
    exact he

/-- The block that records a trip keeps the invariant `KInv`, for a vehicle of
the share that is stored in `vehmap`. -/
theorem record_trip_KInv (F : List Vehicle) (ids : List VehlId) (w0 wb : TVG)
    (vehl : Vehicle) (hv : vehl ∈ F) (hid : vehl.id ∈ ids) (hq : vehl.queued ≠ vehl.capacity)
    (k : Nat) (shtrip : SharedTrip) (cst : DistInt) (sch : List Stop) (rte : List Wayp)
    (s : RtvState)
    (h : KInv F ids w0 wb s ∧ (Dict.find s.w.vehmap vehl.id).isSome = true) :
    KInv F ids w0 wb (record_trip vehl.id k shtrip cst sch rte s) ∧
    (Dict.find (record_trip vehl.id k shtrip cst sch rte s).w.vehmap vehl.id).isSome
      = true := by
  obtain ⟨⟨hK, hG, hF, hL, hN⟩, hcur⟩ := h
  have hR := hK.1
  have hg := record_trip_Grow vehl.id k shtrip cst sch rte s hR
  have hnew := record_trip_Lookups vehl.id k shtrip cst sch rte s hR hcur
  refine ⟨⟨record_trip_Keep F w0 vehl.id k shtrip cst sch rte s hK, Grow_trans hG hg, ?_, ?_,
    ?_⟩, hnew.1⟩
  · intro e he
    rcases Dict.mem_set he with rfl | h1
    · exact ⟨hid, vehl, hv, rfl, hq⟩
    · exact hF e h1
  · exact set2_entries _ _ _ _ _ (Entries_mono (fun a b _ h1 => hg a b h1) hL) hnew
  · exact set2_KeysNodup _ _ _ _ hN

/-- Every single write of the rtv region keeps the invariant `KInv`. -/
theorem step_KInv (E : Env) (F : List Vehicle) (ids : List VehlId) (w0 wb : TVG)
    (vehl : Vehicle) (hv : vehl ∈ F) (hid : vehl.id ∈ ids) (hq : vehl.queued ≠ vehl.capacity)
    (s s1 : RtvState)
    (h : KInv F ids w0 wb s ∧ (Dict.find s.w.vehmap vehl.id).isSome = true)
    (hs : RtvStep E vehl s s1) :
    KInv F ids w0 wb s1 ∧ (Dict.find s1.w.vehmap vehl.id).isSome = true := by
  cases hs with
  | size1 custs cust hf hc =>
    obtain ⟨⟨⟨hR, h1, h2, h3, h4, h5, h6, h7⟩, hG, hF, hL, hN⟩, hcur⟩ := h
    have hpre : KInv F ids w0 wb
        { s with w := { s.w with
          rv_sch := touch2 s.w.rv_sch vehl cust []
          rv_rte := touch2 s.w.rv_rte vehl cust []
          rv_cst := touch2 s.w.rv_cst vehl cust 0 } } := by
      refine ⟨⟨RegInv_of_eq rfl rfl hR, h1, h2, h3, h4, h5, ?_, h7⟩, hG, hF, hL, hN⟩
      intro v hvk
      have hk : v ∈ Dict.keys (touch2 s.w.rv_cst vehl cust 0) := hvk
      unfold touch2 at hk
      rw [keys_set2] at hk
      split at hk
      · exact h6 v hk
      · rcases List.mem_append.mp hk with h8 | h8
        · exact h6 v h8
        · right
          rw [List.mem_singleton.mp h8]
          exact hv
    exact record_trip_KInv F ids w0 wb vehl hv hid hq 1 [cust] _ _ _ _ ⟨hpre, hcur⟩
  | record k shtrip hlen hcap hok =>
    exact record_trip_KInv F ids w0 wb vehl hv hid hq k shtrip _ _ _ s h
  | tick => exact h

/-- The invariant `KInv` holds when the worker turns to a vehicle of its share
that has a free seat. -/
theorem rtv_start_KInv (F : List Vehicle) (ids : List VehlId) (w0 wb : TVG)
    (vehl : Vehicle) (hv : vehl ∈ F) (hq : vehl.queued ≠ vehl.capacity) (s : RtvState)
    (h : KInv F ids w0 wb s) :
    KInv F ids w0 wb (rtv_start vehl s) ∧
    (Dict.find (rtv_start vehl s).w.vehmap vehl.id).isSome = true := by
  obtain ⟨⟨hR, h1, h2, h3, h4, h5, h6, h7⟩, hG, hF, hL, hN⟩ := h
  have hcur : (Dict.find (Dict.set s.w.vehmap vehl.id vehl) vehl.id).isSome = true := by
    rw [Dict.find_set_self]; rfl
  have hg : Grow s.w (rtv_start vehl s).w := by
    intro a b ⟨g1, g2, g3, g4⟩
    refine ⟨?_, g2, g3, g4⟩
    show (Dict.find (Dict.set s.w.vehmap vehl.id vehl) a).isSome = true
    rw [Dict.find_set]
    split
    · rfl
    · exact g1
  refine ⟨⟨⟨RegInv_of_eq rfl rfl hR, h1, h2, h3, h4, h5, h6, ?_⟩, Grow_trans hG hg, hF,
    Entries_mono (fun a b _ h8 => hg a b h8) hL, hN⟩, hcur⟩
  intro e he
  rcases Dict.mem_set he with rfl | h8
  · exact Or.inr ⟨hv, rfl, hq⟩
  · exact h7 e h8

/-- The loop body of one vehicle keeps the invariant `KInv`. -/
theorem rtv_vehicle_KInv (E : Env) (F : List Vehicle) (ids : List VehlId) (w0 wb : TVG)
    (vehl : Vehicle) (hv : vehl ∈ F) (hid : vehl.id ∈ ids) (s0 s1 : RtvState)
    (hN : NoEmpty s0) (h : KInv F ids w0 wb s0) (hf : rtv_vehicle E vehl s0 = some s1) :
    KInv F ids w0 wb s1 ∧ NoEmpty s1 := by
  by_cases hq : vehl.queued = vehl.capacity
  · unfold rtv_vehicle at hf
    simp only [hq, if_true, Option.some.injEq] at hf
    subst hf
    exact ⟨h, NoEmpty_of_eq rfl rfl hN⟩
  · obtain ⟨h1, h2⟩ := rtv_vehicle_reach E vehl s0 s1 hN hq hf
    have hstart := rtv_start_KInv F ids w0 wb vehl hv hq s0 h
    have hN1 : NoEmpty (rtv_start vehl s0) := NoEmpty_of_eq rfl rfl hN
    cases hc : Dict.find s0.w.rvgrph_rv_ vehl with
    | none =>
      rw [h1 hc]
      exact ⟨hstart.1, hN1⟩
    | some custs =>
      have hr1 := size1_fold_reach E vehl custs custs (fun c hc => hc) (rtv_start vehl s0) hc
      have hr := reach_trans hr1 (h2 custs hc)
      exact ⟨(reach_inv
        (fun a => KInv F ids w0 wb a ∧ (Dict.find a.w.vehmap vehl.id).isSome = true)
        (fun a b ha hab => step_KInv E F ids w0 wb vehl hv hid hq a b ha hab) hr hstart).1,
        reach_NoEmpty hr hN1⟩

/-- The vehicles of one worker keep the invariant `KInv`, from a workspace that
satisfies `Keep`. -/
theorem rtv_worker_KInv (E : Env) (F : List Vehicle) (w0 : TVG) (vehls : List Vehicle)
    (hsub : ∀ v ∈ vehls, v ∈ F) (w : TVG) (clock : Nat) (s1 : RtvState)
    (hK : Keep F w0 w) (hne : ∀ e ∈ w.rvgrph_rv_, e.2 ≠ [])
    (hf : rtv_worker E vehls w clock = some s1) :
    KInv F (vehls.map (fun v => v.id)) w0 w s1 ∧ NoEmpty s1 := by
  unfold rtv_worker at hf
  refine foldOpt_inv_mem
    (fun a => KInv F (vehls.map (fun v => v.id)) w0 w a ∧ NoEmpty a) (rtv_worker_step E) vehls
    ?_ _ s1
    ⟨⟨hK, Grow_refl w, fun e he => by simp at he, fun e he => by simp at he,
      ⟨by simp [Dict.keys], fun e he => by simp at he⟩⟩,
      ⟨fun e he => by simp at he, hne⟩⟩ hf
  intro a x a1 hx hP hfa
  unfold rtv_worker_step at hfa
  split at hfa
  · simp only [Option.some.injEq] at hfa
    subst hfa
    exact hP
  · exact rtv_vehicle_KInv E F _ w0 w x (hsub x hx) (List.mem_map.mpr ⟨x, hx, rfl⟩) a a1
      hP.2 hP.1 hfa

/-- The workers one after the other keep `Keep`; every vehicle key of a
collected `lcl_vted` is the id of a vehicle of the feed with a free seat, the
lookups succeed for every collected edge, and the vehicle keys of the collected
tables are ids of the shares, distinct when the ids of the shares are. -/
theorem rtv_enumerate_KInv (E : Env) (F : List Vehicle) (w0 : TVG)
    (hne : ∀ e ∈ w0.rvgrph_rv_, e.2 ≠ []) (workers : List (List Vehicle)) :
    ∀ (acc : TVG × Nat) (r : TVG × Nat × List (Dict VehlId (Dict SharedTripId DistInt))),
    (∀ vehls ∈ workers, ∀ v ∈ vehls, v ∈ F) → Keep F w0 acc.1 →
    rtv_enumerate E workers acc = some r →
    Keep F w0 r.1 ∧ Grow acc.1 r.1 ∧
    (∀ l ∈ r.2.2, ∀ e ∈ l, FromFeed F e.1) ∧
    (∀ l ∈ r.2.2, Entries (fun vid stid _ => Lookups r.1 vid stid) l) ∧
    (∀ k ∈ Dict.keys r.2.2.flatten, k ∈ workers.flatten.map (fun v => v.id)) ∧
    ((workers.flatten.map (fun v => v.id)).Nodup → (Dict.keys r.2.2.flatten).Nodup) := by
  induction workers with
  | nil =>
    intro acc r _ hK hf
    simp only [rtv_enumerate, Option.some.injEq] at hf
    subst hf
    exact ⟨hK, Grow_refl _, fun l hl => by simp at hl, fun l hl => by simp at hl,
      fun k hk => by simp [Dict.keys] at hk, fun _ => by simp [Dict.keys]⟩
  | cons vehls rest ih =>
    intro acc r hsub hK hf
    simp only [rtv_enumerate] at hf
    cases hw : rtv_worker E vehls acc.1 acc.2 with
    | none => rw [hw] at hf; simp at hf
    | some s =>
      rw [hw] at hf
      simp only at hf
      cases hr : rtv_enumerate E rest (s.w, s.clock) with
      | none => rw [hr] at hf; simp at hf
      | some r1 =>
        rw [hr] at hf
        simp only [Option.some.injEq] at hf
        subst hf
        have hne1 : ∀ e ∈ acc.1.rvgrph_rv_, e.2 ≠ [] := by rw [hK.2.2.2.2.1]; exact hne
        obtain ⟨⟨hKs, hGs, hFs, hLs, hNs⟩, _⟩ := rtv_worker_KInv E F w0 vehls
          (hsub vehls (List.mem_cons_self _ _)) acc.1 acc.2 s hK hne1 hw
        obtain ⟨h1, h2, h3, h4, h5, h6⟩ := ih (s.w, s.clock) r1
          (fun v hv => hsub v (List.mem_cons_of_mem _ hv)) hKs hr
        have hkeys : Dict.keys (s.lcl_vted :: r1.2.2).flatten =
            Dict.keys s.lcl_vted ++ Dict.keys r1.2.2.flatten := by
          simp [Dict.keys]
        refine ⟨h1, Grow_trans hGs h2, ?_, ?_, ?_, ?_⟩
        · intro l hl e he
          rcases List.mem_cons.mp hl with rfl | hl2
          · exact (hFs e he).2
          · exact h3 l hl2 e he
        · intro l hl
          rcases List.mem_cons.mp hl with rfl | hl2
          · exact Entries_mono (fun a b _ h8 => h2 a b h8) hLs
          · exact h4 l hl2
        · intro k hk
          have hk2 : k ∈ Dict.keys (s.lcl_vted :: r1.2.2).flatten := hk
          rw [hkeys] at hk2
          simp only [List.flatten_cons, List.map_append, List.mem_append]
          rcases List.mem_append.mp hk2 with h8 | h8
          · left
            obtain ⟨e, he, rfl⟩ := List.mem_map.mp h8
            exact (hFs e he).1
          · exact Or.inr (h5 k h8)
        · intro hnd
          show (Dict.keys (s.lcl_vted :: r1.2.2).flatten).Nodup
          rw [hkeys]
          simp only [List.flatten_cons, List.map_append] at hnd
          obtain ⟨n1, n2, n3⟩ := List.nodup_append.mp hnd
          refine List.nodup_append.mpr ⟨hNs.1, h6 n2, ?_⟩
          intro k hk1 hk2
          obtain ⟨e, he, rfl⟩ := List.mem_map.mp hk1
          exact n3 (hFs e he).1 (h5 _ hk2)

/-! ### The merge: vehicle keys and the counter `nvted` -/

theorem merge_inner_outer (Q : VehlId → Prop) (cap : Int) (vid : VehlId) (hv : Q vid)
    (l : List (SharedTripId × DistInt)) :
    ∀ (acc : Dict VehlId (Dict SharedTripId DistInt) × Int),
    (∀ e ∈ acc.1, Q e.1) → ∀ e ∈ (merge_inner cap vid acc l).1, Q e.1 := by
  induction l with
  | nil => intro acc hacc; exact hacc
  | cons kv2 rest ih =>
    intro acc hacc
    have h1 : ∀ e ∈ set2 acc.1 vid kv2.1 kv2.2, Q e.1 := by
      intro e he
      rcases Dict.mem_set he with rfl | h
      · exact hv
      · exact hacc e h
    simp only [merge_inner]
    split
    · exact h1
    · exact ih _ h1

theorem merge_outer_outer (Q : VehlId → Prop) (cap : Int)
    (l : List (VehlId × Dict SharedTripId DistInt)) :
    ∀ (acc : Dict VehlId (Dict SharedTripId DistInt) × Int),
    (∀ e ∈ acc.1, Q e.1) → (∀ e ∈ l, Q e.1) →
    ∀ e ∈ (merge_outer cap acc l).1, Q e.1 := by
  induction l with
  | nil => intro acc hacc _; exact hacc
  | cons kv rest ih =>
    intro acc hacc hl
    have hrest : ∀ e ∈ rest, Q e.1 := fun e he => hl e (List.mem_cons_of_mem _ he)
    simp only [merge_outer]
    split
    · have h1 : ∀ e ∈ Dict.set acc.1 kv.1 kv.2, Q e.1 := by
        intro e he
        rcases Dict.mem_set he with rfl | h
        · exact hl kv (List.mem_cons_self _ _)
        · exact hacc e h
      split
      · exact h1
      · exact ih _ h1 hrest
    · have h1 := merge_inner_outer Q cap kv.1 (hl kv (List.mem_cons_self _ _)) kv.2 acc hacc
      split
      · exact h1
      · exact ih _ h1 hrest

/-- Every vehicle key of the merged table is a vehicle key of the table before
the merge or of one of the merged `lcl_vted`. -/
theorem merge_all_outer (Q : VehlId → Prop)
    (ls : List (Dict VehlId (Dict SharedTripId DistInt))) :
    ∀ (acc : Dict VehlId (Dict SharedTripId DistInt) × Int),
    (∀ e ∈ acc.1, Q e.1) → (∀ l ∈ ls, ∀ e ∈ l, Q e.1) →
    ∀ e ∈ (ls.foldl merge_lcl_vted acc).1, Q e.1 := by
  induction ls with
  | nil => intro acc hacc _; exact hacc
  | cons l rest ih =>
    intro acc hacc hl
    simp only [List.foldl_cons]
    exact ih _ (merge_outer_outer Q TRIP_MAX l acc hacc (hl l (List.mem_cons_self _ _)))
      (fun x hx => hl x (List.mem_cons_of_mem _ hx))

theorem vted_size_append (a b : Dict VehlId (Dict SharedTripId DistInt)) :
    vted_size (a ++ b) = vted_size a + vted_size b := by
  simp [vted_size]

/-- The merge of one `lcl_vted` whose vehicle keys are distinct and new keeps
the counter equal to the number of edges of the table. -/
theorem merge_outer_count (cap : Int) (l : List (VehlId × Dict SharedTripId DistInt)) :
    ∀ (acc : Dict VehlId (Dict SharedTripId DistInt) × Int),
    (Dict.keys acc.1).Nodup → (Dict.keys l).Nodup →
    (∀ k ∈ Dict.keys l, k ∉ Dict.keys acc.1) → acc.2 = vted_size acc.1 →
    (merge_outer cap acc l).2 = vted_size (merge_outer cap acc l).1 ∧
    (Dict.keys (merge_outer cap acc l).1).Nodup ∧
    ∀ k ∈ Dict.keys (merge_outer cap acc l).1, k ∈ Dict.keys acc.1 ∨ k ∈ Dict.keys l := by
  induction l with
  | nil =>
    intro acc h1 _ _ h4
    exact ⟨h4, h1, fun k hk => Or.inl hk⟩
  | cons kv rest ih =>
    intro acc h1 h2 h3 h4
    have hnk : kv.1 ∉ Dict.keys acc.1 := h3 kv.1 (by simp [Dict.keys])
    have hhas : Dict.has acc.1 kv.1 = false := by
      unfold Dict.has
      rw [Dict.find_none_of_not_mem hnk]
      rfl
    have hset : Dict.set acc.1 kv.1 kv.2 = acc.1 ++ [kv] := Dict.set_of_not_mem _ _ _ hnk
    have hsz : acc.2 + (kv.2.length : Int) = vted_size (acc.1 ++ [kv]) := by
      rw [vted_size_append, h4]
      simp [vted_size]
    have hkeys : Dict.keys (acc.1 ++ [kv]) = Dict.keys acc.1 ++ [kv.1] := by
      simp [Dict.keys]
    have hnd1 : (Dict.keys (acc.1 ++ [kv])).Nodup := by
      rw [hkeys]
      exact List.nodup_append.mpr ⟨h1, by simp, by
        intro k hk1 hk2
        rw [List.mem_singleton.mp hk2] at hk1
        exact hnk hk1⟩
    have h2c : kv.1 ∉ Dict.keys rest ∧ (Dict.keys rest).Nodup := by
      simpa [Dict.keys] using h2
    simp only [merge_outer, hhas, if_true, hset]
    split
    · refine ⟨hsz, hnd1, ?_⟩
      intro k hk
      rw [hkeys] at hk
      rcases List.mem_append.mp hk with h | h
      · exact Or.inl h
      · right
        rw [List.mem_singleton.mp h]
        simp [Dict.keys]
    · obtain ⟨g1, g2, g3⟩ := ih (acc.1 ++ [kv], acc.2 + (kv.2.length : Int)) hnd1 h2c.2 (by
        intro k hk hk2
        have hk3 : k ∈ Dict.keys (acc.1 ++ [kv]) := hk2
        rw [hkeys] at hk3
        rcases List.mem_append.mp hk3 with h | h
        · exact h3 k (by
            have : k ∈ Dict.keys rest := hk
            simp only [Dict.keys, List.map_cons, List.mem_cons]
            exact Or.inr this) h
        · rw [List.mem_singleton.mp h] at hk
          exact h2c.1 hk) hsz
      refine ⟨g1, g2, ?_⟩
      intro k hk
      rcases g3 k hk with h | h
      · have hk3 : k ∈ Dict.keys (acc.1 ++ [kv]) := h
        rw [hkeys] at hk3
        rcases List.mem_append.mp hk3 with h5 | h5
        · exact Or.inl h5
        · right
          rw [List.mem_singleton.mp h5]
          simp [Dict.keys]
      · right
        have : k ∈ Dict.keys rest := h
        simp only [Dict.keys, List.map_cons, List.mem_cons]
        exact Or.inr this

/-- The merges of all workers keep the counter equal to the number of edges
when the vehicle keys of the collected tables are distinct and new. -/
theorem merge_all_count (ls : List (Dict VehlId (Dict SharedTripId DistInt))) :
    ∀ (acc : Dict VehlId (Dict SharedTripId DistInt) × Int),
    (Dict.keys acc.1).Nodup → (Dict.keys ls.flatten).Nodup →
    (∀ k ∈ Dict.keys ls.flatten, k ∉ Dict.keys acc.1) → acc.2 = vted_size acc.1 →
    (ls.foldl merge_lcl_vted acc).2 = vted_size (ls.foldl merge_lcl_vted acc).1 := by
  induction ls with
  | nil => intro acc _ _ _ h; exact h
  | cons l rest ih =>
    intro acc h1 h2 h3 h4
    have hkeys : Dict.keys (l :: rest).flatten = Dict.keys l ++ Dict.keys rest.flatten := by
      simp [Dict.keys]
    rw [hkeys] at h2 h3
    obtain ⟨n1, n2, n3⟩ := List.nodup_append.mp h2
    obtain ⟨g1, g2, g3⟩ := merge_outer_count TRIP_MAX l acc h1 n1
      (fun k hk => h3 k (List.mem_append_left _ hk)) h4
    simp only [List.foldl_cons]
    apply ih _ g2 n2 _ g1
    intro k hk hk2
    rcases g3 k hk2 with h | h
    · exact h3 k (List.mem_append_right _ hk) h
    · exact n3 h hk

/-- The number of columns `x` is the number of edges of `vted_`. -/
theorem x_cols_length (w : TVG) : ((x_cols w).length : Int) = vted_size w.vted_ := by
  unfold x_cols vted_size
  induction w.vted_ with
  | nil => rfl
  | cons e r ih =>
    simp only [List.flatMap_cons, List.length_append, List.length_map, List.map_cons,
      List.sum_cons]
    push_cast
    rw [ih]

/-- The rtv region, run on a workspace with empty `vted_` and `vehmap`: what it
keeps, where the vehicle keys of `rv_cst`, `vehmap` and `vted_` come from, the
lookups of the extraction for every edge of `vted_`, and the counter `nvted`
when the ids of the feed are distinct. -/
theorem rtv_graph_keep (E : Env) (workers : List (List Vehicle)) (w0 : TVG) (res : TVG × Int)
    (hR : RegInv w0) (hvt : w0.vted_ = []) (hvm : w0.vehmap = [])
    (hne : ∀ e ∈ w0.rvgrph_rv_, e.2 ≠ []) (hrun : rtv_graph E workers w0 = some res) :
    RegInv res.1 ∧ res.1.matchable_custs = w0.matchable_custs ∧
    res.1.is_matched = w0.is_matched ∧
    (∀ v ∈ Dict.keys res.1.rv_cst, v ∈ Dict.keys w0.rv_cst ∨ v ∈ workers.flatten) ∧
    (∀ e ∈ res.1.vehmap, e.2 ∈ workers.flatten ∧ e.2.id = e.1 ∧ e.2.queued ≠ e.2.capacity) ∧
    (∀ e ∈ res.1.vted_, FromFeed workers.flatten e.1) ∧
    Entries (fun vid stid _ => Lookups res.1 vid stid) res.1.vted_ ∧
    ((workers.flatten.map (fun v => v.id)).Nodup → res.2 = vted_size res.1.vted_) := by
  unfold rtv_graph at hrun
  cases hr : rtv_enumerate E workers (w0, 0) with
  | none => rw [hr] at hrun; simp at hrun
  | some r =>
    rw [hr] at hrun
    simp only [Option.some.injEq] at hrun
    subst hrun
    have hK0 : Keep workers.flatten w0 w0 :=
      ⟨hR, rfl, rfl, rfl, rfl, rfl, fun _ h => Or.inl h, fun _ h => Or.inl h⟩
    obtain ⟨⟨g1, g2, g3, _, _, g6, g7, g8⟩, _, h3, h4, h5, h6⟩ :=
      rtv_enumerate_KInv E workers.flatten w0 hne workers (w0, 0) r
        (fun vehls hv v hvv => List.mem_flatten.mpr ⟨vehls, hv, hvv⟩) hK0 hr
    have hv0 : r.1.vted_ = [] := g6.trans hvt
    refine ⟨RegInv_of_eq rfl rfl g1, g2, g3, g7, ?_, ?_, ?_, ?_⟩
    · intro e he
      rcases g8 e he with h | h
      · rw [hvm] at h; simp at h
      · exact h
    · apply merge_all_outer
      · rw [hv0]; intro e he; simp at he
      · exact h3
    · have : Entries (fun vid stid _ => Lookups r.1 vid stid)
          (r.2.2.foldl merge_lcl_vted (r.1.vted_, 0)).1 := by
        apply merge_all_entries
        · rw [hv0]; intro e he; simp at he
        · exact h4
      exact this
    · intro hnd
      apply merge_all_count
      · rw [hv0]; simp [Dict.keys]
      · exact h6 hnd
      · rw [hv0]; intro k _ hk; simp [Dict.keys] at hk
      · rw [hv0]; rfl

/-! ### Where the keys of the rv region come from -/

theorem foldl_inv_mem {σ α : Type} (P : σ → Prop) (f : σ → α → σ) (xs : List α)
    (h : ∀ s x, x ∈ xs → P s → P (f s x)) : ∀ s, P s → P (xs.foldl f s) := by
  intro s hs
  have := foldl_sofar_inv_mem (fun a _ => P a) f xs (fun a _ x hx ha => h a x hx ha) [] s hs
  exact this

theorem rv_cand_step_prov (E : Env) (L custs : List Customer) (w0 : TVG) (cust_a : Customer)
    (ha : cust_a ∈ L) (w : TVG) (cand : Vehicle) (hc : cand ∈ E.within RANGE cust_a.orig)
    (h : RvProv E L custs w0 w) : RvProv E L custs w0 (rv_cand_step E cust_a w cand) := by
  unfold rv_cand_step
  by_cases h1 : cand.queued < cand.capacity
  · by_cases h2 : (travel E cand [cust_a] 0 [] []).ok = true
    · simp only [h1, h2, if_true]
      refine ⟨h.1, ?_, h.2.2⟩
      intro v hv
      have hk : v ∈ Dict.keys (set2 w.rv_cst cand cust_a
          (travel E cand [cust_a] 0 [] []).cstout) := hv
      rw [keys_set2] at hk
      split at hk
      · exact h.2.1 v hk
      · rcases List.mem_append.mp hk with h3 | h3
        · exact h.2.1 v h3
        · right
          rw [List.mem_singleton.mp h3]
          exact ⟨cust_a, ha, hc⟩
    · simp only [h1, h2, if_true, if_false, Bool.false_eq_true]
      exact h
  · simp only [h1, if_false]
    exact h

theorem rr_step_prov (E : Env) (L custs : List Customer) (w0 : TVG) (cust_a : Customer)
    (ha : cust_a ∈ L) (w : TVG) (cust_b : Customer) (hb : cust_b ∈ custs)
    (h : RvProv E L custs w0 w) :
    RvProv E L custs w0 (rr_step E cust_a (vtvehl_of E cust_a) w cust_b) := by
  unfold rr_step
  by_cases h1 : cust_a = cust_b
  · rw [if_pos h1]; exact h
  · by_cases h2 : E.haversine cust_a.orig cust_b.orig > RANGE
    · rw [if_neg h1, if_pos h2]; exact h
    · by_cases h3 : E.haversine cust_a.dest cust_b.dest > RANGE
      · rw [if_neg h1, if_neg h2, if_pos h3]; exact h
      · by_cases h4 : (travel E (vtvehl_of E cust_a) [cust_b] 0 [] []).ok = true
        · rw [if_neg h1, if_neg h2, if_neg h3, if_pos h4]
          refine ⟨h.1, h.2.1, ?_⟩
          intro c c2 hc
          have hc2 : c2 ∈ Dict.getD (push_back_at w.rvgrph_rr_ cust_a cust_b) c [] := hc
          rw [getD_push_back_at] at hc2
          split at hc2
          · rename_i heq
            subst heq
            rcases List.mem_append.mp hc2 with h5 | h5
            · exact h.2.2 _ _ h5
            · right
              rw [List.mem_singleton.mp h5]
              refine ⟨ha, hb, ?_⟩
              unfold rr_ok
              simp only [Bool.and_eq_true, decide_eq_true_eq]
              exact ⟨⟨⟨h1, not_lt.mp h2⟩, not_lt.mp h3⟩, h4⟩
          · exact h.2.2 _ _ hc2
        · rw [if_neg h1, if_neg h2, if_neg h3, if_neg h4]; exact h

theorem rv_customer_prov (E : Env) (L custs : List Customer) (w0 : TVG) (s : RvState)
    (cust_a : Customer) (ha : cust_a ∈ L) (h : RvProv E L custs w0 s.w) :
    RvProv E L custs w0 (rv_customer E custs s cust_a).w := by
  have h1 : RvProv E L custs w0
      { s.w with matchable_custs := s.w.matchable_custs ++ [cust_a.id] } := h
  have h2 := foldl_inv_mem (RvProv E L custs w0) (rv_cand_step E cust_a)
    (E.within RANGE cust_a.orig)
    (fun w x hx hw => rv_cand_step_prov E L custs w0 cust_a ha w x hx hw) _ h1
  have h3 := foldl_inv_mem (RvProv E L custs w0) (rr_step E cust_a (vtvehl_of E cust_a))
    custs (fun w x hx hw => rr_step_prov E L custs w0 cust_a ha w x hx hw) _ h2
  unfold rv_customer
  by_cases hc : s.cancelled = true
  · rw [if_pos hc]; exact h
  · rw [if_neg hc]
    dsimp only
    by_cases hl : (E.within RANGE cust_a.orig).length = 0
    · rw [if_pos hl]; exact h2
    · rw [if_neg hl]
      by_cases ht : E.timeout_rv s.clock = true
      · rw [if_pos ht]; exact h2
      · rw [if_neg ht]; exact h3

/-- The rv region under every behaviour of the deadline: where its keys come
from. -/
theorem rv_graph_prov (E : Env) (custs : List Customer) (workers : List (List Customer))
    (w0 : TVG) : RvProv E workers.flatten custs w0 (rv_graph E custs workers w0) := by
  unfold rv_graph
  refine foldl_inv_mem
    (fun (acc : TVG × Nat) => RvProv E workers.flatten custs w0 acc.1)
    (rv_worker E custs) workers ?_ (w0, 0)
    ⟨rfl, fun _ h => Or.inl h, fun _ _ h => Or.inl h⟩
  intro acc share hshare hacc
  unfold rv_worker
  exact foldl_inv_mem (fun (s : RvState) => RvProv E workers.flatten custs w0 s.w)
    (rv_customer E custs) share
    (fun s x hx hs => rv_customer_prov E workers.flatten custs w0 s x
      (List.mem_flatten.mpr ⟨share, hshare, hx⟩) hs) _ hacc

/-! ### The virtual vehicle of the request-request test -/

theorem rv_pipeline_vehmap (E : Env)
    (nth : Nat → List (Customer × DistInt) → List (Customer × DistInt))
    (custs : List Customer) (workers : List (List Customer)) :
    (rv_prune nth (rv_graph E custs workers (init_is_matched custs reset_workspace))).vehmap
      = [] ∧
    (rv_prune nth (rv_graph E custs workers (init_is_matched custs reset_workspace))).rv_cst
      = (rv_graph E custs workers (init_is_matched custs reset_workspace)).rv_cst ∧
    (rv_prune nth (rv_graph E custs workers
      (init_is_matched custs reset_workspace))).rvgrph_rr_
      = (rv_graph E custs workers (init_is_matched custs reset_workspace)).rvgrph_rr_ ∧
    (rv_prune nth (rv_graph E custs workers
      (init_is_matched custs reset_workspace))).matchable_custs
      = (rv_graph E custs workers (init_is_matched custs reset_workspace)).matchable_custs :=
  ⟨(rv_graph_prov E custs workers (init_is_matched custs reset_workspace)).1, rfl, rfl, rfl⟩

/-- C23 (as stated, refuted): with a constructor that gives a vehicle the
capacity `-load`, the convention of `types.h`, the vehicle built for customer 1
is the one of the call `Vehicle(1, 10, 20, 0, 100, 0, ..)`: its load argument
is 0 and its capacity is 0. It differs from the vehicle of load -1, which has
capacity 1. -/
theorem virtual_vehicle_has_load_zero :
    vtvehl_of exEnv custA = exEnv.make_vehicle 1 10 20 0 100 0 ∧
    (vtvehl_of exEnv custA).capacity = 0 ∧
    (exEnv.make_vehicle 1 10 20 0 100 (-1)).capacity = 1 ∧
    vtvehl_of exEnv custA ≠
      exEnv.make_vehicle custA.id custA.orig custA.dest custA.early custA.late (-1) := by
  refine ⟨?_, ?_, ?_, ?_⟩ <;> decide

/-- C23 (amended): the vehicle of the request-request test of a customer `c` is
the one the constructor returns for the id, origin, destination and time window
of `c` and the load 0, and an edge from `c` to `c2` is in `rvgrph_rr_` only
when `travel` succeeds for that vehicle and `{c2}`. The run of the rv region,
the heuristic and the rtv region from the reset workspace returns, for every
behaviour of the deadlines; after it every vehicle key of `rv_cst` was returned
by the index for a customer or is a vehicle of the feed, every entry of
`vehmap` is a vehicle of the feed under its own id, and every vehicle key of
`vted_` is the id of a vehicle of the feed. -/
theorem virtual_vehicle_not_leaked (E : Env)
    (nth : Nat → List (Customer × DistInt) → List (Customer × DistInt))
    (custs : List Customer) (cust_workers : List (List Customer))
    (vehl_workers : List (List Vehicle)) (hnth : NthElementSpec nth) :
    (∀ c, vtvehl_of E c = E.make_vehicle c.id c.orig c.dest c.early c.late 0) ∧
    (∀ c c2, c2 ∈ Dict.getD (rv_graph E custs cust_workers
        (init_is_matched custs reset_workspace)).rvgrph_rr_ c [] →
      (travel E (E.make_vehicle c.id c.orig c.dest c.early c.late 0) [c2] 0 [] []).ok
        = true) ∧
    ∃ res, rtv_graph E vehl_workers (rv_prune nth (rv_graph E custs cust_workers
        (init_is_matched custs reset_workspace))) = some res ∧
      (∀ v ∈ Dict.keys res.1.rv_cst,
        (∃ c ∈ cust_workers.flatten, v ∈ E.within RANGE c.orig) ∨
        v ∈ vehl_workers.flatten) ∧
      (∀ e ∈ res.1.vehmap, e.2 ∈ vehl_workers.flatten ∧ e.2.id = e.1) ∧
      (∀ e ∈ res.1.vted_, ∃ v ∈ vehl_workers.flatten, v.id = e.1) := by
  have hP := rv_graph_prov E custs cust_workers (init_is_matched custs reset_workspace)
  refine ⟨fun _ => rfl, ?_, ?_⟩
  · intro c c2 h
    rcases hP.2.2 c c2 h with h1 | ⟨_, _, h1⟩
    · simp [init_is_matched, reset_workspace, Dict.getD, Dict.find] at h1
    · unfold rr_ok at h1
      simp only [Bool.and_eq_true] at h1
      exact h1.2
  · obtain ⟨hR, hvt, hvs, hvr, hne, hOk⟩ := rv_pipeline_ready E nth hnth custs cust_workers
    obtain ⟨hvm, hcst, _, _⟩ := rv_pipeline_vehmap E nth custs cust_workers
    obtain ⟨res, hrun⟩ := rtv_graph_total E vehl_workers _ hR
      (by rw [hvt]; intro e he; simp at he) hne
    obtain ⟨_, _, _, k1, k2, k3, _, _⟩ :=
      rtv_graph_keep E vehl_workers _ res hR hvt hvm hne hrun
    refine ⟨res, hrun, ?_, ?_, ?_⟩
    · intro v hv
      rcases k1 v hv with h1 | h1
      · left
        rw [hcst] at h1
        rcases hP.2.1 v h1 with h2 | h2
        · simp [init_is_matched, reset_workspace, Dict.keys] at h2
        · exact h2
      · exact Or.inr h1
    · intro e he
      exact ⟨(k2 e he).1, (k2 e he).2.1⟩
    · intro e he
      obtain ⟨v, hv, hid, _⟩ := k3 e he
      exact ⟨v, hv, hid⟩

/-- C23 (amended) at a concrete input: two customers and the two-seat vehicle,
with the oracle of the examples. -/
theorem virtual_vehicle_not_leaked_witness :
    (rtv_graph exEnv [[vehl1]] (rv_prune nth_by_sort (rv_graph exEnv [custA, custB]
      [[custA, custB]] (init_is_matched [custA, custB] reset_workspace)))).map
      (fun res => (Dict.keys res.1.rv_cst, res.1.vehmap, Dict.keys res.1.vted_)) =
      some ([vehl1], [(7, vehl1)], [7]) ∧
    ((∀ c, vtvehl_of exEnv c = exEnv.make_vehicle c.id c.orig c.dest c.early c.late 0) ∧
    (∀ c c2, c2 ∈ Dict.getD (rv_graph exEnv [custA, custB] [[custA, custB]]
        (init_is_matched [custA, custB] reset_workspace)).rvgrph_rr_ c [] →
      (travel exEnv (exEnv.make_vehicle c.id c.orig c.dest c.early c.late 0) [c2] 0 [] []).ok
        = true) ∧
    ∃ res, rtv_graph exEnv [[vehl1]] (rv_prune nth_by_sort (rv_graph exEnv [custA, custB]
        [[custA, custB]] (init_is_matched [custA, custB] reset_workspace))) = some res ∧
      (∀ v ∈ Dict.keys res.1.rv_cst,
        (∃ c ∈ [[custA, custB]].flatten, v ∈ exEnv.within RANGE c.orig) ∨
        v ∈ [[vehl1]].flatten) ∧
      (∀ e ∈ res.1.vehmap, e.2 ∈ [[vehl1]].flatten ∧ e.2.id = e.1) ∧
      (∀ e ∈ res.1.vted_, ∃ v ∈ [[vehl1]].flatten, v.id = e.1)) :=
  ⟨by decide!, virtual_vehicle_not_leaked exEnv nth_by_sort [custA, custB] [[custA, custB]]
    [[vehl1]] nth_by_sort_spec⟩

/-! ### One column `y` and one equality row per customer -/

/-- With distinct matchable customers and registered trip ids, the customer `c`
has exactly one column `(c, -1)`. -/
theorem y_col_unique (E : Env) (pen : Int) (w : TVG) (nvted : Int) (m : Mip)
    (h : build_mip E pen w nvted = some m) (hR : RegInv w)
    (hG : ∀ e ∈ w.vted_, ∀ t ∈ Dict.keys e.2, t ∈ Dict.keys w.trip_)
    (hnd : w.matchable_custs.Nodup) (c : CustId) (hc : c ∈ w.matchable_custs) :
    ∃! j, (j, (c, -1)) ∈ m.colmap := by
  have hcm := (build_mip_spec E pen w nvted m h).2.2.2.1
  have hy : (c, (-1 : SharedTripId)) ∈ y_cols w := List.mem_map.mpr ⟨c, hc, rfl⟩
  have hynd : (y_cols w).Nodup := by
    unfold y_cols
    exact List.Nodup.map (fun a b hab => (Prod.mk.inj hab).1) hnd
  obtain ⟨j, hj⟩ := exists_enumFrom_of_mem hy (1 + (x_cols w).length)
  refine ⟨j, ?_, ?_⟩
  · show (j, (c, -1)) ∈ m.colmap
    rw [hcm]
    exact mem_enumFrom_append_right _ hj
  · intro j2 hj2
    have hj3 : (j2, (c, (-1 : SharedTripId))) ∈ m.colmap := hj2
    rw [hcm] at hj3
    rcases mem_enumFrom_append hj3 with hx | hy2
    · exfalso
      obtain ⟨tbl, hv, ht⟩ := (mem_x_cols w c (-1)).mp (snd_mem_of_enumFrom hx)
      have := ((mem_keys_of_RegInv hR (-1)).mp (hG _ hv _ ht)).1
      simp only [SharedTripId] at this
      omega
    · exact enumFrom_val_unique hynd _ hy2 hj

/-- With distinct matchable customers, the customer `c` has exactly one row
among the rows of the customers, and it is an equality row. -/
theorem cust_row_unique (E : Env) (pen : Int) (w : TVG) (nvted : Int) (m : Mip)
    (h : build_mip E pen w nvted = some m) (hnd : w.matchable_custs.Nodup) (c : CustId)
    (hc : c ∈ w.matchable_custs) :
    ∃! i, (i, c) ∈ List.enumFrom (w.vted_.length + 1) w.matchable_custs ∧
      Dict.find m.row_bnds i = some (RowBnd.fx 1) := by
  obtain ⟨i, hi⟩ := exists_enumFrom_of_mem hc (w.vted_.length + 1)
  refine ⟨i, ⟨hi, cust_row_bound E pen w nvted m h i c hi⟩, ?_⟩
  rintro i2 ⟨hi2, _⟩
  exact enumFrom_val_unique hnd _ hi2 hi

/-- The number of equality rows is the number of matchable customers. -/
theorem fx_rows_length (E : Env) (pen : Int) (w : TVG) (nvted : Int) (m : Mip)
    (h : build_mip E pen w nvted = some m) :
    (m.row_bnds.filter (fun e => decide (e.2 = RowBnd.fx 1))).length =
      w.matchable_custs.length := by
  rw [(build_mip_spec E pen w nvted m h).2.2.2.2.2.2.1]
  rw [filter_enumFrom_length (fun e => decide (e.2 = RowBnd.fx 1))
    (fun b => decide (b = RowBnd.fx 1)) _ 1 (fun _ _ => rfl)]
  rw [List.filter_append]
  have h1 : (w.vted_.map (fun _ => RowBnd.up 1)).filter (fun b => decide (b = RowBnd.fx 1))
      = [] := by
    apply List.filter_eq_nil_iff.mpr
    intro b hb
    obtain ⟨_, _, rfl⟩ := List.mem_map.mp hb
    simp
  have h2 : (w.matchable_custs.map (fun _ => RowBnd.fx 1)).filter
      (fun b => decide (b = RowBnd.fx 1)) = w.matchable_custs.map (fun _ => RowBnd.fx 1) := by
    apply List.filter_eq_self.mpr
    intro b hb
    obtain ⟨_, _, rfl⟩ := List.mem_map.mp hb
    simp
  rw [h1, h2, List.nil_append, List.length_map]

/-- C24: the run of the rv region, the heuristic and the rtv region from the
reset workspace, when the deadline of the rv region does not expire, the shares
of the threads are a rearrangement of `customers()` and no two customers of the
feed have the same id. After the rv region `matchable_custs` is a rearrangement
of the ids of the feed without repetition; the rtv region returns and leaves it
as it is; the integer program is built, and in it every customer of the feed,
with or without a candidate vehicle, has exactly one column `y` and exactly one
row among the rows of the customers, which is an equality row; the program has
as many equality rows as the feed has customers. -/
theorem each_customer_once (E : Env)
    (nth : Nat → List (Customer × DistInt) → List (Customer × DistInt))
    (pen : Int) (custs : List Customer) (cust_workers : List (List Customer))
    (vehl_workers : List (List Vehicle)) (hnth : NthElementSpec nth)
    (hno : ∀ n, E.timeout_rv n = false) (hperm : cust_workers.flatten.Perm custs)
    (hnd : (custs.map (fun c => c.id)).Nodup) :
    ((rv_graph E custs cust_workers (init_is_matched custs reset_workspace)).matchable_custs).Perm
      (custs.map (fun c => c.id)) ∧
    ((rv_graph E custs cust_workers
      (init_is_matched custs reset_workspace)).matchable_custs).Nodup ∧
    ∃ res, rtv_graph E vehl_workers (rv_prune nth (rv_graph E custs cust_workers
        (init_is_matched custs reset_workspace))) = some res ∧
      res.1.matchable_custs =
        (rv_graph E custs cust_workers (init_is_matched custs reset_workspace)).matchable_custs ∧
      ∃ m, build_mip E pen res.1 res.2 = some m ∧
        (∀ c ∈ custs, ∃! j, (j, (c.id, -1)) ∈ m.colmap) ∧
        (∀ c ∈ custs, ∃! i,
          (i, c.id) ∈ List.enumFrom (res.1.vted_.length + 1) res.1.matchable_custs ∧
          Dict.find m.row_bnds i = some (RowBnd.fx 1)) ∧
        (m.row_bnds.filter (fun e => decide (e.2 = RowBnd.fx 1))).length = custs.length := by
  have hm : (rv_graph E custs cust_workers
      (init_is_matched custs reset_workspace)).matchable_custs =
      cust_workers.flatten.map (fun c => c.id) := (rv_graph_inv E custs cust_workers hno).2.2
  have hp : ((rv_graph E custs cust_workers
      (init_is_matched custs reset_workspace)).matchable_custs).Perm
      (custs.map (fun c => c.id)) := by
    rw [hm]
    exact hperm.map _
  have hn : ((rv_graph E custs cust_workers
      (init_is_matched custs reset_workspace)).matchable_custs).Nodup :=
    (List.Perm.nodup_iff hp).mpr hnd
  refine ⟨hp, hn, ?_⟩
  obtain ⟨hR, hvt, hvs, hvr, hne, hOk⟩ := rv_pipeline_ready E nth hnth custs cust_workers
  obtain ⟨hvm, _, _, hmc⟩ := rv_pipeline_vehmap E nth custs cust_workers
  have hG0 : ∀ e ∈ (rv_prune nth (rv_graph E custs cust_workers
      (init_is_matched custs reset_workspace))).vted_,
      ∀ i ∈ Dict.keys e.2, i ∈ Dict.keys (rv_prune nth (rv_graph E custs cust_workers
      (init_is_matched custs reset_workspace))).trip_ := by
    rw [hvt]; intro e he; simp at he
  obtain ⟨res, hrun⟩ := rtv_graph_total E vehl_workers _ hR hG0 hne
  obtain ⟨hRr, k1, _⟩ := rtv_graph_keep E vehl_workers _ res hR hvt hvm hne hrun
  have hG : ∀ e ∈ res.1.vted_, ∀ t ∈ Dict.keys e.2, t ∈ Dict.keys res.1.trip_ :=
    fun e he t ht => (vted_ids_registered_of_run E vehl_workers _ res hR hG0 hrun e he t ht).1
  have hmc2 := k1.trans hmc
  refine ⟨res, hrun, hmc2, ?_⟩
  obtain ⟨m, hmip⟩ := build_mip_total E pen res.1 res.2 hG
  have hn2 : res.1.matchable_custs.Nodup := by rw [hmc2]; exact hn
  have hmem : ∀ c ∈ custs, c.id ∈ res.1.matchable_custs := by
    intro c hc
    rw [hmc2]
    exact hp.mem_iff.mpr (List.mem_map.mpr ⟨c, hc, rfl⟩)
  refine ⟨m, hmip, ?_, ?_, ?_⟩
  · intro c hc
    exact y_col_unique E pen res.1 res.2 m hmip hRr hG hn2 c.id (hmem c hc)
  · intro c hc
    exact cust_row_unique E pen res.1 res.2 m hmip hn2 c.id (hmem c hc)
  · rw [fx_rows_length E pen res.1 res.2 m hmip, hmc2, hp.length_eq, List.length_map]

/-- C24 at a concrete input: customer 1 has a candidate vehicle and customer 2
has none; the program has the columns `y` 3 and 4 and the equality rows 2 and
3. -/
theorem each_customer_once_witness :
    (farEnv.within RANGE custB.orig = []) ∧
    ((rtv_graph farEnv [[vehl1]] (rv_prune nth_by_sort (rv_graph farEnv [custA, custB]
      [[custA], [custB]] (init_is_matched [custA, custB] reset_workspace)))).bind
      (fun res => build_mip farEnv 1000 res.1 res.2)).map (fun m => (m.colmap, m.row_bnds)) =
      some ([(1, (7, 1)), (2, (7, 2)), (3, (1, -1)), (4, (2, -1))],
        [(1, RowBnd.up 1), (2, RowBnd.fx 1), (3, RowBnd.fx 1)]) ∧
    ∃ res, rtv_graph farEnv [[vehl1]] (rv_prune nth_by_sort (rv_graph farEnv [custA, custB]
        [[custA], [custB]] (init_is_matched [custA, custB] reset_workspace))) = some res ∧
      res.1.matchable_custs =
        (rv_graph farEnv [custA, custB] [[custA], [custB]]
          (init_is_matched [custA, custB] reset_workspace)).matchable_custs ∧
      ∃ m, build_mip farEnv 1000 res.1 res.2 = some m ∧
        (∀ c ∈ [custA, custB], ∃! j, (j, (c.id, -1)) ∈ m.colmap) ∧
        (∀ c ∈ [custA, custB], ∃! i,
          (i, c.id) ∈ List.enumFrom (res.1.vted_.length + 1) res.1.matchable_custs ∧
          Dict.find m.row_bnds i = some (RowBnd.fx 1)) ∧
        (m.row_bnds.filter (fun e => decide (e.2 = RowBnd.fx 1))).length =
          [custA, custB].length :=
  ⟨by decide, by decide!,
    (each_customer_once farEnv nth_by_sort 1000 [custA, custB] [[custA], [custB]] [[vehl1]]
      nth_by_sort_spec (fun _ => rfl) (List.Perm.refl _) (by decide)).2.2⟩

/-! ### The lookups of the extraction -/

/-- The lookups of the extraction loop for a column of the column map succeed
when they succeed for every edge of `vted_`. -/
theorem col_commit_total (E : Env) (w : TVG) (sel : Nat → Bool) (j : Nat)
    (e : Int × SharedTripId) (hj : (j, e) ∈ List.enumFrom 1 (x_cols w ++ y_cols w))
    (hL : ∀ v t, (v, t) ∈ x_cols w → Lookups w v t) :
    ∃ r, col_commit E w (List.enumFrom 1 (x_cols w ++ y_cols w)) sel j = some r := by
  have hget : Dict.getD (List.enumFrom 1 (x_cols w ++ y_cols w)) j (0, 0) = e := by
    unfold Dict.getD
    rw [Dict.find_some_of_mem (keys_enumFrom_nodup _ _) hj]
    rfl
  unfold col_commit
  dsimp only
  rw [hget]
  rcases colmap_cases w j e hj with hx | ⟨c, _, hy⟩
  · obtain ⟨h1, h2, h3, h4⟩ := hL e.1 e.2 hx
    obtain ⟨vehl, hv⟩ := Option.isSome_iff_exists.mp h1
    obtain ⟨r, hr⟩ := Option.isSome_iff_exists.mp h2
    obtain ⟨sc, hsc⟩ := Option.isSome_iff_exists.mp h3
    obtain ⟨trip, ht⟩ := Option.isSome_iff_exists.mp h4
    rw [hv, hr, hsc, ht]
    dsimp only
    by_cases h5 : e.2 = -1
    · simp [h5]
    · by_cases h6 : sel j = true
      · simp only [h5, h6, if_true, if_false]
        exact ⟨_, rfl⟩
      · simp [h5, h6]
  · rw [hy]
    simp

/-! ### The number of columns and of cells -/

theorem length_flatMap_const {α β : Type} (f : α → List β) (n : Nat) (l : List α)
    (h : ∀ a ∈ l, (f a).length = n) : (l.flatMap f).length = l.length * n := by
  induction l with
  | nil => simp
  | cons a r ih =>
    simp only [List.flatMap_cons, List.length_append, List.length_cons]
    rw [h a (List.mem_cons_self _ _), ih (fun b hb => h b (List.mem_cons_of_mem _ hb))]
    ring

/-- The program has one cell per row and column of the map. -/
theorem cells_length (E : Env) (pen : Int) (w : TVG) (nvted : Int) (m : Mip)
    (h : build_mip E pen w nvted = some m) :
    m.cells.length = (w.vted_.length + w.matchable_custs.length) * m.colmap.length := by
  rw [(build_mip_spec E pen w nvted m h).2.2.2.2.2.2.2.1]
  rw [List.length_append,
    length_flatMap_const _ m.colmap.length _ (fun e _ => by simp [vehl_block]),
    length_flatMap_const _ m.colmap.length _ (fun e _ => by simp [cust_block])]
  simp only [List.enumFrom_length]
  ring

theorem manyCusts_length (n : Nat) : (manyCusts n).length = n := by
  simp [manyCusts]

/-- C26 (as stated, refuted): a workspace with one edge and 65535 matchable
customers. The program has 65536 columns and 65536 rows and 4294967296 cells
are written, while the `int` product `ncol * nrow` wraps to 0 and the length
requested for `ia`, `ja` and `ar` is 1. -/
theorem cell_index_exceeds_allocation :
    ∃ m, build_mip exEnv 1000 wsBig 1 = some m ∧
      (1 : Int) = ((x_cols wsBig).length : Int) ∧
      m.ncol = 65536 ∧ m.nrow = 65536 ∧ m.colmap.length = 65536 ∧
      m.cells.length = 4294967296 ∧ alloc_len m.ncol m.nrow = 1 ∧
      ¬ ((m.cells.length : Int) < alloc_len m.ncol m.nrow) := by
  have hv : wsBig.vted_ = [(7, [(1, 5)])] := rfl
  have htr : wsBig.trip_ = [(1, [custA])] := rfl
  have hG : ∀ e ∈ wsBig.vted_, ∀ t ∈ Dict.keys e.2, t ∈ Dict.keys wsBig.trip_ := by
    intro e he t ht
    rw [hv, List.mem_singleton] at he
    subst he
    rw [htr]
    simpa [Dict.keys] using ht
  obtain ⟨m, hmip⟩ := build_mip_total exEnv 1000 wsBig 1 hG
  obtain ⟨_, s2, s3, s4, _⟩ := build_mip_spec exEnv 1000 wsBig 1 m hmip
  have hM : wsBig.matchable_custs.length = 65535 := by
    have h : wsBig.matchable_custs = manyCusts 65535 := rfl
    rw [h, manyCusts_length]
  have hV : wsBig.vted_.length = 1 := rfl
  have hX : (x_cols wsBig).length = 1 := rfl
  have hc := cells_length exEnv 1000 wsBig 1 m hmip
  have hcol : m.colmap.length = 65536 := by
    have hy : (y_cols wsBig).length = 65535 := by
      unfold y_cols
      rw [List.length_map, hM]
    rw [s4, List.enumFrom_length, List.length_append, hX, hy]
  have hncol : m.ncol = 65536 := by
    rw [s2, hM]
    decide
  have hnrow : m.nrow = 65536 := by
    rw [s3, hM, hV]
    decide
  have hcells : m.cells.length = 4294967296 := by
    rw [hc, hM, hV, hcol]
  have hal : alloc_len m.ncol m.nrow = 1 := by
    rw [hncol, hnrow]
    decide
  refine ⟨m, hmip, by rw [hX]; rfl, hncol, hnrow, hcol, hcells, hal, ?_⟩
  rw [hal, hcells]
  decide

/-- C26 (amended): the run of the rv region, the heuristic and the rtv region
from the reset workspace, for a vehicle feed without repeated ids. The run
returns with the counter `nvted` equal to the number of edges of `vted_`; the
program is built, the column map has `nvted + |matchable_custs|` entries with
the indices `1, 2, ..` in order, and one cell is written per row and column.
When the number of columns, the number of rows and their product plus 1 do not
exceed the largest `int`, the `int` variables `ncol` and `nrow` hold these
counts, the column indices are `1 .. ncol`, the number of cells written (the
last value of `cel_idx`) is `nrow * ncol`, and it is below the length
`ncol * nrow + 1` requested for `ia`, `ja` and `ar`. -/
theorem column_count (E : Env)
    (nth : Nat → List (Customer × DistInt) → List (Customer × DistInt))
    (pen : Int) (custs : List Customer) (cust_workers : List (List Customer))
    (vehl_workers : List (List Vehicle)) (hnth : NthElementSpec nth)
    (hU : (vehl_workers.flatten.map (fun v => v.id)).Nodup) :
    ∃ res, rtv_graph E vehl_workers (rv_prune nth (rv_graph E custs cust_workers
        (init_is_matched custs reset_workspace))) = some res ∧
      res.2 = vted_size res.1.vted_ ∧ res.2 = ((x_cols res.1).length : Int) ∧
      ∃ m, build_mip E pen res.1 res.2 = some m ∧
        m.ncol = wrap32 (res.2 + (res.1.matchable_custs.length : Int)) ∧
        m.nrow =
          wrap32 ((res.1.vted_.length : Int) + (res.1.matchable_custs.length : Int)) ∧
        (m.colmap.length : Int) = res.2 + (res.1.matchable_custs.length : Int) ∧
        Dict.keys m.colmap = List.range' 1 m.colmap.length ∧
        m.cells.length =
          (res.1.vted_.length + res.1.matchable_custs.length) * m.colmap.length ∧
        ((m.colmap.length : Int) ≤ 2147483647 →
          (res.1.vted_.length : Int) + (res.1.matchable_custs.length : Int) ≤ 2147483647 →
          (m.colmap.length : Int) *
            ((res.1.vted_.length : Int) + (res.1.matchable_custs.length : Int)) + 1 ≤
              2147483647 →
          m.ncol = res.2 + (res.1.matchable_custs.length : Int) ∧
          m.ncol = (m.colmap.length : Int) ∧
          m.nrow = (res.1.vted_.length : Int) + (res.1.matchable_custs.length : Int) ∧
          Dict.keys m.colmap = List.range' 1 m.ncol.toNat ∧
          (m.cells.length : Int) = m.nrow * m.ncol ∧
          alloc_len m.ncol m.nrow = m.ncol * m.nrow + 1 ∧
          (m.cells.length : Int) < alloc_len m.ncol m.nrow) := by
  obtain ⟨hR, hvt, hvs, hvr, hne, hOk⟩ := rv_pipeline_ready E nth hnth custs cust_workers
  obtain ⟨hvm, _, _, _⟩ := rv_pipeline_vehmap E nth custs cust_workers
  have hG0 : ∀ e ∈ (rv_prune nth (rv_graph E custs cust_workers
      (init_is_matched custs reset_workspace))).vted_,
      ∀ i ∈ Dict.keys e.2, i ∈ Dict.keys (rv_prune nth (rv_graph E custs cust_workers
      (init_is_matched custs reset_workspace))).trip_ := by
    rw [hvt]; intro e he; simp at he
  obtain ⟨res, hrun⟩ := rtv_graph_total E vehl_workers _ hR hG0 hne
  obtain ⟨_, _, _, _, _, _, _, k5⟩ := rtv_graph_keep E vehl_workers _ res hR hvt hvm hne hrun
  have hG : ∀ e ∈ res.1.vted_, ∀ t ∈ Dict.keys e.2, t ∈ Dict.keys res.1.trip_ :=
    fun e he t ht => (vted_ids_registered_of_run E vehl_workers _ res hR hG0 hrun e he t ht).1
  have hn : res.2 = vted_size res.1.vted_ := k5 hU
  have hx : res.2 = ((x_cols res.1).length : Int) := by rw [x_cols_length]; exact hn
  obtain ⟨m, hmip⟩ := build_mip_total E pen res.1 res.2 hG
  obtain ⟨_, s2, s3, s4, _⟩ := build_mip_spec E pen res.1 res.2 m hmip
  have hlen : (m.colmap.length : Int) = res.2 + (res.1.matchable_custs.length : Int) := by
    rw [s4, hx]
    simp [y_cols]
  have hkeys : Dict.keys m.colmap = List.range' 1 m.colmap.length := by
    rw [s4]
    unfold Dict.keys
    rw [List.enumFrom_map_fst, List.enumFrom_length]
  have hc := cells_length E pen res.1 res.2 m hmip
  refine ⟨res, hrun, hn, hx, m, hmip, s2, s3, hlen, hkeys, hc, ?_⟩
  intro b1 b2 b3
  have hncol : m.ncol = (m.colmap.length : Int) := by
    rw [s2, ← hlen]
    exact wrap32_of_range _ (by omega) b1
  have hnrow : m.nrow =
      (res.1.vted_.length : Int) + (res.1.matchable_custs.length : Int) := by
    rw [s3]
    exact wrap32_of_range _ (by omega) b2
  have hcells : (m.cells.length : Int) = m.nrow * m.ncol := by
    rw [hc, hnrow, hncol]
    push_cast
    ring
  have hprod : 0 ≤ m.ncol * m.nrow := by
    rw [hncol, hnrow]
    exact mul_nonneg (Int.ofNat_nonneg _) (by omega)
  have hb : m.ncol * m.nrow + 1 ≤ 2147483647 := by
    rw [hncol, hnrow]
    exact b3
  have hal : alloc_len m.ncol m.nrow = m.ncol * m.nrow + 1 := by
    unfold alloc_len
    rw [wrap32_of_range (m.ncol * m.nrow) (by omega) (by omega)]
    exact wrap32_of_range _ (by omega) hb
  refine ⟨hncol.trans hlen, hncol, hnrow, ?_, hcells, hal, ?_⟩
  · rw [hncol, Int.toNat_ofNat]
    exact hkeys
  · rw [hal, hcells, mul_comm]
    exact Int.lt_succ_self _

/-- C26 (amended) at a concrete input: two customers and the two-seat vehicle,
with the oracle of the examples; four edges, six columns, three rows, eighteen
cells, and a requested length of nineteen. -/
theorem column_count_witness :
    ((rtv_graph exEnv [[vehl1]] (rv_prune nth_by_sort (rv_graph exEnv [custA, custB]
      [[custA, custB]] (init_is_matched [custA, custB] reset_workspace)))).bind
      (fun res => (build_mip exEnv 1000 res.1 res.2).map
        (fun m => (res.2, m.ncol, m.nrow, Dict.keys m.colmap, m.cells.length,
          alloc_len m.ncol m.nrow)))) =
      some (4, 6, 3, [1, 2, 3, 4, 5, 6], 18, 19) ∧
    ∃ res, rtv_graph exEnv [[vehl1]] (rv_prune nth_by_sort (rv_graph exEnv [custA, custB]
        [[custA, custB]] (init_is_matched [custA, custB] reset_workspace))) = some res ∧
      res.2 = vted_size res.1.vted_ ∧ res.2 = ((x_cols res.1).length : Int) ∧
      ∃ m, build_mip exEnv 1000 res.1 res.2 = some m ∧
        m.ncol = wrap32 (res.2 + (res.1.matchable_custs.length : Int)) ∧
        m.nrow =
          wrap32 ((res.1.vted_.length : Int) + (res.1.matchable_custs.length : Int)) ∧
        (m.colmap.length : Int) = res.2 + (res.1.matchable_custs.length : Int) ∧
        Dict.keys m.colmap = List.range' 1 m.colmap.length ∧
        m.cells.length =
          (res.1.vted_.length + res.1.matchable_custs.length) * m.colmap.length ∧
        ((m.colmap.length : Int) ≤ 2147483647 →
          (res.1.vted_.length : Int) + (res.1.matchable_custs.length : Int) ≤ 2147483647 →
          (m.colmap.length : Int) *
            ((res.1.vted_.length : Int) + (res.1.matchable_custs.length : Int)) + 1 ≤
              2147483647 →
          m.ncol = res.2 + (res.1.matchable_custs.length : Int) ∧
          m.ncol = (m.colmap.length : Int) ∧
          m.nrow = (res.1.vted_.length : Int) + (res.1.matchable_custs.length : Int) ∧
          Dict.keys m.colmap = List.range' 1 m.ncol.toNat ∧
          (m.cells.length : Int) = m.nrow * m.ncol ∧
          alloc_len m.ncol m.nrow = m.ncol * m.nrow + 1 ∧
          (m.cells.length : Int) < alloc_len m.ncol m.nrow) :=
  ⟨by decide!, column_count exEnv nth_by_sort 1000 [custA, custB] [[custA, custB]] [[vehl1]]
    nth_by_sort_spec (by decide)⟩

/-! ### Trips without a repeated customer -/

theorem join_no_dups_nodup (trip_b : SharedTrip) :
    ∀ trip_a : SharedTrip, trip_a.Nodup → (join_no_dups trip_a trip_b).Nodup := by
  unfold join_no_dups
  induction trip_b with
  | nil => intro a ha; exact ha
  | cons c r ih =>
    intro a ha
    simp only [List.foldl_cons]
    apply ih
    split
    · exact ha
    · rename_i hc
      exact List.nodup_append.mpr ⟨ha, by simp, by
        intro x hx hx2
        rw [List.mem_singleton.mp hx2] at hx
        exact hc hx⟩

theorem join_no_dups_mem (trip_b : SharedTrip) :
    ∀ (trip_a : SharedTrip) (x : Customer), x ∈ join_no_dups trip_a trip_b →
      x ∈ trip_a ∨ x ∈ trip_b := by
  unfold join_no_dups
  induction trip_b with
  | nil => intro a x hx; exact Or.inl hx
  | cons c r ih =>
    intro a x hx
    simp only [List.foldl_cons] at hx
    rcases ih _ x hx with h | h
    · split at h
      · exact Or.inl h
      · rcases List.mem_append.mp h with h1 | h1
        · exact Or.inl h1
        · right
          rw [List.mem_singleton.mp h1]
          exact List.mem_cons_self _ _
    · exact Or.inr (List.mem_cons_of_mem _ h)

theorem add_trip_Good (C : Customer → Prop) {w : TVG} (hR : RegInv w) (t : SharedTrip)
    (hG : Good C w) (hn : t.Nodup) (hC : ∀ c ∈ t, C c) : Good C (add_trip w t).2 := by
  rcases add_trip_cases hR t with ⟨h1, _⟩ | ⟨_, _, h2⟩
  · rw [h1]; exact hG
  · rw [h2]
    intro e he
    rcases List.mem_append.mp he with h | h
    · exact hG e h
    · rw [List.mem_singleton.mp h]
      exact ⟨hn, hC⟩

/-- The block that records a trip keeps `GInv` when the trip has no repeated
customer and its customers satisfy `C`. -/
theorem record_trip_GInv (C : Customer → Prop) {base : Dict SharedTripId SharedTrip}
    {vid : VehlId} {s : RtvState} (k : Nat) (shtrip : SharedTrip) (cst : DistInt)
    (sch : List Stop) (rte : List Wayp) (h : GInv C base vid s)
    (hpre : 3 ≤ k → SubtripsKnown s k shtrip) (hn : shtrip.Nodup) (hC : ∀ c ∈ shtrip, C c) :
    GInv C base vid (record_trip vid k shtrip cst sch rte s) := by
  obtain ⟨⟨hT, hV⟩, hG, hGG⟩ := h
  refine ⟨record_trip_inv k shtrip cst sch rte hT hV hpre, ?_, ?_⟩
  · exact add_trip_Good C hT.1 shtrip hG hn hC
  · have h1 : (record_trip vid k shtrip cst sch rte s).w.rvgrph_rv_ = s.w.rvgrph_rv_ :=
      add_trip_rvgrph_rv s.w shtrip
    have h2 : (record_trip vid k shtrip cst sch rte s).w.rvgrph_rr_ = s.w.rvgrph_rr_ :=
      add_trip_rvgrph_rr s.w shtrip
    unfold GoodGraph
    rw [h1, h2]
    exact hGG

theorem GInv_of_eq (C : Customer → Prop) {base : Dict SharedTripId SharedTrip} {vid : VehlId}
    {s s1 : RtvState} (h1 : s1.w.stid_ = s.w.stid_) (h2 : s1.w.trip_ = s.w.trip_)
    (h3 : s1.lcl_trip = s.lcl_trip) (h4 : s1.lcl_vted = s.lcl_vted)
    (h5 : s1.w.vted_ = s.w.vted_) (h6 : s1.tripk = s.tripk)
    (h7 : s1.w.rvgrph_rv_ = s.w.rvgrph_rv_) (h8 : s1.w.rvgrph_rr_ = s.w.rvgrph_rr_)
    (h : GInv C base vid s) : GInv C base vid s1 := by
  obtain ⟨⟨hT, hV⟩, hG, hGG⟩ := h
  refine ⟨⟨TripsInv_of_eq h1 h2 h3 h4 h5 hT, VehlInv_of_eq h3 h4 h6 hV⟩, ?_, ?_⟩
  · unfold Good; rw [h2]; exact hG
  · unfold GoodGraph; rw [h7, h8]; exact hGG

theorem size1_step_GInv (C : Customer → Prop) {base : Dict SharedTripId SharedTrip}
    (vehl : Vehicle) (s : RtvState) (cust : Customer) (hc : C cust)
    (h : GInv C base vehl.id s) : GInv C base vehl.id (size1_step vehl s cust) := by
  unfold size1_step
  apply record_trip_GInv
  · exact GInv_of_eq C rfl rfl rfl rfl rfl rfl rfl rfl h
  · intro h3; omega
  · simp
  · intro c hc2
    rw [List.mem_singleton.mp hc2]
    exact hc

theorem rr_inner_GInv (C : Customer → Prop) {base : Dict SharedTripId SharedTrip} (E : Env)
    (vehl : Vehicle) (cust_a : Customer) (s : RtvState) (cust_b : Customer)
    (hab : cust_a ≠ cust_b) (ha : C cust_a) (hb : C cust_b) (h : GInv C base vehl.id s) :
    GInv C base vehl.id (rr_inner E vehl cust_a s cust_b) := by
  unfold rr_inner
  simp only
  split
  · apply record_trip_GInv _ _ _ _ _ _ h (fun h3 => by omega)
    · simp [hab]
    · intro c hc
      simp only [List.mem_cons, List.mem_singleton, List.not_mem_nil, or_false] at hc
      rcases hc with rfl | rfl
      · exact ha
      · exact hb
  · exact h

theorem rr_outer_GInv (C : Customer → Prop) {base : Dict SharedTripId SharedTrip} (E : Env)
    (vehl : Vehicle) (s : RtvState) (kv : Customer × List Customer)
    (hkv : C kv.1 ∧ ∀ c ∈ kv.2, kv.1 ≠ c ∧ C c) (h : GInv C base vehl.id s) :
    GInv C base vehl.id (rr_outer E vehl s kv) := by
  unfold rr_outer
  split
  · exact h
  · exact foldl_inv_mem (GInv C base vehl.id) _ kv.2
      (fun s1 x hx hs => rr_inner_GInv C E vehl kv.1 s1 x (hkv.2 x hx).1 hkv.1
        (hkv.2 x hx).2 hs) s h

theorem sizek_inner_GInv (C : Customer → Prop) {base : Dict SharedTripId SharedTrip} (E : Env)
    (vehl : Vehicle) (k : Nat) (id_a : SharedTripId) (s s1 : RtvState) (id_b : SharedTripId)
    (h : GInv C base vehl.id s) (hf : sizek_inner E vehl k id_a s id_b = some s1) :
    GInv C base vehl.id s1 := by
  unfold sizek_inner at hf
  split at hf
  · simp only [Option.some.injEq] at hf
    exact hf ▸ h
  · split at hf
    · rename_i trip_a trip_b hta htb
      simp only at hf
      split at hf
      · rename_i hlen
        split at hf
        · simp at hf
        · rename_i ids hids
          split at hf
          · simp at hf
          · simp only [Option.some.injEq] at hf
            exact hf ▸ h
          · rename_i hall
            have hsub : SubtripsKnown s k (join_no_dups trip_a trip_b) := by
              refine ⟨hlen, fun p hp => ?_⟩
              obtain ⟨q, hq1, hq2⟩ := all_subtrips_known_true hall p
                (List.mem_range.mpr (by omega))
              exact ⟨ids, q, hids, hq1, hq2⟩
            have ga := h.2.1 _ (h.1.1.2.2.1 _ (Dict.mem_of_find_some hta))
            have gb := h.2.1 _ (h.1.1.2.2.1 _ (Dict.mem_of_find_some htb))
            split at hf
            · simp only [Option.some.injEq] at hf
              rw [← hf]
              apply record_trip_GInv _ _ _ _ _ _ h (fun _ => hsub)
              · exact join_no_dups_nodup trip_b trip_a ga.1
              · intro c hc
                rcases join_no_dups_mem trip_b trip_a c hc with h1 | h1
                · exact ga.2 c h1
                · exact gb.2 c h1
            · simp only [Option.some.injEq] at hf
              exact hf ▸ h
      · simp only [Option.some.injEq] at hf
        exact hf ▸ h
    · simp at hf

theorem sizek_outer_GInv (C : Customer → Prop) {base : Dict SharedTripId SharedTrip} (E : Env)
    (vehl : Vehicle) (k : Nat) (s s1 : RtvState) (id_a : SharedTripId)
    (h : GInv C base vehl.id s) (hf : sizek_outer E vehl k s id_a = some s1) :
    GInv C base vehl.id s1 := by
  unfold sizek_outer at hf
  split at hf
  · simp at hf
  · split at hf
    · simp at hf
    · rename_i ids _
      exact foldOpt_inv (GInv C base vehl.id) _ ids
        (fun a x a1 ha hx => sizek_inner_GInv C E vehl k id_a a a1 x ha hx) s s1 h hf

theorem sizek_loop_GInv (C : Customer → Prop) {base : Dict SharedTripId SharedTrip} (E : Env)
    (vehl : Vehicle) (fuel : Nat) : ∀ (k : Nat) (s s1 : RtvState), GInv C base vehl.id s →
    sizek_loop E vehl fuel k s = some s1 → GInv C base vehl.id s1 := by
  induction fuel with
  | zero =>
    intro k s s1 h hf
    unfold sizek_loop at hf
    split at hf
    · simp at hf
    · simp only [Option.some.injEq] at hf
      exact hf ▸ h
  | succ n ih =>
    intro k s s1 h hf
    unfold sizek_loop at hf
    split at hf
    · simp only at hf
      split at hf
      · simp at hf
      · rename_i ids _
        cases hfo : foldOpt (sizek_outer E vehl k) s ids with
        | none => simp [hfo] at hf
        | some s2 =>
          rw [hfo] at hf
          simp only at hf
          exact ih (k + 1) s2 s1
            (foldOpt_inv (GInv C base vehl.id) _ ids
              (fun a x a1 ha hx => sizek_outer_GInv C E vehl k a a1 x ha hx) s s2 h hfo) hf
    · simp only [Option.some.injEq] at hf
      exact hf ▸ h

/-- The size-1 phase over customers without repetition: `GInv` is kept and the
ids pushed to `tripk[1]` are distinct ids of single-customer trips. -/
theorem size1_fold_Singles (C : Customer → Prop) {base : Dict SharedTripId SharedTrip}
    (vehl : Vehicle) : ∀ (rest pre : List Customer) (s : RtvState),
    (pre ++ rest).Nodup → (∀ c ∈ rest, C c) →
    GInv C base vehl.id s ∧ Singles pre s →
    GInv C base vehl.id (rest.foldl (size1_step vehl) s) ∧
    Singles (pre ++ rest) (rest.foldl (size1_step vehl) s) := by
  intro rest
  induction rest with
  | nil => intro pre s _ _ h; simpa using h
  | cons cust r ih =>
    intro pre s hnd hC h
    obtain ⟨hG, hS1, hS2⟩ := h
    have hcp : cust ∉ pre := by
      intro hc
      have := (List.nodup_append.mp hnd).2.2 hc (List.mem_cons_self _ _)
      exact this
    have hG1 := size1_step_GInv C vehl s cust (hC cust (List.mem_cons_self _ _)) hG
    have hR : RegInv s.w := hG.1.1.1
    have hmono : ∀ e ∈ s.w.trip_, e ∈ (size1_step vehl s cust).w.trip_ := by
      intro e he
      exact add_trip_trip_mono (w := { s.w with
          rv_sch := touch2 s.w.rv_sch vehl cust []
          rv_rte := touch2 s.w.rv_rte vehl cust []
          rv_cst := touch2 s.w.rv_cst vehl cust 0 }) (RegInv_of_eq rfl rfl hR) [cust] e he
    have hnew : ((add_trip { s.w with
          rv_sch := touch2 s.w.rv_sch vehl cust []
          rv_rte := touch2 s.w.rv_rte vehl cust []
          rv_cst := touch2 s.w.rv_cst vehl cust 0 } [cust]).1, [cust]) ∈
        (size1_step vehl s cust).w.trip_ :=
      add_trip_id_mem (w := { s.w with
          rv_sch := touch2 s.w.rv_sch vehl cust []
          rv_rte := touch2 s.w.rv_rte vehl cust []
          rv_cst := touch2 s.w.rv_cst vehl cust 0 }) (RegInv_of_eq rfl rfl hR) [cust]
    have hk : Dict.getD (size1_step vehl s cust).tripk 1 [] =
        Dict.getD s.tripk 1 [] ++ [(add_trip { s.w with
          rv_sch := touch2 s.w.rv_sch vehl cust []
          rv_rte := touch2 s.w.rv_rte vehl cust []
          rv_cst := touch2 s.w.rv_cst vehl cust 0 } [cust]).1] := by
      unfold size1_step record_trip
      simp only [getD_push_back_at, if_true]
    have hS : Singles (pre ++ [cust]) (size1_step vehl s cust) := by
      constructor
      · rw [hk]
        refine List.nodup_append.mpr ⟨hS1, by simp, ?_⟩
        intro q hq hq2
        rw [List.mem_singleton.mp hq2] at hq
        obtain ⟨c, hc, hm⟩ := hS2 _ hq
        have := RegInv_functional hG1.1.1.1 (hmono _ hm) hnew
        simp only [List.cons.injEq, and_true] at this
        exact hcp (this ▸ hc)
      · intro q hq
        rw [hk] at hq
        rcases List.mem_append.mp hq with h1 | h1
        · obtain ⟨c, hc, hm⟩ := hS2 q h1
          exact ⟨c, List.mem_append_left _ hc, hmono _ hm⟩
        · rw [List.mem_singleton.mp h1]
          exact ⟨cust, List.mem_append_right _ (List.mem_singleton_self _), hnew⟩
    have := ih (pre ++ [cust]) (size1_step vehl s cust) (by simpa using hnd)
      (fun c hc => hC c (List.mem_cons_of_mem _ hc)) ⟨hG1, hS⟩
    simpa using this

theorem record_trip_JoinInv (C : Customer → Prop) {base : Dict SharedTripId SharedTrip}
    {vid : VehlId} {ids : List SharedTripId} {s : RtvState} (shtrip : SharedTrip)
    (cst : DistInt) (sch : List Stop) (rte : List Wayp) (h : JoinInv C base vid ids s)
    (hn : shtrip.Nodup) (hC : ∀ c ∈ shtrip, C c) :
    JoinInv C base vid ids (record_trip vid 2 shtrip cst sch rte s) ∧
    ∀ e ∈ s.w.trip_, e ∈ (record_trip vid 2 shtrip cst sch rte s).w.trip_ := by
  obtain ⟨hG, hk, hS⟩ := h
  have hmono : ∀ e ∈ s.w.trip_, e ∈ (record_trip vid 2 shtrip cst sch rte s).w.trip_ :=
    fun e he => add_trip_trip_mono hG.1.1.1 shtrip e he
  refine ⟨⟨record_trip_GInv C 2 shtrip cst sch rte hG (fun h3 => by omega) hn hC, ?_, ?_⟩,
    hmono⟩
  · show Dict.find (push_back_at s.tripk 2 (add_trip s.w shtrip).1) 1 = some ids
    rw [find_push_back_at]
    simp only [show ¬ (2 = 1) by decide, if_false]
    exact hk
  · intro q hq
    obtain ⟨c, hc⟩ := hS q hq
    exact ⟨c, hmono _ hc⟩

/-- One inner iteration of the size-2 join, for an id of `tripk[1]` that is
not among the ids handled before, keeps `JoinAcc`. -/
theorem join_inner_JoinAcc (C : Customer → Prop) {base : Dict SharedTripId SharedTrip}
    (E : Env) (vehl : Vehicle) (ids : List SharedTripId) (id_a : SharedTripId)
    (acc acc1 : SharedTrip × RtvState) (pre : List SharedTripId) (id_b : SharedTripId)
    (hb : id_b ∈ ids) (hnp : id_b ∉ pre) (h : JoinAcc C base vehl.id ids id_a acc pre)
    (hf : join_inner E vehl id_a acc id_b = some acc1) :
    JoinAcc C base vehl.id ids id_a acc1 (pre ++ [id_b]) := by
  obtain ⟨hJ, hne, hnd, hmem⟩ := h
  have weaken : JoinAcc C base vehl.id ids id_a acc (pre ++ [id_b]) := by
    refine ⟨hJ, hne, hnd, ?_⟩
    intro c hc
    obtain ⟨h1, q, h2, h3⟩ := hmem c hc
    refine ⟨h1, q, ?_, h3⟩
    rcases h2 with h2 | h2
    · exact Or.inl h2
    · exact Or.inr (List.mem_append_left _ h2)
  unfold join_inner at hf
  by_cases hab : id_a = id_b
  · rw [if_pos hab] at hf
    simp only [Option.some.injEq] at hf
    exact hf ▸ weaken
  · rw [if_neg hab] at hf
    cases htb : Dict.find acc.2.lcl_trip id_b with
    | none => rw [htb] at hf; simp at hf
    | some trip_b =>
      rw [htb] at hf
      simp only at hf
      have hR : RegInv acc.2.w := hJ.1.1.1.1
      obtain ⟨cb, hcb⟩ := hJ.2.2 id_b hb
      have htm : (id_b, trip_b) ∈ acc.2.w.trip_ :=
        hJ.1.1.1.2.2.1 _ (Dict.mem_of_find_some htb)
      have heq : trip_b = [cb] := RegInv_functional hR htm hcb
      subst heq
      have hcC : C cb := (hJ.1.2.1 _ hcb).2 cb (List.mem_singleton_self _)
      have hnot : cb ∉ acc.1 := by
        intro hc
        obtain ⟨_, q, h2, h3⟩ := hmem cb hc
        have hq : q = id_b := RegInv_injective hR h3 hcb
        rcases h2 with h2 | h2
        · exact hab (h2.symm.trans hq)
        · exact hnp (hq ▸ h2)
      have hnd2 : (acc.1 ++ [cb]).Nodup :=
        List.nodup_append.mpr ⟨hnd, by simp, by
          intro x hx hx2
          rw [List.mem_singleton.mp hx2] at hx
          exact hnot hx⟩
      have hC2 : ∀ c ∈ acc.1 ++ [cb], C c := by
        intro c hc
        rcases List.mem_append.mp hc with h1 | h1
        · exact (hmem c h1).1
        · rw [List.mem_singleton.mp h1]; exact hcC
      have hne2 : acc.1 ++ [cb] ≠ [] := by simp
      have keep : JoinAcc C base vehl.id ids id_a (acc.1 ++ [cb], acc.2) (pre ++ [id_b]) := by
        refine ⟨hJ, hne2, hnd2, ?_⟩
        intro c hc
        rcases List.mem_append.mp hc with h1 | h1
        · exact weaken.2.2.2 c h1
        · rw [List.mem_singleton.mp h1]
          exact ⟨hcC, id_b, Or.inr (List.mem_append_right _ (List.mem_singleton_self _)), hcb⟩
      cases hh : (acc.1 ++ [cb]).head? with
      | none => rw [hh] at hf; simp at hf
      | some c0 =>
        rw [hh] at hf
        simp only at hf
        by_cases hr : E.haversine vehl.last_visited_node c0.orig > RANGE
        · rw [if_pos hr] at hf
          simp only [Option.some.injEq] at hf
          exact hf ▸ keep
        · rw [if_neg hr] at hf
          by_cases hok : (travel E vehl (acc.1 ++ [cb]) 0 [] []).ok = true
          · rw [if_pos hok] at hf
            simp only [Option.some.injEq] at hf
            obtain ⟨hJ2, hmono⟩ := record_trip_JoinInv C (acc.1 ++ [cb])
              (travel E vehl (acc.1 ++ [cb]) 0 [] []).cstout
              (travel E vehl (acc.1 ++ [cb]) 0 [] []).schout
              (travel E vehl (acc.1 ++ [cb]) 0 [] []).rteout hJ hnd2 hC2
            rw [← hf]
            refine ⟨hJ2, hne2, hnd2, ?_⟩
            intro c hc
            obtain ⟨h1, q, h2, h3⟩ := keep.2.2.2 c hc
            exact ⟨h1, q, h2, hmono _ h3⟩
          · rw [if_neg hok] at hf
            simp only [Option.some.injEq] at hf
            exact hf ▸ keep

theorem join_inner_fold (C : Customer → Prop) {base : Dict SharedTripId SharedTrip}
    (E : Env) (vehl : Vehicle) (ids : List SharedTripId) (id_a : SharedTripId) :
    ∀ (rest pre : List SharedTripId) (acc r : SharedTrip × RtvState),
    (pre ++ rest).Nodup → (∀ q ∈ rest, q ∈ ids) →
    JoinAcc C base vehl.id ids id_a acc pre →
    foldOpt (join_inner E vehl id_a) acc rest = some r →
    JoinAcc C base vehl.id ids id_a r (pre ++ rest) := by
  intro rest
  induction rest with
  | nil =>
    intro pre acc r _ _ h hf
    simp only [foldOpt, Option.some.injEq] at hf
    subst hf
    simpa using h
  | cons x xs ih =>
    intro pre acc r hnd hsub h hf
    simp only [foldOpt] at hf
    cases hx : join_inner E vehl id_a acc x with
    | none => rw [hx] at hf; simp at hf
    | some acc1 =>
      rw [hx] at hf
      simp only at hf
      have hxp : x ∉ pre := fun hc =>
        (List.nodup_append.mp hnd).2.2 hc (List.mem_cons_self _ _)
      have h1 := join_inner_JoinAcc C E vehl ids id_a acc acc1 pre x
        (hsub x (List.mem_cons_self _ _)) hxp h hx
      have := ih (pre ++ [x]) acc1 r (by simpa using hnd)
        (fun q hq => hsub q (List.mem_cons_of_mem _ hq)) h1 hf
      simpa using this

/-- One outer iteration of the size-2 join keeps `JoinInv`, the ids of
`tripk[1]` being distinct. -/
theorem join_outer_JoinInv (C : Customer → Prop) {base : Dict SharedTripId SharedTrip}
    (E : Env) (vehl : Vehicle) (ids : List SharedTripId) (hnd : ids.Nodup)
    (s s1 : RtvState) (id_a : SharedTripId) (ha : id_a ∈ ids)
    (h : JoinInv C base vehl.id ids s) (hf : join_outer E vehl s id_a = some s1) :
    JoinInv C base vehl.id ids s1 := by
  unfold join_outer at hf
  cases hta : Dict.find s.lcl_trip id_a with
  | none => rw [hta] at hf; simp at hf
  | some trip_a =>
    rw [hta, h.2.1] at hf
    simp only at hf
    cases hfo : foldOpt (join_inner E vehl id_a) (trip_a, s) ids with
    | none => rw [hfo] at hf; simp at hf
    | some r =>
      rw [hfo] at hf
      simp only [Option.some.injEq] at hf
      obtain ⟨ca, hca⟩ := h.2.2 id_a ha
      have htm : (id_a, trip_a) ∈ s.w.trip_ := h.1.1.1.2.2.1 _ (Dict.mem_of_find_some hta)
      have heq : trip_a = [ca] := RegInv_functional h.1.1.1.1 htm hca
      subst heq
      have h0 : JoinAcc C base vehl.id ids id_a ([ca], s) [] := by
        refine ⟨h, by simp, by simp, ?_⟩
        intro c hc
        rw [List.mem_singleton.mp hc]
        exact ⟨(h.1.2.1 _ hca).2 ca (List.mem_singleton_self _), id_a, Or.inl rfl, hca⟩
      have := join_inner_fold C E vehl ids id_a ids [] ([ca], s) r (by simpa using hnd)
        (fun q hq => hq) h0 hfo
      rw [← hf]
      exact this.1

theorem check_timeout_GInv (C : Customer → Prop) {base : Dict SharedTripId SharedTrip}
    (E : Env) (vid : VehlId) (s : RtvState) (h : GInv C base vid s) :
    GInv C base vid (check_timeout E s) :=
  GInv_of_eq C rfl rfl rfl rfl rfl rfl rfl rfl h

/-- One vehicle of the rtv loop keeps the registry and the graphs `Good`. -/
theorem rtv_vehicle_GInv (C : Customer → Prop) {base : Dict SharedTripId SharedTrip}
    (E : Env) (vehl : Vehicle) (s0 s1 : RtvState) (hT : TripsInv base s0)
    (hG : Good C s0.w) (hGG : GoodGraph C s0.w) (hf : rtv_vehicle E vehl s0 = some s1) :
    GInv C base vehl.id s1 := by
  unfold rtv_vehicle at hf
  split at hf
  · simp only [Option.some.injEq] at hf
    rw [← hf]
    exact ⟨⟨TripsInv_of_eq rfl rfl rfl rfl rfl hT, VehlInv_nil _ _ rfl⟩, hG, hGG⟩
  · simp only at hf
    have h1 : GInv C base vehl.id
        { s0 with w := { s0.w with vehmap := Dict.set s0.w.vehmap vehl.id vehl }, tripk := [] } :=
      ⟨⟨TripsInv_of_eq rfl rfl rfl rfl rfl hT, VehlInv_nil _ _ rfl⟩, hG, hGG⟩
    split at hf
    · simp only [Option.some.injEq] at hf
      exact hf ▸ h1
    · rename_i custs hcusts
      have hgd : Dict.getD s0.w.rvgrph_rv_ vehl [] = custs := getD_of_find hcusts
      obtain ⟨hcn, hcC⟩ := hGG.1 vehl
      rw [hgd] at hcn hcC
      have hS0 : Singles [] (rtv_start vehl s0) := by
        constructor
        · simp [Dict.getD, Dict.find]
        · intro q hq
          simp [Dict.getD, Dict.find] at hq
      obtain ⟨h2, hS1, hS2⟩ := size1_fold_Singles C vehl custs [] (rtv_start vehl s0)
        (by simpa using hcn) hcC ⟨h1, hS0⟩
      have h3 := check_timeout_GInv C E vehl.id _ h2
      split at hf
      · simp only [Option.some.injEq] at hf
        exact hf ▸ h3
      · split at hf
        · split at hf
          · simp at hf
          · rename_i ids hids
            have hidsD : Dict.getD (custs.foldl (size1_step vehl)
                (rtv_start vehl s0)).tripk 1 [] = ids := getD_of_find hids
            rw [hidsD] at hS1 hS2
            have hJ3 : JoinInv C base vehl.id ids (check_timeout E (custs.foldl (size1_step vehl)
                (rtv_start vehl s0))) :=
              ⟨h3, hids, fun q hq => by
                obtain ⟨c, _, hc⟩ := hS2 q hq
                exact ⟨c, hc⟩⟩
            split at hf
            · simp at hf
            · rename_i s4 hs4
              have h4 := foldOpt_inv_mem (JoinInv C base vehl.id ids) _ ids
                (fun a x a1 hx ha hfa => join_outer_JoinInv C E vehl ids hS1 a a1 x hx ha hfa)
                _ s4 hJ3 hs4
              have h5 := check_timeout_GInv C E vehl.id _ h4.1
              split at hf
              · simp only [Option.some.injEq] at hf
                exact hf ▸ h5
              · have h7 := check_timeout_GInv C E vehl.id _
                  (foldl_inv_mem (GInv C base vehl.id) (rr_outer E vehl)
                    (check_timeout E s4).w.rvgrph_rr_
                    (fun s x hx hs => rr_outer_GInv C E vehl s x (h5.2.2.2 x hx) hs) _ h5)
                split at hf
                · simp only [Option.some.injEq] at hf
                  exact hf ▸ h7
                · split at hf
                  · simp at hf
                  · rename_i s8 hs8
                    simp only [Option.some.injEq] at hf
                    rw [← hf]
                    exact check_timeout_GInv C E vehl.id _
                      (sizek_loop_GInv C E vehl _ 3 _ s8 h7 hs8)
        · simp only [Option.some.injEq] at hf
          exact hf ▸ check_timeout_GInv C E vehl.id _ h3

/-! ### The number of iterations of the size-k loop -/

/-- The ghost counter does not change what the loop computes. -/
theorem sizek_loop_count_fst (E : Env) (vehl : Vehicle) (fuel : Nat) :
    ∀ (k : Nat) (s : RtvState),
    (sizek_loop_count E vehl fuel k s).map Prod.fst = sizek_loop E vehl fuel k s := by
  induction fuel with
  | zero =>
    intro k s
    unfold sizek_loop_count sizek_loop
    split <;> rfl
  | succ n ih =>
    intro k s
    unfold sizek_loop_count sizek_loop
    split
    · simp only
      cases Dict.find s.tripk (k - 1) with
      | none => rfl
      | some ids =>
        simp only
        cases foldOpt (sizek_outer E vehl k) s ids with
        | none => rfl
        | some s2 =>
          simp only
          rw [← ih (k + 1) s2]
          cases sizek_loop_count E vehl n (k + 1) s2 <;> rfl
    · rfl

/-- The loop started at `k` makes no iteration, or its last iteration has a
`k` that is at most `capacity - queued`. -/
theorem sizek_loop_count_bound (E : Env) (vehl : Vehicle) (fuel : Nat) :
    ∀ (k : Nat) (s s1 : RtvState) (n : Nat),
    sizek_loop_count E vehl fuel k s = some (s1, n) →
    n = 0 ∨ (k : Int) + (n : Int) ≤ vehl.capacity - vehl.queued + 1 := by
  induction fuel with
  | zero =>
    intro k s s1 n hf
    unfold sizek_loop_count at hf
    split at hf
    · simp at hf
    · simp only [Option.some.injEq, Prod.mk.injEq] at hf
      exact Or.inl hf.2.symm
  | succ m ih =>
    intro k s s1 n hf
    unfold sizek_loop_count at hf
    split at hf
    · rename_i hc
      simp only at hf
      split at hf
      · simp at hf
      · split at hf
        · simp at hf
        · rename_i s2 _
          cases hr : sizek_loop_count E vehl m (k + 1) s2 with
          | none => rw [hr] at hf; simp at hf
          | some r =>
            rw [hr] at hf
            simp only [Option.some.injEq, Prod.mk.injEq] at hf
            obtain ⟨_, hn⟩ := hf
            right
            have hc1 := hc.1
            rcases ih (k + 1) s2 r.1 r.2 (by rw [hr]) with h0 | h1
            · rw [← hn, h0]
              simp only [Load] at *
              push_cast
              omega
            · rw [← hn]
              simp only [Load] at *
              push_cast at h1 ⊢
              omega
    · simp only [Option.some.injEq, Prod.mk.injEq] at hf
      exact Or.inl hf.2.symm

/-- C27: the size-k loop of a vehicle, `k ≥ 3`, with a counter of its
iterations. Whenever the loop returns after `n` iterations for a vehicle with
more than one free seat, `n ≤ capacity - queued - 2`. From every state that
satisfies the invariants of the enumeration the loop returns, and no `.at(..)`
throws. For a vehicle run from a state whose registered trips, whose lists of
`rvgrph_rv_` and whose pairs of `rvgrph_rr_` have no repeated customer, as the
rv region leaves them, the run returns and every trip filed in `tripk[k]`,
`k ≥ 3`, has exactly `k` customers and no repeated customer. -/
theorem sizek_terminates (E : Env) (vehl : Vehicle) (s0 : RtvState)
    (h0 : TripsInv [] s0) (hN : NoEmpty s0) (hG : ∀ e ∈ s0.w.trip_, e.2.Nodup)
    (hrv : ∀ e ∈ s0.w.rvgrph_rv_, e.2.Nodup)
    (hrr : ∀ e ∈ s0.w.rvgrph_rr_, ∀ c ∈ e.2, e.1 ≠ c) :
    (∀ fuel s s1 n, sizek_loop_count E vehl fuel 3 s = some (s1, n) →
      vehl.capacity - vehl.queued > 1 → (n : Int) ≤ vehl.capacity - vehl.queued - 2) ∧
    (∀ s, (TripsInv [] s ∧ VehlInv vehl.id s) ∧ NoEmpty s →
      ∃ s1 n, sizek_loop_count E vehl (vehl.capacity - vehl.queued).toNat 3 s = some (s1, n) ∧
        sizek_loop E vehl (vehl.capacity - vehl.queued).toNat 3 s = some s1) ∧
    ∃ s1, rtv_vehicle E vehl s0 = some s1 ∧
      ∀ k ids q, 3 ≤ k → Dict.find s1.tripk k = some ids → q ∈ ids →
        ∃ t, Dict.find s1.lcl_trip q = some t ∧ t.length = k ∧ t.Nodup := by
  refine ⟨?_, ?_, ?_⟩
  · intro fuel s s1 n hf hcap
    rcases sizek_loop_count_bound E vehl fuel 3 s s1 n hf with h | h
    · rw [h]
      simp only [Load] at *
      push_cast
      omega
    · simp only [Load] at *
      push_cast at h
      omega
  · intro s hs
    obtain ⟨s1, h1, _⟩ := sizek_loop_total E vehl (vehl.capacity - vehl.queued).toNat 3 s
      (by simp only [Load] at *; omega) hs
    have h2 := sizek_loop_count_fst E vehl (vehl.capacity - vehl.queued).toNat 3 s
    rw [h1] at h2
    cases hc : sizek_loop_count E vehl (vehl.capacity - vehl.queued).toNat 3 s with
    | none => rw [hc] at h2; simp at h2
    | some r =>
      rw [hc] at h2
      simp only [Option.map_some', Option.some.injEq] at h2
      exact ⟨r.1, r.2, rfl, by rw [h2]; exact h1⟩
  · obtain ⟨s1, hrun, _⟩ := rtv_vehicle_total E vehl s0 h0 hN
    refine ⟨s1, hrun, ?_⟩
    have hg := rtv_vehicle_GInv (fun _ => True) E vehl s0 s1 h0
      (fun e he => ⟨hG e he, fun _ _ => trivial⟩)
      ⟨fun v => ⟨by
          unfold Dict.getD
          cases hfv : Dict.find s0.w.rvgrph_rv_ v with
          | none => simp
          | some l => exact hrv _ (Dict.mem_of_find_some hfv), fun _ _ => trivial⟩,
        fun e he => ⟨trivial, fun c hc => ⟨hrr e he c hc, trivial⟩⟩⟩ hrun
    intro k ids q hk hf hq
    obtain ⟨t, ht, hm, _, hlen, _⟩ := sizek_subtrips_of_run E vehl s0 s1 h0 hrun k ids q hk hf hq
    exact ⟨t, ht, hlen, (hg.2.1 _ hm).1⟩

/-- C27 at a concrete input: a three-seat vehicle, two feasible customers and
two request-request edges. From the state after the rr-pairs phase the loop
makes one iteration, `capacity - queued - 2 = 1`, and files the trips 7 and 8
of three customers in `tripk[3]`. -/
theorem sizek_terminates_witness :
    TripsInv [] (worker_start wsCap3) ∧ NoEmpty (worker_start wsCap3) ∧
    vehl3.capacity - vehl3.queued - 2 = 1 ∧
    ((foldOpt (join_outer okEnv vehl3) afterSize1Cap3 [1, 2]).bind (fun s4 =>
      sizek_loop_count okEnv vehl3 1 3 (check_timeout okEnv
        ((check_timeout okEnv s4).w.rvgrph_rr_.foldl (rr_outer okEnv vehl3)
          (check_timeout okEnv s4))))).map
      (fun r => (r.2, Dict.find r.1.tripk 3,
        Dict.find r.1.lcl_trip 7, Dict.find r.1.lcl_trip 8)) =
      some (1, some [7, 7, 8, 8], some [custA, custB, custC], some [custB, custA, custC]) ∧
    ((∀ fuel s s1 n, sizek_loop_count okEnv vehl3 fuel 3 s = some (s1, n) →
      vehl3.capacity - vehl3.queued > 1 → (n : Int) ≤ vehl3.capacity - vehl3.queued - 2) ∧
    (∀ s, (TripsInv [] s ∧ VehlInv vehl3.id s) ∧ NoEmpty s →
      ∃ s1 n, sizek_loop_count okEnv vehl3 (vehl3.capacity - vehl3.queued).toNat 3 s
          = some (s1, n) ∧
        sizek_loop okEnv vehl3 (vehl3.capacity - vehl3.queued).toNat 3 s = some s1) ∧
    ∃ s1, rtv_vehicle okEnv vehl3 (worker_start wsCap3) = some s1 ∧
      ∀ k ids q, 3 ≤ k → Dict.find s1.tripk k = some ids → q ∈ ids →
        ∃ t, Dict.find s1.lcl_trip q = some t ∧ t.length = k ∧ t.Nodup) :=
  have h0 : TripsInv [] (worker_start wsCap3) :=
    ⟨RegInv_of_eq rfl rfl reset_RegInv, by simp, by simp [worker_start],
      by simp [worker_start], by simp [worker_start, wsCap3, reset_workspace]⟩
  have hN : NoEmpty (worker_start wsCap3) :=
    ⟨by simp [worker_start], by simp [worker_start, wsCap3]⟩
  ⟨h0, hN, by decide, by decide!,
    sizek_terminates okEnv vehl3 (worker_start wsCap3) h0 hN
      (by simp [worker_start, wsCap3, reset_workspace])
      (by simp [worker_start, wsCap3, custA, custB])
      (by simp [worker_start, wsCap3, custA, custB, custC])⟩

/-! ### The graphs that the rv region and the heuristic leave -/

theorem rv_cand_step_good (E : Env) (L custs : List Customer) (cust_a : Customer)
    (ha : cust_a ∈ L) (w : TVG) (cand : Vehicle) (h : RvGood L custs w) :
    RvGood L custs (rv_cand_step E cust_a w cand) := by
  unfold rv_cand_step
  by_cases h1 : cand.queued < cand.capacity
  · by_cases h2 : (travel E cand [cust_a] 0 [] []).ok = true
    · simp only [h1, h2, if_true]
      exact ⟨set2_keys (fun c => c ∈ L) _ _ _ _ h.1 ha, h.2⟩
    · simp only [h1, h2, if_true, if_false, Bool.false_eq_true]
      exact h
  · simp only [h1, if_false]
    exact h

theorem rr_step_good (E : Env) (L custs : List Customer) (cust_a : Customer)
    (ha : cust_a ∈ L) (vt : Vehicle) (w : TVG) (cust_b : Customer) (hb : cust_b ∈ custs)
    (h : RvGood L custs w) : RvGood L custs (rr_step E cust_a vt w cust_b) := by
  unfold rr_step
  by_cases h1 : cust_a = cust_b
  · rw [if_pos h1]; exact h
  · rw [if_neg h1]
    split
    · exact h
    · split
      · exact h
      · split
        · refine ⟨h.1, ?_⟩
          intro e he
          have he2 : e ∈ push_back_at w.rvgrph_rr_ cust_a cust_b := he
          unfold push_back_at at he2
          rcases Dict.mem_set he2 with rfl | h3
          · refine ⟨ha, ?_⟩
            intro c hc
            rcases List.mem_append.mp hc with h4 | h4
            · unfold Dict.getD at h4
              cases hf : Dict.find w.rvgrph_rr_ cust_a with
              | none => rw [hf] at h4; simp at h4
              | some l =>
                rw [hf] at h4
                exact (h.2 _ (Dict.mem_of_find_some hf)).2 c h4
            · rw [List.mem_singleton.mp h4]
              exact ⟨h1, hb⟩
          · exact h.2 e h3
        · exact h

theorem rv_customer_good (E : Env) (L custs : List Customer) (s : RvState)
    (cust_a : Customer) (ha : cust_a ∈ L) (h : RvGood L custs s.w) :
    RvGood L custs (rv_customer E custs s cust_a).w := by
  have h1 : RvGood L custs
      { s.w with matchable_custs := s.w.matchable_custs ++ [cust_a.id] } := h
  have h2 := foldl_inv (RvGood L custs) (rv_cand_step E cust_a)
    (E.within RANGE cust_a.orig)
    (fun w x hw => rv_cand_step_good E L custs cust_a ha w x hw) _ h1
  have h3 := foldl_inv_mem (RvGood L custs) (rr_step E cust_a (vtvehl_of E cust_a))
    custs (fun w x hx hw => rr_step_good E L custs cust_a ha _ w x hx hw) _ h2
  unfold rv_customer
  by_cases hc : s.cancelled = true
  · rw [if_pos hc]; exact h
  · rw [if_neg hc]
    dsimp only
    by_cases hl : (E.within RANGE cust_a.orig).length = 0
    · rw [if_pos hl]; exact h2
    · rw [if_neg hl]
      by_cases ht : E.timeout_rv s.clock = true
      · rw [if_pos ht]; exact h2
      · rw [if_neg ht]; exact h3

theorem rv_graph_good (E : Env) (custs : List Customer) (workers : List (List Customer))
    (w0 : TVG) (h : RvGood workers.flatten custs w0) :
    RvGood workers.flatten custs (rv_graph E custs workers w0) := by
  unfold rv_graph
  refine foldl_inv_mem (fun (acc : TVG × Nat) => RvGood workers.flatten custs acc.1)
    (rv_worker E custs) workers ?_ (w0, 0) h
  intro acc share hshare hacc
  unfold rv_worker
  exact foldl_inv_mem (fun (s : RvState) => RvGood workers.flatten custs s.w)
    (rv_customer E custs) share
    (fun s x hx hs => rv_customer_good E workers.flatten custs s x
      (List.mem_flatten.mpr ⟨share, hshare, hx⟩) hs) _ hacc

/-- After the rv region and the heuristic, run from the reset workspace, the
registry is empty and the graphs are `Good` for the customers of the batch,
when the shares of the threads hold customers of the batch only. -/
theorem rv_pipeline_good (E : Env)
    (nth : Nat → List (Customer × DistInt) → List (Customer × DistInt))
    (hnth : NthElementSpec nth) (custs : List Customer) (workers : List (List Customer))
    (hsub : ∀ c ∈ workers.flatten, c ∈ custs) :
    Good (fun c => c ∈ custs) (rv_prune nth (rv_graph E custs workers
      (init_is_matched custs reset_workspace))) ∧
    GoodGraph (fun c => c ∈ custs) (rv_prune nth (rv_graph E custs workers
      (init_is_matched custs reset_workspace))) := by
  obtain ⟨hk, hempty⟩ := rv_pipeline_keys E custs workers
  have hg := rv_graph_good E custs workers (init_is_matched custs reset_workspace)
    ⟨fun e he => by simp [init_is_matched, reset_workspace] at he,
      fun e he => by simp [init_is_matched, reset_workspace] at he⟩
  obtain ⟨hR, _, _, _, _, _⟩ := rv_pipeline_ready E nth hnth custs workers
  obtain ⟨n, hn, hkeys, _⟩ := hR
  refine ⟨?_, ?_, ?_⟩
  · intro e he
    have h0 := (rv_graph_sound E custs workers (init_is_matched custs reset_workspace)
      (by
        refine ⟨⟨fun _ _ => false, ?_, ?_, ?_, rfl, rfl⟩, ?_, ?_⟩
        · intro v c; simp [rv_val, find2, init_is_matched, reset_workspace, Dict.find]
        · intro v c; simp [rv_val, find2, init_is_matched, reset_workspace, Dict.find]
        · intro v c; simp [rv_val, find2, init_is_matched, reset_workspace, Dict.find]
        · simp [init_is_matched, reset_workspace, Dict.keys]
        · intro e he; simp [init_is_matched, reset_workspace] at he)).2.2.1
    have he2 : e ∈ (rv_graph E custs workers (init_is_matched custs reset_workspace)).trip_ :=
      he
    rw [h0] at he2
    simp [init_is_matched, reset_workspace] at he2
  · intro v
    rw [rv_prune_getD nth hnth _ hempty hk.1 v]
    cases hf : Dict.find (rv_graph E custs workers
        (init_is_matched custs reset_workspace)).rv_cst v with
    | none => simp
    | some tbl =>
      simp only
      have hm := Dict.mem_of_find_some hf
      refine ⟨kept_customers_nodup nth hnth TOP_CUST tbl (hk.2 _ hm), ?_⟩
      intro c hc
      exact hsub c (hg.1 _ hm c (kept_customers_mem nth hnth TOP_CUST tbl c hc))
  · intro e he
    obtain ⟨h1, h2⟩ := hg.2 e he
    exact ⟨hsub _ h1, fun c hc => ⟨(h2 c hc).1, (h2 c hc).2⟩⟩

/-! ### The registry after the rtv region -/

theorem rtv_worker_Good (C : Customer → Prop) {base : Dict SharedTripId SharedTrip}
    (E : Env) (vehls : List Vehicle) (w : TVG) (clock : Nat) (s1 : RtvState)
    (hR : RegInv w) (hB : ∀ e ∈ base, e ∈ w.trip_)
    (hV : ∀ e ∈ w.vted_, ∀ stid ∈ Dict.keys e.2, stid ∈ Dict.keys w.trip_)
    (hG : Good C w) (hGG : GoodGraph C w) (hf : rtv_worker E vehls w clock = some s1) :
    TripsInv base s1 ∧ Good C s1.w ∧ GoodGraph C s1.w := by
  unfold rtv_worker at hf
  refine foldOpt_inv (fun a => TripsInv base a ∧ Good C a.w ∧ GoodGraph C a.w) _ vehls ?_ _ s1
    ⟨⟨hR, hB, by simp, by simp, hV⟩, hG, hGG⟩ hf
  intro a x a1 ha hx
  unfold rtv_worker_step at hx
  split at hx
  · simp only [Option.some.injEq] at hx
    exact hx ▸ ha
  · obtain ⟨⟨h1, _⟩, h2, h3⟩ := rtv_vehicle_GInv C E x a a1 ha.1 ha.2.1 ha.2.2 hx
    exact ⟨h1, h2, h3⟩

theorem rtv_enumerate_Good (C : Customer → Prop) (E : Env) (workers : List (List Vehicle)) :
    ∀ (acc : TVG × Nat) (r : TVG × Nat × List (Dict VehlId (Dict SharedTripId DistInt))),
    RegInv acc.1 →
    (∀ e ∈ acc.1.vted_, ∀ i ∈ Dict.keys e.2, i ∈ Dict.keys acc.1.trip_) →
    Good C acc.1 → GoodGraph C acc.1 →
    rtv_enumerate E workers acc = some r → Good C r.1 ∧ GoodGraph C r.1 := by
  induction workers with
  | nil =>
    intro acc r _ _ hG hGG hf
    simp only [rtv_enumerate, Option.some.injEq] at hf
    subst hf
    exact ⟨hG, hGG⟩
  | cons vehls rest ih =>
    intro acc r hR hV hG hGG hf
    simp only [rtv_enumerate] at hf
    cases hw : rtv_worker E vehls acc.1 acc.2 with
    | none => simp [hw] at hf
    | some s =>
      rw [hw] at hf
      simp only at hf
      cases hr : rtv_enumerate E rest (s.w, s.clock) with
      | none => simp [hr] at hf
      | some r1 =>
        rw [hr] at hf
        simp only [Option.some.injEq] at hf
        subst hf
        obtain ⟨⟨sR, _, _, _, sV⟩, sG, sGG⟩ := @rtv_worker_Good C [] E vehls acc.1
          acc.2 s hR (fun e he => by simp at he) hV hG hGG hw
        exact ih (s.w, s.clock) r1 sR sV sG sGG hr

/-- The rtv region keeps the registry and the graphs `Good`. -/
theorem rtv_graph_Good (C : Customer → Prop) (E : Env) (workers : List (List Vehicle))
    (w : TVG) (res : TVG × Int) (hR : RegInv w)
    (hV : ∀ e ∈ w.vted_, ∀ i ∈ Dict.keys e.2, i ∈ Dict.keys w.trip_)
    (hG : Good C w) (hGG : GoodGraph C w) (hrun : rtv_graph E workers w = some res) :
    Good C res.1 ∧ GoodGraph C res.1 := by
  unfold rtv_graph at hrun
  cases hr : rtv_enumerate E workers (w, 0) with
  | none => rw [hr] at hrun; simp at hrun
  | some r =>
    rw [hr] at hrun
    simp only [Option.some.injEq] at hrun
    subst hrun
    exact rtv_enumerate_Good C E workers (w, 0) r hR hV hG hGG hr

/-! ### The whole of `match` returns -/

/-- Lines 56-57 give `is_matched` distinct keys, the value false everywhere,
and a key for every customer of the batch. -/
theorem init_is_matched_spec (custs : List Customer) :
    (Dict.keys (init_is_matched custs reset_workspace).is_matched).Nodup ∧
    (∀ e ∈ (init_is_matched custs reset_workspace).is_matched, e.2 = false) ∧
    ∀ c ∈ custs, c.id ∈ Dict.keys (init_is_matched custs reset_workspace).is_matched := by
  have := foldl_sofar_inv
    (fun (d : Dict CustId Bool) (pre : List Customer) =>
      (Dict.keys d).Nodup ∧ (∀ e ∈ d, e.2 = false) ∧ ∀ c ∈ pre, c.id ∈ Dict.keys d)
    (fun d c => Dict.set d c.id false)
    (by
      intro d pre x ⟨h1, h2, h3⟩
      refine ⟨Dict.nodup_keys_set _ _ _ h1, ?_, ?_⟩
      · intro e he
        rcases Dict.mem_set he with rfl | h
        · rfl
        · exact h2 e h
      · intro c hc
        rw [Dict.mem_keys_set]
        rcases List.mem_append.mp hc with h | h
        · exact Or.inr (h3 c h)
        · rw [List.mem_singleton.mp h]
          exact Or.inl rfl)
    custs [] [] ⟨by simp [Dict.keys], by simp, by simp⟩
  simpa [init_is_matched, reset_workspace] using this

/-- The extraction returns when the tables have an entry for every edge of
`vted_`, `nvted` counts the edges, and every customer starts unmatched. -/
theorem extract_total (E : Env) (pen : Int) (w : TVG) (nvted : Int) (m : Mip)
    (sel : Nat → Bool) (nrej0 : Nat) (hm : build_mip E pen w nvted = some m)
    (hn : nvted = ((x_cols w).length : Int))
    (hat : ∀ v t, (v, t) ∈ x_cols w →
      (∃ vehl, Dict.find w.vehmap v = some vehl) ∧ (∃ r, find2 w.vt_rte v t = some r) ∧
      (∃ sc, find2 w.vt_sch v t = some sc) ∧
      ∃ trip, Dict.find w.trip_ t = some trip ∧
        ∀ cust ∈ trip, cust.id ∈ Dict.keys w.is_matched)
    (hfalse : ∀ e ∈ w.is_matched, e.2 = false) :
    ∃ s, extract E w m sel { is_matched := w.is_matched, nrej := nrej0, log := [] } =
      some s := by
  obtain ⟨_, hncol, _, hcm, _⟩ := build_mip_spec E pen w nvted m hm
  have hlen : m.ncol.toNat ≤ (x_cols w ++ y_cols w).length := by
    rw [hncol, hn]
    have h0 := wrap32_le_self (((x_cols w).length : Int) + (w.matchable_custs.length : Int))
      (by omega)
    simp only [List.length_append, y_cols, List.length_map]
    omega
  have hinit : ExtInv E w m.colmap sel w.is_matched
      { is_matched := w.is_matched, nrej := nrej0, log := [] } [] := by
    refine ⟨rfl, ?_, ?_, ?_, ?_⟩
    · intro c
      constructor
      · intro h
        have := hfalse _ (Dict.mem_of_find_some h)
        simp at this
      · rintro ⟨i, hi, _⟩
        simp at hi
    · intro i hi; simp at hi
    · intro i hi; simp at hi
    · intro i cadd ok h; simp at h
  obtain ⟨s1, hrun, _⟩ := foldOpt_sofar_total
    (fun s pre => ExtInv E w m.colmap sel w.is_matched s pre)
    (extract_col E w m.colmap sel) (List.range' 1 m.ncol.toNat)
    (by
      intro s pre i hi hs
      have hi : i ∈ List.range' 1 (x_cols w ++ y_cols w).length := by
        rw [List.mem_range'_1] at hi ⊢
        omega
      have := col_commit_wf E w sel i hi hat
      rw [← hcm] at this
      exact extract_col_inv E w m.colmap sel w.is_matched s pre i hs this.1 this.2)
    [] _ hinit
  refine ⟨sweep s1, ?_⟩
  unfold extract extract_loop
  rw [hrun]

/-- The function `match` returns: no `.at(..)` of the rtv region, of the
construction of the program or of the extraction throws, for a vehicle feed
without repeated ids and shares of the threads that hold customers of the batch
only. -/
theorem tvg_match_total (E : Env)
    (nth : Nat → List (Customer × DistInt) → List (Customer × DistInt))
    (pen : Int) (custs : List Customer) (cust_workers : List (List Customer))
    (vehl_workers : List (List Vehicle)) (solve : Mip → Nat → Bool) (nrej0 : Nat)
    (hnth : NthElementSpec nth)
    (hU : (vehl_workers.flatten.map (fun v => v.id)).Nodup)
    (hsub : ∀ c ∈ cust_workers.flatten, c ∈ custs) :
    ∃ out, tvg_match E nth pen custs cust_workers vehl_workers solve nrej0 = some out := by
  obtain ⟨hR, hvt, hvs, hvr, hne, hOk⟩ := rv_pipeline_ready E nth hnth custs cust_workers
  obtain ⟨hvm, _, _, _⟩ := rv_pipeline_vehmap E nth custs cust_workers
  obtain ⟨hG, hGG⟩ := rv_pipeline_good E nth hnth custs cust_workers hsub
  have hG0 : ∀ e ∈ (rv_prune nth (rv_graph E custs cust_workers
      (init_is_matched custs reset_workspace))).vted_,
      ∀ i ∈ Dict.keys e.2, i ∈ Dict.keys (rv_prune nth (rv_graph E custs cust_workers
      (init_is_matched custs reset_workspace))).trip_ := by
    rw [hvt]; intro e he; simp at he
  obtain ⟨res, hrun⟩ := rtv_graph_total E vehl_workers _ hR hG0 hne
  obtain ⟨hRr, _, kim, _, _, _, k4, k5⟩ :=
    rtv_graph_keep E vehl_workers _ res hR hvt hvm hne hrun
  obtain ⟨hGr, _⟩ := rtv_graph_Good (fun c => c ∈ custs) E vehl_workers _ res hR hG0 hG hGG hrun
  have hV : ∀ e ∈ res.1.vted_, ∀ t ∈ Dict.keys e.2, t ∈ Dict.keys res.1.trip_ :=
    fun e he t ht => (vted_ids_registered_of_run E vehl_workers _ res hR hG0 hrun e he t ht).1
  obtain ⟨m, hmip⟩ := build_mip_total E pen res.1 res.2 hV
  obtain ⟨i1, i2, i3⟩ := init_is_matched_spec custs
  have hs0 : RvSound E (init_is_matched custs reset_workspace) := by
    refine ⟨⟨fun _ _ => false, ?_, ?_, ?_, rfl, rfl⟩, ?_, ?_⟩
    · intro v c; simp [rv_val, find2, init_is_matched, reset_workspace, Dict.find]
    · intro v c; simp [rv_val, find2, init_is_matched, reset_workspace, Dict.find]
    · intro v c; simp [rv_val, find2, init_is_matched, reset_workspace, Dict.find]
    · simp [init_is_matched, reset_workspace, Dict.keys]
    · intro e he; simp [init_is_matched, reset_workspace] at he
  have him : res.1.is_matched = (init_is_matched custs reset_workspace).is_matched := by
    rw [kim]
    exact (rv_graph_sound E custs cust_workers _ hs0).2.2.2.2.2.2.2
  have hat : ∀ v t, (v, t) ∈ x_cols res.1 →
      (∃ vehl, Dict.find res.1.vehmap v = some vehl) ∧
      (∃ r, find2 res.1.vt_rte v t = some r) ∧
      (∃ sc, find2 res.1.vt_sch v t = some sc) ∧
      ∃ trip, Dict.find res.1.trip_ t = some trip ∧
        ∀ cust ∈ trip, cust.id ∈ Dict.keys res.1.is_matched := by
    intro v t hx
    obtain ⟨tbl, hv, ht⟩ := (mem_x_cols res.1 v t).mp hx
    obtain ⟨kv, hkv, rfl⟩ := List.mem_map.mp ht
    obtain ⟨l1, l2, l3, l4⟩ := k4 (v, tbl) hv kv hkv
    obtain ⟨trip, htrip⟩ := Option.isSome_iff_exists.mp l4
    refine ⟨Option.isSome_iff_exists.mp l1, Option.isSome_iff_exists.mp l2,
      Option.isSome_iff_exists.mp l3, trip, htrip, ?_⟩
    intro cust hc
    rw [him]
    exact i3 cust ((hGr _ (Dict.mem_of_find_some htrip)).2 cust hc)
  have hn : res.2 = ((x_cols res.1).length : Int) := by
    rw [x_cols_length]; exact k5 hU
  obtain ⟨sx, hsx⟩ := extract_total E pen res.1 res.2 m (solve m) nrej0 hmip hn hat
    (by rw [him]; exact i2)
  unfold tvg_match
  simp only [hrun, hmip, hsx]
  by_cases d0 : E.done 0 = true
  · simp [d0]
  · by_cases d1 : E.done 1 = true
    · simp [d0, d1]
    · by_cases hl : res.1.vted_.length > 0
      · by_cases d2 : E.done 2 = true
        · simp [d0, d1, d2, hl]
        · simp [d0, d1, d2, hl]
      · simp [d0, d1, hl]

/-! ### The lookups of the extraction, end to end -/

/-- C25: the run of the rv region, the heuristic and the rtv region from the
reset workspace, for every behaviour of the deadlines and every split of the
feeds among the threads. The run returns, and for every edge `(v, t)` of
`vted_` after the merge: `vehmap` has the key `v`, `vt_rte[v]` and `vt_sch[v]`
have the key `t`, and `trip_` has the key `t`. Every vehicle key of `vted_` is
the id of a vehicle of the feed whose `queued` differs from its `capacity`. The
construction of the program returns (no `trip_.at(..)` of the customer rows
throws), every column of its map is the column of an edge of `vted_` or has the
trip id -1, and for every column of the map and every solver result the
lookups of the extraction loop succeed. When, in addition, the vehicle feed has
no repeated ids and the shares of the threads hold customers of the batch only,
the whole of `match` returns for every solver result: no `.at(..)` throws,
`is_matched.at(..)` included. -/
theorem extraction_lookups_succeed (E : Env)
    (nth : Nat → List (Customer × DistInt) → List (Customer × DistInt))
    (pen : Int) (custs : List Customer) (cust_workers : List (List Customer))
    (vehl_workers : List (List Vehicle)) (hnth : NthElementSpec nth) :
    ((vehl_workers.flatten.map (fun v => v.id)).Nodup →
      (∀ c ∈ cust_workers.flatten, c ∈ custs) →
      ∀ (solve : Mip → Nat → Bool) (nrej0 : Nat),
        ∃ out, tvg_match E nth pen custs cust_workers vehl_workers solve nrej0 = some out) ∧
    ∃ res, rtv_graph E vehl_workers (rv_prune nth (rv_graph E custs cust_workers
        (init_is_matched custs reset_workspace))) = some res ∧
      (∀ v t, (v, t) ∈ x_cols res.1 →
        (Dict.find res.1.vehmap v).isSome = true ∧
        (find2 res.1.vt_rte v t).isSome = true ∧
        (find2 res.1.vt_sch v t).isSome = true ∧
        (Dict.find res.1.trip_ t).isSome = true) ∧
      (∀ e ∈ res.1.vted_,
        ∃ vehl ∈ vehl_workers.flatten, vehl.id = e.1 ∧ vehl.queued ≠ vehl.capacity) ∧
      ∃ m, build_mip E pen res.1 res.2 = some m ∧
        (∀ j e, (j, e) ∈ m.colmap → e ∈ x_cols res.1 ∨ e.2 = -1) ∧
        ∀ (sel : Nat → Bool) j e, (j, e) ∈ m.colmap →
          ∃ r, col_commit E res.1 m.colmap sel j = some r := by
  obtain ⟨hR, hvt, hvs, hvr, hne, hOk⟩ := rv_pipeline_ready E nth hnth custs cust_workers
  obtain ⟨hvm, _, _, _⟩ := rv_pipeline_vehmap E nth custs cust_workers
  have hG0 : ∀ e ∈ (rv_prune nth (rv_graph E custs cust_workers
      (init_is_matched custs reset_workspace))).vted_,
      ∀ i ∈ Dict.keys e.2, i ∈ Dict.keys (rv_prune nth (rv_graph E custs cust_workers
      (init_is_matched custs reset_workspace))).trip_ := by
    rw [hvt]; intro e he; simp at he
  obtain ⟨res, hrun⟩ := rtv_graph_total E vehl_workers _ hR hG0 hne
  obtain ⟨hRr, _, _, _, _, k3, k4, _⟩ := rtv_graph_keep E vehl_workers _ res hR hvt hvm hne hrun
  have hG : ∀ e ∈ res.1.vted_, ∀ t ∈ Dict.keys e.2, t ∈ Dict.keys res.1.trip_ :=
    fun e he t ht => (vted_ids_registered_of_run E vehl_workers _ res hR hG0 hrun e he t ht).1
  have hL : ∀ v t, (v, t) ∈ x_cols res.1 → Lookups res.1 v t := by
    intro v t hx
    obtain ⟨tbl, hv, ht⟩ := (mem_x_cols res.1 v t).mp hx
    obtain ⟨kv, hkv, rfl⟩ := List.mem_map.mp ht
    exact k4 (v, tbl) hv kv hkv
  obtain ⟨m, hmip⟩ := build_mip_total E pen res.1 res.2 hG
  have hcm := (build_mip_spec E pen res.1 res.2 m hmip).2.2.2.1
  refine ⟨fun hU hsub solve nrej0 => tvg_match_total E nth pen custs cust_workers vehl_workers
    solve nrej0 hnth hU hsub, res, hrun, hL, k3, m, hmip, ?_, ?_⟩
  · intro j e hj
    rw [hcm] at hj
    rcases colmap_cases res.1 j e hj with hx | ⟨c, _, hy⟩
    · exact Or.inl hx
    · right; rw [hy]
  · intro sel j e hj
    rw [hcm] at hj ⊢
    exact col_commit_total E res.1 sel j e hj hL

/-- C25 at a concrete input: two customers and the two-seat vehicle, with the
oracle of the examples; `vted_` has the four edges of vehicle 7, and `match`
with a solver that selects column 3 commits the trip of the customers 1 and
2. -/
theorem extraction_lookups_succeed_witness :
    (rtv_graph exEnv [[vehl1]] (rv_prune nth_by_sort (rv_graph exEnv [custA, custB]
      [[custA, custB]] (init_is_matched [custA, custB] reset_workspace)))).map
      (fun res => (x_cols res.1, Dict.keys res.1.vehmap, Dict.keys res.1.trip_)) =
      some ([(7, 1), (7, 2), (7, 3), (7, 4)], [7], [1, 2, 3, 4]) ∧
    (tvg_match exEnv nth_by_sort 1000 [custA, custB] [[custA, custB]] [[vehl1]]
      (fun _ j => decide (j = 3)) 0).map (fun out => out.log) =
      some [Event.assign 3 [1, 2] true, Event.end_delay 1, Event.end_delay 2] ∧
    (([[vehl1]].flatten.map (fun v => v.id)).Nodup →
      (∀ c ∈ [[custA, custB]].flatten, c ∈ [custA, custB]) →
      ∀ (solve : Mip → Nat → Bool) (nrej0 : Nat),
        ∃ out, tvg_match exEnv nth_by_sort 1000 [custA, custB] [[custA, custB]] [[vehl1]]
          solve nrej0 = some out) ∧
    ∃ res, rtv_graph exEnv [[vehl1]] (rv_prune nth_by_sort (rv_graph exEnv [custA, custB]
        [[custA, custB]] (init_is_matched [custA, custB] reset_workspace))) = some res ∧
      (∀ v t, (v, t) ∈ x_cols res.1 →
        (Dict.find res.1.vehmap v).isSome = true ∧
        (find2 res.1.vt_rte v t).isSome = true ∧
        (find2 res.1.vt_sch v t).isSome = true ∧
        (Dict.find res.1.trip_ t).isSome = true) ∧
      (∀ e ∈ res.1.vted_,
        ∃ vehl ∈ [[vehl1]].flatten, vehl.id = e.1 ∧ vehl.queued ≠ vehl.capacity) ∧
      ∃ m, build_mip exEnv 1000 res.1 res.2 = some m ∧
        (∀ j e, (j, e) ∈ m.colmap → e ∈ x_cols res.1 ∨ e.2 = -1) ∧
        ∀ (sel : Nat → Bool) j e, (j, e) ∈ m.colmap →
          ∃ r, col_commit exEnv res.1 m.colmap sel j = some r :=
  ⟨by decide!, by decide!, extraction_lookups_succeed exEnv nth_by_sort 1000 [custA, custB]
    [[custA, custB]] [[vehl1]] nth_by_sort_spec⟩

/-! ### Apriori soundness of the recorded trips -/

theorem PairInv_of_eq {vid : VehlId} {s s1 : RtvState} (h1 : s1.lcl_trip = s.lcl_trip)
    (h2 : s1.lcl_vted = s.lcl_vted) (h3 : s1.tripk = s.tripk)
    (h4 : s1.w.rvgrph_rr_ = s.w.rvgrph_rr_) (h : PairInv vid s) : PairInv vid s1 := by
  unfold PairInv RrPair at h ⊢
  rw [h1, h2, h3, h4]
  exact h

theorem PairInv_nil (vid : VehlId) (s : RtvState) (h : s.tripk = []) : PairInv vid s := by
  unfold PairInv
  rw [h]
  refine ⟨?_, ?_, rfl⟩
  · intro ids q hf
    simp [Dict.find] at hf
  · intro ids q hf
    simp [Dict.find] at hf

/-- The block `record_trip` keeps the trips of `lcl_trip`. -/
theorem record_trip_lcl_trip {base : Dict SharedTripId SharedTrip} {s : RtvState}
    (vid : VehlId) (k : Nat) (shtrip : SharedTrip) (cst : DistInt) (sch : List Stop)
    (rte : List Wayp) (hT : TripsInv base s) (q : SharedTripId) (t : SharedTrip)
    (hq : Dict.find s.lcl_trip q = some t) :
    Dict.find (record_trip vid k shtrip cst sch rte s).lcl_trip q = some t := by
  obtain ⟨hR, _, hL, _, _⟩ := hT
  have f1 := add_trip_RegInv hR shtrip
  have f2 := add_trip_id_mem hR shtrip
  have f3 := add_trip_trip_mono hR shtrip
  show Dict.find (Dict.set s.lcl_trip (add_trip s.w shtrip).1 shtrip) q = some t
  rw [Dict.find_set]
  split
  · rename_i heq
    subst heq
    have h1 := f3 _ (hL _ (Dict.mem_of_find_some hq))
    rw [RegInv_functional f1 f2 h1]
  · exact hq

/-- The block `record_trip` adds the id of the trip to the keys of
`lcl_vted[vid]` and keeps the other keys. -/
theorem record_trip_lcl_vted_keys (vid : VehlId) (k : Nat) (shtrip : SharedTrip)
    (cst : DistInt) (sch : List Stop) (rte : List Wayp) (s : RtvState) (q : SharedTripId) :
    q ∈ Dict.keys (Dict.getD (record_trip vid k shtrip cst sch rte s).lcl_vted vid []) ↔
      q = (add_trip s.w shtrip).1 ∨ q ∈ Dict.keys (Dict.getD s.lcl_vted vid []) := by
  have hvted : Dict.getD (set2 s.lcl_vted vid (add_trip s.w shtrip).1 cst) vid [] =
      Dict.set (Dict.getD s.lcl_vted vid []) (add_trip s.w shtrip).1 cst := by
    simp [set2, Dict.getD, Dict.find_set_self]
  show q ∈ Dict.keys (Dict.getD (set2 s.lcl_vted vid (add_trip s.w shtrip).1 cst) vid []) ↔ _
  rw [hvted, Dict.mem_keys_set]

theorem record_trip_rvgrph_rr (vid : VehlId) (k : Nat) (shtrip : SharedTrip)
    (cst : DistInt) (sch : List Stop) (rte : List Wayp) (s : RtvState) :
    (record_trip vid k shtrip cst sch rte s).w.rvgrph_rr_ = s.w.rvgrph_rr_ :=
  add_trip_rvgrph_rr s.w shtrip

/-- The block `record_trip` keeps the invariant of `tripk[1]` and `tripk[2]`,
provided a trip recorded under 1 has one customer and a trip recorded under 2 is
a pair from a request-request edge or is made of customers whose size-1 trips
are recorded for the vehicle. -/
theorem record_trip_PairInv {base : Dict SharedTripId SharedTrip} {vid : VehlId}
    {s : RtvState} (k : Nat) (shtrip : SharedTrip) (cst : DistInt) (sch : List Stop)
    (rte : List Wayp) (hT : TripsInv base s) (hP : PairInv vid s) (h0 : k ≠ 0)
    (h1 : k = 1 → ∃ c, shtrip = [c])
    (h2 : k = 2 → RrPair s.w shtrip ∨ ∀ c ∈ shtrip, ∃ q, Dict.find s.lcl_trip q = some [c] ∧
      q ∈ Dict.keys (Dict.getD s.lcl_vted vid [])) :
    PairInv vid (record_trip vid k shtrip cst sch rte s) := by
  obtain ⟨hP1, hP2, hP3⟩ := hP
  have hmono := record_trip_lcl_trip vid k shtrip cst sch rte hT
  have hkeys := record_trip_lcl_vted_keys vid k shtrip cst sch rte s
  have hnew : Dict.find (record_trip vid k shtrip cst sch rte s).lcl_trip
      (add_trip s.w shtrip).1 = some shtrip := Dict.find_set_self _ _ _
  have hstep : ∀ t, (RrPair s.w t ∨ ∀ c ∈ t, ∃ q, Dict.find s.lcl_trip q = some [c] ∧
        q ∈ Dict.keys (Dict.getD s.lcl_vted vid [])) →
      (RrPair (record_trip vid k shtrip cst sch rte s).w t ∨
        ∀ c ∈ t, ∃ q, Dict.find (record_trip vid k shtrip cst sch rte s).lcl_trip q = some [c] ∧
          q ∈ Dict.keys (Dict.getD (record_trip vid k shtrip cst sch rte s).lcl_vted vid [])) := by
    intro t ht
    rcases ht with hr | hs
    · left
      unfold RrPair at hr ⊢
      rw [record_trip_rvgrph_rr]
      exact hr
    · right
      intro c hc
      obtain ⟨q, hq1, hq2⟩ := hs c hc
      exact ⟨q, hmono q _ hq1, (hkeys q).mpr (Or.inr hq2)⟩
  refine ⟨?_, ?_, ?_⟩
  · intro ids q hf hq
    have hf2 : Dict.find (push_back_at s.tripk k (add_trip s.w shtrip).1) 1 = some ids := hf
    rcases mem_push_back_at hf2 hq with ⟨hk, rfl⟩ | ⟨ids0, g1, g2⟩
    · obtain ⟨c, hc⟩ := h1 hk.symm
      exact ⟨c, by rw [hnew, hc]⟩
    · obtain ⟨c, hc⟩ := hP1 ids0 q g1 g2
      exact ⟨c, hmono q _ hc⟩
  · intro ids stid hf hq
    have hf2 : Dict.find (push_back_at s.tripk k (add_trip s.w shtrip).1) 2 = some ids := hf
    rcases mem_push_back_at hf2 hq with ⟨hk, rfl⟩ | ⟨ids0, g1, g2⟩
    · exact ⟨shtrip, hnew, hstep shtrip (h2 hk.symm)⟩
    · obtain ⟨t, ht1, ht2⟩ := hP2 ids0 stid g1 g2
      exact ⟨t, hmono stid t ht1, hstep t ht2⟩
  · show Dict.find (push_back_at s.tripk k (add_trip s.w shtrip).1) 0 = none
    rw [find_push_back_at]
    simp only [h0, if_false]
    exact hP3

/-- The three invariants of a worker on the trips of the vehicle `vid`. -/
theorem size1_step_PairInv {base : Dict SharedTripId SharedTrip} (vehl : Vehicle)
    (s : RtvState) (cust : Customer)
    (h : (TripsInv base s ∧ VehlInv vehl.id s) ∧ PairInv vehl.id s) :
    (TripsInv base (size1_step vehl s cust) ∧ VehlInv vehl.id (size1_step vehl s cust)) ∧
    PairInv vehl.id (size1_step vehl s cust) := by
  refine ⟨size1_step_inv vehl s cust h.1, ?_⟩
  unfold size1_step
  apply @record_trip_PairInv base
  · exact TripsInv_of_eq rfl rfl rfl rfl rfl h.1.1
  · exact PairInv_of_eq rfl rfl rfl rfl h.2
  · omega
  · intro _; exact ⟨cust, rfl⟩
  · intro h2; omega

/-- The invariant of the inner loop of the size-2 join: the three invariants,
`tripk[1]` is `ids`, and every customer of the local `shtrip` has its size-1
trip recorded for the vehicle. -/
theorem join_inner_PairInv {base : Dict SharedTripId SharedTrip} (E : Env) (vehl : Vehicle)
    (ids : List SharedTripId) (id_a : SharedTripId) (acc acc1 : SharedTrip × RtvState)
    (id_b : SharedTripId) (hb : id_b ∈ ids)
    (h : ((TripsInv base acc.2 ∧ VehlInv vehl.id acc.2) ∧ PairInv vehl.id acc.2) ∧
      Dict.find acc.2.tripk 1 = some ids ∧
      ∀ c ∈ acc.1, ∃ q, Dict.find acc.2.lcl_trip q = some [c] ∧
        q ∈ Dict.keys (Dict.getD acc.2.lcl_vted vehl.id []))
    (hf : join_inner E vehl id_a acc id_b = some acc1) :
    ((TripsInv base acc1.2 ∧ VehlInv vehl.id acc1.2) ∧ PairInv vehl.id acc1.2) ∧
      Dict.find acc1.2.tripk 1 = some ids ∧
      ∀ c ∈ acc1.1, ∃ q, Dict.find acc1.2.lcl_trip q = some [c] ∧
        q ∈ Dict.keys (Dict.getD acc1.2.lcl_vted vehl.id []) := by
  obtain ⟨⟨hTV, hP⟩, hk, hc⟩ := h
  have hTV1 := join_inner_inv E vehl id_a acc acc1 id_b hTV hf
  unfold join_inner at hf
  split at hf
  · simp only [Option.some.injEq] at hf
    subst hf
    exact ⟨⟨hTV, hP⟩, hk, hc⟩
  · split at hf
    · simp at hf
    · rename_i trip_b htb
      obtain ⟨cb, hcb⟩ := hP.1 ids id_b hk hb
      rw [htb] at hcb
      simp only [Option.some.injEq] at hcb
      subst hcb
      have hbk : id_b ∈ Dict.keys (Dict.getD acc.2.lcl_vted vehl.id []) :=
        (hTV.2.1 1 ids id_b hk hb).2
      have hall : ∀ c ∈ acc.1 ++ [cb], ∃ q, Dict.find acc.2.lcl_trip q = some [c] ∧
          q ∈ Dict.keys (Dict.getD acc.2.lcl_vted vehl.id []) := by
        intro c hcm
        rcases List.mem_append.mp hcm with h1 | h1
        · exact hc c h1
        · rw [List.mem_singleton.mp h1]
          exact ⟨id_b, htb, hbk⟩
      simp only at hf
      split at hf
      · simp at hf
      · split at hf
        · simp only [Option.some.injEq] at hf
          subst hf
          exact ⟨⟨hTV, hP⟩, hk, hall⟩
        · split at hf
          · simp only [Option.some.injEq] at hf
            subst hf
            refine ⟨⟨hTV1, ?_⟩, ?_, ?_⟩
            · exact record_trip_PairInv 2 _ _ _ _ hTV.1 hP (by omega) (fun h2 => by omega)
                (fun _ => Or.inr hall)
            · show Dict.find (push_back_at acc.2.tripk 2 _) 1 = some ids
              rw [find_push_back_at]
              simp only [show ¬ (2 = 1) by omega, if_false]
              exact hk
            · intro c hcm
              obtain ⟨q, hq1, hq2⟩ := hall c hcm
              exact ⟨q, record_trip_lcl_trip vehl.id 2 _ _ _ _ hTV.1 q _ hq1,
                (record_trip_lcl_vted_keys vehl.id 2 _ _ _ _ acc.2 q).mpr (Or.inr hq2)⟩
          · simp only [Option.some.injEq] at hf
            subst hf
            exact ⟨⟨hTV, hP⟩, hk, hall⟩

theorem join_outer_PairInv {base : Dict SharedTripId SharedTrip} (E : Env) (vehl : Vehicle)
    (ids : List SharedTripId) (s s1 : RtvState) (id_a : SharedTripId) (ha : id_a ∈ ids)
    (h : ((TripsInv base s ∧ VehlInv vehl.id s) ∧ PairInv vehl.id s) ∧
      Dict.find s.tripk 1 = some ids)
    (hf : join_outer E vehl s id_a = some s1) :
    ((TripsInv base s1 ∧ VehlInv vehl.id s1) ∧ PairInv vehl.id s1) ∧
      Dict.find s1.tripk 1 = some ids := by
  obtain ⟨⟨hTV, hP⟩, hk⟩ := h
  unfold join_outer at hf
  split at hf
  · simp at hf
  · rename_i trip_a hta
    rw [hk] at hf
    simp only at hf
    cases hfo : foldOpt (join_inner E vehl id_a) (trip_a, s) ids with
    | none => simp [hfo] at hf
    | some r =>
      rw [hfo] at hf
      simp only [Option.some.injEq] at hf
      subst hf
      obtain ⟨ca, hca⟩ := hP.1 ids id_a hk ha
      rw [hta] at hca
      simp only [Option.some.injEq] at hca
      subst hca
      have hak : id_a ∈ Dict.keys (Dict.getD s.lcl_vted vehl.id []) :=
        (hTV.2.1 1 ids id_a hk ha).2
      have := foldOpt_inv_mem
        (fun acc : SharedTrip × RtvState =>
          ((TripsInv base acc.2 ∧ VehlInv vehl.id acc.2) ∧ PairInv vehl.id acc.2) ∧
          Dict.find acc.2.tripk 1 = some ids ∧
          ∀ c ∈ acc.1, ∃ q, Dict.find acc.2.lcl_trip q = some [c] ∧
            q ∈ Dict.keys (Dict.getD acc.2.lcl_vted vehl.id []))
        (join_inner E vehl id_a) ids
        (fun a x a1 hx hPa hfa => join_inner_PairInv E vehl ids id_a a a1 x hx hPa hfa)
        ([ca], s) r
        ⟨⟨hTV, hP⟩, hk, by
          intro c hc
          rw [List.mem_singleton.mp hc]
          exact ⟨id_a, hta, hak⟩⟩ hfo
      exact ⟨this.1, this.2.1⟩

theorem rr_inner_PairInv {base : Dict SharedTripId SharedTrip} (E : Env) (vehl : Vehicle)
    (kv : Customer × List Customer) (s : RtvState) (cust_b : Customer) (hb : cust_b ∈ kv.2)
    (h : ((TripsInv base s ∧ VehlInv vehl.id s) ∧ PairInv vehl.id s) ∧ kv ∈ s.w.rvgrph_rr_) :
    ((TripsInv base (rr_inner E vehl kv.1 s cust_b) ∧
        VehlInv vehl.id (rr_inner E vehl kv.1 s cust_b)) ∧
      PairInv vehl.id (rr_inner E vehl kv.1 s cust_b)) ∧
    kv ∈ (rr_inner E vehl kv.1 s cust_b).w.rvgrph_rr_ := by
  obtain ⟨⟨hTV, hP⟩, hkv⟩ := h
  have hTV1 := rr_inner_inv E vehl kv.1 s cust_b hTV
  unfold rr_inner at hTV1 ⊢
  simp only at hTV1 ⊢
  split
  · rename_i hok
    rw [if_pos hok] at hTV1
    refine ⟨⟨hTV1, ?_⟩, ?_⟩
    · exact record_trip_PairInv 2 _ _ _ _ hTV.1 hP (by omega) (fun h2 => by omega)
        (fun _ => Or.inl ⟨kv.1, cust_b, kv.2, rfl, hkv, hb⟩)
    · rw [record_trip_rvgrph_rr]
      exact hkv
  · exact ⟨⟨hTV, hP⟩, hkv⟩

theorem rr_outer_PairInv {base : Dict SharedTripId SharedTrip} (E : Env) (vehl : Vehicle)
    (G : Dict Customer (List Customer)) (s : RtvState) (kv : Customer × List Customer)
    (hkv : kv ∈ G)
    (h : ((TripsInv base s ∧ VehlInv vehl.id s) ∧ PairInv vehl.id s) ∧ s.w.rvgrph_rr_ = G) :
    ((TripsInv base (rr_outer E vehl s kv) ∧ VehlInv vehl.id (rr_outer E vehl s kv)) ∧
      PairInv vehl.id (rr_outer E vehl s kv)) ∧ (rr_outer E vehl s kv).w.rvgrph_rr_ = G := by
  unfold rr_outer
  split
  · exact h
  · have := foldl_inv_mem
      (fun a : RtvState => (((TripsInv base a ∧ VehlInv vehl.id a) ∧ PairInv vehl.id a) ∧
        kv ∈ a.w.rvgrph_rr_) ∧ a.w.rvgrph_rr_ = G)
      (rr_inner E vehl kv.1) kv.2
      (fun a x hx ha => by
        refine ⟨rr_inner_PairInv E vehl kv a x hx ha.1, ?_⟩
        unfold rr_inner
        simp only
        split
        · rw [record_trip_rvgrph_rr]; exact ha.2
        · exact ha.2)
      s ⟨⟨h.1, by rw [h.2]; exact hkv⟩, h.2⟩
    exact ⟨this.1.1, this.2⟩

theorem sizek_inner_PairInv {base : Dict SharedTripId SharedTrip} (E : Env) (vehl : Vehicle)
    (k : Nat) (hk : 3 ≤ k) (id_a : SharedTripId) (s s1 : RtvState) (id_b : SharedTripId)
    (h : (TripsInv base s ∧ VehlInv vehl.id s) ∧ PairInv vehl.id s)
    (hf : sizek_inner E vehl k id_a s id_b = some s1) :
    (TripsInv base s1 ∧ VehlInv vehl.id s1) ∧ PairInv vehl.id s1 := by
  refine ⟨sizek_inner_inv E vehl k id_a s s1 id_b h.1 hf, ?_⟩
  unfold sizek_inner at hf
  split at hf
  · simp only [Option.some.injEq] at hf
    exact hf ▸ h.2
  · split at hf
    · simp only at hf
      split at hf
      · split at hf
        · simp at hf
        · split at hf
          · simp at hf
          · simp only [Option.some.injEq] at hf
            exact hf ▸ h.2
          · split at hf
            · simp only [Option.some.injEq] at hf
              rw [← hf]
              exact record_trip_PairInv k _ _ _ _ h.1.1 h.2 (by omega) (fun h2 => by omega)
                (fun h2 => by omega)
            · simp only [Option.some.injEq] at hf
              exact hf ▸ h.2
      · simp only [Option.some.injEq] at hf
        exact hf ▸ h.2
    · simp at hf

theorem sizek_outer_PairInv {base : Dict SharedTripId SharedTrip} (E : Env) (vehl : Vehicle)
    (k : Nat) (hk : 3 ≤ k) (s s1 : RtvState) (id_a : SharedTripId)
    (h : (TripsInv base s ∧ VehlInv vehl.id s) ∧ PairInv vehl.id s)
    (hf : sizek_outer E vehl k s id_a = some s1) :
    (TripsInv base s1 ∧ VehlInv vehl.id s1) ∧ PairInv vehl.id s1 := by
  unfold sizek_outer at hf
  split at hf
  · simp at hf
  · split at hf
    · simp at hf
    · rename_i ids _
      exact foldOpt_inv
        (fun s => (TripsInv base s ∧ VehlInv vehl.id s) ∧ PairInv vehl.id s) _ ids
        (fun a x a1 ha hx => sizek_inner_PairInv E vehl k hk id_a a a1 x ha hx) s s1 h hf

theorem sizek_loop_PairInv {base : Dict SharedTripId SharedTrip} (E : Env) (vehl : Vehicle)
    (fuel : Nat) : ∀ (k : Nat) (s s1 : RtvState), 3 ≤ k →
    (TripsInv base s ∧ VehlInv vehl.id s) ∧ PairInv vehl.id s →
    sizek_loop E vehl fuel k s = some s1 →
    (TripsInv base s1 ∧ VehlInv vehl.id s1) ∧ PairInv vehl.id s1 := by
  induction fuel with
  | zero =>
    intro k s s1 _ h hf
    unfold sizek_loop at hf
    split at hf
    · simp at hf
    · simp only [Option.some.injEq] at hf
      exact hf ▸ h
  | succ n ih =>
    intro k s s1 hk h hf
    unfold sizek_loop at hf
    split at hf
    · simp only at hf
      split at hf
      · simp at hf
      · rename_i ids _
        cases hfo : foldOpt (sizek_outer E vehl k) s ids with
        | none => simp [hfo] at hf
        | some s2 =>
          rw [hfo] at hf
          simp only at hf
          exact ih (k + 1) s2 s1 (by omega)
            (foldOpt_inv (fun s => (TripsInv base s ∧ VehlInv vehl.id s) ∧ PairInv vehl.id s)
              _ ids (fun a x a1 ha hx => sizek_outer_PairInv E vehl k hk a a1 x ha hx)
              s s2 h hfo) hf
    · simp only [Option.some.injEq] at hf
      exact hf ▸ h

theorem check_timeout_PairInv {base : Dict SharedTripId SharedTrip} (E : Env) (vid : VehlId)
    (s : RtvState) (h : (TripsInv base s ∧ VehlInv vid s) ∧ PairInv vid s) :
    (TripsInv base (check_timeout E s) ∧ VehlInv vid (check_timeout E s)) ∧
    PairInv vid (check_timeout E s) :=
  ⟨check_timeout_inv E vid s h.1, PairInv_of_eq rfl rfl rfl rfl h.2⟩

/-- One vehicle of the rtv loop establishes the invariants of its `tripk`. -/
theorem rtv_vehicle_PairInv {base : Dict SharedTripId SharedTrip} (E : Env) (vehl : Vehicle)
    (s0 s1 : RtvState) (h : TripsInv base s0) (hf : rtv_vehicle E vehl s0 = some s1) :
    (TripsInv base s1 ∧ VehlInv vehl.id s1) ∧ PairInv vehl.id s1 := by
  unfold rtv_vehicle at hf
  split at hf
  · simp only [Option.some.injEq] at hf
    rw [← hf]
    exact ⟨⟨TripsInv_of_eq rfl rfl rfl rfl rfl h, VehlInv_nil _ _ rfl⟩, PairInv_nil _ _ rfl⟩
  · simp only at hf
    have h1 : (TripsInv base
          { s0 with w := { s0.w with vehmap := Dict.set s0.w.vehmap vehl.id vehl }, tripk := [] } ∧
        VehlInv vehl.id
          { s0 with w := { s0.w with vehmap := Dict.set s0.w.vehmap vehl.id vehl }, tripk := [] }) ∧
        PairInv vehl.id
          { s0 with w := { s0.w with vehmap := Dict.set s0.w.vehmap vehl.id vehl }, tripk := [] } :=
      ⟨⟨TripsInv_of_eq rfl rfl rfl rfl rfl h, VehlInv_nil _ _ rfl⟩, PairInv_nil _ _ rfl⟩
    split at hf
    · simp only [Option.some.injEq] at hf
      exact hf ▸ h1
    · rename_i custs _
      have h3 := check_timeout_PairInv E vehl.id _
        (foldl_inv (fun s => (TripsInv base s ∧ VehlInv vehl.id s) ∧ PairInv vehl.id s)
          (size1_step vehl) custs (fun s x hs => size1_step_PairInv vehl s x hs) _ h1)
      split at hf
      · simp only [Option.some.injEq] at hf
        exact hf ▸ h3
      · split at hf
        · split at hf
          · simp at hf
          · rename_i ids hids
            split at hf
            · simp at hf
            · rename_i s4 hs4
              have h4 := foldOpt_inv_mem
                (fun s => ((TripsInv base s ∧ VehlInv vehl.id s) ∧ PairInv vehl.id s) ∧
                  Dict.find s.tripk 1 = some ids) _ ids
                (fun a x a1 hx ha hfa => join_outer_PairInv E vehl ids a a1 x hx ha hfa)
                _ s4 ⟨h3, hids⟩ hs4
              have h5 := check_timeout_PairInv E vehl.id _ h4.1
              split at hf
              · simp only [Option.some.injEq] at hf
                exact hf ▸ h5
              · have h6 := foldl_inv_mem
                  (fun s => ((TripsInv base s ∧ VehlInv vehl.id s) ∧ PairInv vehl.id s) ∧
                    s.w.rvgrph_rr_ = (check_timeout E s4).w.rvgrph_rr_)
                  (rr_outer E vehl) (check_timeout E s4).w.rvgrph_rr_
                  (fun s x hx hs => rr_outer_PairInv E vehl _ s x hx hs) _ ⟨h5, rfl⟩
                have h7 := check_timeout_PairInv E vehl.id _ h6.1
                split at hf
                · simp only [Option.some.injEq] at hf
                  exact hf ▸ h7
                · split at hf
                  · simp at hf
                  · rename_i s8 hs8
                    simp only [Option.some.injEq] at hf
                    rw [← hf]
                    exact check_timeout_PairInv E vehl.id _
                      (sizek_loop_PairInv E vehl _ 3 _ s8 (by omega) h7 hs8)
        · simp only [Option.some.injEq] at hf
          exact hf ▸ check_timeout_PairInv E vehl.id _ h3

/-- A write of the vehicle `vehl` leaves the table of every other vehicle id in
`lcl_vted` as it was. -/
theorem step_lcl_vted_frame {E : Env} {vehl : Vehicle} (s s1 : RtvState)
    (hs : RtvStep E vehl s s1) (v : VehlId) (hv : v ≠ vehl.id) :
    Dict.find s1.lcl_vted v = Dict.find s.lcl_vted v := by
  cases hs with
  | size1 custs cust _ _ =>
    show Dict.find (set2 s.lcl_vted vehl.id _ _) v = Dict.find s.lcl_vted v
    unfold set2
    exact Dict.find_set_ne _ _ _ _ (fun h => hv h.symm)
  | record k shtrip _ _ _ =>
    show Dict.find (set2 s.lcl_vted vehl.id _ _) v = Dict.find s.lcl_vted v
    unfold set2
    exact Dict.find_set_ne _ _ _ _ (fun h => hv h.symm)
  | tick => rfl

/-- The loop body of the vehicle `vehl` leaves the table of every other vehicle
id in `lcl_vted` as it was. -/
theorem rtv_vehicle_lcl_frame (E : Env) (vehl : Vehicle) (s0 s1 : RtvState) (hN : NoEmpty s0)
    (hf : rtv_vehicle E vehl s0 = some s1) (v : VehlId) (hv : v ≠ vehl.id) :
    Dict.find s1.lcl_vted v = Dict.find s0.lcl_vted v ∧ NoEmpty s1 := by
  by_cases hq : vehl.queued = vehl.capacity
  · unfold rtv_vehicle at hf
    simp only [hq, if_true, Option.some.injEq] at hf
    subst hf
    exact ⟨rfl, NoEmpty_of_eq rfl rfl hN⟩
  · obtain ⟨h1, h2⟩ := rtv_vehicle_reach E vehl s0 s1 hN hq hf
    have hN1 : NoEmpty (rtv_start vehl s0) := NoEmpty_of_eq rfl rfl hN
    cases hc : Dict.find s0.w.rvgrph_rv_ vehl with
    | none =>
      rw [h1 hc]
      exact ⟨rfl, hN1⟩
    | some custs =>
      have hr1 := size1_fold_reach E vehl custs custs (fun c hc => hc) (rtv_start vehl s0) hc
      have hr := reach_trans hr1 (h2 custs hc)
      refine ⟨?_, reach_NoEmpty hr hN1⟩
      exact reach_inv (fun a => Dict.find a.lcl_vted v = Dict.find s0.lcl_vted v)
        (fun a b ha hab => (step_lcl_vted_frame a b hab v hv).trans ha) hr rfl

/-- The vehicles of a worker whose ids differ from `v` leave the table of `v`
in `lcl_vted` as it was. -/
theorem rtv_worker_lcl_frame (E : Env) (vehls : List Vehicle) (v : VehlId)
    (hv : ∀ x ∈ vehls, v ≠ x.id) (s s1 : RtvState) (hN : NoEmpty s)
    (hf : foldOpt (rtv_worker_step E) s vehls = some s1) :
    Dict.find s1.lcl_vted v = Dict.find s.lcl_vted v := by
  have := foldOpt_inv_mem
    (fun a => Dict.find a.lcl_vted v = Dict.find s.lcl_vted v ∧ NoEmpty a)
    (rtv_worker_step E) vehls
    (fun a x a1 hx ha hfa => by
      unfold rtv_worker_step at hfa
      split at hfa
      · simp only [Option.some.injEq] at hfa
        subst hfa
        exact ha
      · obtain ⟨g1, g2⟩ := rtv_vehicle_lcl_frame E x a a1 ha.2 hfa v (hv x hx)
        exact ⟨g1.trans ha.1, g2⟩)
    s s1 ⟨rfl, hN⟩ hf
  exact this.1

/-- The block `record_trip` keeps every trip id of `lcl_vted[vid]` among the
ids of `tripk`. -/
theorem record_trip_Cov (vid : VehlId) (k : Nat) (shtrip : SharedTrip) (cst : DistInt)
    (sch : List Stop) (rte : List Wayp) (s : RtvState) (h : Cov vid s) :
    Cov vid (record_trip vid k shtrip cst sch rte s) := by
  intro q hq
  rcases (record_trip_lcl_vted_keys vid k shtrip cst sch rte s q).mp hq with rfl | hold
  · refine ⟨k, Dict.getD s.tripk k [] ++ [(add_trip s.w shtrip).1], ?_, by simp⟩
    show Dict.find (push_back_at s.tripk k (add_trip s.w shtrip).1) k = _
    rw [find_push_back_at]
    simp
  · obtain ⟨k1, ids, h1, h2⟩ := h q hold
    obtain ⟨ids2, h3, h4⟩ := push_back_at_mono s.tripk k k1 (add_trip s.w shtrip).1 h1
    exact ⟨k1, ids2, h3, h4 q h2⟩

theorem step_Cov {E : Env} {vehl : Vehicle} (s s1 : RtvState) (h : Cov vehl.id s)
    (hs : RtvStep E vehl s s1) : Cov vehl.id s1 := by
  cases hs with
  | size1 custs cust _ _ =>
    unfold size1_step
    apply record_trip_Cov
    exact h
  | record k shtrip _ _ _ => exact record_trip_Cov vehl.id k shtrip _ _ _ s h
  | tick => exact h

/-- After the loop body of a vehicle whose table in `lcl_vted` was empty, every
trip id of the table is an id of `tripk`. -/
theorem rtv_vehicle_Cov (E : Env) (vehl : Vehicle) (s0 s1 : RtvState) (hN : NoEmpty s0)
    (h0 : Dict.getD s0.lcl_vted vehl.id [] = [])
    (hf : rtv_vehicle E vehl s0 = some s1) : Cov vehl.id s1 := by
  have hstart : Cov vehl.id (rtv_start vehl s0) := by
    intro q hq
    have : Dict.getD (rtv_start vehl s0).lcl_vted vehl.id [] = [] := h0
    rw [this] at hq
    simp [Dict.keys] at hq
  by_cases hq : vehl.queued = vehl.capacity
  · unfold rtv_vehicle at hf
    simp only [hq, if_true, Option.some.injEq] at hf
    subst hf
    intro q hq2
    have : Dict.getD s0.lcl_vted vehl.id [] = [] := h0
    have hq3 : q ∈ Dict.keys (Dict.getD s0.lcl_vted vehl.id []) := hq2
    rw [this] at hq3
    simp [Dict.keys] at hq3
  · obtain ⟨h1, h2⟩ := rtv_vehicle_reach E vehl s0 s1 hN hq hf
    cases hc : Dict.find s0.w.rvgrph_rv_ vehl with
    | none =>
      rw [h1 hc]
      exact hstart
    | some custs =>
      have hr1 := size1_fold_reach E vehl custs custs (fun c hc => hc) (rtv_start vehl s0) hc
      have hr := reach_trans hr1 (h2 custs hc)
      exact reach_inv (Cov vehl.id) (fun a b ha hab => step_Cov a b ha hab) hr hstart

theorem foldOpt_append {σ α : Type} (f : σ → α → Option σ) (xs ys : List α) :
    ∀ s s2, foldOpt f s (xs ++ ys) = some s2 →
      ∃ s1, foldOpt f s xs = some s1 ∧ foldOpt f s1 ys = some s2 := by
  induction xs with
  | nil => intro s s2 h; exact ⟨s, rfl, h⟩
  | cons x r ih =>
    intro s s2 h
    simp only [List.cons_append, foldOpt] at h ⊢
    cases hx : f s x with
    | none => rw [hx] at h; simp at h
    | some s3 =>
      rw [hx] at h
      exact ih s3 s2 h

theorem foldOpt_append_some {σ α : Type} (f : σ → α → Option σ) (xs ys : List α) :
    ∀ s s1 s2, foldOpt f s xs = some s1 → foldOpt f s1 ys = some s2 →
      foldOpt f s (xs ++ ys) = some s2 := by
  induction xs with
  | nil =>
    intro s s1 s2 h1 h2
    simp only [foldOpt, Option.some.injEq] at h1
    subst h1
    exact h2
  | cons x r ih =>
    intro s s1 s2 h1 h2
    simp only [List.cons_append, foldOpt] at h1 ⊢
    cases hx : f s x with
    | none => rw [hx] at h1; simp at h1
    | some s3 =>
      rw [hx] at h1
      exact ih s3 s1 s2 h1 h2

/-- The enumeration of the shares `a ++ b` is the one of `a` followed by the
one of `b`. -/
theorem rtv_enumerate_append (E : Env) (a b : List (List Vehicle)) :
    ∀ (acc : TVG × Nat) (r : TVG × Nat × List (Dict VehlId (Dict SharedTripId DistInt))),
    rtv_enumerate E (a ++ b) acc = some r →
    ∃ r1 r2, rtv_enumerate E a acc = some r1 ∧
      rtv_enumerate E b (r1.1, r1.2.1) = some r2 ∧
      r.1 = r2.1 ∧ r.2.2 = r1.2.2 ++ r2.2.2 := by
  induction a with
  | nil =>
    intro acc r h
    exact ⟨(acc.1, acc.2, []), r, rfl, h, rfl, rfl⟩
  | cons vehls rest ih =>
    intro acc r h
    rw [List.cons_append] at h
    simp only [rtv_enumerate] at h ⊢
    cases hw : rtv_worker E vehls acc.1 acc.2 with
    | none => rw [hw] at h; simp at h
    | some s =>
      rw [hw] at h
      simp only at h ⊢
      cases hr : rtv_enumerate E (rest ++ b) (s.w, s.clock) with
      | none => rw [hr] at h; simp at h
      | some r0 =>
        rw [hr] at h
        simp only [Option.some.injEq] at h
        subst h
        obtain ⟨r1, r2, g1, g2, g3, g4⟩ := ih (s.w, s.clock) r0 hr
        rw [g1]
        refine ⟨(r1.1, r1.2.1, s.lcl_vted :: r1.2.2), r2, rfl, g2, g3, ?_⟩
        simp only [g4, List.cons_append]

/-- The merge of one `lcl_vted` whose vehicle keys are distinct and new adds
whole tables only. -/
theorem merge_outer_whole (cap : Int) (l : List (VehlId × Dict SharedTripId DistInt)) :
    ∀ (acc : Dict VehlId (Dict SharedTripId DistInt) × Int),
    (Dict.keys l).Nodup → (∀ k ∈ Dict.keys l, k ∉ Dict.keys acc.1) →
    ∀ e ∈ (merge_outer cap acc l).1, e ∈ acc.1 ∨ e ∈ l := by
  induction l with
  | nil => intro acc _ _ e he; exact Or.inl he
  | cons kv rest ih =>
    intro acc h2 h3 e he
    have hnk : kv.1 ∉ Dict.keys acc.1 := h3 kv.1 (by simp [Dict.keys])
    have hhas : Dict.has acc.1 kv.1 = false := by
      unfold Dict.has
      rw [Dict.find_none_of_not_mem hnk]
      rfl
    have hset : Dict.set acc.1 kv.1 kv.2 = acc.1 ++ [kv] := Dict.set_of_not_mem _ _ _ hnk
    have h2c : kv.1 ∉ Dict.keys rest ∧ (Dict.keys rest).Nodup := by
      simpa [Dict.keys] using h2
    simp only [merge_outer, hhas, if_true, hset] at he
    have hin : ∀ x ∈ acc.1 ++ [kv], x ∈ acc.1 ∨ x ∈ kv :: rest := by
      intro x hx
      rcases List.mem_append.mp hx with h | h
      · exact Or.inl h
      · exact Or.inr (by rw [List.mem_singleton.mp h]; exact List.mem_cons_self _ _)
    split at he
    · exact hin e he
    · have := ih (acc.1 ++ [kv], acc.2 + (kv.2.length : Int)) h2c.2 (by
        intro k hk hk2
        have hk3 : k ∈ Dict.keys (acc.1 ++ [kv]) := hk2
        simp only [Dict.keys, List.map_append, List.map_cons, List.map_nil, List.mem_append,
          List.mem_singleton] at hk3
        rcases hk3 with h | h
        · exact h3 k (by
            have : k ∈ Dict.keys rest := hk
            simp only [Dict.keys, List.map_cons, List.mem_cons]
            exact Or.inr this) h
        · rw [h] at hk
          exact h2c.1 hk) e he
      rcases this with h | h
      · exact hin e h
      · exact Or.inr (List.mem_cons_of_mem _ h)

/-- The merges of all workers add whole tables only, when the vehicle keys of
the collected tables are distinct and new. -/
theorem merge_all_whole (ls : List (Dict VehlId (Dict SharedTripId DistInt))) :
    ∀ (acc : Dict VehlId (Dict SharedTripId DistInt) × Int),
    (Dict.keys acc.1).Nodup → (Dict.keys ls.flatten).Nodup →
    (∀ k ∈ Dict.keys ls.flatten, k ∉ Dict.keys acc.1) → acc.2 = vted_size acc.1 →
    ∀ e ∈ (ls.foldl merge_lcl_vted acc).1, e ∈ acc.1 ∨ e ∈ ls.flatten := by
  induction ls with
  | nil => intro acc _ _ _ _ e he; exact Or.inl he
  | cons l rest ih =>
    intro acc h1 h2 h3 h4 e he
    have hkeys : Dict.keys (l :: rest).flatten = Dict.keys l ++ Dict.keys rest.flatten := by
      simp [Dict.keys]
    rw [hkeys] at h2 h3
    obtain ⟨n1, n2, n3⟩ := List.nodup_append.mp h2
    obtain ⟨g1, g2, g3⟩ := merge_outer_count TRIP_MAX l acc h1 n1
      (fun k hk => h3 k (List.mem_append_left _ hk)) h4
    simp only [List.foldl_cons] at he
    have := ih (merge_lcl_vted acc l) g2 n2 (by
      intro k hk hk2
      rcases g3 k hk2 with h | h
      · exact h3 k (List.mem_append_right _ hk) h
      · exact n3 h hk) g1 e he
    rcases this with h | h
    · rcases merge_outer_whole TRIP_MAX l acc n1
        (fun k hk => h3 k (List.mem_append_left _ hk)) e h with h5 | h5
      · exact Or.inl h5
      · exact Or.inr (by simp only [List.flatten_cons, List.mem_append]; exact Or.inl h5)
    · exact Or.inr (by simp only [List.flatten_cons, List.mem_append]; exact Or.inr h)

theorem nodup_around {α : Type} (a p q c : List α) (x : α)
    (h : (a ++ ((p ++ x :: q) ++ c)).Nodup) : x ∉ a ∧ x ∉ p ∧ x ∉ q ∧ x ∉ c := by
  obtain ⟨_, h2, h3⟩ := List.nodup_append.mp h
  obtain ⟨g1, _, g3⟩ := List.nodup_append.mp h2
  obtain ⟨_, k2, k3⟩ := List.nodup_append.mp g1
  have hx : x ∈ p ++ x :: q := List.mem_append_right _ (List.mem_cons_self _ _)
  refine ⟨fun ha => h3 ha (List.mem_append_left _ hx), fun hp => k3 hp (List.mem_cons_self _ _),
    (List.nodup_cons.mp k2).1, fun hc => g3 hx hc⟩

/-- C7 (amended): the rtv region on the shares `ws1 ++ [pre ++ vehl :: post] ++
ws2`, a vehicle feed without repeated ids, from a workspace with a consistent
registry and an empty `vted_`. The run returns; `s0` is the state of the worker
when it turns to `vehl` and `s1` the state after the loop body of `vehl`, whose
`tripk` holds the ids that the phases recorded for `vehl`. Unless the worker
had cancelled its loop before, the table `lcl_vted[vehl]` of `s1` is apriori
sound in the sense of `Apriori`: each of its trips was recorded by a phase; a
trip of the size-1 phase has one customer; every trip of the size-k phase,
`k ≥ 3`, has `k` customers and each of its `k` sub-trips with one customer
erased is recorded for `vehl`; and every trip of the size-2 phases is a pair
from a request-request edge or has the size-1 trip of each of its customers
recorded for `vehl`. Whenever `vted_` holds a table for `vehl` after the merge,
it is that same table, so the same holds of `vted_[vehl]`. When the worker had
cancelled its loop before, `vted_` holds no table for `vehl`. -/
theorem apriori_sound (E : Env) (ws1 : List (List Vehicle)) (pre : List Vehicle)
    (vehl : Vehicle) (post : List Vehicle) (ws2 : List (List Vehicle)) (w0 : TVG)
    (hR : RegInv w0) (hvt : w0.vted_ = []) (hne : ∀ e ∈ w0.rvgrph_rv_, e.2 ≠ [])
    (hU : ((ws1 ++ (pre ++ vehl :: post) :: ws2).flatten.map (fun v => v.id)).Nodup) :
    ∃ r1 s0 s1 res,
      rtv_enumerate E ws1 (w0, 0) = some r1 ∧
      rtv_worker E pre r1.1 r1.2.1 = some s0 ∧
      rtv_worker_step E s0 vehl = some s1 ∧
      rtv_graph E (ws1 ++ (pre ++ vehl :: post) :: ws2) w0 = some res ∧
      (s0.cancelled = false →
        Apriori w0 res.1.trip_ s1.tripk (Dict.getD s1.lcl_vted vehl.id [])) ∧
      (∀ tbl, Dict.find res.1.vted_ vehl.id = some tbl →
        tbl = Dict.getD s1.lcl_vted vehl.id [] ∧
        (s0.cancelled = false → Apriori w0 res.1.trip_ s1.tripk tbl)) ∧
      (s0.cancelled = true → Dict.find res.1.vted_ vehl.id = none) := by
  have hG0 : ∀ e ∈ w0.vted_, ∀ i ∈ Dict.keys e.2, i ∈ Dict.keys w0.trip_ := by
    rw [hvt]; intro e he; simp at he
  obtain ⟨res, hrun⟩ := rtv_graph_total E (ws1 ++ (pre ++ vehl :: post) :: ws2) w0 hR hG0 hne
  have hrun2 := hrun
  unfold rtv_graph at hrun2
  cases hr : rtv_enumerate E (ws1 ++ (pre ++ vehl :: post) :: ws2) (w0, 0) with
  | none => rw [hr] at hrun2; simp at hrun2
  | some r =>
  rw [hr] at hrun2
  simp only [Option.some.injEq] at hrun2
  obtain ⟨r1, r2, e1, e2, e3, e4⟩ :=
    rtv_enumerate_append E ws1 ((pre ++ vehl :: post) :: ws2) (w0, 0) r hr
  simp only [rtv_enumerate] at e2
  cases hw : rtv_worker E (pre ++ vehl :: post) r1.1 r1.2.1 with
  | none => rw [hw] at e2; simp at e2
  | some sW =>
  rw [hw] at e2
  simp only at e2
  cases hr3 : rtv_enumerate E ws2 (sW.w, sW.clock) with
  | none => rw [hr3] at e2; simp at e2
  | some r3 =>
  rw [hr3] at e2
  simp only [Option.some.injEq] at e2
  subst e2
  have hw2 := hw
  unfold rtv_worker at hw2
  obtain ⟨s0, f1, f2⟩ := foldOpt_append _ pre (vehl :: post) _ _ hw2
  simp only [foldOpt] at f2
  cases hs1 : rtv_worker_step E s0 vehl with
  | none => rw [hs1] at f2; simp at f2
  | some s1 =>
  rw [hs1] at f2
  simp only at f2
  -- the ids of the feed
  have hU2 : (ws1.flatten.map (fun v => v.id) ++
      ((pre.map (fun v => v.id) ++ vehl.id :: post.map (fun v => v.id)) ++
        ws2.flatten.map (fun v => v.id))).Nodup := by
    simpa using hU
  obtain ⟨u1, u2, u3, u4⟩ := nodup_around _ _ _ _ _ hU2
  have hpost : ∀ x ∈ post, vehl.id ≠ x.id :=
    fun x hx heq => u3 (List.mem_map.mpr ⟨x, hx, heq.symm⟩)
  -- the shares are parts of the feed
  have hWF : ∀ v ∈ pre ++ vehl :: post,
      v ∈ (ws1 ++ (pre ++ vehl :: post) :: ws2).flatten := fun v hv =>
    List.mem_flatten.mpr ⟨_, List.mem_append_right _ (List.mem_cons_self _ _), hv⟩
  have h1F : ∀ vehls ∈ ws1, ∀ v ∈ vehls,
      v ∈ (ws1 ++ (pre ++ vehl :: post) :: ws2).flatten := fun vehls hv v hvv =>
    List.mem_flatten.mpr ⟨vehls, List.mem_append_left _ hv, hvv⟩
  have h2F : ∀ vehls ∈ ws2, ∀ v ∈ vehls,
      v ∈ (ws1 ++ (pre ++ vehl :: post) :: ws2).flatten := fun vehls hv v hvv =>
    List.mem_flatten.mpr ⟨vehls, List.mem_append_right _ (List.mem_cons_of_mem _ hv), hvv⟩
  have hK0 : Keep (ws1 ++ (pre ++ vehl :: post) :: ws2).flatten w0 w0 :=
    ⟨hR, rfl, rfl, rfl, rfl, rfl, fun _ h => Or.inl h, fun _ h => Or.inl h⟩
  -- the workers before
  obtain ⟨kK1, _, _, _, k5, _⟩ := rtv_enumerate_KInv E _ w0 hne ws1 (w0, 0) r1 h1F hK0 e1
  have hR1 : RegInv r1.1 := kK1.1
  have hne1 : ∀ e ∈ r1.1.rvgrph_rv_, e.2 ≠ [] := by rw [kK1.2.2.2.2.1]; exact hne
  have hv1 : r1.1.vted_ = [] := kK1.2.2.2.2.2.1.trans hvt
  have hG1 : ∀ e ∈ r1.1.vted_, ∀ stid ∈ Dict.keys e.2, stid ∈ Dict.keys r1.1.trip_ := by
    rw [hv1]; intro e he; simp at he
  -- the worker up to the vehicle
  have hpre : rtv_worker E pre r1.1 r1.2.1 = some s0 := by
    unfold rtv_worker; exact f1
  have hT0 : TripsInv [] s0 :=
    rtv_worker_inv E pre r1.1 r1.2.1 s0 hR1 (by simp) hG1 hpre
  obtain ⟨kI0, hN0⟩ := rtv_worker_KInv E _ w0 pre
    (fun v hv => hWF v (List.mem_append_left _ hv)) r1.1 r1.2.1 s0 kK1 hne1 hpre
  have hnone : Dict.find s0.lcl_vted vehl.id = none := by
    apply Dict.find_none_of_not_mem
    intro hk
    obtain ⟨e, he, heq⟩ := List.mem_map.mp hk
    have := (kI0.2.2.1 e he).1
    rw [heq] at this
    exact u2 this
  have hempty : Dict.getD s0.lcl_vted vehl.id [] = [] := by
    unfold Dict.getD
    rw [hnone]
    rfl
  have hpv : rtv_worker E (pre ++ [vehl]) r1.1 r1.2.1 = some s1 := by
    unfold rtv_worker
    exact foldOpt_append_some _ pre [vehl] _ s0 s1 f1 (by simp [foldOpt, hs1])
  obtain ⟨kI1, hN1⟩ := rtv_worker_KInv E _ w0 (pre ++ [vehl])
    (fun v hv => hWF v (by
      rcases List.mem_append.mp hv with h | h
      · exact List.mem_append_left _ h
      · rw [List.mem_singleton.mp h]
        exact List.mem_append_right _ (List.mem_cons_self _ _)))
    r1.1 r1.2.1 s1 kK1 hne1 hpv
  have hT1 : TripsInv [] s1 :=
    rtv_worker_inv E (pre ++ [vehl]) r1.1 r1.2.1 s1 hR1 (by simp) hG1 hpv
  -- the rest of the worker
  obtain ⟨kIW, _⟩ := rtv_worker_KInv E _ w0 (pre ++ vehl :: post) hWF r1.1 r1.2.1 sW kK1 hne1 hw
  have hfr : Dict.find sW.lcl_vted vehl.id = Dict.find s1.lcl_vted vehl.id :=
    rtv_worker_lcl_frame E post vehl.id hpost s1 sW hN1 f2
  have hTb : TripsInv s1.w.trip_ s1 :=
    ⟨hT1.1, fun e he => he, hT1.2.2.1, hT1.2.2.2.1, hT1.2.2.2.2⟩
  have hTW : TripsInv s1.w.trip_ sW :=
    foldOpt_inv (TripsInv s1.w.trip_) _ post
      (fun a x a1 ha hx => rtv_worker_step_inv E a a1 x ha hx) s1 sW hTb f2
  -- the workers after
  obtain ⟨rR3, rB3, _, _⟩ :=
    rtv_enumerate_inv E ws2 (sW.w, sW.clock) r3 hTW.1 hTW.2.2.2.2 hr3
  obtain ⟨_, _, _, _, k5b, _⟩ :=
    rtv_enumerate_KInv E _ w0 hne ws2 (sW.w, sW.clock) r3 h2F kIW.1 hr3
  -- the whole enumeration
  obtain ⟨kKr, _, _, _, _, k6⟩ := rtv_enumerate_KInv E _ w0 hne _ (w0, 0) r
    (fun vehls hv v hvv => List.mem_flatten.mpr ⟨vehls, hv, hvv⟩) hK0 hr
  have hvr : r.1.vted_ = [] := kKr.2.2.2.2.2.1.trans hvt
  have hres_trip : res.1.trip_ = r3.1.trip_ := by
    rw [← hrun2]
    show r.1.trip_ = r3.1.trip_
    rw [e3]
  have hres_vted : res.1.vted_ = (r.2.2.foldl merge_lcl_vted (r.1.vted_, 0)).1 := by
    rw [← hrun2]
  have hRres : RegInv res.1 := RegInv_of_eq (by rw [← hrun2]; show r.1.stid_ = r3.1.stid_; rw [e3])
    hres_trip rR3
  have hfind : ∀ q t, (q, t) ∈ s1.w.trip_ → Dict.find res.1.trip_ q = some t := by
    intro q t hq
    apply Dict.find_some_of_mem (nodup_keys_of_RegInv hRres)
    rw [hres_trip]
    exact rB3 _ (hTW.2.1 _ hq)
  have hwhole := merge_all_whole r.2.2 (r.1.vted_, 0) (by rw [hvr]; simp [Dict.keys]) (k6 hU)
    (by rw [hvr]; intro k _ hk; simp [Dict.keys] at hk) (by rw [hvr]; rfl)
  have hlocal : ∀ tbl, Dict.find res.1.vted_ vehl.id = some tbl →
      Dict.find s1.lcl_vted vehl.id = some tbl := by
    intro tbl ht
    have hm := Dict.mem_of_find_some ht
    rw [hres_vted] at hm
    rcases hwhole _ hm with h | h
    · rw [hvr] at h; simp at h
    · rw [e4] at h
      simp only [List.flatten_append, List.flatten_cons, List.mem_append] at h
      rcases h with h | h | h
      · exact absurd (k5 vehl.id (List.mem_map.mpr ⟨_, h, rfl⟩)) u1
      · have := Dict.find_some_of_mem kIW.2.2.2.2.1 h
        rw [hfr] at this
        exact this
      · exact absurd (k5b vehl.id (List.mem_map.mpr ⟨_, h, rfl⟩)) u4
  have htransfer : ∀ tbl, Dict.find res.1.vted_ vehl.id = some tbl →
      tbl = Dict.getD s1.lcl_vted vehl.id [] :=
    fun tbl ht => (getD_of_find (hlocal tbl ht)).symm
  have hcancel : s0.cancelled = true → Dict.find res.1.vted_ vehl.id = none := by
    intro hc
    have hs : s1 = s0 := by
      unfold rtv_worker_step at hs1
      simp only [hc, if_true, Option.some.injEq] at hs1
      exact hs1.symm
    cases hf : Dict.find res.1.vted_ vehl.id with
    | none => rfl
    | some tbl =>
      have := hlocal tbl hf
      rw [hs, hnone] at this
      simp at this
  have hA : s0.cancelled = false →
      Apriori w0 res.1.trip_ s1.tripk (Dict.getD s1.lcl_vted vehl.id []) := by
    intro hc
    have hveh : rtv_vehicle E vehl s0 = some s1 := by
      unfold rtv_worker_step at hs1
      simpa [hc] using hs1
    obtain ⟨⟨hTa, hVa⟩, hPa⟩ := rtv_vehicle_PairInv E vehl s0 s1 hT0 hveh
    have hCov := rtv_vehicle_Cov E vehl s0 s1 hN0 hempty hveh
    refine ⟨?_, ?_, ?_, ?_⟩
    · intro q hq
      obtain ⟨k, ids, h1, h2⟩ := hCov q hq
      refine ⟨k, ids, ?_, h1, h2⟩
      rcases Nat.eq_zero_or_pos k with hz | hp
      · rw [hz, hPa.2.2] at h1
        simp at h1
      · exact hp
    · intro ids q hf hs
      obtain ⟨c, hc1⟩ := hPa.1 ids q hf hs
      exact ⟨(hVa.1 1 ids q hf hs).2, c, hfind _ _ (hTa.2.2.1 _ (Dict.mem_of_find_some hc1))⟩
    · intro k ids stid hk hf hs
      obtain ⟨t, _, g2, g3, g4, g5⟩ :=
        sizek_subtrips_of_run E vehl s0 s1 hT0 hveh k ids stid hk hf hs
      refine ⟨g3, t, hfind _ _ g2, g4, fun p hp => ?_⟩
      obtain ⟨q, h1, h2, _⟩ := g5 p hp
      exact ⟨q, h2, hfind _ _ h1⟩
    · intro ids stid hf hs
      obtain ⟨t, ht1, ht2⟩ := hPa.2.1 ids stid hf hs
      refine ⟨(hVa.1 2 ids stid hf hs).2, t,
        hfind _ _ (hTa.2.2.1 _ (Dict.mem_of_find_some ht1)), ?_⟩
      rcases ht2 with hrr | hsn
      · left
        unfold RrPair at hrr ⊢
        rw [← kI1.1.2.2.2.1]
        exact hrr
      · right
        intro c hcm
        obtain ⟨q, hq1, hq2⟩ := hsn c hcm
        exact ⟨q, hq2, hfind _ _ (hTa.2.2.1 _ (Dict.mem_of_find_some hq1))⟩
  exact ⟨r1, s0, s1, res, e1, hpre, hs1, hrun, hA, fun tbl ht =>
    ⟨htransfer tbl ht, fun hc => by rw [htransfer tbl ht]; exact hA hc⟩, hcancel⟩

/-- C7 (amended) at a concrete input: two workers with one vehicle each and an
oracle that accepts every candidate. For the three-seat vehicle 9 the phases
record the trips 4, 5 (size 1), 6, 7 (join), 2, 3 (request-request pairs with
customer 3, which has no size-1 trip for the vehicle) and 8, 9 (size 3); the
sub-trips of trip 8 = `[1, 2, 3]` are the trips 3, 2 and 6 of the table. -/
theorem apriori_sound_witness :
    RegInv wsTwo ∧
    ((rtv_enumerate okEnv [[vehl1]] (wsTwo, 0)).bind (fun r1 =>
      (rtv_worker okEnv [] r1.1 r1.2.1).map (fun s0 => s0.cancelled))) = some false ∧
    ((rtv_enumerate okEnv [[vehl1]] (wsTwo, 0)).bind (fun r1 =>
      (rtv_worker okEnv [] r1.1 r1.2.1).bind (fun s0 =>
        (rtv_worker_step okEnv s0 vehl3).map (fun s1 => s1.tripk)))) =
      some [(1, [4, 5]), (2, [6, 7, 2, 3]), (3, [8, 8, 9, 9])] ∧
    (rtv_graph okEnv [[vehl1], [vehl3]] wsTwo).map (fun r => Dict.find r.1.vted_ vehl3.id) =
      some (some [(4, 0), (5, 0), (6, 10), (7, 10), (2, 10), (3, 10), (8, 30), (9, 30)]) ∧
    (rtv_graph okEnv [[vehl1], [vehl3]] wsTwo).map
      (fun r => [Dict.find r.1.trip_ 8, Dict.find r.1.trip_ 3, Dict.find r.1.trip_ 2,
        Dict.find r.1.trip_ 6]) =
      some [some [custA, custB, custC], some [custB, custC], some [custA, custC],
        some [custA, custB]] ∧
    ∃ r1 s0 s1 res,
      rtv_enumerate okEnv [[vehl1]] (wsTwo, 0) = some r1 ∧
      rtv_worker okEnv [] r1.1 r1.2.1 = some s0 ∧
      rtv_worker_step okEnv s0 vehl3 = some s1 ∧
      rtv_graph okEnv ([[vehl1]] ++ ([] ++ vehl3 :: []) :: []) wsTwo = some res ∧
      (s0.cancelled = false →
        Apriori wsTwo res.1.trip_ s1.tripk (Dict.getD s1.lcl_vted vehl3.id [])) ∧
      (∀ tbl, Dict.find res.1.vted_ vehl3.id = some tbl →
        tbl = Dict.getD s1.lcl_vted vehl3.id [] ∧
        (s0.cancelled = false → Apriori wsTwo res.1.trip_ s1.tripk tbl)) ∧
      (s0.cancelled = true → Dict.find res.1.vted_ vehl3.id = none) :=
  have hR : RegInv wsTwo := RegInv_of_eq rfl rfl reset_RegInv
  ⟨hR, by decide!, by decide!, by decide!, by decide!,
    apriori_sound okEnv [[vehl1]] [] vehl3 [] [] wsTwo hR rfl (by simp [wsTwo]) (by decide)⟩

end Cargo
